import Mathlib

/-!
# Decision-heuristic scoring engine of Boolector (`src/btordcr.c`)

A shallow embedding of the score computation (`btor_compute_scores`,
`btor_compute_scores_dual_prop`) and of the two score comparators (`btor_compare_scores`,
`btor_compare_scores_qsort`), followed by theorems about them.

Conventions of the embedding.

* A node is identified by its id, which is its index in the id table `Btor.nodes`.
* A signed node pointer is a `NodeRef`: the id of the node and the inversion bit.
* The transient field `aux_mark` of the nodes is kept in a map from ids to marks.
* A pointer hash table is an association list in insertion order (the iteration order of the
  hash tables of the solver); a missing bucket and a null data pointer are `none`.
* An `assert` of the source that fails is the fault `BtorFault.assertion`. The loops over the
  explicit stacks are bounded by a fuel that is computed from the state before the loop is
  entered; running out of it is the separate outcome `BtorFault.fuel`.
* The scores are C `int`s. A depth score is at most the number of nodes and the size of a set
  of applies is at most the number of nodes, both below `2^31`, so the arithmetic is modelled
  in `Int` and `Nat`.
-/

namespace Boolector

/-! ## Data model -/

/-- Signed reference to a node: the id of the node and the inversion bit of the pointer. -/
structure NodeRef where
  target : Nat
  negated : Bool
deriving DecidableEq, Repr

/-- Sign stripping: the id of the node a signed reference points to. -/
def BTOR_REAL_ADDR_NODE (r : NodeRef) : Nat := r.target

/-- Negation of a signed reference. -/
def BTOR_INVERT_NODE (r : NodeRef) : NodeRef := ⟨r.target, !r.negated⟩

/-- Kind discriminant of a node, as far as the scoring engine looks at it. -/
inductive BtorNodeKind where
  | AND
  | APPLY
  | BV_VAR
  | UF
  | OTHER
deriving DecidableEq, Repr

/-- A node of the expression graph: kind, ordered signed children (`arity` is their number) and
the `parameterized` flag. -/
structure BtorNode where
  kind : BtorNodeKind
  e : List NodeRef
  parameterized : Bool
deriving DecidableEq, Repr

/-- Number of children of a node. -/
def BtorNode.arity (n : BtorNode) : Nat := n.e.length

/-- Modelled from the spec: the heuristic selector `BTOR_OPT_JUST_HEURISTIC`, whose constants
are declared in a header that is not among the sources. The spec lists the option as
`NONE, MIN_DEPTH, MIN_DEPTH_SKELETON, MIN_APP, MIN_APP_SKELETON`; `NONE` is the value the
source tests with `!h`. -/
inductive JustHeur where
  | NONE
  | BRANCH_MIN_APP
  | BRANCH_MIN_APP_BVSKEL
  | BRANCH_MIN_DEP
  | BRANCH_MIN_DEP_BVSKEL
deriving DecidableEq, Repr

/-- Outcome of a run that does not complete. -/
inductive BtorFault where
  | assertion
  | fuel
deriving DecidableEq, Repr

/-- Modelled from the spec: a score table is a mapping from node identity to a score value. The
hash-table library is not among the sources; a table is the list of its buckets in insertion
order, keyed by node id. -/
abbrev BtorPtrHashTable (V : Type) := List (Nat × V)

/-- Modelled from the spec: lookup of a bucket by node id. -/
def btor_find_in_ptr_hash_table {V : Type} : BtorPtrHashTable V → Nat → Option V
  | [], _ => none
  | (k, v) :: rest, key => if k = key then some v else btor_find_in_ptr_hash_table rest key

/-- Modelled from the spec: insertion of a new bucket (the callers insert absent keys only). -/
def btor_insert_in_ptr_hash_table {V : Type} (t : BtorPtrHashTable V) (key : Nat) (v : V) :
    BtorPtrHashTable V :=
  t ++ [(key, v)]

/-- Assignment to the data field of the bucket that lookup finds for `key`. -/
def set_bucket_data {V : Type} : BtorPtrHashTable V → Nat → V → BtorPtrHashTable V
  | [], _, _ => []
  | (k, v) :: rest, key, d =>
    if k = key then (k, d) :: rest else (k, v) :: set_bucket_data rest key d

/-- The solving context, as far as the scoring engine reads and writes it. -/
structure Btor where
  nodes : List BtorNode
  aux_mark : Nat → Nat
  just_heuristic : JustHeur
  synthesized_constraints : List NodeRef
  assumptions : List NodeRef
  score : Option (BtorPtrHashTable (Option (List Nat)))
  score_depth : Option (BtorPtrHashTable Int)

/-- The node with a given id; an id outside the id table reads as a childless node. -/
def get_node (nodes : List BtorNode) (id : Nat) : BtorNode :=
  nodes.getD id ⟨BtorNodeKind.OTHER, [], false⟩

/-- Assignment to the `aux_mark` of one node. -/
def set_mark (m : Nat → Nat) (id : Nat) (v : Nat) : Nat → Nat :=
  fun i => if i = id then v else m i

/-- The debug check of the source: no node of the id table has its `aux_mark` set. -/
def check_id_table_aux_mark_unset_dbg (nodes : List BtorNode) (m : Nat → Nat) : Bool :=
  (List.range nodes.length).all (fun i => m i == 0)

/-- Popping the whole unmark stack, resetting the mark of every popped node. -/
def reset_marks (m : Nat → Nat) : List Nat → (Nat → Nat)
  | [] => m
  | id :: rest => reset_marks (set_mark m id 0) rest

/-- Bound on the number of iterations of a traversal loop: the stack entries still to pop plus,
for each unmarked node, its possible pushes. -/
def dfs_fuel (nodes : List BtorNode) (m : Nat → Nat) (stack : List NodeRef) : Nat :=
  stack.length +
    ((List.range nodes.length).map
      (fun i => if m i = 0 then (get_node nodes i).arity + 2 else 0)).sum

/-! ## Depth scores (`compute_scores_aux_min_dep`) -/

/-- The loop of `compute_score_node_min_dep` over the children: the running minimum, `-1`
meaning none yet. -/
def min_dep_children (score : BtorPtrHashTable Int) : List NodeRef → Int → Except BtorFault Int
  | [], min_depth => .ok min_depth
  | c :: rest, min_depth =>
    match btor_find_in_ptr_hash_table score (BTOR_REAL_ADDR_NODE c) with
    | none => .error .assertion
    | some v =>
      min_dep_children score rest (if min_depth = -1 ∨ v < min_depth then v else min_depth)

/-- Score of an inner node: one more than the least score of its children. -/
def compute_score_node_min_dep (nodes : List BtorNode) (score : BtorPtrHashTable Int)
    (cur : Nat) : Except BtorFault (BtorPtrHashTable Int) :=
  match min_dep_children score (get_node nodes cur).e (-1) with
  | .error f => .error f
  | .ok min_depth =>
    if min_depth < 0 then .error .assertion
    else if (btor_find_in_ptr_hash_table score cur).isSome then .error .assertion
    else .ok (btor_insert_in_ptr_hash_table score cur (min_depth + 1))

/-- Local state of `compute_scores_aux_min_dep`. -/
structure MinDepState where
  aux_mark : Nat → Nat
  score : BtorPtrHashTable Int
  stack : List NodeRef
  unmark_stack : List Nat

/-- One iteration of the inner loop of `compute_scores_aux_min_dep`: `top` has been popped and
`rest` is the remaining stack. The assert before the insertion of the score `1` repeats the test
at the head of the iteration and is left out. -/
def min_dep_step (nodes : List BtorNode) (h : JustHeur) (s : MinDepState) (top : NodeRef)
    (rest : List NodeRef) : Except BtorFault MinDepState :=
  let cur := BTOR_REAL_ADDR_NODE top
  if s.aux_mark cur = 2 ∨ (btor_find_in_ptr_hash_table s.score cur).isSome then
    .ok { s with stack := rest }
  else if s.aux_mark cur = 0 then
    if (get_node nodes cur).arity = 0
        ∨ (h = JustHeur.BRANCH_MIN_DEP_BVSKEL ∧ (get_node nodes cur).kind = BtorNodeKind.APPLY) then
      .ok { aux_mark := set_mark s.aux_mark cur 1
            score := btor_insert_in_ptr_hash_table s.score cur 1
            stack := ⟨cur, false⟩ :: rest
            unmark_stack := cur :: s.unmark_stack }
    else
      .ok { aux_mark := set_mark s.aux_mark cur 1
            score := s.score
            stack := (get_node nodes cur).e.reverse ++ (⟨cur, false⟩ :: rest)
            unmark_stack := cur :: s.unmark_stack }
  else if s.aux_mark cur ≠ 1 then .error .assertion
  else if (get_node nodes cur).arity = 0 then .error .assertion
  else if h = JustHeur.BRANCH_MIN_DEP ∧ (get_node nodes cur).kind = BtorNodeKind.UF then
    .error .assertion
  else
    match compute_score_node_min_dep nodes s.score cur with
    | .error f => .error f
    | .ok score =>
      .ok { aux_mark := set_mark s.aux_mark cur 2
            score := score
            stack := rest
            unmark_stack := s.unmark_stack }

/-- The inner loop `while (!BTOR_EMPTY_STACK (stack))` of `compute_scores_aux_min_dep`. -/
def min_dep_while (nodes : List BtorNode) (h : JustHeur) : Nat → MinDepState →
    Except BtorFault MinDepState
  | fuel, s =>
    match s.stack with
    | [] => .ok s
    | top :: rest =>
      match fuel with
      | 0 => .error .fuel
      | fuel + 1 =>
        match min_dep_step nodes h s top rest with
        | .error f => .error f
        | .ok s1 => min_dep_while nodes h fuel s1

/-- The outer loop of `compute_scores_aux_min_dep` over the seeds of the iterator. -/
def min_dep_seeds (nodes : List BtorNode) (h : JustHeur) : List NodeRef → MinDepState →
    Except BtorFault MinDepState
  | [], s => .ok s
  | cur :: seeds, s =>
    match min_dep_while nodes h (dfs_fuel nodes s.aux_mark (cur :: s.stack))
        { s with stack := cur :: s.stack } with
    | .error f => .error f
    | .ok s1 => min_dep_seeds nodes h seeds s1

/-- The function `compute_scores_aux_min_dep`: minimum depth to the inputs, over the whole
formula or over the bit-vector skeleton. -/
def compute_scores_aux_min_dep (btor : Btor) (it : List NodeRef) : Except BtorFault Btor :=
  if !check_id_table_aux_mark_unset_dbg btor.nodes btor.aux_mark then .error .assertion
  else if btor.just_heuristic = JustHeur.NONE then .ok btor
  else
    match min_dep_seeds btor.nodes btor.just_heuristic it
        { aux_mark := btor.aux_mark
          score := btor.score_depth.getD []
          stack := []
          unmark_stack := [] } with
    | .error f => .error f
    | .ok s =>
      .ok { btor with
            aux_mark := reset_marks s.aux_mark s.unmark_stack
            score_depth := some s.score }

/-! ## Application scores (`compute_scores_aux_min_app`, the variant that is compiled) -/

/-- Local state of `compute_scores_aux_min_app`: `btor_score` is the table `btor->score` and
`score` is the local working stack of the nodes whose set is to be determined. -/
structure MinAppState where
  aux_mark : Nat → Nat
  btor_score : BtorPtrHashTable (Option (List Nat))
  stack : List NodeRef
  unmark_stack : List Nat
  score : List Nat

/-- The loop over the children of a node `cur` that the first pass has just marked: a child of
a non-parameterized AND node without a bucket gets one (with no set yet) and is pushed onto the
working stack; every child is pushed onto the traversal stack. -/
def min_app_push_children (and_node : Bool) : List NodeRef → MinAppState → MinAppState
  | [], s => s
  | c :: rest, s =>
    let e := BTOR_REAL_ADDR_NODE c
    if and_node ∧ (btor_find_in_ptr_hash_table s.btor_score e).isNone then
      min_app_push_children and_node rest
        { s with
          btor_score := btor_insert_in_ptr_hash_table s.btor_score e none
          score := e :: s.score
          stack := ⟨e, false⟩ :: s.stack }
    else
      min_app_push_children and_node rest { s with stack := ⟨e, false⟩ :: s.stack }

/-- One iteration of the inner loop of the first pass: `top` has been popped and `rest` is the
remaining stack. -/
def min_app_mark_step (nodes : List BtorNode) (s : MinAppState) (top : NodeRef)
    (rest : List NodeRef) : MinAppState :=
  let cur := BTOR_REAL_ADDR_NODE top
  if s.aux_mark cur ≠ 0 then { s with stack := rest }
  else
    min_app_push_children
      (!(get_node nodes cur).parameterized && (get_node nodes cur).kind == BtorNodeKind.AND)
      (get_node nodes cur).e
      { s with
        aux_mark := set_mark s.aux_mark cur 1
        stack := rest
        unmark_stack := cur :: s.unmark_stack }

/-- The inner loop `while (!BTOR_EMPTY_STACK (stack))` of the first pass. -/
def min_app_mark_while (nodes : List BtorNode) : Nat → MinAppState → Except BtorFault MinAppState
  | fuel, s =>
    match s.stack with
    | [] => .ok s
    | top :: rest =>
      match fuel with
      | 0 => .error .fuel
      | fuel + 1 => min_app_mark_while nodes fuel (min_app_mark_step nodes s top rest)

/-- The first pass over the seeds of the iterator. -/
def min_app_mark_seeds (nodes : List BtorNode) : List NodeRef → MinAppState →
    Except BtorFault MinAppState
  | [], s => .ok s
  | cur :: seeds, s =>
    match min_app_mark_while nodes (dfs_fuel nodes s.aux_mark (cur :: s.stack))
        { s with stack := cur :: s.stack } with
    | .error f => .error f
    | .ok s1 => min_app_mark_seeds nodes seeds s1

/-- The choice of the minimal path at a non-parameterized AND node: the set of the first child
with the least count. -/
def min_app_choose (btor_score : BtorPtrHashTable (Option (List Nat))) :
    List NodeRef → Option (List Nat) → Except BtorFault (Option (List Nat))
  | [], min_t => .ok min_t
  | c :: rest, min_t =>
    match btor_find_in_ptr_hash_table btor_score (BTOR_REAL_ADDR_NODE c) with
    | none => .error .assertion
    | some none => .error .assertion
    | some (some t) =>
      match min_t with
      | none => min_app_choose btor_score rest (some t)
      | some m =>
        if t.length < m.length then min_app_choose btor_score rest (some t)
        else min_app_choose btor_score rest (some m)

/-- Copying the chosen set into the set `in_set` of an AND node; no element may be there
already. -/
def min_app_copy : List Nat → List Nat → Except BtorFault (List Nat)
  | in_set, [] => .ok in_set
  | in_set, e :: rest =>
    if e ∈ in_set then .error .assertion else min_app_copy (in_set ++ [e]) rest

/-- Merging the set of a child into `in_set`, skipping what is there already. -/
def min_app_merge : List Nat → List Nat → List Nat
  | in_set, [] => in_set
  | in_set, e :: rest =>
    if e ∈ in_set then min_app_merge in_set rest else min_app_merge (in_set ++ [e]) rest

/-- One iteration of the search for unique applies below a child without a set: `top` has been
popped and `rest` is the remaining stack. -/
def min_app_search_step (nodes : List BtorNode) (s : MinAppState) (in_set : List Nat)
    (top : NodeRef) (rest : List NodeRef) : MinAppState × List Nat :=
  let e := BTOR_REAL_ADDR_NODE top
  if s.aux_mark e ≠ 0 then ({ s with stack := rest }, in_set)
  else
    ({ s with
       aux_mark := set_mark s.aux_mark e 1
       stack := (get_node nodes e).e.reverse ++ rest
       unmark_stack := e :: s.unmark_stack },
     if !(get_node nodes e).parameterized ∧ (get_node nodes e).kind = BtorNodeKind.APPLY
          ∧ e ∉ in_set then in_set ++ [e] else in_set)

/-- The loop of the search for unique applies. -/
def min_app_search_while (nodes : List BtorNode) : Nat → MinAppState → List Nat →
    Except BtorFault (MinAppState × List Nat)
  | fuel, s, in_set =>
    match s.stack with
    | [] => .ok (s, in_set)
    | top :: rest =>
      match fuel with
      | 0 => .error .fuel
      | fuel + 1 =>
        min_app_search_while nodes fuel (min_app_search_step nodes s in_set top rest).1
          (min_app_search_step nodes s in_set top rest).2

/-- The loop over the children of a node `cur` that is not a non-parameterized AND node: the
union of the sets of the children, a child without a set contributing the applies found below
it. The set under construction `in_set` is the one the bucket of `cur` holds. -/
def min_app_union (nodes : List BtorNode) (cur : Nat) : List NodeRef → List Nat → MinAppState →
    Except BtorFault MinAppState
  | [], _, s => .ok s
  | c :: rest, in_set, s =>
    let e := BTOR_REAL_ADDR_NODE c
    match btor_find_in_ptr_hash_table s.btor_score e with
    | some (some t) =>
      min_app_union nodes cur rest (min_app_merge in_set t)
        { s with btor_score := set_bucket_data s.btor_score cur (some (min_app_merge in_set t)) }
    | _ =>
      match min_app_search_while nodes (dfs_fuel nodes s.aux_mark (⟨e, false⟩ :: s.stack))
          { s with stack := ⟨e, false⟩ :: s.stack } in_set with
      | .error f => .error f
      | .ok (s1, in1) =>
        min_app_union nodes cur rest in1
          { s1 with
            aux_mark := reset_marks s1.aux_mark s1.unmark_stack
            unmark_stack := []
            btor_score := set_bucket_data s1.btor_score cur (some in1) }

/-- The body of the second pass for one node `cur` of the working stack. -/
def min_app_node (nodes : List BtorNode) (s : MinAppState) (cur : Nat) :
    Except BtorFault MinAppState :=
  match btor_find_in_ptr_hash_table s.btor_score cur with
  | none => .error .assertion
  | some (some _) => .error .assertion
  | some none =>
    let table := set_bucket_data s.btor_score cur (some [])
    if !(get_node nodes cur).parameterized ∧ (get_node nodes cur).kind = BtorNodeKind.AND then
      match min_app_choose table (get_node nodes cur).e none with
      | .error f => .error f
      | .ok none => .error .assertion
      | .ok (some min_t) =>
        match min_app_copy [] min_t with
        | .error f => .error f
        | .ok in_set => .ok { s with btor_score := set_bucket_data table cur (some in_set) }
    else
      min_app_union nodes cur (get_node nodes cur).e [] { s with btor_score := table }

/-- The second pass: the loop over the working stack. -/
def min_app_nodes (nodes : List BtorNode) : List Nat → MinAppState → Except BtorFault MinAppState
  | [], s => .ok s
  | cur :: rest, s =>
    match min_app_node nodes s cur with
    | .error f => .error f
    | .ok s1 => min_app_nodes nodes rest s1

/-- Modelled from the spec: `qsort` with `btor_cmp_exp_by_id_qsort_asc`, which is not among the
sources, puts the working stack in ascending order of node id. -/
def qsort_by_id_asc (score : List Nat) : List Nat :=
  score.insertionSort (fun a b => a ≤ b)

/-- The function `compute_scores_aux_min_app`: minimum number of unique applies on a path to
the inputs. -/
def compute_scores_aux_min_app (btor : Btor) (it : List NodeRef) : Except BtorFault Btor :=
  if !check_id_table_aux_mark_unset_dbg btor.nodes btor.aux_mark then .error .assertion
  else if btor.just_heuristic = JustHeur.NONE then .ok btor
  else
    match min_app_mark_seeds btor.nodes it
        { aux_mark := btor.aux_mark
          btor_score := btor.score.getD []
          stack := []
          unmark_stack := []
          score := [] } with
    | .error f => .error f
    | .ok s1 =>
      match min_app_nodes btor.nodes (qsort_by_id_asc s1.score.reverse)
          { s1 with
            aux_mark := reset_marks s1.aux_mark s1.unmark_stack
            unmark_stack := [] } with
      | .error f => .error f
      | .ok s2 => .ok { btor with aux_mark := s2.aux_mark, score := some s2.btor_score }

/-! ## Dispatch and comparators -/

/-- The function `compute_scores_aux`: dispatch on the heuristic. -/
def compute_scores_aux (btor : Btor) (it : List NodeRef) : Except BtorFault Btor :=
  match btor.just_heuristic with
  | .NONE => .ok btor
  | .BRANCH_MIN_APP => compute_scores_aux_min_app btor it
  | .BRANCH_MIN_APP_BVSKEL => compute_scores_aux_min_app btor it
  | .BRANCH_MIN_DEP => compute_scores_aux_min_dep btor it
  | .BRANCH_MIN_DEP_BVSKEL => compute_scores_aux_min_dep btor it

/-- The function `btor_compute_scores`: the seeds are the synthesized constraints followed by
the assumptions. -/
def btor_compute_scores (btor : Btor) : Except BtorFault Btor :=
  compute_scores_aux btor (btor.synthesized_constraints ++ btor.assumptions)

/-- Count of the set a bucket of the application table holds; a missing bucket and a bucket
without a set are faults. -/
def app_count (t : BtorPtrHashTable (Option (List Nat))) (n : Nat) : Except BtorFault Int :=
  match btor_find_in_ptr_hash_table t n with
  | some (some set) => .ok set.length
  | _ => .error .assertion

/-- Integer a bucket of the depth table holds; a missing bucket is a fault. -/
def dep_score (t : BtorPtrHashTable Int) (n : Nat) : Except BtorFault Int :=
  match btor_find_in_ptr_hash_table t n with
  | some v => .ok v
  | none => .error .assertion

/-- The function `btor_compare_scores` (`less` of the spec); the C result is `1` or `0`. -/
def btor_compare_scores (btor : Btor) (a b : NodeRef) : Except BtorFault Int :=
  let h := btor.just_heuristic
  let a := BTOR_REAL_ADDR_NODE a
  let b := BTOR_REAL_ADDR_NODE b
  if h = JustHeur.BRANCH_MIN_APP ∨ h = JustHeur.BRANCH_MIN_APP_BVSKEL then
    match btor.score with
    | none => .ok 0
    | some t =>
      match app_count t a with
      | .error f => .error f
      | .ok sa =>
        match app_count t b with
        | .error f => .error f
        | .ok sb => .ok (if sa < sb then 1 else 0)
  else if h = JustHeur.BRANCH_MIN_DEP ∨ h = JustHeur.BRANCH_MIN_DEP_BVSKEL then
    match btor.score_depth with
    | none => .ok 0
    | some t =>
      match dep_score t a with
      | .error f => .error f
      | .ok sa =>
        match dep_score t b with
        | .error f => .error f
        | .ok sb => .ok (if sa < sb then 1 else 0)
  else .ok (if (0 : Int) < 0 then 1 else 0)

/-- The function `btor_compare_scores_qsort` (`order_for_sort` of the spec). It dereferences
its arguments as they are, so they are nodes, not signed references. -/
def btor_compare_scores_qsort (btor : Btor) (a b : Nat) : Except BtorFault Int :=
  let h := btor.just_heuristic
  if h = JustHeur.BRANCH_MIN_APP then
    match btor.score with
    | none => .ok 0
    | some t =>
      match app_count t a with
      | .error f => .error f
      | .ok sa =>
        match app_count t b with
        | .error f => .error f
        | .ok sb => .ok (if sa < sb then 1 else if sa > sb then -1 else 0)
  else if h = JustHeur.BRANCH_MIN_DEP then
    match btor.score_depth with
    | none => .ok 0
    | some t =>
      match dep_score t a with
      | .error f => .error f
      | .ok sa =>
        match dep_score t b with
        | .error f => .error f
        | .ok sb => .ok (if sa < sb then 1 else if sa > sb then -1 else 0)
  else .ok (if (0 : Int) < 0 then 1 else if (0 : Int) > 0 then -1 else 0)

/-! ## Dual propagation (`btor_compute_scores_dual_prop`) -/

/-- Local state of the traversal of `btor_compute_scores_dual_prop`; `applies` is the table of
the collected nodes in insertion order. -/
structure DualPropState where
  aux_mark : Nat → Nat
  stack : List NodeRef
  unmark_stack : List Nat
  applies : List Nat

/-- One iteration of the inner loop that collects the applies of the bit-vector skeleton: `top`
has been popped and `rest` is the remaining stack. -/
def dual_prop_step (nodes : List BtorNode) (s : DualPropState) (top : NodeRef)
    (rest : List NodeRef) : Except BtorFault DualPropState :=
  let cur := BTOR_REAL_ADDR_NODE top
  if s.aux_mark cur ≠ 0 then .ok { s with stack := rest }
  else if (get_node nodes cur).kind = BtorNodeKind.APPLY
      ∨ (get_node nodes cur).kind = BtorNodeKind.BV_VAR then
    if cur ∈ s.applies then .error .assertion
    else
      .ok { aux_mark := set_mark s.aux_mark cur 1
            stack := rest
            unmark_stack := cur :: s.unmark_stack
            applies := s.applies ++ [cur] }
  else
    .ok { aux_mark := set_mark s.aux_mark cur 1
          stack := (get_node nodes cur).e.reverse ++ rest
          unmark_stack := cur :: s.unmark_stack
          applies := s.applies }

/-- The inner loop `while (!BTOR_EMPTY_STACK (stack))` of the collecting traversal. -/
def dual_prop_while (nodes : List BtorNode) : Nat → DualPropState →
    Except BtorFault DualPropState
  | fuel, s =>
    match s.stack with
    | [] => .ok s
    | top :: rest =>
      match fuel with
      | 0 => .error .fuel
      | fuel + 1 =>
        match dual_prop_step nodes s top rest with
        | .error f => .error f
        | .ok s1 => dual_prop_while nodes fuel s1

/-- The collecting traversal over the seeds of the iterator. -/
def dual_prop_seeds (nodes : List BtorNode) : List NodeRef → DualPropState →
    Except BtorFault DualPropState
  | [], s => .ok s
  | cur :: seeds, s =>
    match dual_prop_while nodes (dfs_fuel nodes s.aux_mark (cur :: s.stack))
        { s with stack := cur :: s.stack } with
    | .error f => .error f
    | .ok s1 => dual_prop_seeds nodes seeds s1

/-- The first part of `btor_compute_scores_dual_prop`: the traversal from the synthesized
constraints and the assumptions that collects the alternate seeds in `applies`. -/
def dual_prop_collect (btor : Btor) : Except BtorFault DualPropState :=
  dual_prop_seeds btor.nodes (btor.synthesized_constraints ++ btor.assumptions)
    { aux_mark := btor.aux_mark, stack := [], unmark_stack := [], applies := [] }

/-- The cleanup loop of `btor_compute_scores_dual_prop` over the buckets of `btor->score`: a
bucket whose key is neither a bit-vector variable nor an APPLY node is removed together with
its set; iterating the set of a bucket that has none is a fault. -/
def dual_prop_cleanup (nodes : List BtorNode) :
    BtorPtrHashTable (Option (List Nat)) → Except BtorFault (BtorPtrHashTable (Option (List Nat)))
  | [] => .ok []
  | (cur, t) :: rest =>
    if (get_node nodes cur).kind ≠ BtorNodeKind.BV_VAR
        ∧ (get_node nodes cur).kind ≠ BtorNodeKind.APPLY then
      match t with
      | none => .error .assertion
      | some _ => dual_prop_cleanup nodes rest
    else
      match dual_prop_cleanup nodes rest with
      | .error f => .error f
      | .ok table => .ok ((cur, t) :: table)

/-- The last part of `btor_compute_scores_dual_prop`: under an application heuristic the
cleanup loop runs over `btor->score`. -/
def dual_prop_filter (btor1 : Btor) : Except BtorFault Btor :=
  if btor1.just_heuristic = JustHeur.BRANCH_MIN_APP
      ∨ btor1.just_heuristic = JustHeur.BRANCH_MIN_APP_BVSKEL then
    match btor1.score with
    | none => .error .assertion
    | some table =>
      match dual_prop_cleanup btor1.nodes table with
      | .error f => .error f
      | .ok table1 => .ok { btor1 with score := some table1 }
  else .ok btor1

/-- The function `btor_compute_scores_dual_prop`: the collecting traversal, the reset of the
marks, the dispatch on the collected nodes and the cleanup. -/
def btor_compute_scores_dual_prop (btor : Btor) : Except BtorFault Btor :=
  if !check_id_table_aux_mark_unset_dbg btor.nodes btor.aux_mark then .error .assertion
  else
    match dual_prop_collect btor with
    | .error f => .error f
    | .ok s =>
      match compute_scores_aux
          { btor with aux_mark := reset_marks s.aux_mark s.unmark_stack }
          (s.applies.map (fun n => ⟨n, false⟩)) with
      | .error f => .error f
      | .ok btor1 => dual_prop_filter btor1

/-! ## Graph notions and invariants used by the theorems -/

/-- Sign-stripped children of a node. -/
def children (nodes : List BtorNode) (n : Nat) : List Nat :=
  (get_node nodes n).e.map BTOR_REAL_ADDR_NODE

/-- The sign-stripped child edge. -/
def Child (nodes : List BtorNode) (n c : Nat) : Prop := c ∈ children nodes n

/-- No node is its own descendant. -/
def Acyclic (nodes : List BtorNode) : Prop := ∀ n, ¬ Relation.TransGen (Child nodes) n n

/-- Reachability through sign-stripped child edges, the start included. -/
def Reachable (nodes : List BtorNode) (n m : Nat) : Prop :=
  Relation.ReflTransGen (Child nodes) n m

/-- The id table is closed: every child of a node of the table is a node of the table, and
function symbols have no children. -/
def WellFormedNodes (nodes : List BtorNode) : Prop :=
  (∀ n c, Child nodes n c → c < nodes.length)
    ∧ ∀ n, (get_node nodes n).kind = BtorNodeKind.UF → (get_node nodes n).e = []

/-- The sum part of `dfs_fuel`. -/
def fuel_sum (nodes : List BtorNode) (m : Nat → Nat) : Nat :=
  ((List.range nodes.length).map
    (fun i => if m i = 0 then (get_node nodes i).arity + 2 else 0)).sum

/-- The nodes the depth scorer does not descend into. -/
def dep_leaf (nodes : List BtorNode) (h : JustHeur) (n : Nat) : Prop :=
  (get_node nodes n).arity = 0
    ∨ (h = JustHeur.BRANCH_MIN_DEP_BVSKEL ∧ (get_node nodes n).kind = BtorNodeKind.APPLY)

/-- What the spec says of one entry of the depth table: score `1` for a node of arity `0` and,
under the skeleton variant, for an APPLY node; otherwise every child has an entry and the score
is one more than the least score of a child. -/
def DepEntryOK (nodes : List BtorNode) (h : JustHeur) (score : BtorPtrHashTable Int) (n : Nat)
    (v : Int) : Prop :=
  (dep_leaf nodes h n → v = 1)
    ∧ (¬ dep_leaf nodes h n →
        (∀ c ∈ children nodes n, ∃ vc, btor_find_in_ptr_hash_table score c = some vc)
          ∧ ∃ m, v = 1 + m
            ∧ (∃ c ∈ children nodes n, btor_find_in_ptr_hash_table score c = some m)
            ∧ ∀ c ∈ children nodes n, ∀ vc,
                btor_find_in_ptr_hash_table score c = some vc → m ≤ vc)

/-- Every entry of a depth table is as the spec says. -/
def DepTableOK (nodes : List BtorNode) (h : JustHeur) (score : BtorPtrHashTable Int) : Prop :=
  ∀ n v, btor_find_in_ptr_hash_table score n = some v → DepEntryOK nodes h score n v

/-- A node the depth traversal has entered and not yet scored. -/
def DepPending (s : MinDepState) (n : Nat) : Prop :=
  s.aux_mark n = 1 ∧ btor_find_in_ptr_hash_table s.score n = none

/-- Invariant of the inner loop of `compute_scores_aux_min_dep`. -/
structure MinDepInv (nodes : List BtorNode) (h : JustHeur) (s : MinDepState) : Prop where
  marks : ∀ n, s.aux_mark n ≤ 2
  done : ∀ n, s.aux_mark n = 2 → btor_find_in_ptr_hash_table s.score n ≠ none
  inner : ∀ n, DepPending s n → ¬ dep_leaf nodes h n
  path : ∀ x, DepPending s x → ∃ above below,
    s.stack.map BTOR_REAL_ADDR_NODE = above ++ x :: below
      ∧ (∀ e ∈ above, Relation.TransGen (Child nodes) x e)
      ∧ ∀ c ∈ children nodes x, btor_find_in_ptr_hash_table s.score c ≠ none ∨ c ∈ above
  pos : ∀ n v, btor_find_in_ptr_hash_table s.score n = some v → 1 ≤ v
  bound : ∀ r ∈ s.stack, BTOR_REAL_ADDR_NODE r < nodes.length
  table : DepTableOK nodes h s.score

/-- What one iteration of the depth traversal establishes. -/
def MinDepStepPost (nodes : List BtorNode) (h : JustHeur) (s s1 : MinDepState) : Prop :=
  MinDepInv nodes h s1
    ∧ dfs_fuel nodes s1.aux_mark s1.stack < dfs_fuel nodes s.aux_mark s.stack
    ∧ (∀ n v, btor_find_in_ptr_hash_table s.score n = some v →
        btor_find_in_ptr_hash_table s1.score n = some v)
    ∧ ∀ n, n ∈ s.stack.map BTOR_REAL_ADDR_NODE →
        n ∈ s1.stack.map BTOR_REAL_ADDR_NODE ∨ btor_find_in_ptr_hash_table s1.score n ≠ none

/-- Decidable check that every child of a node of the id table has a smaller id and that no
function symbol has children. -/
def check_nodes (nodes : List BtorNode) : Bool :=
  (List.range nodes.length).all (fun n =>
    (children nodes n).all (fun c => decide (c < n))
      && (!((get_node nodes n).kind == BtorNodeKind.UF) || (get_node nodes n).e.isEmpty))

/-- A non-parameterized AND node. -/
def nonparam_and (nodes : List BtorNode) (n : Nat) : Prop :=
  (get_node nodes n).parameterized = false ∧ (get_node nodes n).kind = BtorNodeKind.AND

/-- How the first pass of the application scorer changes the table and the working stack:
buckets are kept as they are, and every new bucket is empty and on the working stack. -/
def MarkExt (s s1 : MinAppState) : Prop :=
  (∀ k x, btor_find_in_ptr_hash_table s.btor_score k = some x →
      btor_find_in_ptr_hash_table s1.btor_score k = some x)
    ∧ (∀ k, k ∈ s.score → k ∈ s1.score)
    ∧ ∀ k, btor_find_in_ptr_hash_table s1.btor_score k ≠ none →
        btor_find_in_ptr_hash_table s.btor_score k ≠ none
          ∨ (k ∈ s1.score ∧ btor_find_in_ptr_hash_table s1.btor_score k = some none)

/-- Invariant of the first pass of the application scorer. -/
structure MinAppMarkInv (nodes : List BtorNode) (s : MinAppState) : Prop where
  closure : ∀ n, s.aux_mark n ≠ 0 → ∀ c ∈ children nodes n,
    s.aux_mark c ≠ 0 ∨ c ∈ s.stack.map BTOR_REAL_ADDR_NODE
  and_children : ∀ n, s.aux_mark n ≠ 0 → nonparam_and nodes n → ∀ c ∈ children nodes n,
    btor_find_in_ptr_hash_table s.btor_score c ≠ none

/-- The set `set` is the set of one reference of the list `l`, its count is less than the
count of every reference to the left of that one and at most the count of every reference to
the right of it. -/
def ChosenIn (table : BtorPtrHashTable (Option (List Nat))) (l : List NodeRef)
    (set : List Nat) : Prop :=
  ∃ pre c post, l = pre ++ c :: post
    ∧ btor_find_in_ptr_hash_table table (BTOR_REAL_ADDR_NODE c) = some (some set)
    ∧ (∀ a ∈ pre, ∃ t, btor_find_in_ptr_hash_table table (BTOR_REAL_ADDR_NODE a) = some (some t)
        ∧ set.length < t.length)
    ∧ ∀ b ∈ post, ∃ t, btor_find_in_ptr_hash_table table (BTOR_REAL_ADDR_NODE b) = some (some t)
        ∧ set.length ≤ t.length

/-- What the spec says of the set `set` of a non-parameterized AND node `n`: it is the set of
the child with the fewest elements, the leftmost such child when several tie. -/
def AndEntryOK (nodes : List BtorNode) (table : BtorPtrHashTable (Option (List Nat))) (n : Nat)
    (set : List Nat) : Prop :=
  ChosenIn table (get_node nodes n).e set

/-- Every non-parameterized AND node with a set in the table has the set the spec says. -/
def AppAndOK (nodes : List BtorNode) (table : BtorPtrHashTable (Option (List Nat))) : Prop :=
  ∀ n set, nonparam_and nodes n → btor_find_in_ptr_hash_table table n = some (some set) →
    AndEntryOK nodes table n set

/-- The score of a node with an entry in the table of the active heuristic, in the words of the
spec: the stored integer under the depth variants, the number of elements of the stored set
under the application variants. -/
def active_score (btor : Btor) (n : Nat) : Option Int :=
  match btor.just_heuristic with
  | .NONE => none
  | .BRANCH_MIN_APP | .BRANCH_MIN_APP_BVSKEL =>
    match btor.score with
    | none => none
    | some t =>
      match btor_find_in_ptr_hash_table t n with
      | some (some set) => some (set.length : Int)
      | _ => none
  | .BRANCH_MIN_DEP | .BRANCH_MIN_DEP_BVSKEL =>
    match btor.score_depth with
    | none => none
    | some t => btor_find_in_ptr_hash_table t n

/-- Facts about the state of the depth traversal that hold on every run from clean marks,
whatever the graph: a marked node is on the unmark stack, a node with mark `2` is scored, and
the scored nodes and the nodes on the stack all satisfy `R`. -/
structure MinDepRun (R : Nat → Prop) (s : MinDepState) : Prop where
  unmark : ∀ n, s.aux_mark n ≠ 0 → n ∈ s.unmark_stack
  done : ∀ n, s.aux_mark n = 2 → btor_find_in_ptr_hash_table s.score n ≠ none
  keys : ∀ n, btor_find_in_ptr_hash_table s.score n ≠ none → R n
  stack : ∀ n ∈ s.stack.map BTOR_REAL_ADDR_NODE, R n

/-- Closed form of `reset_marks`: the mark of a node of the list `l` is `0` and every other
node keeps its mark. -/
def reset_marks_spec (m : Nat → Nat) (l : List Nat) (n : Nat) : Nat :=
  if n ∈ l then 0 else m n

/-- `DepthPath nodes n k`: there is a path of `k` nodes along sign-stripped child edges from
`n` to a node of arity `0`. -/
inductive DepthPath (nodes : List BtorNode) : Nat → Nat → Prop where
  | leaf (n : Nat) : (get_node nodes n).arity = 0 → DepthPath nodes n 1
  | step (n c k : Nat) : Child nodes n c → DepthPath nodes c k → DepthPath nodes n (k + 1)

/-- The integer `v` is the number of nodes on a shortest sign-stripped child path from `n` to a
node of arity `0`. -/
def ShortestDepth (nodes : List BtorNode) (n : Nat) (v : Int) : Prop :=
  ∃ k : Nat, v = k ∧ DepthPath nodes n k ∧ ∀ j, DepthPath nodes n j → k ≤ j

/-- The context `b2` has the graph, the heuristic and the seeds of `b`, with the children of
each node and the seeds in any order. -/
def SameUpToOrder (b b2 : Btor) : Prop :=
  b2.nodes.length = b.nodes.length
    ∧ b2.just_heuristic = b.just_heuristic
    ∧ (∀ n, (get_node b2.nodes n).kind = (get_node b.nodes n).kind
        ∧ (get_node b2.nodes n).e.Perm (get_node b.nodes n).e)
    ∧ (b2.synthesized_constraints ++ b2.assumptions).Perm
        (b.synthesized_constraints ++ b.assumptions)

/-- What the depth table `t` is after a run from the seeds `seeds`: its keys are the nodes
reachable from a seed and each score is the shortest depth to a node of arity `0`. -/
def DepthChar (nodes : List BtorNode) (seeds : List NodeRef) (t : BtorPtrHashTable Int) : Prop :=
  (∀ n v, btor_find_in_ptr_hash_table t n = some v → ShortestDepth nodes n v)
    ∧ ∀ n, btor_find_in_ptr_hash_table t n ≠ none
        ↔ ∃ r ∈ seeds, Reachable nodes (BTOR_REAL_ADDR_NODE r) n

/-- The nodes at which the collecting traversal of the dual propagation stops: APPLY nodes and
bit-vector variables. -/
def skel_stop (nodes : List BtorNode) (n : Nat) : Prop :=
  (get_node nodes n).kind = BtorNodeKind.APPLY ∨ (get_node nodes n).kind = BtorNodeKind.BV_VAR

/-- A child edge that leaves a node which is neither an APPLY node nor a bit-vector variable. -/
def SkelEdge (nodes : List BtorNode) (n c : Nat) : Prop :=
  ¬ skel_stop nodes n ∧ Child nodes n c

/-- Reachability by a sign-stripped child path none of whose earlier nodes is an APPLY node or
a bit-vector variable. -/
def SkelReach (nodes : List BtorNode) (n m : Nat) : Prop :=
  Relation.ReflTransGen (SkelEdge nodes) n m

/-- Invariant of the collecting traversal of the dual propagation; `SR` holds of the nodes the
traversal may reach. -/
structure DualPropInv (nodes : List BtorNode) (SR : Nat → Prop) (s : DualPropState) : Prop where
  unmark : ∀ n, s.aux_mark n ≠ 0 → n ∈ s.unmark_stack
  visited : ∀ n, s.aux_mark n ≠ 0 → SR n
  stack : ∀ n ∈ s.stack.map BTOR_REAL_ADDR_NODE, SR n ∧ n < nodes.length
  closure : ∀ n, s.aux_mark n ≠ 0 → ¬ skel_stop nodes n → ∀ c ∈ children nodes n,
    s.aux_mark c ≠ 0 ∨ c ∈ s.stack.map BTOR_REAL_ADDR_NODE
  applies : ∀ n, n ∈ s.applies ↔ s.aux_mark n ≠ 0 ∧ skel_stop nodes n
  nodup : s.applies.Nodup

/-- Every marked node is on the unmark stack. -/
def AppUnmarkInv (s : MinAppState) : Prop :=
  ∀ n, s.aux_mark n ≠ 0 → n ∈ s.unmark_stack

/-- Every node on the working stack of `s1` was on the working stack of `s` or had no bucket in
the table of `s`. -/
def ScoreFresh (s s1 : MinAppState) : Prop :=
  ∀ k ∈ s1.score, k ∈ s.score ∨ btor_find_in_ptr_hash_table s.btor_score k = none

/-- `k` is a sign-stripped child of a non-parameterized AND node that satisfies `R`. -/
def AndChildOf (nodes : List BtorNode) (R : Nat → Prop) (k : Nat) : Prop :=
  ∃ n, R n ∧ nonparam_and nodes n ∧ k ∈ children nodes n

/-- Invariant of the first pass of the application scorer on the working stack and on the keys
of the table; `R` holds of the nodes the traversal may visit and `T0` is the table the pass
started from. -/
structure MinAppScoreInv (nodes : List BtorNode) (R : Nat → Prop)
    (T0 : BtorPtrHashTable (Option (List Nat))) (s : MinAppState) : Prop where
  stack : ∀ n ∈ s.stack.map BTOR_REAL_ADDR_NODE, R n
  keys : ∀ k, btor_find_in_ptr_hash_table s.btor_score k ≠ none →
    btor_find_in_ptr_hash_table T0 k ≠ none ∨ AndChildOf nodes R k
  nodup : s.score.Nodup
  unfilled : ∀ k ∈ s.score, btor_find_in_ptr_hash_table s.btor_score k = some none
  visited : ∀ k ∈ s.score, s.aux_mark k ≠ 0 ∨ k ∈ s.stack.map BTOR_REAL_ADDR_NODE
  table_keys : (s.btor_score.map Prod.fst).Nodup

/-- A non-parameterized APPLY node. -/
def nonparam_apply (nodes : List BtorNode) (a : Nat) : Prop :=
  (get_node nodes a).parameterized = false ∧ (get_node nodes a).kind = BtorNodeKind.APPLY

/-- The set `set` stored for the key `n` holds no node twice and holds only non-parameterized
APPLY nodes that are reachable from `n` through one or more sign-stripped child edges. -/
def AppSetOK (nodes : List BtorNode) (n : Nat) (set : List Nat) : Prop :=
  set.Nodup ∧ ∀ a ∈ set, nonparam_apply nodes a ∧ Relation.TransGen (Child nodes) n a

/-- Every set of the application table is as `AppSetOK` says. -/
def AppSetsOK (nodes : List BtorNode) (table : BtorPtrHashTable (Option (List Nat))) : Prop :=
  ∀ n set, btor_find_in_ptr_hash_table table n = some (some set) → AppSetOK nodes n set

/-- Modelled from the spec: a sequence of `btor_compute_scores` calls on an unchanged graph,
each call with its own constraints and assumptions. -/
def compute_scores_calls : List (List NodeRef × List NodeRef) → Btor → Except BtorFault Btor
  | [], btor => .ok btor
  | (c, a) :: rest, btor =>
    match btor_compute_scores { btor with synthesized_constraints := c, assumptions := a } with
    | .error f => .error f
    | .ok btor1 => compute_scores_calls rest btor1

/-- Invariant of the search for unique applies that starts from clean marks: the children of a
marked node are marked or on the stack, every marked non-parameterized APPLY node is in the set
under construction, and the set holds no node twice. -/
structure MinAppSearchInv (nodes : List BtorNode) (s : MinAppState) (in_set : List Nat) :
    Prop where
  closure : ∀ n, s.aux_mark n ≠ 0 → ∀ c ∈ children nodes n,
    s.aux_mark c ≠ 0 ∨ c ∈ s.stack.map BTOR_REAL_ADDR_NODE
  applies : ∀ n, s.aux_mark n ≠ 0 → nonparam_apply nodes n → n ∈ in_set
  nodup : in_set.Nodup

/-- Every child of a node has a smaller id than the node: the order in which the solver creates
its nodes. -/
def IdOrdered (nodes : List BtorNode) : Prop := ∀ n c, Child nodes n c → c < n

/-- Every non-parameterized AND node has a child. -/
def AndHasChild (nodes : List BtorNode) : Prop :=
  ∀ n, nonparam_and nodes n → (get_node nodes n).e ≠ []

/-- The state of the application table between calls: no key has two buckets, every bucket
holds a set, and no set holds a node twice. -/
def AppTableFilled (table : BtorPtrHashTable (Option (List Nat))) : Prop :=
  (table.map Prod.fst).Nodup
    ∧ ∀ k x, btor_find_in_ptr_hash_table table k = some x → ∃ set, x = some set ∧ set.Nodup

/-- Invariant of the second pass of the application scorer; `L` is the part of the working
stack that is still to be aggregated. -/
structure MinAppAggInv (nodes : List BtorNode) (L : List Nat) (s : MinAppState) : Prop where
  stack : s.stack = []
  marks : ∀ n, s.aux_mark n = 0
  pending : ∀ k ∈ L, btor_find_in_ptr_hash_table s.btor_score k = some none
  filled : ∀ k x, btor_find_in_ptr_hash_table s.btor_score k = some x → k ∉ L →
    ∃ set, x = some set ∧ set.Nodup
  and_children : ∀ k ∈ L, nonparam_and nodes k → ∀ c ∈ children nodes k,
    btor_find_in_ptr_hash_table s.btor_score c ≠ none

/-- Decidable check that no AND node of the id table is without children. -/
def check_and_children (nodes : List BtorNode) : Bool :=
  nodes.all (fun b => !(b.kind == BtorNodeKind.AND) || !b.e.isEmpty)

/-- The non-parameterized AND nodes among the nodes that satisfy `R` are as the solver creates
them: each has a child, and every child has a smaller id than the node. -/
def AndNodesOrdered (nodes : List BtorNode) (R : Nat → Prop) : Prop :=
  ∀ n, R n → nonparam_and nodes n →
    (get_node nodes n).e ≠ [] ∧ ∀ c ∈ children nodes n, c < n

/-- The nodes at or below an alternate seed of the dual propagation: `n` is reachable from an
APPLY node or a bit-vector variable at which the collecting traversal from `seeds` stops. -/
def BelowStop (nodes : List BtorNode) (seeds : List NodeRef) (n : Nat) : Prop :=
  ∃ r ∈ seeds, ∃ a, SkelReach nodes (BTOR_REAL_ADDR_NODE r) a ∧ skel_stop nodes a
    ∧ Reachable nodes a n

/-! ## The example of the spec -/

/-- The graph of the example: `v1`, `f`, `x`, `APPLY(f,x)`, `c1 = AND(v1, APPLY(f,x))`, `y` and
`c2 = APPLY(f,y)`, with ids `0` to `6` in this order. -/
def exNodes : List BtorNode :=
  [ ⟨.BV_VAR, [], false⟩, ⟨.UF, [], false⟩, ⟨.BV_VAR, [], false⟩,
    ⟨.APPLY, [⟨1, false⟩, ⟨2, false⟩], false⟩,
    ⟨.AND, [⟨0, false⟩, ⟨3, false⟩], false⟩,
    ⟨.BV_VAR, [], false⟩,
    ⟨.APPLY, [⟨1, false⟩, ⟨5, false⟩], false⟩ ]

/-- The solving context of the example before any score is computed: the constraints are `c1`
and `c2`. -/
def exBtor (h : JustHeur) : Btor :=
  { nodes := exNodes
    aux_mark := fun _ => 0
    just_heuristic := h
    synthesized_constraints := [⟨4, false⟩, ⟨6, false⟩]
    assumptions := []
    score := none
    score_depth := none }

/-- A graph with an AND node below an AND node: `f`, `x`, `APPLY(f,x)`, a node over
`APPLY(f,x)`, `y`, `APPLY(f,y)`, a node over `APPLY(f,y)` and `APPLY(f,x)`, the AND of these two
nodes, `v`, and the AND of that AND and `v`, with ids `0` to `9` in this order. -/
def andNodes : List BtorNode :=
  [ ⟨.UF, [], false⟩, ⟨.BV_VAR, [], false⟩,
    ⟨.APPLY, [⟨0, false⟩, ⟨1, false⟩], false⟩,
    ⟨.OTHER, [⟨2, false⟩], false⟩,
    ⟨.BV_VAR, [], false⟩,
    ⟨.APPLY, [⟨0, false⟩, ⟨4, false⟩], false⟩,
    ⟨.OTHER, [⟨5, false⟩, ⟨2, false⟩], false⟩,
    ⟨.AND, [⟨3, true⟩, ⟨6, false⟩], false⟩,
    ⟨.BV_VAR, [], false⟩,
    ⟨.AND, [⟨7, false⟩, ⟨8, true⟩], false⟩ ]

/-- The solving context over `andNodes` before any score is computed: the only constraint is
the top AND node. -/
def andBtor (h : JustHeur) : Btor :=
  { nodes := andNodes
    aux_mark := fun _ => 0
    just_heuristic := h
    synthesized_constraints := [⟨9, false⟩]
    assumptions := []
    score := none
    score_depth := none }

/-- The example with the operands of `c1` and the two constraints in the other order. -/
def exBtorSwapped (h : JustHeur) : Btor :=
  { nodes :=
      [ ⟨.BV_VAR, [], false⟩, ⟨.UF, [], false⟩, ⟨.BV_VAR, [], false⟩,
        ⟨.APPLY, [⟨2, false⟩, ⟨1, false⟩], false⟩,
        ⟨.AND, [⟨3, false⟩, ⟨0, false⟩], false⟩,
        ⟨.BV_VAR, [], false⟩,
        ⟨.APPLY, [⟨1, false⟩, ⟨5, false⟩], false⟩ ]
    aux_mark := fun _ => 0
    just_heuristic := h
    synthesized_constraints := [⟨6, false⟩]
    assumptions := [⟨4, false⟩]
    score := none
    score_depth := none }

/-- A graph with an AND node below an APPLY node: `f`, `p`, `g`, `APPLY(g,p)`, a node over
`APPLY(g,p)`, the AND of `p` and that node, `APPLY` of `f` to this AND, and the AND of this
APPLY and `p`, with ids `0` to `7` in this order. -/
def dualNodes : List BtorNode :=
  [ ⟨.UF, [], false⟩, ⟨.BV_VAR, [], false⟩, ⟨.UF, [], false⟩,
    ⟨.APPLY, [⟨2, false⟩, ⟨1, false⟩], false⟩,
    ⟨.OTHER, [⟨3, false⟩], false⟩,
    ⟨.AND, [⟨1, false⟩, ⟨4, true⟩], false⟩,
    ⟨.APPLY, [⟨0, false⟩, ⟨5, false⟩], false⟩,
    ⟨.AND, [⟨6, false⟩, ⟨1, true⟩], false⟩ ]

/-- The solving context over `dualNodes` before any score is computed: the only constraint is
the top AND node. -/
def dualBtor (h : JustHeur) : Btor :=
  { nodes := dualNodes
    aux_mark := fun _ => 0
    just_heuristic := h
    synthesized_constraints := [⟨7, false⟩]
    assumptions := []
    score := none
    score_depth := none }

/-- A state of the second pass on the graph `andNodes`, before the node with id `6` is
aggregated: the first pass has given a bucket to the children of the two AND nodes. -/
def andAggState : MinAppState :=
  { aux_mark := fun _ => 0
    btor_score := [(7, none), (8, none), (3, some [2]), (6, none)]
    stack := []
    unmark_stack := []
    score := [7, 8, 3, 6] }

/-- A graph in which the AND node with id `1` has the child with id `2`: `v`, `AND(w, v)`, `w`
and `AND(AND(w, v), v)`, with ids `0` to `3` in this order. -/
def unorderedNodes : List BtorNode :=
  [ ⟨.BV_VAR, [], false⟩,
    ⟨.AND, [⟨2, false⟩, ⟨0, false⟩], false⟩,
    ⟨.BV_VAR, [], false⟩,
    ⟨.AND, [⟨1, false⟩, ⟨0, false⟩], false⟩ ]

/-- A solving context over `unorderedNodes` with clean marks and no tables; the constraint is
the node with id `3`. -/
def unorderedBtor (h : JustHeur) : Btor :=
  { nodes := unorderedNodes
    aux_mark := fun _ => 0
    just_heuristic := h
    synthesized_constraints := [⟨3, false⟩]
    assumptions := []
    score := none
    score_depth := none }

/-! ## Tables -/

theorem find_insert {V : Type} (t : BtorPtrHashTable V) (k : Nat) (v : V) (key : Nat) :
    btor_find_in_ptr_hash_table (btor_insert_in_ptr_hash_table t k v) key =
      match btor_find_in_ptr_hash_table t key with
      | some x => some x
      | none => if k = key then some v else none := by
  induction t with
  | nil => simp [btor_insert_in_ptr_hash_table, btor_find_in_ptr_hash_table]
  | cons p t ih =>
    obtain ⟨k1, v1⟩ := p
    have ih1 : btor_find_in_ptr_hash_table (t ++ [(k, v)]) key =
        match btor_find_in_ptr_hash_table t key with
        | some x => some x
        | none => if k = key then some v else none := ih
    show btor_find_in_ptr_hash_table ((k1, v1) :: (t ++ [(k, v)])) key = _
    by_cases h1 : k1 = key
    · simp [btor_find_in_ptr_hash_table, h1]
    · simp only [btor_find_in_ptr_hash_table, h1, if_false]
      exact ih1

theorem find_insert_of_some {V : Type} {t : BtorPtrHashTable V} {key : Nat} {x : V}
    (h : btor_find_in_ptr_hash_table t key = some x) (k : Nat) (v : V) :
    btor_find_in_ptr_hash_table (btor_insert_in_ptr_hash_table t k v) key = some x := by
  rw [find_insert, h]

theorem find_insert_self {V : Type} {t : BtorPtrHashTable V} {k : Nat}
    (h : btor_find_in_ptr_hash_table t k = none) (v : V) :
    btor_find_in_ptr_hash_table (btor_insert_in_ptr_hash_table t k v) k = some v := by
  rw [find_insert, h]; simp

theorem find_insert_of_ne {V : Type} (t : BtorPtrHashTable V) {k key : Nat} (h : k ≠ key)
    (v : V) :
    btor_find_in_ptr_hash_table (btor_insert_in_ptr_hash_table t k v) key =
      btor_find_in_ptr_hash_table t key := by
  rw [find_insert]
  cases btor_find_in_ptr_hash_table t key <;> simp [h]

theorem find_set_bucket_data {V : Type} (t : BtorPtrHashTable V) (k : Nat) (d : V) (key : Nat) :
    btor_find_in_ptr_hash_table (set_bucket_data t k d) key =
      if k = key then (btor_find_in_ptr_hash_table t key).map (fun _ => d)
      else btor_find_in_ptr_hash_table t key := by
  induction t with
  | nil => simp [set_bucket_data, btor_find_in_ptr_hash_table]
  | cons p t ih =>
    obtain ⟨k1, v1⟩ := p
    simp only [set_bucket_data]
    by_cases h1 : k1 = k
    · subst h1
      by_cases h2 : k1 = key
      · simp [btor_find_in_ptr_hash_table, h2]
      · simp [btor_find_in_ptr_hash_table, h2]
    · simp only [h1, if_false, btor_find_in_ptr_hash_table, ih]
      by_cases h2 : k1 = key
      · have h3 : ¬ k = key := fun h => h1 (h2.trans h.symm)
        simp [h2, h3]
      · simp [h2]

/-! ## Fuel -/

theorem sum_mark_not_mem (w : Nat → Nat) (m : Nat → Nat) (i v : Nat) (l : List Nat)
    (hi : i ∉ l) :
    (l.map (fun j => if set_mark m i v j = 0 then w j else 0)).sum =
      (l.map (fun j => if m j = 0 then w j else 0)).sum := by
  induction l with
  | nil => rfl
  | cons a l ih =>
    have ha : a ≠ i := fun h => hi (by simp [h])
    have hl : i ∉ l := fun h => hi (by simp [h])
    simp only [List.map_cons, List.sum_cons, ih hl]
    simp [set_mark, ha]

theorem sum_mark_mem (w : Nat → Nat) (m : Nat → Nat) (i v : Nat) (hm : m i = 0) (hv : v ≠ 0)
    (l : List Nat) (hnd : l.Nodup) (hi : i ∈ l) :
    (l.map (fun j => if set_mark m i v j = 0 then w j else 0)).sum + w i =
      (l.map (fun j => if m j = 0 then w j else 0)).sum := by
  induction l with
  | nil => simp at hi
  | cons a l ih =>
    rw [List.nodup_cons] at hnd
    simp only [List.map_cons, List.sum_cons]
    by_cases ha : a = i
    · subst ha
      rw [sum_mark_not_mem w m a v l hnd.1]
      simp [set_mark, hm, hv]
      omega
    · have hl : i ∈ l := by
        rcases List.mem_cons.1 hi with h | h
        · exact absurd h.symm ha
        · exact h
      have := ih hnd.2 hl
      simp only [set_mark, ha, if_false] at this ⊢
      omega

theorem fuel_sum_mark_zero (nodes : List BtorNode) (m : Nat → Nat) (i v : Nat)
    (hi : i < nodes.length) (hm : m i = 0) (hv : v ≠ 0) :
    fuel_sum nodes (set_mark m i v) + ((get_node nodes i).arity + 2) = fuel_sum nodes m :=
  sum_mark_mem (fun j => (get_node nodes j).arity + 2) m i v hm hv _ (List.nodup_range _)
    (List.mem_range.2 hi)

theorem fuel_sum_mark_nonzero (nodes : List BtorNode) (m : Nat → Nat) (i v : Nat)
    (hm : m i ≠ 0) (hv : v ≠ 0) : fuel_sum nodes (set_mark m i v) = fuel_sum nodes m := by
  unfold fuel_sum
  congr 1
  apply List.map_congr_left
  intro j _
  by_cases hj : j = i
  · subst hj; simp [set_mark, hm, hv]
  · simp [set_mark, hj]

theorem dfs_fuel_eq (nodes : List BtorNode) (m : Nat → Nat) (stack : List NodeRef) :
    dfs_fuel nodes m stack = stack.length + fuel_sum nodes m := rfl

/-! ## Depth scores: the score of one node -/

theorem mem_children {nodes : List BtorNode} {n c : Nat} :
    c ∈ children nodes n ↔ ∃ r ∈ (get_node nodes n).e, BTOR_REAL_ADDR_NODE r = c := by
  simp [children]

theorem min_dep_children_spec (score : BtorPtrHashTable Int) (l : List NodeRef) :
    ∀ md0 : Int, (md0 = -1 ∨ 1 ≤ md0) →
      (∀ c ∈ l, ∃ v, btor_find_in_ptr_hash_table score (BTOR_REAL_ADDR_NODE c) = some v
        ∧ 1 ≤ v) →
      ∃ md, min_dep_children score l md0 = .ok md
        ∧ (md = md0 ∨ ∃ c ∈ l, btor_find_in_ptr_hash_table score (BTOR_REAL_ADDR_NODE c)
            = some md)
        ∧ (∀ c ∈ l, ∀ v, btor_find_in_ptr_hash_table score (BTOR_REAL_ADDR_NODE c) = some v
            → md ≤ v)
        ∧ (md0 ≠ -1 → md ≤ md0)
        ∧ (1 ≤ md0 ∨ l ≠ [] → 1 ≤ md) := by
  induction l with
  | nil =>
    intro md0 _ _
    refine ⟨md0, rfl, Or.inl rfl, ?_, fun _ => le_refl _, ?_⟩
    · intro c hc; simp at hc
    · intro h0
      rcases h0 with h0 | h0
      · exact h0
      · exact absurd rfl h0
  | cons c rest ih =>
    intro md0 hmd0 hall
    obtain ⟨v, hv, hv1⟩ := hall c (List.mem_cons_self _ _)
    have hrest : ∀ c1 ∈ rest, ∃ v, btor_find_in_ptr_hash_table score (BTOR_REAL_ADDR_NODE c1)
        = some v ∧ 1 ≤ v := fun c1 hc1 => hall c1 (List.mem_cons_of_mem _ hc1)
    have hmd1 : (1 : Int) ≤ (if md0 = -1 ∨ v < md0 then v else md0) := by
      split_ifs with hc
      · exact hv1
      · rcases hmd0 with h0 | h0
        · exact absurd (Or.inl h0) hc
        · exact h0
    have hle_v : (if md0 = -1 ∨ v < md0 then v else md0) ≤ v := by
      split_ifs with hc
      · exact le_refl _
      · have : ¬ v < md0 := fun h0 => hc (Or.inr h0)
        omega
    have hle_0 : md0 ≠ -1 → (if md0 = -1 ∨ v < md0 then v else md0) ≤ md0 := by
      intro hne
      split_ifs with hc
      · rcases hc with h0 | h0
        · exact absurd h0 hne
        · omega
      · exact le_refl _
    obtain ⟨md, hrun, hsrc, hmin, hle, hpos⟩ := ih _ (Or.inr hmd1) hrest
    have hne1 : (if md0 = -1 ∨ v < md0 then v else md0) ≠ -1 := by omega
    refine ⟨md, ?_, ?_, ?_, ?_, ?_⟩
    · simp only [min_dep_children, hv]
      exact hrun
    · rcases hsrc with h1 | ⟨c1, hc1, hf1⟩
      · by_cases hc : md0 = -1 ∨ v < md0
        · right
          refine ⟨c, List.mem_cons_self _ _, ?_⟩
          rw [hv, h1, if_pos hc]
        · left
          rw [h1, if_neg hc]
      · exact Or.inr ⟨c1, List.mem_cons_of_mem _ hc1, hf1⟩
    · intro c1 hc1 v1 hf1
      rcases List.mem_cons.1 hc1 with h1 | h1
      · subst h1
        rw [hv] at hf1
        cases hf1
        exact le_trans (hle hne1) hle_v
      · exact hmin c1 h1 v1 hf1
    · intro hne
      exact le_trans (hle hne1) (hle_0 hne)
    · intro _
      exact hpos (Or.inl hmd1)

theorem compute_score_node_min_dep_spec (nodes : List BtorNode) (score : BtorPtrHashTable Int)
    (cur : Nat) (harity : (get_node nodes cur).arity ≠ 0)
    (hcur : btor_find_in_ptr_hash_table score cur = none)
    (hall : ∀ c ∈ children nodes cur, ∃ v, btor_find_in_ptr_hash_table score c = some v ∧ 1 ≤ v) :
    ∃ m, compute_score_node_min_dep nodes score cur
          = .ok (btor_insert_in_ptr_hash_table score cur (m + 1))
      ∧ 1 ≤ m
      ∧ (∃ c ∈ children nodes cur, btor_find_in_ptr_hash_table score c = some m)
      ∧ ∀ c ∈ children nodes cur, ∀ vc, btor_find_in_ptr_hash_table score c = some vc → m ≤ vc := by
  have hall1 : ∀ c ∈ (get_node nodes cur).e,
      ∃ v, btor_find_in_ptr_hash_table score (BTOR_REAL_ADDR_NODE c) = some v ∧ 1 ≤ v :=
    fun c hc => hall _ (mem_children.2 ⟨c, hc, rfl⟩)
  have hne : (get_node nodes cur).e ≠ [] := by
    intro h0
    apply harity
    simp [BtorNode.arity, h0]
  obtain ⟨md, hrun, hsrc, hmin, _, hpos⟩ :=
    min_dep_children_spec score (get_node nodes cur).e (-1) (Or.inl rfl) hall1
  have hmd : 1 ≤ md := hpos (Or.inr hne)
  refine ⟨md, ?_, hmd, ?_, ?_⟩
  · have hnot : ¬ md < 0 := by omega
    simp [compute_score_node_min_dep, hrun, hnot, hcur]
  · rcases hsrc with h1 | ⟨c, hc, hf⟩
    · omega
    · exact ⟨_, mem_children.2 ⟨c, hc, rfl⟩, hf⟩
  · intro c hc vc hf
    obtain ⟨r, hr, hrc⟩ := mem_children.1 hc
    subst hrc
    exact hmin r hr vc hf

theorem DepEntryOK.mono {nodes : List BtorNode} {h : JustHeur} {score score1 : BtorPtrHashTable Int}
    {n : Nat} {v : Int} (hok : DepEntryOK nodes h score n v)
    (hext : ∀ k x, btor_find_in_ptr_hash_table score k = some x →
      btor_find_in_ptr_hash_table score1 k = some x) :
    DepEntryOK nodes h score1 n v := by
  refine ⟨hok.1, fun hl => ?_⟩
  obtain ⟨hall, m, hv, ⟨c, hc, hf⟩, hmin⟩ := hok.2 hl
  refine ⟨fun c1 hc1 => ?_, m, hv, ⟨c, hc, hext _ _ hf⟩, fun c1 hc1 vc hf1 => ?_⟩
  · obtain ⟨vc, hvc⟩ := hall c1 hc1
    exact ⟨vc, hext _ _ hvc⟩
  · obtain ⟨vc0, hvc0⟩ := hall c1 hc1
    have := hext _ _ hvc0
    rw [this] at hf1
    have hEq : vc0 = vc := Option.some.inj hf1
    rw [← hEq]
    exact hmin c1 hc1 vc0 hvc0

theorem DepTableOK.insert {nodes : List BtorNode} {h : JustHeur} {score : BtorPtrHashTable Int}
    {cur : Nat} {v : Int} (hok : DepTableOK nodes h score)
    (hnew : DepEntryOK nodes h (btor_insert_in_ptr_hash_table score cur v) cur v) :
    DepTableOK nodes h (btor_insert_in_ptr_hash_table score cur v) := by
  intro n v1 hf
  rw [find_insert] at hf
  cases hn : btor_find_in_ptr_hash_table score n with
  | some x =>
    rw [hn] at hf
    have hEq : x = v1 := Option.some.inj hf
    rw [← hEq]
    exact (hok n x hn).mono (fun k y hk => find_insert_of_some hk cur v)
  | none =>
    rw [hn] at hf
    by_cases hk : cur = n
    · subst hk
      simp at hf
      subst hf
      exact hnew
    · simp [hk] at hf

/-! ## Depth scores: one iteration of the traversal -/

theorem cons_eq_append_cons {α : Type} {t x : α} {restT above below : List α}
    (hdec : t :: restT = above ++ x :: below) (hne : x ≠ t) :
    ∃ above1, above = t :: above1 ∧ restT = above1 ++ x :: below := by
  cases above with
  | nil =>
    simp only [List.nil_append, List.cons.injEq] at hdec
    exact absurd hdec.1.symm hne
  | cons a above1 =>
    simp only [List.cons_append, List.cons.injEq] at hdec
    exact ⟨above1, by rw [hdec.1], hdec.2⟩

theorem min_dep_step_skip {nodes : List BtorNode} {h : JustHeur} (s : MinDepState)
    (top : NodeRef) (rest : List NodeRef) (hs : s.stack = top :: rest)
    (hinv : MinDepInv nodes h s)
    (hcond : s.aux_mark (BTOR_REAL_ADDR_NODE top) = 2
      ∨ (btor_find_in_ptr_hash_table s.score (BTOR_REAL_ADDR_NODE top)).isSome) :
    MinDepStepPost nodes h s { s with stack := rest } := by
  have hscored : btor_find_in_ptr_hash_table s.score (BTOR_REAL_ADDR_NODE top) ≠ none := by
    rcases hcond with h2 | h2
    · exact hinv.done _ h2
    · intro h0
      rw [h0] at h2
      simp at h2
  refine ⟨⟨hinv.marks, hinv.done, ?_, ?_, hinv.pos, ?_, hinv.table⟩, ?_, fun _ _ hf => hf, ?_⟩
  · intro n hp
    exact hinv.inner n hp
  · intro x hp
    have hp0 : DepPending s x := hp
    obtain ⟨above, below, hdec, hdesc, hch⟩ := hinv.path x hp0
    have hne : x ≠ BTOR_REAL_ADDR_NODE top := by
      intro h0
      rw [h0] at hp0
      exact hscored hp0.2
    rw [hs, List.map_cons] at hdec
    obtain ⟨above1, ha, hr⟩ := cons_eq_append_cons hdec hne
    subst ha
    refine ⟨above1, below, hr, fun e he => hdesc e (List.mem_cons_of_mem _ he), ?_⟩
    intro c hc
    rcases hch c hc with h1 | h1
    · exact Or.inl h1
    · rcases List.mem_cons.1 h1 with h2 | h2
      · left
        rw [h2]
        exact hscored
      · exact Or.inr h2
  · intro r hr
    exact hinv.bound r (by rw [hs]; exact List.mem_cons_of_mem _ hr)
  · simp only [dfs_fuel, hs, List.length_cons]
    omega
  · intro n hn
    rw [hs, List.map_cons] at hn
    rcases List.mem_cons.1 hn with h1 | h1
    · right
      rw [h1]
      exact hscored
    · exact Or.inl h1

theorem min_dep_step_leaf {nodes : List BtorNode} {h : JustHeur} (s : MinDepState)
    (top : NodeRef) (rest : List NodeRef) (hs : s.stack = top :: rest)
    (hinv : MinDepInv nodes h s)
    (hm : s.aux_mark (BTOR_REAL_ADDR_NODE top) = 0)
    (hleaf : dep_leaf nodes h (BTOR_REAL_ADDR_NODE top)) :
    MinDepStepPost nodes h s
      { aux_mark := set_mark s.aux_mark (BTOR_REAL_ADDR_NODE top) 1
        score := btor_insert_in_ptr_hash_table s.score (BTOR_REAL_ADDR_NODE top) 1
        stack := ⟨BTOR_REAL_ADDR_NODE top, false⟩ :: rest
        unmark_stack := BTOR_REAL_ADDR_NODE top :: s.unmark_stack } := by
  set cur := BTOR_REAL_ADDR_NODE top with hcur
  have hbound : cur < nodes.length := hinv.bound top (by rw [hs]; exact List.mem_cons_self _ _)
  have hpend : ∀ n, DepPending
      { aux_mark := set_mark s.aux_mark cur 1
        score := btor_insert_in_ptr_hash_table s.score cur 1
        stack := ⟨cur, false⟩ :: rest
        unmark_stack := cur :: s.unmark_stack } n → n ≠ cur ∧ DepPending s n := by
    intro n hp
    obtain ⟨hp1, hp2⟩ := hp
    simp only at hp1 hp2
    rw [find_insert] at hp2
    cases hn : btor_find_in_ptr_hash_table s.score n with
    | some x => rw [hn] at hp2; simp at hp2
    | none =>
      rw [hn] at hp2
      have hne : n ≠ cur := by
        intro h0
        simp [h0] at hp2
      refine ⟨hne, ?_, hn⟩
      simpa [set_mark, hne] using hp1
  refine ⟨⟨?_, ?_, ?_, ?_, ?_, ?_, ?_⟩, ?_, ?_, ?_⟩
  · intro n
    simp only [set_mark]
    split_ifs
    · omega
    · exact hinv.marks n
  · intro n hn
    simp only [set_mark] at hn
    split_ifs at hn with h1
    · omega
    · obtain ⟨x, hx⟩ := Option.ne_none_iff_exists'.1 (hinv.done n hn)
      simp only
      rw [find_insert_of_some hx]
      simp
  · intro n hp
    exact hinv.inner n (hpend n hp).2
  · intro x hp
    obtain ⟨_, hp0⟩ := hpend x hp
    obtain ⟨above, below, hdec, hdesc, hch⟩ := hinv.path x hp0
    refine ⟨above, below, ?_, hdesc, ?_⟩
    · rw [← hdec, hs]
      rfl
    · intro c hc
      rcases hch c hc with h1 | h1
      · left
        obtain ⟨y, hy⟩ := Option.ne_none_iff_exists'.1 h1
        simp only
        rw [find_insert_of_some hy]
        simp
      · exact Or.inr h1
  · intro n v hf
    simp only at hf
    rw [find_insert] at hf
    cases hn : btor_find_in_ptr_hash_table s.score n with
    | some x =>
      rw [hn] at hf
      have hEq : x = v := Option.some.inj hf
      rw [← hEq]
      exact hinv.pos n x hn
    | none =>
      rw [hn] at hf
      by_cases hk : cur = n
      · simp [hk] at hf
        omega
      · simp [hk] at hf
  · intro r hr
    rcases List.mem_cons.1 hr with h1 | h1
    · rw [h1]
      exact hbound
    · exact hinv.bound r (by rw [hs]; exact List.mem_cons_of_mem _ h1)
  · apply DepTableOK.insert hinv.table
    exact ⟨fun _ => rfl, fun hnl => absurd hleaf hnl⟩
  · have := fuel_sum_mark_zero nodes s.aux_mark cur 1 hbound hm (by omega)
    simp only [dfs_fuel_eq, hs, List.length_cons]
    omega
  · intro n v hf
    exact find_insert_of_some hf _ _
  · intro n hn
    left
    rw [hs] at hn
    exact hn

theorem min_dep_step_expand {nodes : List BtorNode} {h : JustHeur} (hwf : WellFormedNodes nodes)
    (s : MinDepState) (top : NodeRef) (rest : List NodeRef) (hs : s.stack = top :: rest)
    (hinv : MinDepInv nodes h s)
    (hm : s.aux_mark (BTOR_REAL_ADDR_NODE top) = 0)
    (hnl : ¬ dep_leaf nodes h (BTOR_REAL_ADDR_NODE top)) :
    MinDepStepPost nodes h s
      { aux_mark := set_mark s.aux_mark (BTOR_REAL_ADDR_NODE top) 1
        score := s.score
        stack := (get_node nodes (BTOR_REAL_ADDR_NODE top)).e.reverse
          ++ (⟨BTOR_REAL_ADDR_NODE top, false⟩ :: rest)
        unmark_stack := BTOR_REAL_ADDR_NODE top :: s.unmark_stack } := by
  set cur := BTOR_REAL_ADDR_NODE top with hcur
  have hbound : cur < nodes.length := hinv.bound top (by rw [hs]; exact List.mem_cons_self _ _)
  have hstack : ((get_node nodes cur).e.reverse ++ (⟨cur, false⟩ :: rest)).map
      BTOR_REAL_ADDR_NODE = (children nodes cur).reverse ++ cur :: rest.map BTOR_REAL_ADDR_NODE := by
    simp [children, BTOR_REAL_ADDR_NODE]
  have hpend : ∀ n, DepPending
      { aux_mark := set_mark s.aux_mark cur 1
        score := s.score
        stack := (get_node nodes cur).e.reverse ++ (⟨cur, false⟩ :: rest)
        unmark_stack := cur :: s.unmark_stack } n → n ≠ cur → DepPending s n := by
    intro n hp hne
    obtain ⟨hp1, hp2⟩ := hp
    simp only at hp1 hp2
    exact ⟨by simpa [set_mark, hne] using hp1, hp2⟩
  refine ⟨⟨?_, ?_, ?_, ?_, hinv.pos, ?_, hinv.table⟩, ?_, fun _ _ hf => hf, ?_⟩
  · intro n
    simp only [set_mark]
    split_ifs
    · omega
    · exact hinv.marks n
  · intro n hn
    simp only [set_mark] at hn
    split_ifs at hn with h1
    · omega
    · exact hinv.done n hn
  · intro n hp
    by_cases hne : n = cur
    · rw [hne]
      exact hnl
    · exact hinv.inner n (hpend n hp hne)
  · intro x hp
    simp only [hstack]
    by_cases hne : x = cur
    · subst hne
      refine ⟨(children nodes cur).reverse, rest.map BTOR_REAL_ADDR_NODE, rfl, ?_, ?_⟩
      · intro e he
        exact Relation.TransGen.single (List.mem_reverse.1 he)
      · intro c hc
        exact Or.inr (List.mem_reverse.2 hc)
    · obtain ⟨above, below, hdec, hdesc, hch⟩ := hinv.path x (hpend x hp hne)
      rw [hs, List.map_cons] at hdec
      obtain ⟨above1, ha, hr⟩ := cons_eq_append_cons hdec hne
      refine ⟨(children nodes cur).reverse ++ above, below, ?_, ?_, ?_⟩
      · rw [ha, hr]
        simp
      · intro e he
        rcases List.mem_append.1 he with h1 | h1
        · have hx : Relation.TransGen (Child nodes) x cur :=
            hdesc cur (by rw [ha]; exact List.mem_cons_self _ _)
          exact Relation.TransGen.tail hx (List.mem_reverse.1 h1)
        · exact hdesc e h1
      · intro c hc
        rcases hch c hc with h1 | h1
        · exact Or.inl h1
        · exact Or.inr (List.mem_append_right _ h1)
  · intro r hr
    rcases List.mem_append.1 hr with h1 | h1
    · exact hwf.1 cur _ (mem_children.2 ⟨r, List.mem_reverse.1 h1, rfl⟩)
    · rcases List.mem_cons.1 h1 with h2 | h2
      · rw [h2]
        exact hbound
      · exact hinv.bound r (by rw [hs]; exact List.mem_cons_of_mem _ h2)
  · have := fuel_sum_mark_zero nodes s.aux_mark cur 1 hbound hm (by omega)
    simp only [dfs_fuel_eq, hs, List.length_cons, List.length_append, List.length_reverse]
    simp only [BtorNode.arity] at this
    omega
  · intro n hn
    left
    simp only [hstack]
    rw [hs, List.map_cons] at hn
    exact List.mem_append_right _ hn

theorem min_dep_step_finish {nodes : List BtorNode} {h : JustHeur} (hac : Acyclic nodes)
    (s : MinDepState) (top : NodeRef) (rest : List NodeRef) (hs : s.stack = top :: rest)
    (hinv : MinDepInv nodes h s)
    (hm : s.aux_mark (BTOR_REAL_ADDR_NODE top) = 1)
    (hnf : btor_find_in_ptr_hash_table s.score (BTOR_REAL_ADDR_NODE top) = none) :
    ∃ score, compute_score_node_min_dep nodes s.score (BTOR_REAL_ADDR_NODE top) = .ok score
      ∧ MinDepStepPost nodes h s
          { aux_mark := set_mark s.aux_mark (BTOR_REAL_ADDR_NODE top) 2
            score := score
            stack := rest
            unmark_stack := s.unmark_stack } := by
  set cur := BTOR_REAL_ADDR_NODE top with hcur
  have hp : DepPending s cur := ⟨hm, hnf⟩
  have hnl : ¬ dep_leaf nodes h cur := hinv.inner cur hp
  have harity : (get_node nodes cur).arity ≠ 0 := fun h0 => hnl (Or.inl h0)
  have hall : ∀ c ∈ children nodes cur,
      ∃ v, btor_find_in_ptr_hash_table s.score c = some v ∧ 1 ≤ v := by
    obtain ⟨above, below, hdec, hdesc, hch⟩ := hinv.path cur hp
    rw [hs, List.map_cons] at hdec
    cases above with
    | nil =>
      intro c hc
      rcases hch c hc with h1 | h1
      · obtain ⟨v, hv⟩ := Option.ne_none_iff_exists'.1 h1
        exact ⟨v, hv, hinv.pos c v hv⟩
      · simp at h1
    | cons a above1 =>
      simp only [List.cons_append, List.cons.injEq] at hdec
      exact absurd (hdesc cur (by rw [← hdec.1]; exact List.mem_cons_self _ _)) (hac cur)
  obtain ⟨m, hrun, hm1, hex, hmin⟩ :=
    compute_score_node_min_dep_spec nodes s.score cur harity hnf hall
  refine ⟨_, hrun, ⟨?_, ?_, ?_, ?_, ?_, ?_, ?_⟩, ?_, ?_, ?_⟩
  · intro n
    simp only [set_mark]
    split_ifs
    · omega
    · exact hinv.marks n
  · intro n hn
    simp only [set_mark] at hn
    simp only
    by_cases h1 : n = cur
    · rw [h1, find_insert_self hnf]
      simp
    · rw [if_neg h1] at hn
      obtain ⟨x, hx⟩ := Option.ne_none_iff_exists'.1 (hinv.done n hn)
      rw [find_insert_of_some hx]
      simp
  · intro n hpn
    obtain ⟨hp1, hp2⟩ := hpn
    simp only at hp1 hp2
    have hne : n ≠ cur := by
      intro h0
      rw [h0, find_insert_self hnf] at hp2
      simp at hp2
    rw [find_insert_of_ne _ (Ne.symm hne)] at hp2
    exact hinv.inner n ⟨by simpa [set_mark, hne] using hp1, hp2⟩
  · intro x hpx
    obtain ⟨hp1, hp2⟩ := hpx
    simp only at hp1 hp2
    have hne : x ≠ cur := by
      intro h0
      rw [h0, find_insert_self hnf] at hp2
      simp at hp2
    rw [find_insert_of_ne _ (Ne.symm hne)] at hp2
    obtain ⟨above, below, hdec, hdesc, hch⟩ :=
      hinv.path x ⟨by simpa [set_mark, hne] using hp1, hp2⟩
    rw [hs, List.map_cons] at hdec
    obtain ⟨above1, ha, hr⟩ := cons_eq_append_cons hdec hne
    subst ha
    refine ⟨above1, below, hr, fun e he => hdesc e (List.mem_cons_of_mem _ he), ?_⟩
    intro c hc
    simp only
    rcases hch c hc with h1 | h1
    · left
      obtain ⟨y, hy⟩ := Option.ne_none_iff_exists'.1 h1
      rw [find_insert_of_some hy]
      simp
    · rcases List.mem_cons.1 h1 with h2 | h2
      · left
        rw [h2, find_insert_self hnf]
        simp
      · exact Or.inr h2
  · intro n v hf
    simp only at hf
    rw [find_insert] at hf
    cases hn : btor_find_in_ptr_hash_table s.score n with
    | some x =>
      rw [hn] at hf
      have hEq : x = v := Option.some.inj hf
      rw [← hEq]
      exact hinv.pos n x hn
    | none =>
      rw [hn] at hf
      by_cases hk : cur = n
      · simp [hk] at hf
        omega
      · simp [hk] at hf
  · intro r hr
    exact hinv.bound r (by rw [hs]; exact List.mem_cons_of_mem _ hr)
  · apply DepTableOK.insert hinv.table
    refine ⟨fun hl => absurd hl hnl, fun _ => ⟨?_, m, by omega, ?_, ?_⟩⟩
    · intro c hc
      obtain ⟨v, hv, _⟩ := hall c hc
      exact ⟨v, find_insert_of_some hv _ _⟩
    · obtain ⟨c, hc, hf⟩ := hex
      exact ⟨c, hc, find_insert_of_some hf _ _⟩
    · intro c hc vc hf
      obtain ⟨v, hv, _⟩ := hall c hc
      rw [find_insert_of_some hv] at hf
      have hEq : v = vc := Option.some.inj hf
      rw [← hEq]
      exact hmin c hc v hv
  · have := fuel_sum_mark_nonzero nodes s.aux_mark cur 2 (by omega) (by omega)
    simp only [dfs_fuel_eq, hs, List.length_cons, this]
    omega
  · intro n v hf
    exact find_insert_of_some hf _ _
  · intro n hn
    rw [hs, List.map_cons] at hn
    simp only
    rcases List.mem_cons.1 hn with h1 | h1
    · right
      rw [h1, find_insert_self hnf]
      simp
    · exact Or.inl h1

theorem min_dep_step_spec {nodes : List BtorNode} {h : JustHeur} (hwf : WellFormedNodes nodes)
    (hac : Acyclic nodes) (s : MinDepState) (top : NodeRef) (rest : List NodeRef)
    (hs : s.stack = top :: rest) (hinv : MinDepInv nodes h s) :
    ∃ s1, min_dep_step nodes h s top rest = .ok s1 ∧ MinDepStepPost nodes h s s1 := by
  by_cases hcond : s.aux_mark (BTOR_REAL_ADDR_NODE top) = 2
      ∨ (btor_find_in_ptr_hash_table s.score (BTOR_REAL_ADDR_NODE top)).isSome
  · exact ⟨_, by simp only [min_dep_step, if_pos hcond], min_dep_step_skip s top rest hs hinv hcond⟩
  · have hne2 : s.aux_mark (BTOR_REAL_ADDR_NODE top) ≠ 2 := fun h0 => hcond (Or.inl h0)
    have hnf : btor_find_in_ptr_hash_table s.score (BTOR_REAL_ADDR_NODE top) = none := by
      cases hf : btor_find_in_ptr_hash_table s.score (BTOR_REAL_ADDR_NODE top) with
      | none => rfl
      | some x => exact absurd (Or.inr (by simp [hf])) hcond
    by_cases hm : s.aux_mark (BTOR_REAL_ADDR_NODE top) = 0
    · by_cases hleaf : dep_leaf nodes h (BTOR_REAL_ADDR_NODE top)
      · refine ⟨_, ?_, min_dep_step_leaf s top rest hs hinv hm hleaf⟩
        have hleaf1 := hleaf
        unfold dep_leaf at hleaf1
        simp only [min_dep_step, if_neg hcond, if_pos hm, if_pos hleaf1]
      · refine ⟨_, ?_, min_dep_step_expand hwf s top rest hs hinv hm hleaf⟩
        have hleaf1 := hleaf
        unfold dep_leaf at hleaf1
        simp only [min_dep_step, if_neg hcond, if_pos hm, if_neg hleaf1]
    · have hm1 : s.aux_mark (BTOR_REAL_ADDR_NODE top) = 1 := by
        have := hinv.marks (BTOR_REAL_ADDR_NODE top)
        omega
      obtain ⟨score, hrun, hpost⟩ := min_dep_step_finish hac s top rest hs hinv hm1 hnf
      have harity : ¬ (get_node nodes (BTOR_REAL_ADDR_NODE top)).arity = 0 :=
        fun h0 => hinv.inner _ ⟨hm1, hnf⟩ (Or.inl h0)
      have huf : ¬ (h = JustHeur.BRANCH_MIN_DEP
          ∧ (get_node nodes (BTOR_REAL_ADDR_NODE top)).kind = BtorNodeKind.UF) := by
        intro h0
        apply harity
        simp [BtorNode.arity, hwf.2 _ h0.2]
      refine ⟨_, ?_, hpost⟩
      have hnn : ¬ s.aux_mark (BTOR_REAL_ADDR_NODE top) ≠ 1 := fun h0 => h0 hm1
      simp only [min_dep_step, if_neg hcond, if_neg hm, if_neg hnn, if_neg harity, if_neg huf,
        hrun]

/-! ## Depth scores: the loops -/

theorem min_dep_while_spec {nodes : List BtorNode} {h : JustHeur} (hwf : WellFormedNodes nodes)
    (hac : Acyclic nodes) :
    ∀ (fuel : Nat) (s : MinDepState), MinDepInv nodes h s →
      dfs_fuel nodes s.aux_mark s.stack ≤ fuel →
      ∃ s1, min_dep_while nodes h fuel s = .ok s1 ∧ MinDepInv nodes h s1 ∧ s1.stack = []
        ∧ (∀ n v, btor_find_in_ptr_hash_table s.score n = some v →
            btor_find_in_ptr_hash_table s1.score n = some v)
        ∧ ∀ n, n ∈ s.stack.map BTOR_REAL_ADDR_NODE →
            btor_find_in_ptr_hash_table s1.score n ≠ none := by
  intro fuel
  induction fuel with
  | zero =>
    intro s hinv hfuel
    cases hs : s.stack with
    | nil =>
      refine ⟨s, ?_, hinv, hs, fun _ _ hf => hf, ?_⟩
      · unfold min_dep_while
        simp only [hs]
      · intro n hn
        simp at hn
    | cons top rest =>
      simp only [dfs_fuel_eq, hs, List.length_cons] at hfuel
      omega
  | succ fuel ih =>
    intro s hinv hfuel
    cases hs : s.stack with
    | nil =>
      refine ⟨s, ?_, hinv, hs, fun _ _ hf => hf, ?_⟩
      · unfold min_dep_while
        simp only [hs]
      · intro n hn
        simp at hn
    | cons top rest =>
      obtain ⟨s1, hstep, hinv1, hlt, hext1, hstack1⟩ := min_dep_step_spec hwf hac s top rest hs hinv
      obtain ⟨s2, hrun, hinv2, hempty, hext2, hstack2⟩ := ih s1 hinv1 (by omega)
      refine ⟨s2, ?_, hinv2, hempty, fun n v hf => hext2 n v (hext1 n v hf), ?_⟩
      · unfold min_dep_while
        simp only [hs, hstep]
        exact hrun
      · intro n hn
        rw [← hs] at hn
        rcases hstack1 n hn with h1 | h1
        · exact hstack2 n h1
        · obtain ⟨v, hv⟩ := Option.ne_none_iff_exists'.1 h1
          rw [hext2 n v hv]
          simp

theorem min_dep_seeds_spec {nodes : List BtorNode} {h : JustHeur} (hwf : WellFormedNodes nodes)
    (hac : Acyclic nodes) :
    ∀ (seeds : List NodeRef) (s : MinDepState), MinDepInv nodes h s → s.stack = [] →
      (∀ r ∈ seeds, BTOR_REAL_ADDR_NODE r < nodes.length) →
      ∃ s1, min_dep_seeds nodes h seeds s = .ok s1 ∧ MinDepInv nodes h s1 ∧ s1.stack = []
        ∧ (∀ n v, btor_find_in_ptr_hash_table s.score n = some v →
            btor_find_in_ptr_hash_table s1.score n = some v)
        ∧ ∀ r ∈ seeds, btor_find_in_ptr_hash_table s1.score (BTOR_REAL_ADDR_NODE r) ≠ none := by
  intro seeds
  induction seeds with
  | nil =>
    intro s hinv hs _
    exact ⟨s, rfl, hinv, hs, fun _ _ hf => hf, fun r hr => by simp at hr⟩
  | cons cur seeds ih =>
    intro s hinv hs hseeds
    have hnopend : ∀ x, ¬ DepPending s x := by
      intro x hp
      obtain ⟨above, below, hdec, _⟩ := hinv.path x hp
      rw [hs] at hdec
      simp at hdec
    have hinv0 : MinDepInv nodes h { s with stack := cur :: s.stack } := by
      refine ⟨hinv.marks, hinv.done, fun n hp => absurd hp (hnopend n),
        fun x hp => absurd hp (hnopend x), hinv.pos, ?_, hinv.table⟩
      intro r hr
      rw [hs] at hr
      simp only [List.mem_singleton] at hr
      rw [hr]
      exact hseeds cur (List.mem_cons_self _ _)
    obtain ⟨s1, hrun1, hinv1, hempty1, hext1, hstack1⟩ :=
      min_dep_while_spec hwf hac (dfs_fuel nodes s.aux_mark (cur :: s.stack))
        { s with stack := cur :: s.stack } hinv0 (le_refl _)
    obtain ⟨s2, hrun2, hinv2, hempty2, hext2, hseeds2⟩ :=
      ih s1 hinv1 hempty1 (fun r hr => hseeds r (List.mem_cons_of_mem _ hr))
    refine ⟨s2, ?_, hinv2, hempty2, fun n v hf => hext2 n v (hext1 n v hf), ?_⟩
    · simp only [min_dep_seeds, hrun1]
      exact hrun2
    · intro r hr
      rcases List.mem_cons.1 hr with h1 | h1
      · have h2 := hstack1 (BTOR_REAL_ADDR_NODE cur) (by simp)
        obtain ⟨v, hv⟩ := Option.ne_none_iff_exists'.1 h2
        rw [h1, hext2 _ v hv]
        simp
      · exact hseeds2 r h1

theorem check_marks_unset {nodes : List BtorNode} {m : Nat → Nat} (hm : ∀ n, m n = 0) :
    check_id_table_aux_mark_unset_dbg nodes m = true := by
  simp [check_id_table_aux_mark_unset_dbg, hm]

theorem compute_scores_aux_min_dep_spec (btor : Btor) (it : List NodeRef)
    (hwf : WellFormedNodes btor.nodes) (hac : Acyclic btor.nodes)
    (hit : ∀ r ∈ it, BTOR_REAL_ADDR_NODE r < btor.nodes.length)
    (hmarks : ∀ n, btor.aux_mark n = 0) (hh : btor.just_heuristic ≠ JustHeur.NONE)
    (htab : DepTableOK btor.nodes btor.just_heuristic (btor.score_depth.getD []))
    (hpos : ∀ n v, btor_find_in_ptr_hash_table (btor.score_depth.getD []) n = some v → 1 ≤ v) :
    ∃ btor1 table, compute_scores_aux_min_dep btor it = .ok btor1
      ∧ btor1.score_depth = some table
      ∧ DepTableOK btor.nodes btor.just_heuristic table
      ∧ (∀ r ∈ it, btor_find_in_ptr_hash_table table (BTOR_REAL_ADDR_NODE r) ≠ none)
      ∧ (∀ n v, btor_find_in_ptr_hash_table (btor.score_depth.getD []) n = some v →
          btor_find_in_ptr_hash_table table n = some v)
      ∧ ∀ n v, btor_find_in_ptr_hash_table table n = some v → 1 ≤ v := by
  have hinv0 : MinDepInv btor.nodes btor.just_heuristic
      { aux_mark := btor.aux_mark
        score := btor.score_depth.getD []
        stack := []
        unmark_stack := [] } := by
    refine ⟨fun n => by simp [hmarks n], fun n hn => ?_, fun n hp => ?_, fun x hp => ?_, hpos,
      fun r hr => by simp at hr, htab⟩
    · simp [hmarks n] at hn
    · have := hp.1
      simp [hmarks n] at this
    · have := hp.1
      simp [hmarks x] at this
  obtain ⟨s1, hrun, hinv1, _, hext, hseeds⟩ :=
    min_dep_seeds_spec hwf hac it _ hinv0 rfl hit
  refine ⟨{ btor with
            aux_mark := reset_marks s1.aux_mark s1.unmark_stack
            score_depth := some s1.score }, s1.score, ?_, rfl, hinv1.table, hseeds, hext,
    hinv1.pos⟩
  simp only [compute_scores_aux_min_dep, check_marks_unset hmarks, Bool.not_true, if_neg hh,
    hrun]
  simp

/-! ## Facts about concrete id tables -/

theorem get_node_of_ge {nodes : List BtorNode} {n : Nat} (h : nodes.length ≤ n) :
    get_node nodes n = ⟨BtorNodeKind.OTHER, [], false⟩ := by
  unfold get_node
  rw [List.getD_eq_getElem?_getD, List.getElem?_eq_none h]
  rfl

theorem child_lt_of_check {nodes : List BtorNode} (hc : check_nodes nodes = true) (n c : Nat)
    (h : Child nodes n c) : c < n ∧ n < nodes.length := by
  by_cases hn : n < nodes.length
  · simp only [check_nodes, List.all_eq_true, List.mem_range, Bool.and_eq_true,
      decide_eq_true_eq] at hc
    exact ⟨(hc n hn).1 c h, hn⟩
  · have h1 : c ∈ children nodes n := h
    rw [children, get_node_of_ge (Nat.le_of_not_lt hn)] at h1
    simp at h1

theorem wellFormed_of_check {nodes : List BtorNode} (hc : check_nodes nodes = true) :
    WellFormedNodes nodes := by
  refine ⟨fun n c h => ?_, fun n hk => ?_⟩
  · have := child_lt_of_check hc n c h
    omega
  · by_cases hn : n < nodes.length
    · simp only [check_nodes, List.all_eq_true, List.mem_range, Bool.and_eq_true,
        Bool.or_eq_true, Bool.not_eq_true', beq_eq_false_iff_ne, ne_eq,
        List.isEmpty_eq_true] at hc
      rcases (hc n hn).2 with h1 | h1
      · exact absurd hk h1
      · exact h1
    · rw [get_node_of_ge (Nat.le_of_not_lt hn)]

theorem acyclic_of_check {nodes : List BtorNode} (hc : check_nodes nodes = true) :
    Acyclic nodes := by
  have hlt : ∀ n m, Relation.TransGen (Child nodes) n m → m < n := by
    intro n m h
    induction h with
    | single h1 => exact (child_lt_of_check hc _ _ h1).1
    | tail _ h2 ih => exact lt_trans (child_lt_of_check hc _ _ h2).1 ih
  intro n h
  exact lt_irrefl _ (hlt n n h)

theorem exNodes_check : check_nodes exNodes = true := by decide

/-! ## C1 and C2: the depth table after `btor_compute_scores` -/

theorem getD_of_empty {V : Type} {t : Option (BtorPtrHashTable V)} (h : t = none ∨ t = some []) :
    t.getD [] = [] := by
  rcases h with h | h <;> simp [h]

/-- C1: on a finite acyclic node graph with all marks unvisited and an empty depth table,
`btor_compute_scores` under MIN_DEPTH or MIN_DEPTH_SKELETON completes, and every entry of the
resulting table has score `1` if its node has arity `0` or is an APPLY node under the skeleton
variant, and otherwise all children of the node have entries and the score is one more than the
least score of a child. -/
theorem depth_entries_after_compute_scores (btor : Btor)
    (hwf : WellFormedNodes btor.nodes) (hac : Acyclic btor.nodes)
    (hseeds : ∀ r ∈ btor.synthesized_constraints ++ btor.assumptions,
      BTOR_REAL_ADDR_NODE r < btor.nodes.length)
    (hmarks : ∀ n, btor.aux_mark n = 0)
    (hh : btor.just_heuristic = JustHeur.BRANCH_MIN_DEP
      ∨ btor.just_heuristic = JustHeur.BRANCH_MIN_DEP_BVSKEL)
    (hempty : btor.score_depth = none ∨ btor.score_depth = some []) :
    ∃ btor1 table, btor_compute_scores btor = .ok btor1 ∧ btor1.score_depth = some table
      ∧ ∀ n v, btor_find_in_ptr_hash_table table n = some v →
          DepEntryOK btor.nodes btor.just_heuristic table n v := by
  have hne : btor.just_heuristic ≠ JustHeur.NONE := by
    rcases hh with h | h <;> simp [h]
  have htab : DepTableOK btor.nodes btor.just_heuristic (btor.score_depth.getD []) := by
    rw [getD_of_empty hempty]
    intro n v hf
    simp [btor_find_in_ptr_hash_table] at hf
  have hpos : ∀ n v, btor_find_in_ptr_hash_table (btor.score_depth.getD []) n = some v →
      1 ≤ v := by
    rw [getD_of_empty hempty]
    intro n v hf
    simp [btor_find_in_ptr_hash_table] at hf
  obtain ⟨btor1, table, hrun, htable, hok, _, _⟩ :=
    compute_scores_aux_min_dep_spec btor _ hwf hac hseeds hmarks hne htab hpos
  refine ⟨btor1, table, ?_, htable, hok⟩
  rcases hh with h | h <;> simp only [btor_compute_scores, compute_scores_aux, h] <;>
    rw [← hrun]

theorem depth_entries_after_compute_scores_witness :
    WellFormedNodes exNodes ∧ Acyclic exNodes ∧
      ∃ btor1 table, btor_compute_scores (exBtor JustHeur.BRANCH_MIN_DEP) = .ok btor1
        ∧ btor1.score_depth = some table
        ∧ ∀ n v, btor_find_in_ptr_hash_table table n = some v →
            DepEntryOK exNodes JustHeur.BRANCH_MIN_DEP table n v :=
  ⟨wellFormed_of_check exNodes_check, acyclic_of_check exNodes_check,
    depth_entries_after_compute_scores (exBtor JustHeur.BRANCH_MIN_DEP)
      (wellFormed_of_check exNodes_check) (acyclic_of_check exNodes_check) (by decide)
      (fun _ => rfl) (Or.inl rfl) (Or.inl rfl)⟩

/-- C2: on a finite acyclic node graph with all marks unvisited and an empty depth table,
`btor_compute_scores` under MIN_DEPTH (skeleton off) completes, and every node reachable from a
seed through sign-stripped child edges, the seed included, has an entry in the depth table. -/
theorem reachable_nodes_have_depth_entry (btor : Btor)
    (hwf : WellFormedNodes btor.nodes) (hac : Acyclic btor.nodes)
    (hseeds : ∀ r ∈ btor.synthesized_constraints ++ btor.assumptions,
      BTOR_REAL_ADDR_NODE r < btor.nodes.length)
    (hmarks : ∀ n, btor.aux_mark n = 0)
    (hh : btor.just_heuristic = JustHeur.BRANCH_MIN_DEP)
    (hempty : btor.score_depth = none ∨ btor.score_depth = some []) :
    ∃ btor1 table, btor_compute_scores btor = .ok btor1 ∧ btor1.score_depth = some table
      ∧ ∀ r ∈ btor.synthesized_constraints ++ btor.assumptions, ∀ n,
          Reachable btor.nodes (BTOR_REAL_ADDR_NODE r) n →
          ∃ v, btor_find_in_ptr_hash_table table n = some v := by
  have hne : btor.just_heuristic ≠ JustHeur.NONE := by simp [hh]
  have htab : DepTableOK btor.nodes btor.just_heuristic (btor.score_depth.getD []) := by
    rw [getD_of_empty hempty]
    intro n v hf
    simp [btor_find_in_ptr_hash_table] at hf
  have hpos : ∀ n v, btor_find_in_ptr_hash_table (btor.score_depth.getD []) n = some v →
      1 ≤ v := by
    rw [getD_of_empty hempty]
    intro n v hf
    simp [btor_find_in_ptr_hash_table] at hf
  obtain ⟨btor1, table, hrun, htable, hok, hscored, _⟩ :=
    compute_scores_aux_min_dep_spec btor _ hwf hac hseeds hmarks hne htab hpos
  refine ⟨btor1, table, ?_, htable, ?_⟩
  · simp only [btor_compute_scores, compute_scores_aux, hh]
    rw [← hrun]
  · intro r hr n hreach
    induction hreach with
    | refl => exact Option.ne_none_iff_exists'.1 (hscored r hr)
    | @tail a b _ hstep ih =>
      obtain ⟨v, hv⟩ := ih
      have hentry := hok a v hv
      have hnl : ¬ dep_leaf btor.nodes btor.just_heuristic a := by
        intro hl
        rcases hl with h0 | h0
        · have hb : b ∈ children btor.nodes a := hstep
          have he : (get_node btor.nodes a).e = [] := by
            simpa [BtorNode.arity] using h0
          simp [children, he] at hb
        · rw [hh] at h0
          simp at h0
      exact (hentry.2 hnl).1 b hstep

theorem reachable_nodes_have_depth_entry_witness :
    WellFormedNodes exNodes ∧ Acyclic exNodes ∧
      ∃ btor1 table, btor_compute_scores (exBtor JustHeur.BRANCH_MIN_DEP) = .ok btor1
        ∧ btor1.score_depth = some table
        ∧ ∀ r ∈ [(⟨4, false⟩ : NodeRef), ⟨6, false⟩] ++ [], ∀ n,
            Reachable exNodes (BTOR_REAL_ADDR_NODE r) n →
            ∃ v, btor_find_in_ptr_hash_table table n = some v :=
  ⟨wellFormed_of_check exNodes_check, acyclic_of_check exNodes_check,
    reachable_nodes_have_depth_entry (exBtor JustHeur.BRANCH_MIN_DEP)
      (wellFormed_of_check exNodes_check) (acyclic_of_check exNodes_check) (by decide)
      (fun _ => rfl) rfl (Or.inl rfl)⟩

/-! ## Application scores: the first pass -/

theorem MarkExt.refl (s : MinAppState) : MarkExt s s :=
  ⟨fun _ _ h => h, fun _ h => h, fun _ h => Or.inl h⟩

theorem MarkExt.trans {s s1 s2 : MinAppState} (h1 : MarkExt s s1) (h2 : MarkExt s1 s2) :
    MarkExt s s2 := by
  refine ⟨fun k x h => h2.1 k x (h1.1 k x h), fun k h => h2.2.1 k (h1.2.1 k h), ?_⟩
  intro k hk
  rcases h2.2.2 k hk with h3 | h3
  · rcases h1.2.2 k h3 with h4 | h4
    · exact Or.inl h4
    · exact Or.inr ⟨h2.2.1 k h4.1, h2.1 k _ h4.2⟩
  · exact Or.inr h3

theorem min_app_push_children_spec (and_node : Bool) :
    ∀ (l : List NodeRef) (s : MinAppState),
      (min_app_push_children and_node l s).aux_mark = s.aux_mark
        ∧ (min_app_push_children and_node l s).stack.map BTOR_REAL_ADDR_NODE
            = (l.map BTOR_REAL_ADDR_NODE).reverse ++ s.stack.map BTOR_REAL_ADDR_NODE
        ∧ MarkExt s (min_app_push_children and_node l s)
        ∧ (and_node = true → ∀ c ∈ l, btor_find_in_ptr_hash_table
            (min_app_push_children and_node l s).btor_score (BTOR_REAL_ADDR_NODE c) ≠ none) := by
  intro l
  induction l with
  | nil =>
    intro s
    exact ⟨rfl, by simp [min_app_push_children], MarkExt.refl s, fun _ c hc => by simp at hc⟩
  | cons c rest ih =>
    intro s
    by_cases hcond : and_node = true
        ∧ (btor_find_in_ptr_hash_table s.btor_score (BTOR_REAL_ADDR_NODE c)).isNone = true
    · have hnone : btor_find_in_ptr_hash_table s.btor_score (BTOR_REAL_ADDR_NODE c) = none := by
        simpa using hcond.2
      have hunf : min_app_push_children and_node (c :: rest) s
          = min_app_push_children and_node rest
              { s with
                btor_score := btor_insert_in_ptr_hash_table s.btor_score
                  (BTOR_REAL_ADDR_NODE c) none
                score := BTOR_REAL_ADDR_NODE c :: s.score
                stack := ⟨BTOR_REAL_ADDR_NODE c, false⟩ :: s.stack } := by
        simp only [min_app_push_children, if_pos hcond]
      obtain ⟨h1, h2, h3, h4⟩ := ih
        { s with
          btor_score := btor_insert_in_ptr_hash_table s.btor_score (BTOR_REAL_ADDR_NODE c) none
          score := BTOR_REAL_ADDR_NODE c :: s.score
          stack := ⟨BTOR_REAL_ADDR_NODE c, false⟩ :: s.stack }
      rw [hunf]
      have hext0 : MarkExt s
          { s with
            btor_score := btor_insert_in_ptr_hash_table s.btor_score (BTOR_REAL_ADDR_NODE c) none
            score := BTOR_REAL_ADDR_NODE c :: s.score
            stack := ⟨BTOR_REAL_ADDR_NODE c, false⟩ :: s.stack } := by
        refine ⟨fun k x hk => find_insert_of_some hk _ _, fun k hk => List.mem_cons_of_mem _ hk,
          ?_⟩
        intro k hk
        simp only at hk ⊢
        by_cases hkc : BTOR_REAL_ADDR_NODE c = k
        · right
          rw [← hkc, find_insert_self hnone]
          exact ⟨List.mem_cons_self _ _, rfl⟩
        · left
          rwa [find_insert_of_ne _ hkc] at hk
      refine ⟨h1, ?_, hext0.trans h3, ?_⟩
      · rw [h2]
        simp [BTOR_REAL_ADDR_NODE]
      · intro ha c1 hc1
        rcases List.mem_cons.1 hc1 with h5 | h5
        · rw [h5, h3.1 _ none (find_insert_self hnone none)]
          simp
        · exact h4 ha c1 h5
    · have hunf : min_app_push_children and_node (c :: rest) s
          = min_app_push_children and_node rest
              { s with stack := ⟨BTOR_REAL_ADDR_NODE c, false⟩ :: s.stack } := by
        simp only [min_app_push_children, if_neg hcond]
      obtain ⟨h1, h2, h3, h4⟩ := ih { s with stack := ⟨BTOR_REAL_ADDR_NODE c, false⟩ :: s.stack }
      rw [hunf]
      refine ⟨h1, ?_, ⟨h3.1, h3.2.1, h3.2.2⟩, ?_⟩
      · rw [h2]
        simp [BTOR_REAL_ADDR_NODE]
      · intro ha c1 hc1
        rcases List.mem_cons.1 hc1 with h5 | h5
        · have hsome : btor_find_in_ptr_hash_table s.btor_score (BTOR_REAL_ADDR_NODE c) ≠ none := by
            intro h0
            exact hcond ⟨ha, by simp [h0]⟩
          obtain ⟨x, hx⟩ := Option.ne_none_iff_exists'.1 hsome
          rw [h5, h3.1 _ x hx]
          simp
        · exact h4 ha c1 h5

theorem min_app_mark_step_spec {nodes : List BtorNode} (s : MinAppState) (top : NodeRef)
    (rest : List NodeRef) (hs : s.stack = top :: rest) (hinv : MinAppMarkInv nodes s) :
    MinAppMarkInv nodes (min_app_mark_step nodes s top rest)
      ∧ MarkExt s (min_app_mark_step nodes s top rest)
      ∧ (∀ n, s.aux_mark n ≠ 0 → (min_app_mark_step nodes s top rest).aux_mark n ≠ 0)
      ∧ ∀ n, n ∈ s.stack.map BTOR_REAL_ADDR_NODE →
          (min_app_mark_step nodes s top rest).aux_mark n ≠ 0
            ∨ n ∈ (min_app_mark_step nodes s top rest).stack.map BTOR_REAL_ADDR_NODE := by
  by_cases hm : s.aux_mark (BTOR_REAL_ADDR_NODE top) ≠ 0
  · have hunf : min_app_mark_step nodes s top rest = { s with stack := rest } := by
      simp only [min_app_mark_step, if_pos hm]
    rw [hunf]
    refine ⟨⟨?_, hinv.and_children⟩, MarkExt.refl s, fun _ h => h, ?_⟩
    · intro n hn c hc
      rcases hinv.closure n hn c hc with h1 | h1
      · exact Or.inl h1
      · rw [hs, List.map_cons] at h1
        rcases List.mem_cons.1 h1 with h2 | h2
        · left
          rw [h2]
          exact hm
        · exact Or.inr h2
    · intro n hn
      rw [hs, List.map_cons] at hn
      rcases List.mem_cons.1 hn with h2 | h2
      · left
        rw [h2]
        exact hm
      · exact Or.inr h2
  · set cur := BTOR_REAL_ADDR_NODE top with hcur
    have hunf : min_app_mark_step nodes s top rest
        = min_app_push_children
            (!(get_node nodes cur).parameterized && (get_node nodes cur).kind == BtorNodeKind.AND)
            (get_node nodes cur).e
            { s with
              aux_mark := set_mark s.aux_mark cur 1
              stack := rest
              unmark_stack := cur :: s.unmark_stack } := by
      simp only [min_app_mark_step, if_neg hm, hcur]
    obtain ⟨h1, h2, h3, h4⟩ := min_app_push_children_spec
      (!(get_node nodes cur).parameterized && (get_node nodes cur).kind == BtorNodeKind.AND)
      (get_node nodes cur).e
      { s with
        aux_mark := set_mark s.aux_mark cur 1
        stack := rest
        unmark_stack := cur :: s.unmark_stack }
    rw [hunf]
    have hmark : ∀ n, s.aux_mark n ≠ 0 → set_mark s.aux_mark cur 1 n ≠ 0 := by
      intro n hn
      simp only [set_mark]
      split_ifs
      · omega
      · exact hn
    have hext : MarkExt s (min_app_push_children
        (!(get_node nodes cur).parameterized && (get_node nodes cur).kind == BtorNodeKind.AND)
        (get_node nodes cur).e
        { s with
          aux_mark := set_mark s.aux_mark cur 1
          stack := rest
          unmark_stack := cur :: s.unmark_stack }) := ⟨h3.1, h3.2.1, h3.2.2⟩
    refine ⟨⟨?_, ?_⟩, hext, ?_, ?_⟩
    · intro n hn c hc
      rw [h1] at hn ⊢
      rw [h2]
      by_cases hnc : n = cur
      · right
        rw [hnc] at hc
        exact List.mem_append_left _ (List.mem_reverse.2 hc)
      · have hn0 : s.aux_mark n ≠ 0 := by simpa [set_mark, hnc] using hn
        rcases hinv.closure n hn0 c hc with h5 | h5
        · exact Or.inl (hmark c h5)
        · rw [hs, List.map_cons] at h5
          rcases List.mem_cons.1 h5 with h6 | h6
          · left
            rw [h6]
            simp [set_mark]
          · exact Or.inr (List.mem_append_right _ h6)
    · intro n hn hand c hc
      rw [h1] at hn
      by_cases hnc : n = cur
      · rw [hnc] at hand hc
        obtain ⟨r, hr, hrc⟩ := mem_children.1 hc
        rw [← hrc]
        apply h4 _ r hr
        simp [hand.1, hand.2]
      · have hn0 : s.aux_mark n ≠ 0 := by simpa [set_mark, hnc] using hn
        obtain ⟨x, hx⟩ := Option.ne_none_iff_exists'.1 (hinv.and_children n hn0 hand c hc)
        rw [hext.1 c x hx]
        simp
    · intro n hn
      rw [h1]
      exact hmark n hn
    · intro n hn
      rw [h1, h2]
      rw [hs, List.map_cons] at hn
      rcases List.mem_cons.1 hn with h6 | h6
      · left
        rw [h6]
        simp [set_mark]
      · exact Or.inr (List.mem_append_right _ h6)

theorem min_app_mark_while_spec {nodes : List BtorNode} :
    ∀ (fuel : Nat) (s s1 : MinAppState), MinAppMarkInv nodes s →
      min_app_mark_while nodes fuel s = .ok s1 →
      MinAppMarkInv nodes s1 ∧ s1.stack = [] ∧ MarkExt s s1
        ∧ (∀ n, s.aux_mark n ≠ 0 → s1.aux_mark n ≠ 0)
        ∧ ∀ n, n ∈ s.stack.map BTOR_REAL_ADDR_NODE → s1.aux_mark n ≠ 0 := by
  intro fuel
  induction fuel with
  | zero =>
    intro s s1 hinv hrun
    unfold min_app_mark_while at hrun
    cases hs : s.stack with
    | nil =>
      simp only [hs] at hrun
      cases hrun
      exact ⟨hinv, hs, MarkExt.refl s, fun _ h => h, fun n hn => by simp [hs] at hn⟩
    | cons top rest =>
      simp only [hs] at hrun
      cases hrun
  | succ fuel ih =>
    intro s s1 hinv hrun
    unfold min_app_mark_while at hrun
    cases hs : s.stack with
    | nil =>
      simp only [hs] at hrun
      cases hrun
      exact ⟨hinv, hs, MarkExt.refl s, fun _ h => h, fun n hn => by simp [hs] at hn⟩
    | cons top rest =>
      simp only [hs] at hrun
      obtain ⟨hinv1, hext1, hmono1, hstack1⟩ := min_app_mark_step_spec s top rest hs hinv
      obtain ⟨hinv2, hempty, hext2, hmono2, hstack2⟩ := ih _ s1 hinv1 hrun
      refine ⟨hinv2, hempty, hext1.trans hext2, fun n hn => hmono2 n (hmono1 n hn), ?_⟩
      intro n hn
      rw [← hs] at hn
      rcases hstack1 n hn with h1 | h1
      · exact hmono2 n h1
      · exact hstack2 n h1

theorem min_app_mark_seeds_spec {nodes : List BtorNode} :
    ∀ (seeds : List NodeRef) (s s1 : MinAppState), MinAppMarkInv nodes s → s.stack = [] →
      min_app_mark_seeds nodes seeds s = .ok s1 →
      MinAppMarkInv nodes s1 ∧ s1.stack = [] ∧ MarkExt s s1
        ∧ (∀ n, s.aux_mark n ≠ 0 → s1.aux_mark n ≠ 0)
        ∧ ∀ r ∈ seeds, s1.aux_mark (BTOR_REAL_ADDR_NODE r) ≠ 0 := by
  intro seeds
  induction seeds with
  | nil =>
    intro s s1 hinv hs hrun
    simp only [min_app_mark_seeds] at hrun
    cases hrun
    exact ⟨hinv, hs, MarkExt.refl s, fun _ h => h, fun r hr => by simp at hr⟩
  | cons cur seeds ih =>
    intro s s1 hinv hs hrun
    simp only [min_app_mark_seeds] at hrun
    split at hrun
    · cases hrun
    · rename_i s0 hrun0
      have hinv0 : MinAppMarkInv nodes { s with stack := cur :: s.stack } := by
        refine ⟨fun n hn c hc => ?_, hinv.and_children⟩
        rcases hinv.closure n hn c hc with h1 | h1
        · exact Or.inl h1
        · rw [hs] at h1
          simp at h1
      obtain ⟨hinv1, hempty1, hext1, hmono1, hstack1⟩ :=
        min_app_mark_while_spec _ _ s0 hinv0 hrun0
      obtain ⟨hinv2, hempty2, hext2, hmono2, hseeds2⟩ := ih s0 s1 hinv1 hempty1 hrun
      refine ⟨hinv2, hempty2, MarkExt.trans ⟨hext1.1, hext1.2.1, hext1.2.2⟩ hext2,
        fun n hn => hmono2 n (hmono1 n hn), ?_⟩
      intro r hr
      rcases List.mem_cons.1 hr with h1 | h1
      · rw [h1]
        exact hmono2 _ (hstack1 _ (by simp))
      · exact hseeds2 r h1

theorem reachable_marked {nodes : List BtorNode} {s : MinAppState} (hinv : MinAppMarkInv nodes s)
    (hs : s.stack = []) {n m : Nat} (hn : s.aux_mark n ≠ 0) (hreach : Reachable nodes n m) :
    s.aux_mark m ≠ 0 := by
  induction hreach with
  | refl => exact hn
  | @tail a b _ hstep ih =>
    rcases hinv.closure a ih b hstep with h1 | h1
    · exact h1
    · rw [hs] at h1
      simp at h1

/-! ## Application scores: the second pass -/

theorem ChosenIn.all_le {table : BtorPtrHashTable (Option (List Nat))} {l : List NodeRef}
    {set : List Nat} (h : ChosenIn table l set) :
    ∀ r ∈ l, ∃ t, btor_find_in_ptr_hash_table table (BTOR_REAL_ADDR_NODE r) = some (some t)
      ∧ set.length ≤ t.length := by
  obtain ⟨pre, c, post, hl, hc, hpre, hpost⟩ := h
  intro r hr
  rw [hl] at hr
  rcases List.mem_append.1 hr with h1 | h1
  · obtain ⟨t, ht, hlt⟩ := hpre r h1
    exact ⟨t, ht, le_of_lt hlt⟩
  · rcases List.mem_cons.1 h1 with h2 | h2
    · rw [h2]
      exact ⟨set, hc, le_refl _⟩
    · exact hpost r h2

theorem ChosenIn.congr {table table1 : BtorPtrHashTable (Option (List Nat))} {l : List NodeRef}
    {set : List Nat} (h : ChosenIn table l set)
    (heq : ∀ r ∈ l, ∀ t, btor_find_in_ptr_hash_table table (BTOR_REAL_ADDR_NODE r) = some (some t) →
      btor_find_in_ptr_hash_table table1 (BTOR_REAL_ADDR_NODE r) = some (some t)) :
    ChosenIn table1 l set := by
  obtain ⟨pre, c, post, hl, hc, hpre, hpost⟩ := h
  refine ⟨pre, c, post, hl, heq c (by rw [hl]; simp) _ hc, ?_, ?_⟩
  · intro a ha
    obtain ⟨t, ht, hlt⟩ := hpre a ha
    exact ⟨t, heq a (by rw [hl]; simp [ha]) _ ht, hlt⟩
  · intro b hb
    obtain ⟨t, ht, hlt⟩ := hpost b hb
    exact ⟨t, heq b (by rw [hl]; simp [hb]) _ ht, hlt⟩

theorem min_app_choose_some (table : BtorPtrHashTable (Option (List Nat))) :
    ∀ (l : List NodeRef) (m : List Nat) (r : Option (List Nat)),
      min_app_choose table l (some m) = .ok r →
      ∃ r1, r = some r1
        ∧ ((r1 = m ∧ ∀ b ∈ l, ∃ t, btor_find_in_ptr_hash_table table (BTOR_REAL_ADDR_NODE b)
              = some (some t) ∧ m.length ≤ t.length)
          ∨ (r1.length < m.length ∧ ChosenIn table l r1)) := by
  intro l
  induction l with
  | nil =>
    intro m r hrun
    simp only [min_app_choose] at hrun
    cases hrun
    exact ⟨m, rfl, Or.inl ⟨rfl, fun b hb => by simp at hb⟩⟩
  | cons c rest ih =>
    intro m r hrun
    simp only [min_app_choose] at hrun
    split at hrun
    · cases hrun
    · cases hrun
    · rename_i t ht
      by_cases hlt : t.length < m.length
      · rw [if_pos hlt] at hrun
        obtain ⟨r1, hr1, hcase⟩ := ih t r hrun
        refine ⟨r1, hr1, Or.inr ?_⟩
        rcases hcase with ⟨h1, h2⟩ | ⟨h1, pre, c1, post, hl, hc1, hpre, hpost⟩
        · subst h1
          exact ⟨hlt, [], c, rest, rfl, ht, fun a ha => by simp at ha, h2⟩
        · refine ⟨by omega, c :: pre, c1, post, by rw [hl]; rfl, hc1, ?_, hpost⟩
          intro a ha
          rcases List.mem_cons.1 ha with h3 | h3
          · rw [h3]
            exact ⟨t, ht, h1⟩
          · exact hpre a h3
      · rw [if_neg hlt] at hrun
        obtain ⟨r1, hr1, hcase⟩ := ih m r hrun
        refine ⟨r1, hr1, ?_⟩
        rcases hcase with ⟨h1, h2⟩ | ⟨h1, pre, c1, post, hl, hc1, hpre, hpost⟩
        · left
          refine ⟨h1, ?_⟩
          intro b hb
          rcases List.mem_cons.1 hb with h3 | h3
          · rw [h3]
            exact ⟨t, ht, by omega⟩
          · exact h2 b h3
        · right
          refine ⟨h1, c :: pre, c1, post, by rw [hl]; rfl, hc1, ?_, hpost⟩
          intro a ha
          rcases List.mem_cons.1 ha with h3 | h3
          · rw [h3]
            exact ⟨t, ht, by omega⟩
          · exact hpre a h3

theorem min_app_choose_none (table : BtorPtrHashTable (Option (List Nat))) (l : List NodeRef)
    (r1 : List Nat) (hrun : min_app_choose table l none = .ok (some r1)) :
    ChosenIn table l r1 := by
  cases l with
  | nil =>
    simp only [min_app_choose] at hrun
    cases hrun
  | cons c rest =>
    simp only [min_app_choose] at hrun
    split at hrun
    · cases hrun
    · cases hrun
    · rename_i t ht
      obtain ⟨r2, hr2, hcase⟩ := min_app_choose_some table rest t _ hrun
      have hEq : r1 = r2 := Option.some.inj hr2
      subst hEq
      rcases hcase with ⟨h1, h2⟩ | ⟨h1, pre, c1, post, hl, hc1, hpre, hpost⟩
      · subst h1
        exact ⟨[], c, rest, rfl, ht, fun a ha => by simp at ha, h2⟩
      · refine ⟨c :: pre, c1, post, by rw [hl]; rfl, hc1, ?_, hpost⟩
        intro a ha
        rcases List.mem_cons.1 ha with h3 | h3
        · rw [h3]
          exact ⟨t, ht, h1⟩
        · exact hpre a h3

theorem min_app_copy_eq : ∀ (t in_set r : List Nat), min_app_copy in_set t = .ok r →
    r = in_set ++ t := by
  intro t
  induction t with
  | nil =>
    intro in_set r hrun
    simp only [min_app_copy] at hrun
    cases hrun
    simp
  | cons e rest ih =>
    intro in_set r hrun
    simp only [min_app_copy] at hrun
    split_ifs at hrun
    rw [ih _ _ hrun]
    simp

theorem min_app_search_step_frame (nodes : List BtorNode) (s : MinAppState) (in_set : List Nat)
    (top : NodeRef) (rest : List NodeRef) :
    (min_app_search_step nodes s in_set top rest).1.btor_score = s.btor_score
      ∧ (min_app_search_step nodes s in_set top rest).1.score = s.score := by
  by_cases hm : s.aux_mark (BTOR_REAL_ADDR_NODE top) ≠ 0
  · simp only [min_app_search_step, if_pos hm, and_self]
  · simp only [min_app_search_step, if_neg hm, and_self]

theorem min_app_search_while_frame (nodes : List BtorNode) :
    ∀ (fuel : Nat) (s : MinAppState) (in_set : List Nat) (s1 : MinAppState) (in1 : List Nat),
      min_app_search_while nodes fuel s in_set = .ok (s1, in1) →
      s1.btor_score = s.btor_score ∧ s1.score = s.score := by
  intro fuel
  induction fuel with
  | zero =>
    intro s in_set s1 in1 hrun
    unfold min_app_search_while at hrun
    cases hs : s.stack with
    | nil =>
      simp only [hs] at hrun
      cases hrun
      exact ⟨rfl, rfl⟩
    | cons top rest =>
      simp only [hs] at hrun
      cases hrun
  | succ fuel ih =>
    intro s in_set s1 in1 hrun
    unfold min_app_search_while at hrun
    cases hs : s.stack with
    | nil =>
      simp only [hs] at hrun
      cases hrun
      exact ⟨rfl, rfl⟩
    | cons top rest =>
      simp only [hs] at hrun
      obtain ⟨h1, h2⟩ := ih _ _ s1 in1 hrun
      obtain ⟨h3, h4⟩ := min_app_search_step_frame nodes s in_set top rest
      exact ⟨h1.trans h3, h2.trans h4⟩

theorem min_app_union_frame (nodes : List BtorNode) (cur : Nat) :
    ∀ (l : List NodeRef) (in_set : List Nat) (s s1 : MinAppState),
      min_app_union nodes cur l in_set s = .ok s1 →
      (∀ k, k ≠ cur → btor_find_in_ptr_hash_table s1.btor_score k
          = btor_find_in_ptr_hash_table s.btor_score k)
        ∧ s1.score = s.score
        ∧ (btor_find_in_ptr_hash_table s.btor_score cur = some (some in_set) →
            ∃ set, btor_find_in_ptr_hash_table s1.btor_score cur = some (some set)) := by
  intro l
  induction l with
  | nil =>
    intro in_set s s1 hrun
    simp only [min_app_union] at hrun
    cases hrun
    exact ⟨fun _ _ => rfl, rfl, fun h => ⟨in_set, h⟩⟩
  | cons c rest ih =>
    intro in_set s s1 hrun
    simp only [min_app_union] at hrun
    split at hrun
    · rename_i t ht
      obtain ⟨h1, h2, h3⟩ := ih _ _ s1 hrun
      refine ⟨?_, h2, ?_⟩
      · intro k hk
        rw [h1 k hk]
        simp only
        rw [find_set_bucket_data, if_neg (Ne.symm hk)]
      · intro hcur
        apply h3
        simp only
        rw [find_set_bucket_data, if_pos rfl, hcur]
        rfl
    · split at hrun
      · cases hrun
      · rename_i s0 in1 hsearch
        obtain ⟨hf1, hf2⟩ := min_app_search_while_frame nodes _ _ _ s0 in1 hsearch
        obtain ⟨h1, h2, h3⟩ := ih _ _ s1 hrun
        refine ⟨?_, ?_, ?_⟩
        · intro k hk
          rw [h1 k hk]
          simp only
          rw [find_set_bucket_data, if_neg (Ne.symm hk), hf1]
        · rw [h2]
          exact hf2
        · intro hcur
          apply h3
          simp only
          rw [find_set_bucket_data, if_pos rfl, hf1, hcur]
          rfl

theorem min_app_node_spec (nodes : List BtorNode) (s s1 : MinAppState) (cur : Nat)
    (hrun : min_app_node nodes s cur = .ok s1) :
    btor_find_in_ptr_hash_table s.btor_score cur = some none
      ∧ (∀ k, k ≠ cur → btor_find_in_ptr_hash_table s1.btor_score k
          = btor_find_in_ptr_hash_table s.btor_score k)
      ∧ s1.score = s.score
      ∧ ∃ set, btor_find_in_ptr_hash_table s1.btor_score cur = some (some set)
          ∧ (nonparam_and nodes cur → AndEntryOK nodes s1.btor_score cur set) := by
  unfold min_app_node at hrun
  split at hrun
  · cases hrun
  · cases hrun
  · rename_i hcur
    refine ⟨hcur, ?_⟩
    by_cases hand : !(get_node nodes cur).parameterized ∧ (get_node nodes cur).kind = BtorNodeKind.AND
    · simp only [if_pos hand] at hrun
      split at hrun
      · cases hrun
      · cases hrun
      · rename_i min_t hchoose
        split at hrun
        · cases hrun
        · rename_i in_set hcopy
          have hin : in_set = min_t := by
            rw [min_app_copy_eq _ _ _ hcopy]
            simp
          subst hin
          cases hrun
          have hfind : ∀ k, btor_find_in_ptr_hash_table
              (set_bucket_data (set_bucket_data s.btor_score cur (some [])) cur (some in_set)) k
              = if cur = k then some (some in_set) else btor_find_in_ptr_hash_table s.btor_score k := by
            intro k
            rw [find_set_bucket_data, find_set_bucket_data]
            by_cases hk : cur = k
            · subst hk
              simp [hcur]
            · rw [if_neg hk, if_neg hk, if_neg hk]
          refine ⟨fun k hk => by rw [hfind, if_neg (Ne.symm hk)], rfl, in_set, by
            rw [hfind, if_pos rfl], fun _ => ?_⟩
          have hch := min_app_choose_none _ _ _ hchoose
          apply hch.congr
          intro r hr t ht
          simp only
          rw [hfind]
          by_cases hk : cur = BTOR_REAL_ADDR_NODE r
          · rw [if_pos hk]
            rw [find_set_bucket_data, if_pos hk, ← hk, hcur] at ht
            have ht0 : t = [] := by
              simp at ht
              exact ht
            obtain ⟨t1, ht1, hle⟩ := hch.all_le r hr
            rw [find_set_bucket_data, if_pos hk, ← hk, hcur] at ht1
            have ht10 : t1 = [] := by
              simp at ht1
              exact ht1
            rw [ht10] at hle
            have : in_set = [] := List.length_eq_zero.1 (Nat.le_zero.1 hle)
            rw [this, ht0]
          · rw [if_neg hk]
            rw [find_set_bucket_data, if_neg hk] at ht
            exact ht
    · simp only [if_neg hand] at hrun
      obtain ⟨h1, h2, h3⟩ := min_app_union_frame nodes cur _ _ _ s1 hrun
      refine ⟨?_, h2, ?_⟩
      · intro k hk
        rw [h1 k hk]
        simp only
        rw [find_set_bucket_data, if_neg (Ne.symm hk)]
      · obtain ⟨set, hset⟩ := h3 (by
          simp only
          rw [find_set_bucket_data, if_pos rfl, hcur]
          rfl)
        refine ⟨set, hset, fun hna => ?_⟩
        exfalso
        apply hand
        simp [hna.1, hna.2]

theorem min_app_nodes_spec (nodes : List BtorNode) :
    ∀ (l : List Nat) (s s1 : MinAppState), min_app_nodes nodes l s = .ok s1 →
      (∀ k x, btor_find_in_ptr_hash_table s.btor_score k = some (some x) →
          btor_find_in_ptr_hash_table s1.btor_score k = some (some x))
        ∧ (∀ k, btor_find_in_ptr_hash_table s.btor_score k ≠ none →
            btor_find_in_ptr_hash_table s1.btor_score k ≠ none)
        ∧ (∀ k ∈ l, ∃ set, btor_find_in_ptr_hash_table s1.btor_score k = some (some set))
        ∧ (AppAndOK nodes s.btor_score → AppAndOK nodes s1.btor_score)
        ∧ ∀ k, btor_find_in_ptr_hash_table s.btor_score k = none →
            btor_find_in_ptr_hash_table s1.btor_score k = none := by
  intro l
  induction l with
  | nil =>
    intro s s1 hrun
    simp only [min_app_nodes] at hrun
    cases hrun
    exact ⟨fun _ _ h => h, fun _ h => h, fun k hk => by simp at hk, fun h => h, fun _ h => h⟩
  | cons cur rest ih =>
    intro s s1 hrun
    simp only [min_app_nodes] at hrun
    split at hrun
    · cases hrun
    · rename_i s0 hnode
      obtain ⟨hcur, hframe, _, set, hset, hand⟩ := min_app_node_spec nodes s s0 cur hnode
      obtain ⟨h1, h2, h3, h4, h6⟩ := ih s0 s1 hrun
      have hfilled : ∀ k x, btor_find_in_ptr_hash_table s.btor_score k = some (some x) →
          btor_find_in_ptr_hash_table s0.btor_score k = some (some x) := by
        intro k x hk
        have hne : k ≠ cur := by
          intro h0
          rw [h0, hcur] at hk
          simp at hk
        rw [hframe k hne]
        exact hk
      refine ⟨fun k x hk => h1 k x (hfilled k x hk), ?_, ?_, ?_, ?_⟩
      rotate_left 3
      · intro k hk
        apply h6
        have hkc : k ≠ cur := by
          intro h0
          rw [h0, hcur] at hk
          simp at hk
        rw [hframe k hkc]
        exact hk
      · intro k hk
        apply h2
        by_cases hkc : k = cur
        · rw [hkc, hset]
          simp
        · rw [hframe k hkc]
          exact hk
      · intro k hk
        rcases List.mem_cons.1 hk with h5 | h5
        · rw [h5]
          exact ⟨set, h1 cur set hset⟩
        · exact h3 k h5
      · intro hok
        apply h4
        intro n set1 hn hf
        by_cases hnc : n = cur
        · rw [hnc] at hf hn ⊢
          rw [hset] at hf
          have hEq : set = set1 := Option.some.inj (Option.some.inj hf)
          rw [← hEq]
          exact hand hn
        · rw [hframe n hnc] at hf
          exact (hok n set1 hn hf).congr (fun r _ t ht => hfilled _ t ht)

theorem marks_unset_of_check {nodes : List BtorNode} {m : Nat → Nat}
    (h : check_id_table_aux_mark_unset_dbg nodes m = true) (n : Nat) (hn : n < nodes.length) :
    m n = 0 := by
  simp only [check_id_table_aux_mark_unset_dbg, List.all_eq_true, List.mem_range,
    beq_iff_eq] at h
  exact h n hn

theorem mem_qsort_by_id_asc (l : List Nat) (k : Nat) : k ∈ qsort_by_id_asc l ↔ k ∈ l :=
  (List.perm_insertionSort _ l).mem_iff

theorem compute_scores_aux_min_app_spec (btor btor1 : Btor) (it : List NodeRef)
    (hh : btor.just_heuristic ≠ JustHeur.NONE)
    (hrun : compute_scores_aux_min_app btor it = .ok btor1) :
    ∃ table, btor1.score = some table
      ∧ (∀ k x, btor_find_in_ptr_hash_table (btor.score.getD []) k = some (some x) →
          btor_find_in_ptr_hash_table table k = some (some x))
      ∧ (AppAndOK btor.nodes (btor.score.getD []) → AppAndOK btor.nodes table)
      ∧ (∀ r ∈ it, ∀ n, Reachable btor.nodes (BTOR_REAL_ADDR_NODE r) n →
          nonparam_and btor.nodes n → ∀ c ∈ children btor.nodes n,
            btor_find_in_ptr_hash_table table c ≠ none)
      ∧ ∀ k, btor_find_in_ptr_hash_table table k ≠ none →
          btor_find_in_ptr_hash_table (btor.score.getD []) k ≠ none
            ∨ ∃ set, btor_find_in_ptr_hash_table table k = some (some set) := by
  unfold compute_scores_aux_min_app at hrun
  by_cases hcheck : check_id_table_aux_mark_unset_dbg btor.nodes btor.aux_mark = true
  · simp only [hcheck, Bool.not_true, Bool.false_eq_true, if_false, if_neg hh] at hrun
    split at hrun
    · cases hrun
    · rename_i s1 hpass1
      split at hrun
      · cases hrun
      · rename_i s2 hpass2
        cases hrun
        have hinv0 : MinAppMarkInv btor.nodes
            { aux_mark := btor.aux_mark
              btor_score := btor.score.getD []
              stack := []
              unmark_stack := []
              score := [] } := by
          have hnone : ∀ n, btor.aux_mark n ≠ 0 → children btor.nodes n = [] := by
            intro n hn
            have hge : btor.nodes.length ≤ n := by
              by_contra hlt
              exact hn (marks_unset_of_check hcheck n (Nat.lt_of_not_le hlt))
            simp [children, get_node_of_ge hge]
          refine ⟨fun n hn c hc => ?_, fun n hn _ c hc => ?_⟩
          · rw [hnone n hn] at hc
            simp at hc
          · rw [hnone n hn] at hc
            simp at hc
        obtain ⟨hinv1, hempty1, hext1, _, hseeds1⟩ :=
          min_app_mark_seeds_spec it _ s1 hinv0 rfl hpass1
        obtain ⟨hfill2, hkeys2, hall2, hand2, hnone2⟩ :=
          min_app_nodes_spec btor.nodes _ _ s2 hpass2
        refine ⟨s2.btor_score, rfl, ?_, ?_, ?_, ?_⟩
        · intro k x hk
          exact hfill2 k x (hext1.1 k _ hk)
        · intro hok
          apply hand2
          intro n set hn hf
          rcases hext1.2.2 n (by rw [hf]; simp) with h1 | h1
          · obtain ⟨x, hx⟩ := Option.ne_none_iff_exists'.1 h1
            have hx1 := hext1.1 n x hx
            rw [hf] at hx1
            have hEq : some set = x := Option.some.inj hx1
            rw [← hEq] at hx
            exact (hok n set hn hx).congr (fun r _ t ht => hext1.1 _ _ ht)
          · rw [hf] at h1
            simp at h1
        · intro r hr n hreach hn c hc
          apply hkeys2
          exact hinv1.and_children n (reachable_marked hinv1 hempty1 (hseeds1 r hr) hreach) hn c hc
        · intro k hk
          by_cases hk1 : btor_find_in_ptr_hash_table s1.btor_score k = none
          · exact absurd (hnone2 k hk1) hk
          · rcases hext1.2.2 k hk1 with h1 | h1
            · exact Or.inl h1
            · right
              apply hall2
              rw [mem_qsort_by_id_asc]
              exact List.mem_reverse.2 h1.1
  · simp only [hcheck, Bool.not_false, if_true] at hrun
    cases hrun


/-! ## Application scores: the traversal loops never run out of fuel -/

theorem min_app_mark_step_fuel {nodes : List BtorNode} (hwf : WellFormedNodes nodes)
    (s : MinAppState) (top : NodeRef) (rest : List NodeRef) (hs : s.stack = top :: rest)
    (hbound : ∀ n ∈ s.stack.map BTOR_REAL_ADDR_NODE, n < nodes.length) :
    (∀ n ∈ (min_app_mark_step nodes s top rest).stack.map BTOR_REAL_ADDR_NODE, n < nodes.length)
      ∧ dfs_fuel nodes (min_app_mark_step nodes s top rest).aux_mark
          (min_app_mark_step nodes s top rest).stack < dfs_fuel nodes s.aux_mark s.stack := by
  have hrest : ∀ n ∈ rest.map BTOR_REAL_ADDR_NODE, n < nodes.length := by
    intro n hn
    apply hbound
    rw [hs, List.map_cons]
    exact List.mem_cons_of_mem _ hn
  by_cases hm : s.aux_mark (BTOR_REAL_ADDR_NODE top) ≠ 0
  · have hunf : min_app_mark_step nodes s top rest = { s with stack := rest } := by
      simp only [min_app_mark_step, if_pos hm]
    rw [hunf]
    refine ⟨hrest, ?_⟩
    simp only [dfs_fuel_eq, hs, List.length_cons]
    omega
  · set cur := BTOR_REAL_ADDR_NODE top with hcur
    have hcurlt : cur < nodes.length := hbound cur (by rw [hs]; simp [hcur])
    have hunf : min_app_mark_step nodes s top rest
        = min_app_push_children
            (!(get_node nodes cur).parameterized && (get_node nodes cur).kind == BtorNodeKind.AND)
            (get_node nodes cur).e
            { s with
              aux_mark := set_mark s.aux_mark cur 1
              stack := rest
              unmark_stack := cur :: s.unmark_stack } := by
      simp only [min_app_mark_step, if_neg hm, hcur]
    obtain ⟨h1, h2, _, _⟩ := min_app_push_children_spec
      (!(get_node nodes cur).parameterized && (get_node nodes cur).kind == BtorNodeKind.AND)
      (get_node nodes cur).e
      { s with
        aux_mark := set_mark s.aux_mark cur 1
        stack := rest
        unmark_stack := cur :: s.unmark_stack }
    rw [hunf]
    refine ⟨?_, ?_⟩
    · intro n hn
      rw [h2] at hn
      rcases List.mem_append.1 hn with h3 | h3
      · exact hwf.1 cur n (List.mem_reverse.1 h3)
      · exact hrest n h3
    · have hlen := congrArg List.length h2
      simp only [List.length_map, List.length_append, List.length_reverse] at hlen
      have hsum := fuel_sum_mark_zero nodes s.aux_mark cur 1 hcurlt (by simpa using hm)
        (by omega)
      simp only [BtorNode.arity] at hsum
      rw [dfs_fuel_eq, dfs_fuel_eq, h1, hlen, hs]
      simp only [List.length_cons]
      omega

theorem min_app_mark_while_total {nodes : List BtorNode} (hwf : WellFormedNodes nodes) :
    ∀ (fuel : Nat) (s : MinAppState),
      (∀ n ∈ s.stack.map BTOR_REAL_ADDR_NODE, n < nodes.length) →
      dfs_fuel nodes s.aux_mark s.stack ≤ fuel →
      ∃ s1, min_app_mark_while nodes fuel s = .ok s1 := by
  intro fuel
  induction fuel with
  | zero =>
    intro s _ hfuel
    cases hs : s.stack with
    | nil =>
      refine ⟨s, ?_⟩
      unfold min_app_mark_while
      simp only [hs]
    | cons top rest =>
      simp only [dfs_fuel_eq, hs, List.length_cons] at hfuel
      omega
  | succ fuel ih =>
    intro s hbound hfuel
    cases hs : s.stack with
    | nil =>
      refine ⟨s, ?_⟩
      unfold min_app_mark_while
      simp only [hs]
    | cons top rest =>
      obtain ⟨hb1, hlt⟩ := min_app_mark_step_fuel hwf s top rest hs hbound
      obtain ⟨s1, hrun⟩ := ih _ hb1 (by omega)
      refine ⟨s1, ?_⟩
      unfold min_app_mark_while
      simp only [hs]
      exact hrun

theorem min_app_mark_while_stack {nodes : List BtorNode} :
    ∀ (fuel : Nat) (s s1 : MinAppState), min_app_mark_while nodes fuel s = .ok s1 →
      s1.stack = [] := by
  intro fuel
  induction fuel with
  | zero =>
    intro s s1 hrun
    unfold min_app_mark_while at hrun
    cases hs : s.stack with
    | nil =>
      simp only [hs] at hrun
      cases hrun
      exact hs
    | cons top rest =>
      simp only [hs] at hrun
      cases hrun
  | succ fuel ih =>
    intro s s1 hrun
    unfold min_app_mark_while at hrun
    cases hs : s.stack with
    | nil =>
      simp only [hs] at hrun
      cases hrun
      exact hs
    | cons top rest =>
      simp only [hs] at hrun
      exact ih _ s1 hrun

theorem min_app_mark_seeds_total {nodes : List BtorNode} (hwf : WellFormedNodes nodes) :
    ∀ (seeds : List NodeRef) (s : MinAppState), s.stack = [] →
      (∀ r ∈ seeds, BTOR_REAL_ADDR_NODE r < nodes.length) →
      ∃ s1, min_app_mark_seeds nodes seeds s = .ok s1 ∧ s1.stack = [] := by
  intro seeds
  induction seeds with
  | nil =>
    intro s hs _
    exact ⟨s, rfl, hs⟩
  | cons cur seeds ih =>
    intro s hs hseeds
    obtain ⟨s0, hrun0⟩ := min_app_mark_while_total hwf
      (dfs_fuel nodes s.aux_mark (cur :: s.stack)) { s with stack := cur :: s.stack }
      (by
        intro n hn
        simp only [hs, List.map_cons, List.map_nil, List.mem_singleton] at hn
        rw [hn]
        exact hseeds cur (List.mem_cons_self _ _))
      (le_refl _)
    obtain ⟨s1, hrun1, hs1⟩ := ih s0 (min_app_mark_while_stack _ _ s0 hrun0)
      (fun r hr => hseeds r (List.mem_cons_of_mem _ hr))
    refine ⟨s1, ?_, hs1⟩
    simp only [min_app_mark_seeds, hrun0]
    exact hrun1

theorem min_app_search_step_fuel {nodes : List BtorNode} (hwf : WellFormedNodes nodes)
    (s : MinAppState) (in_set : List Nat) (top : NodeRef) (rest : List NodeRef)
    (hs : s.stack = top :: rest)
    (hbound : ∀ n ∈ s.stack.map BTOR_REAL_ADDR_NODE, n < nodes.length) :
    (∀ n ∈ (min_app_search_step nodes s in_set top rest).1.stack.map BTOR_REAL_ADDR_NODE,
        n < nodes.length)
      ∧ dfs_fuel nodes (min_app_search_step nodes s in_set top rest).1.aux_mark
          (min_app_search_step nodes s in_set top rest).1.stack
          < dfs_fuel nodes s.aux_mark s.stack := by
  have hrest : ∀ n ∈ rest.map BTOR_REAL_ADDR_NODE, n < nodes.length := by
    intro n hn
    apply hbound
    rw [hs, List.map_cons]
    exact List.mem_cons_of_mem _ hn
  by_cases hm : s.aux_mark (BTOR_REAL_ADDR_NODE top) ≠ 0
  · simp only [min_app_search_step, if_pos hm]
    refine ⟨hrest, ?_⟩
    simp only [dfs_fuel_eq, hs, List.length_cons]
    omega
  · have hcurlt : BTOR_REAL_ADDR_NODE top < nodes.length :=
      hbound (BTOR_REAL_ADDR_NODE top) (by rw [hs]; simp)
    simp only [min_app_search_step, if_neg hm]
    refine ⟨?_, ?_⟩
    · intro n hn
      rw [List.map_append, List.map_reverse] at hn
      rcases List.mem_append.1 hn with h3 | h3
      · exact hwf.1 (BTOR_REAL_ADDR_NODE top) n (List.mem_reverse.1 h3)
      · exact hrest n h3
    · have hsum := fuel_sum_mark_zero nodes s.aux_mark (BTOR_REAL_ADDR_NODE top) 1 hcurlt
        (by simpa using hm) (by omega)
      simp only [BtorNode.arity] at hsum
      simp only [dfs_fuel_eq, hs, List.length_cons, List.length_append, List.length_reverse]
      omega

theorem min_app_search_while_total {nodes : List BtorNode} (hwf : WellFormedNodes nodes) :
    ∀ (fuel : Nat) (s : MinAppState) (in_set : List Nat),
      (∀ n ∈ s.stack.map BTOR_REAL_ADDR_NODE, n < nodes.length) →
      dfs_fuel nodes s.aux_mark s.stack ≤ fuel →
      ∃ s1 in1, min_app_search_while nodes fuel s in_set = .ok (s1, in1) ∧ s1.stack = [] := by
  intro fuel
  induction fuel with
  | zero =>
    intro s in_set _ hfuel
    cases hs : s.stack with
    | nil =>
      refine ⟨s, in_set, ?_, hs⟩
      unfold min_app_search_while
      simp only [hs]
    | cons top rest =>
      simp only [dfs_fuel_eq, hs, List.length_cons] at hfuel
      omega
  | succ fuel ih =>
    intro s in_set hbound hfuel
    cases hs : s.stack with
    | nil =>
      refine ⟨s, in_set, ?_, hs⟩
      unfold min_app_search_while
      simp only [hs]
    | cons top rest =>
      obtain ⟨hb1, hlt⟩ := min_app_search_step_fuel hwf s in_set top rest hs hbound
      obtain ⟨s1, in1, hrun, hs1⟩ := ih _ (min_app_search_step nodes s in_set top rest).2 hb1
        (by omega)
      refine ⟨s1, in1, ?_, hs1⟩
      unfold min_app_search_while
      simp only [hs]
      exact hrun

theorem min_app_union_total {nodes : List BtorNode} (hwf : WellFormedNodes nodes) (cur : Nat) :
    ∀ (l : List NodeRef) (in_set : List Nat) (s : MinAppState), s.stack = [] →
      (∀ c ∈ l, BTOR_REAL_ADDR_NODE c < nodes.length) →
      ∃ s1, min_app_union nodes cur l in_set s = .ok s1 ∧ s1.stack = [] := by
  intro l
  induction l with
  | nil =>
    intro in_set s hs _
    exact ⟨s, rfl, hs⟩
  | cons c rest ih =>
    intro in_set s hs hl
    have hrest : ∀ c1 ∈ rest, BTOR_REAL_ADDR_NODE c1 < nodes.length :=
      fun c1 hc1 => hl c1 (List.mem_cons_of_mem _ hc1)
    have hsearch : ∃ s0 in1, min_app_search_while nodes
        (dfs_fuel nodes s.aux_mark (⟨BTOR_REAL_ADDR_NODE c, false⟩ :: s.stack))
        { s with stack := ⟨BTOR_REAL_ADDR_NODE c, false⟩ :: s.stack } in_set = .ok (s0, in1)
        ∧ s0.stack = [] := by
      apply min_app_search_while_total hwf
      · intro n hn
        simp only [hs, List.map_cons, List.map_nil, List.mem_singleton] at hn
        rw [hn]
        exact hl c (List.mem_cons_self _ _)
      · exact le_refl _
    obtain ⟨s0, in1, hrun0, hs0⟩ := hsearch
    cases hf : btor_find_in_ptr_hash_table s.btor_score (BTOR_REAL_ADDR_NODE c) with
    | none =>
      obtain ⟨s1, hrun1, hs1⟩ := ih in1
        { s0 with
          aux_mark := reset_marks s0.aux_mark s0.unmark_stack
          unmark_stack := []
          btor_score := set_bucket_data s0.btor_score cur (some in1) } hs0 hrest
      refine ⟨s1, ?_, hs1⟩
      simp only [min_app_union, hf, hrun0]
      exact hrun1
    | some o =>
      cases o with
      | none =>
        obtain ⟨s1, hrun1, hs1⟩ := ih in1
          { s0 with
            aux_mark := reset_marks s0.aux_mark s0.unmark_stack
            unmark_stack := []
            btor_score := set_bucket_data s0.btor_score cur (some in1) } hs0 hrest
        refine ⟨s1, ?_, hs1⟩
        simp only [min_app_union, hf, hrun0]
        exact hrun1
      | some t =>
        obtain ⟨s1, hrun1, hs1⟩ := ih (min_app_merge in_set t)
          { s with btor_score := set_bucket_data s.btor_score cur (some (min_app_merge in_set t)) }
          hs hrest
        refine ⟨s1, ?_, hs1⟩
        simp only [min_app_union, hf]
        exact hrun1

theorem min_app_choose_fault (table : BtorPtrHashTable (Option (List Nat))) :
    ∀ (l : List NodeRef) (m : Option (List Nat)) (f : BtorFault),
      min_app_choose table l m = .error f → f = BtorFault.assertion := by
  intro l
  induction l with
  | nil =>
    intro m f hrun
    simp only [min_app_choose] at hrun
    cases hrun
  | cons c rest ih =>
    intro m f hrun
    simp only [min_app_choose] at hrun
    split at hrun
    · cases hrun; rfl
    · cases hrun; rfl
    · split at hrun
      · exact ih _ f hrun
      · split_ifs at hrun
        · exact ih _ f hrun
        · exact ih _ f hrun

theorem min_app_copy_fault : ∀ (t in_set : List Nat) (f : BtorFault),
    min_app_copy in_set t = .error f → f = BtorFault.assertion := by
  intro t
  induction t with
  | nil =>
    intro in_set f hrun
    simp only [min_app_copy] at hrun
    cases hrun
  | cons e rest ih =>
    intro in_set f hrun
    simp only [min_app_copy] at hrun
    split_ifs at hrun
    · cases hrun; rfl
    · exact ih _ f hrun

theorem min_app_node_total {nodes : List BtorNode} (hwf : WellFormedNodes nodes)
    (s : MinAppState) (cur : Nat) (hs : s.stack = []) :
    (∃ s1, min_app_node nodes s cur = .ok s1 ∧ s1.stack = [])
      ∨ min_app_node nodes s cur = .error BtorFault.assertion := by
  unfold min_app_node
  split
  · exact Or.inr rfl
  · exact Or.inr rfl
  · by_cases hand : !(get_node nodes cur).parameterized ∧ (get_node nodes cur).kind = BtorNodeKind.AND
    · simp only [if_pos hand]
      split
      · rename_i f hchoose
        rw [min_app_choose_fault _ _ _ f hchoose]
        exact Or.inr rfl
      · exact Or.inr rfl
      · split
        · rename_i f hcopy
          rw [min_app_copy_fault _ _ f hcopy]
          exact Or.inr rfl
        · exact Or.inl ⟨_, rfl, hs⟩
    · simp only [if_neg hand]
      left
      exact min_app_union_total hwf cur (get_node nodes cur).e []
        { s with btor_score := set_bucket_data s.btor_score cur (some []) } hs
        (fun c hc => hwf.1 cur _ (mem_children.2 ⟨c, hc, rfl⟩))

theorem min_app_nodes_total {nodes : List BtorNode} (hwf : WellFormedNodes nodes) :
    ∀ (l : List Nat) (s : MinAppState), s.stack = [] →
      (∃ s1, min_app_nodes nodes l s = .ok s1)
        ∨ min_app_nodes nodes l s = .error BtorFault.assertion := by
  intro l
  induction l with
  | nil =>
    intro s _
    exact Or.inl ⟨s, rfl⟩
  | cons cur rest ih =>
    intro s hs
    rcases min_app_node_total hwf s cur hs with ⟨s0, hrun0, hs0⟩ | herr
    · rcases ih s0 hs0 with ⟨s1, hrun1⟩ | herr1
      · left
        refine ⟨s1, ?_⟩
        simp only [min_app_nodes, hrun0]
        exact hrun1
      · right
        simp only [min_app_nodes, hrun0]
        exact herr1
    · right
      simp only [min_app_nodes, herr]

/-- The application scorer completes or stops at a failed assertion; the fuel of its traversal
loops is never used up. -/
theorem compute_scores_aux_min_app_total (btor : Btor) (it : List NodeRef)
    (hwf : WellFormedNodes btor.nodes)
    (hit : ∀ r ∈ it, BTOR_REAL_ADDR_NODE r < btor.nodes.length) :
    (∃ btor1, compute_scores_aux_min_app btor it = .ok btor1)
      ∨ compute_scores_aux_min_app btor it = .error BtorFault.assertion := by
  unfold compute_scores_aux_min_app
  split_ifs
  · exact Or.inr rfl
  · exact Or.inl ⟨btor, rfl⟩
  · obtain ⟨s1, hrun1, hs1⟩ := min_app_mark_seeds_total hwf it
      { aux_mark := btor.aux_mark
        btor_score := btor.score.getD []
        stack := []
        unmark_stack := []
        score := [] } rfl hit
    simp only [hrun1]
    rcases min_app_nodes_total hwf (qsort_by_id_asc s1.score.reverse)
        { s1 with
          aux_mark := reset_marks s1.aux_mark s1.unmark_stack
          unmark_stack := [] } hs1 with ⟨s2, hrun2⟩ | herr
    · left
      simp only [hrun2]
      exact ⟨_, rfl⟩
    · right
      simp only [herr]

/-! ## Runs on the examples -/

theorem compute_scores_frame {btor btor1 : Btor} (h : btor_compute_scores btor = .ok btor1) :
    btor1.nodes = btor.nodes ∧ btor1.just_heuristic = btor.just_heuristic
      ∧ btor1.synthesized_constraints = btor.synthesized_constraints
      ∧ btor1.assumptions = btor.assumptions := by
  unfold btor_compute_scores compute_scores_aux at h
  split at h
  · cases h; exact ⟨rfl, rfl, rfl, rfl⟩
  all_goals
    first
    | (unfold compute_scores_aux_min_app at h
       split_ifs at h
       · cases h; exact ⟨rfl, rfl, rfl, rfl⟩
       · split at h
         · cases h
         · split at h
           · cases h
           · cases h; exact ⟨rfl, rfl, rfl, rfl⟩)
    | (unfold compute_scores_aux_min_dep at h
       split_ifs at h
       · cases h; exact ⟨rfl, rfl, rfl, rfl⟩
       · split at h
         · cases h
         · cases h; exact ⟨rfl, rfl, rfl, rfl⟩)

theorem exBtor_min_app_run :
    ∃ btor1, btor_compute_scores (exBtor JustHeur.BRANCH_MIN_APP) = .ok btor1
      ∧ btor1.score = some [(0, some []), (3, some [])]
      ∧ btor1.just_heuristic = JustHeur.BRANCH_MIN_APP := by
  cases hrun : btor_compute_scores (exBtor JustHeur.BRANCH_MIN_APP) with
  | error f =>
    have h1 : (btor_compute_scores (exBtor JustHeur.BRANCH_MIN_APP)).toOption.isSome = true := by
      decide
    rw [hrun] at h1
    simp [Except.toOption] at h1
  | ok btor1 =>
    have h1 : (btor_compute_scores (exBtor JustHeur.BRANCH_MIN_APP)).toOption.map
        (fun b => b.score) = some (some [(0, some []), (3, some [])]) := by
      decide
    rw [hrun] at h1
    exact ⟨btor1, rfl, by simpa [Except.toOption] using h1, (compute_scores_frame hrun).2.1⟩

theorem exBtor_min_dep_bvskel_run :
    ∃ btor1, btor_compute_scores (exBtor JustHeur.BRANCH_MIN_DEP_BVSKEL) = .ok btor1
      ∧ btor1.score_depth = some [(3, 1), (0, 1), (4, 2), (6, 1)]
      ∧ btor1.just_heuristic = JustHeur.BRANCH_MIN_DEP_BVSKEL := by
  cases hrun : btor_compute_scores (exBtor JustHeur.BRANCH_MIN_DEP_BVSKEL) with
  | error f =>
    have h1 : (btor_compute_scores (exBtor JustHeur.BRANCH_MIN_DEP_BVSKEL)).toOption.isSome
        = true := by
      decide
    rw [hrun] at h1
    simp [Except.toOption] at h1
  | ok btor1 =>
    have h1 : (btor_compute_scores (exBtor JustHeur.BRANCH_MIN_DEP_BVSKEL)).toOption.map
        (fun b => b.score_depth) = some (some [(3, 1), (0, 1), (4, 2), (6, 1)]) := by
      decide
    rw [hrun] at h1
    exact ⟨btor1, rfl, by simpa [Except.toOption] using h1, (compute_scores_frame hrun).2.1⟩

theorem andBtor_min_app_run :
    ∃ btor1, btor_compute_scores (andBtor JustHeur.BRANCH_MIN_APP) = .ok btor1
      ∧ btor1.score = some [(7, some [2]), (8, some []), (3, some [2]), (6, some [5, 2])] := by
  cases hrun : btor_compute_scores (andBtor JustHeur.BRANCH_MIN_APP) with
  | error f =>
    have h1 : (btor_compute_scores (andBtor JustHeur.BRANCH_MIN_APP)).toOption.isSome = true := by
      decide
    rw [hrun] at h1
    simp [Except.toOption] at h1
  | ok btor1 =>
    have h1 : (btor_compute_scores (andBtor JustHeur.BRANCH_MIN_APP)).toOption.map
        (fun b => b.score)
          = some (some [(7, some [2]), (8, some []), (3, some [2]), (6, some [5, 2])]) := by
      decide
    rw [hrun] at h1
    exact ⟨btor1, rfl, by simpa [Except.toOption] using h1⟩

theorem appAndOK_of_empty (nodes : List BtorNode)
    {t : Option (BtorPtrHashTable (Option (List Nat)))} (h : t = none ∨ t = some []) :
    AppAndOK nodes (t.getD []) := by
  rw [getD_of_empty h]
  intro n set _ hf
  simp [btor_find_in_ptr_hash_table] at hf

/-! ## C3 to C7: the application table after `btor_compute_scores` -/

/-- C3: after a completed `btor_compute_scores` under MIN_APP, every non-parameterized AND node
with a set in the application table has exactly the set of one child: the child whose set has
the fewest elements, the leftmost such child when several tie. The table before the call is
empty, absent, or left by earlier calls (it has the same property). -/
theorem and_entry_is_leftmost_min_child (btor btor1 : Btor)
    (hh : btor.just_heuristic = JustHeur.BRANCH_MIN_APP)
    (hinit : AppAndOK btor.nodes (btor.score.getD []))
    (hrun : btor_compute_scores btor = .ok btor1) :
    ∃ table, btor1.score = some table
      ∧ ∀ n set, nonparam_and btor.nodes n →
          btor_find_in_ptr_hash_table table n = some (some set) →
          ∃ pre c post, (get_node btor.nodes n).e = pre ++ c :: post
            ∧ btor_find_in_ptr_hash_table table (BTOR_REAL_ADDR_NODE c) = some (some set)
            ∧ (∀ a ∈ pre, ∃ t,
                btor_find_in_ptr_hash_table table (BTOR_REAL_ADDR_NODE a) = some (some t)
                  ∧ set.length < t.length)
            ∧ ∀ b ∈ post, ∃ t,
                btor_find_in_ptr_hash_table table (BTOR_REAL_ADDR_NODE b) = some (some t)
                  ∧ set.length ≤ t.length := by
  have hne : btor.just_heuristic ≠ JustHeur.NONE := by simp [hh]
  simp only [btor_compute_scores, compute_scores_aux, hh] at hrun
  obtain ⟨table, htable, _, hand, _, _⟩ := compute_scores_aux_min_app_spec btor btor1 _ hne hrun
  exact ⟨table, htable, fun n set hn hf => hand hinit n set hn hf⟩

theorem and_entry_is_leftmost_min_child_witness :
    ∃ btor1, btor_compute_scores (andBtor JustHeur.BRANCH_MIN_APP) = .ok btor1
      ∧ ∃ table, btor1.score = some table
        ∧ ∀ n set, nonparam_and andNodes n →
            btor_find_in_ptr_hash_table table n = some (some set) →
            ∃ pre c post, (get_node andNodes n).e = pre ++ c :: post
              ∧ btor_find_in_ptr_hash_table table (BTOR_REAL_ADDR_NODE c) = some (some set)
              ∧ (∀ a ∈ pre, ∃ t,
                  btor_find_in_ptr_hash_table table (BTOR_REAL_ADDR_NODE a) = some (some t)
                    ∧ set.length < t.length)
              ∧ ∀ b ∈ post, ∃ t,
                  btor_find_in_ptr_hash_table table (BTOR_REAL_ADDR_NODE b) = some (some t)
                    ∧ set.length ≤ t.length :=
  andBtor_min_app_run.elim fun btor1 h =>
    ⟨btor1, h.1, and_entry_is_leftmost_min_child (andBtor JustHeur.BRANCH_MIN_APP) btor1 rfl
      (appAndOK_of_empty andNodes (Or.inl rfl)) h.1⟩

/-- C4, at the failing input: in the example, `APPLY(f,x)` (id `3`) is a non-parameterized APPLY
node with an entry in the application table, and its set is empty, so the node is not a member
of its own set. -/
theorem apply_entry_lacks_itself :
    ∃ btor1 table, btor_compute_scores (exBtor JustHeur.BRANCH_MIN_APP) = .ok btor1
      ∧ btor1.score = some table
      ∧ (get_node exNodes 3).kind = BtorNodeKind.APPLY
      ∧ (get_node exNodes 3).parameterized = false
      ∧ btor_find_in_ptr_hash_table table 3 = some (some []) := by
  obtain ⟨btor1, hrun, hscore, _⟩ := exBtor_min_app_run
  exact ⟨btor1, _, hrun, hscore, by decide, by decide, by decide⟩

/-- C5, counterexample: in the example the seed `c1` (id `4`) is reachable from itself and has
no entry in the application table after `btor_compute_scores` under MIN_APP. -/
theorem seed_without_and_parent_has_no_entry :
    ∃ btor1 table, btor_compute_scores (exBtor JustHeur.BRANCH_MIN_APP) = .ok btor1
      ∧ btor1.score = some table
      ∧ (⟨4, false⟩ : NodeRef) ∈ (exBtor JustHeur.BRANCH_MIN_APP).synthesized_constraints
          ++ (exBtor JustHeur.BRANCH_MIN_APP).assumptions
      ∧ Reachable exNodes (BTOR_REAL_ADDR_NODE ⟨4, false⟩) 4
      ∧ btor_find_in_ptr_hash_table table 4 = none := by
  obtain ⟨btor1, hrun, hscore, _⟩ := exBtor_min_app_run
  exact ⟨btor1, _, hrun, hscore, by decide, Relation.ReflTransGen.refl, by decide⟩

/-- C5, amended: after a completed `btor_compute_scores` under MIN_APP on an empty application
table, every sign-stripped child of a non-parameterized AND node that is reachable from a seed
has an entry with a set in the application table. -/
theorem and_children_have_app_entry (btor btor1 : Btor)
    (hh : btor.just_heuristic = JustHeur.BRANCH_MIN_APP)
    (hempty : btor.score = none ∨ btor.score = some [])
    (hrun : btor_compute_scores btor = .ok btor1) :
    ∃ table, btor1.score = some table
      ∧ ∀ r ∈ btor.synthesized_constraints ++ btor.assumptions, ∀ n,
          Reachable btor.nodes (BTOR_REAL_ADDR_NODE r) n → nonparam_and btor.nodes n →
          ∀ c ∈ children btor.nodes n,
            ∃ set, btor_find_in_ptr_hash_table table c = some (some set) := by
  have hne : btor.just_heuristic ≠ JustHeur.NONE := by simp [hh]
  simp only [btor_compute_scores, compute_scores_aux, hh] at hrun
  obtain ⟨table, htable, _, _, hkeys, hfilled⟩ :=
    compute_scores_aux_min_app_spec btor btor1 _ hne hrun
  refine ⟨table, htable, fun r hr n hreach hn c hc => ?_⟩
  rcases hfilled c (hkeys r hr n hreach hn c hc) with h1 | h1
  · rw [getD_of_empty hempty] at h1
    simp [btor_find_in_ptr_hash_table] at h1
  · exact h1

theorem and_children_have_app_entry_witness :
    ∃ btor1, btor_compute_scores (andBtor JustHeur.BRANCH_MIN_APP) = .ok btor1
      ∧ ∃ table, btor1.score = some table
        ∧ ∀ r ∈ [(⟨9, false⟩ : NodeRef)] ++ [], ∀ n,
            Reachable andNodes (BTOR_REAL_ADDR_NODE r) n → nonparam_and andNodes n →
            ∀ c ∈ children andNodes n,
              ∃ set, btor_find_in_ptr_hash_table table c = some (some set) :=
  andBtor_min_app_run.elim fun btor1 h =>
    ⟨btor1, h.1, and_children_have_app_entry (andBtor JustHeur.BRANCH_MIN_APP) btor1 rfl
      (Or.inl rfl) h.1⟩

/-- C6, counterexample: in the example the application table after `btor_compute_scores` under
MIN_APP is not the one the spec expects, with `v1`, `APPLY(f,x)`, `c1`, `c2` mapped to `{}`,
`{APPLY(f,x)}`, `{}`, `{APPLY(f,y)}`. -/
theorem example_table_differs_from_spec :
    ¬ ∃ btor1 table, btor_compute_scores (exBtor JustHeur.BRANCH_MIN_APP) = .ok btor1
      ∧ btor1.score = some table
      ∧ btor_find_in_ptr_hash_table table 0 = some (some [])
      ∧ btor_find_in_ptr_hash_table table 3 = some (some [3])
      ∧ btor_find_in_ptr_hash_table table 4 = some (some [])
      ∧ btor_find_in_ptr_hash_table table 6 = some (some [6]) := by
  rintro ⟨btor1, table, hrun, hscore, _, _, h4, _⟩
  obtain ⟨btor2, hrun2, hscore2, _⟩ := exBtor_min_app_run
  rw [hrun] at hrun2
  have hEq : btor1 = btor2 := Except.ok.inj hrun2
  rw [← hEq, hscore] at hscore2
  have hEq2 := Option.some.inj hscore2
  rw [hEq2] at h4
  revert h4
  decide

/-- C6, amended: in the example, after `btor_compute_scores` under MIN_APP on an empty table the
table holds the empty set for `v1` and a set for `APPLY(f,x)`, and it has no entry for the seeds
`c1` and `c2`, which are not children of an AND node. -/
theorem example_table_entries :
    ∃ btor1 table, btor_compute_scores (exBtor JustHeur.BRANCH_MIN_APP) = .ok btor1
      ∧ btor1.score = some table
      ∧ btor_find_in_ptr_hash_table table 0 = some (some [])
      ∧ (∃ set, btor_find_in_ptr_hash_table table 3 = some (some set))
      ∧ btor_find_in_ptr_hash_table table 4 = none
      ∧ btor_find_in_ptr_hash_table table 6 = none := by
  obtain ⟨btor1, hrun, hscore, _⟩ := exBtor_min_app_run
  exact ⟨btor1, _, hrun, hscore, by decide, ⟨[], by decide⟩, by decide, by decide⟩

/-- C7: in the example, after `btor_compute_scores` under MIN_APP on an empty table,
`less(v1, APPLY(f,x))` returns false (`0`). -/
theorem example_less_is_false :
    ∃ btor1, btor_compute_scores (exBtor JustHeur.BRANCH_MIN_APP) = .ok btor1
      ∧ btor_compare_scores btor1 ⟨0, false⟩ ⟨3, false⟩ = .ok 0 := by
  obtain ⟨btor1, hrun, hscore, hheur⟩ := exBtor_min_app_run
  refine ⟨btor1, hrun, ?_⟩
  simp [btor_compare_scores, hheur, hscore, app_count, btor_find_in_ptr_hash_table,
    BTOR_REAL_ADDR_NODE]

/-! ## C8 to C10: the comparators -/

theorem compare_scores_of_active (btor : Btor) (a b : NodeRef) (sa sb : Int)
    (ha : active_score btor (BTOR_REAL_ADDR_NODE a) = some sa)
    (hb : active_score btor (BTOR_REAL_ADDR_NODE b) = some sb) :
    btor_compare_scores btor a b = .ok (if sa < sb then 1 else 0) := by
  unfold active_score at ha hb
  cases hh : btor.just_heuristic <;> rw [hh] at ha hb <;> simp only at ha hb
  · cases ha
  all_goals
    first
    | (cases hs : btor.score with
       | none => rw [hs] at ha; cases ha
       | some t =>
         rw [hs] at ha hb
         simp only at ha hb
         split at ha
         · rename_i seta hfa
           split at hb
           · rename_i setb hfb
             have ha1 : (seta.length : Int) = sa := Option.some.inj ha
             have hb1 : (setb.length : Int) = sb := Option.some.inj hb
             simp [btor_compare_scores, hh, hs, app_count, hfa, hfb, ha1, hb1]
           · cases hb
         · cases ha)
    | (cases hs : btor.score_depth with
       | none => rw [hs] at ha; cases ha
       | some t =>
         rw [hs] at ha hb
         simp only at ha hb
         simp [btor_compare_scores, hh, hs, dep_score, ha, hb])

/-- C8: for every heuristic id and all signed references `a` and `b` whose sign-stripped nodes
have scores `sa` and `sb` in the active table, `less(a, b)` returns `1` if `sa < sb` and `0`
otherwise, and the result is the same when `a` or `b` is replaced by its negation. -/
theorem less_iff_score_lt (btor : Btor) (a b : NodeRef) (sa sb : Int)
    (ha : active_score btor (BTOR_REAL_ADDR_NODE a) = some sa)
    (hb : active_score btor (BTOR_REAL_ADDR_NODE b) = some sb) :
    btor_compare_scores btor a b = .ok (if sa < sb then 1 else 0)
      ∧ btor_compare_scores btor (BTOR_INVERT_NODE a) b = btor_compare_scores btor a b
      ∧ btor_compare_scores btor a (BTOR_INVERT_NODE b) = btor_compare_scores btor a b :=
  ⟨compare_scores_of_active btor a b sa sb ha hb, rfl, rfl⟩

theorem less_iff_score_lt_witness :
    btor_compare_scores
        { exBtor JustHeur.BRANCH_MIN_DEP with score_depth := some [(0, 1), (4, 2)] }
        ⟨0, true⟩ ⟨4, false⟩ = .ok (if (1 : Int) < 2 then 1 else 0)
      ∧ btor_compare_scores
          { exBtor JustHeur.BRANCH_MIN_DEP with score_depth := some [(0, 1), (4, 2)] }
          (BTOR_INVERT_NODE ⟨0, true⟩) ⟨4, false⟩
        = btor_compare_scores
          { exBtor JustHeur.BRANCH_MIN_DEP with score_depth := some [(0, 1), (4, 2)] }
          ⟨0, true⟩ ⟨4, false⟩
      ∧ btor_compare_scores
          { exBtor JustHeur.BRANCH_MIN_DEP with score_depth := some [(0, 1), (4, 2)] }
          ⟨0, true⟩ (BTOR_INVERT_NODE ⟨4, false⟩)
        = btor_compare_scores
          { exBtor JustHeur.BRANCH_MIN_DEP with score_depth := some [(0, 1), (4, 2)] }
          ⟨0, true⟩ ⟨4, false⟩ :=
  less_iff_score_lt
    { exBtor JustHeur.BRANCH_MIN_DEP with score_depth := some [(0, 1), (4, 2)] }
    ⟨0, true⟩ ⟨4, false⟩ 1 2 (by decide) (by decide)

/-- C9, at the failing input: after `btor_compute_scores` on the example under
MIN_DEPTH_SKELETON the scores of `v1` (id `0`) and `c1` (id `4`) are `1` and `2`, and
`order_for_sort(v1, c1)` returns `0`, not `1`. -/
theorem sort_order_ignores_skeleton_scores :
    ∃ btor1, btor_compute_scores (exBtor JustHeur.BRANCH_MIN_DEP_BVSKEL) = .ok btor1
      ∧ active_score btor1 0 = some 1
      ∧ active_score btor1 4 = some 2
      ∧ btor_compare_scores_qsort btor1 0 4 = .ok 0 := by
  obtain ⟨btor1, hrun, hscore, hheur⟩ := exBtor_min_dep_bvskel_run
  refine ⟨btor1, hrun, ?_, ?_, ?_⟩
  · simp [active_score, hheur, hscore, btor_find_in_ptr_hash_table]
  · simp [active_score, hheur, hscore, btor_find_in_ptr_hash_table]
  · simp [btor_compare_scores_qsort, hheur]

/-- C10, at the failing input: after `btor_compute_scores` on the example under
MIN_DEPTH_SKELETON, `less(v1, c1)` returns `1` while `order_for_sort(v1, c1)` returns `0`. -/
theorem less_and_sort_order_disagree :
    ∃ btor1, btor_compute_scores (exBtor JustHeur.BRANCH_MIN_DEP_BVSKEL) = .ok btor1
      ∧ btor_compare_scores btor1 ⟨0, false⟩ ⟨4, false⟩ = .ok 1
      ∧ btor_compare_scores_qsort btor1 0 4 = .ok 0 := by
  obtain ⟨btor1, hrun, hscore, hheur⟩ := exBtor_min_dep_bvskel_run
  refine ⟨btor1, hrun, ?_, ?_⟩
  · simp [btor_compare_scores, hheur, hscore, dep_score, btor_find_in_ptr_hash_table,
      BTOR_REAL_ADDR_NODE]
  · simp [btor_compare_scores_qsort, hheur]

/-! ## C11 and C12: the sort comparator and the absent table -/

theorem compare_scores_qsort_of_active (btor : Btor) (a b : Nat) (sa sb : Int)
    (ha : active_score btor a = some sa) (hb : active_score btor b = some sb) :
    btor_compare_scores_qsort btor a b
      = .ok (if btor.just_heuristic = JustHeur.BRANCH_MIN_APP
              ∨ btor.just_heuristic = JustHeur.BRANCH_MIN_DEP then
            (if sa < sb then 1 else if sa > sb then -1 else 0)
          else 0) := by
  unfold active_score at ha hb
  cases hh : btor.just_heuristic <;> rw [hh] at ha hb <;> simp only at ha hb
  · cases ha
  · cases hs : btor.score with
    | none => rw [hs] at ha; cases ha
    | some t =>
      rw [hs] at ha hb
      simp only at ha hb
      split at ha
      · rename_i seta hfa
        split at hb
        · rename_i setb hfb
          have ha1 : (seta.length : Int) = sa := Option.some.inj ha
          have hb1 : (setb.length : Int) = sb := Option.some.inj hb
          simp [btor_compare_scores_qsort, hh, hs, app_count, hfa, hfb, ha1, hb1]
        · cases hb
      · cases ha
  · simp [btor_compare_scores_qsort, hh]
  · cases hs : btor.score_depth with
    | none => rw [hs] at ha; cases ha
    | some t =>
      rw [hs] at ha hb
      simp only at ha hb
      simp [btor_compare_scores_qsort, hh, hs, dep_score, ha, hb]
  · simp [btor_compare_scores_qsort, hh]

/-- C11: for every heuristic id and every table state, on nodes `a`, `b`, `c` that have entries
in the active table `order_for_sort` is a strict weak ordering: `order_for_sort(a, a) = 0`,
`order_for_sort(b, a) = -order_for_sort(a, b)`, and the relations `order_for_sort = -1` and
`order_for_sort = 0` are transitive. -/
theorem order_for_sort_strict_weak (btor : Btor) (a b c : Nat) (sa sb sc : Int)
    (ha : active_score btor a = some sa) (hb : active_score btor b = some sb)
    (hc : active_score btor c = some sc) :
    btor_compare_scores_qsort btor a a = .ok 0
      ∧ (∃ r, btor_compare_scores_qsort btor a b = .ok r
          ∧ btor_compare_scores_qsort btor b a = .ok (-r))
      ∧ (btor_compare_scores_qsort btor a b = .ok (-1) →
          btor_compare_scores_qsort btor b c = .ok (-1) →
          btor_compare_scores_qsort btor a c = .ok (-1))
      ∧ (btor_compare_scores_qsort btor a b = .ok 0 →
          btor_compare_scores_qsort btor b c = .ok 0 →
          btor_compare_scores_qsort btor a c = .ok 0) := by
  rw [compare_scores_qsort_of_active btor a a sa sa ha ha,
    compare_scores_qsort_of_active btor a b sa sb ha hb,
    compare_scores_qsort_of_active btor b a sb sa hb ha,
    compare_scores_qsort_of_active btor b c sb sc hb hc,
    compare_scores_qsort_of_active btor a c sa sc ha hc]
  by_cases hh : btor.just_heuristic = JustHeur.BRANCH_MIN_APP
      ∨ btor.just_heuristic = JustHeur.BRANCH_MIN_DEP
  · simp only [if_pos hh]
    refine ⟨by simp, ⟨_, rfl, ?_⟩, ?_, ?_⟩
    · congr 1
      split_ifs <;> omega
    · intro h1 h2
      have h3 := Except.ok.inj h1
      have h4 := Except.ok.inj h2
      congr 1
      split_ifs at h3 h4 ⊢ <;> omega
    · intro h1 h2
      have h3 := Except.ok.inj h1
      have h4 := Except.ok.inj h2
      congr 1
      split_ifs at h3 h4 ⊢ <;> omega
  · simp [hh]

theorem order_for_sort_strict_weak_witness :
    btor_compare_scores_qsort
        { exBtor JustHeur.BRANCH_MIN_DEP with score_depth := some [(0, 1), (3, 2), (4, 2)] } 4 4
        = .ok 0
      ∧ (∃ r, btor_compare_scores_qsort
            { exBtor JustHeur.BRANCH_MIN_DEP with score_depth := some [(0, 1), (3, 2), (4, 2)] }
            4 3 = .ok r
          ∧ btor_compare_scores_qsort
            { exBtor JustHeur.BRANCH_MIN_DEP with score_depth := some [(0, 1), (3, 2), (4, 2)] }
            3 4 = .ok (-r))
      ∧ (btor_compare_scores_qsort
            { exBtor JustHeur.BRANCH_MIN_DEP with score_depth := some [(0, 1), (3, 2), (4, 2)] }
            4 3 = .ok (-1) →
          btor_compare_scores_qsort
            { exBtor JustHeur.BRANCH_MIN_DEP with score_depth := some [(0, 1), (3, 2), (4, 2)] }
            3 0 = .ok (-1) →
          btor_compare_scores_qsort
            { exBtor JustHeur.BRANCH_MIN_DEP with score_depth := some [(0, 1), (3, 2), (4, 2)] }
            4 0 = .ok (-1))
      ∧ (btor_compare_scores_qsort
            { exBtor JustHeur.BRANCH_MIN_DEP with score_depth := some [(0, 1), (3, 2), (4, 2)] }
            4 3 = .ok 0 →
          btor_compare_scores_qsort
            { exBtor JustHeur.BRANCH_MIN_DEP with score_depth := some [(0, 1), (3, 2), (4, 2)] }
            3 0 = .ok 0 →
          btor_compare_scores_qsort
            { exBtor JustHeur.BRANCH_MIN_DEP with score_depth := some [(0, 1), (3, 2), (4, 2)] }
            4 0 = .ok 0) :=
  order_for_sort_strict_weak
    { exBtor JustHeur.BRANCH_MIN_DEP with score_depth := some [(0, 1), (3, 2), (4, 2)] }
    4 3 0 2 2 1 (by decide) (by decide) (by decide)

/-- C12: under every scoring heuristic id, when the table of the active heuristic has not been
created, `less(a, b)` returns false (`0`) and `order_for_sort(n, m)` returns `0` for all
arguments, without a fault. -/
theorem absent_table_fallback (btor : Btor) (a b : NodeRef) (n m : Nat)
    (hh : btor.just_heuristic ≠ JustHeur.NONE)
    (happ : btor.just_heuristic = JustHeur.BRANCH_MIN_APP
      ∨ btor.just_heuristic = JustHeur.BRANCH_MIN_APP_BVSKEL → btor.score = none)
    (hdep : btor.just_heuristic = JustHeur.BRANCH_MIN_DEP
      ∨ btor.just_heuristic = JustHeur.BRANCH_MIN_DEP_BVSKEL → btor.score_depth = none) :
    btor_compare_scores btor a b = .ok 0 ∧ btor_compare_scores_qsort btor n m = .ok 0 := by
  cases h : btor.just_heuristic
  · exact absurd h hh
  · have hs := happ (Or.inl h)
    simp [btor_compare_scores, btor_compare_scores_qsort, h, hs]
  · have hs := happ (Or.inr h)
    simp [btor_compare_scores, btor_compare_scores_qsort, h, hs]
  · have hs := hdep (Or.inl h)
    simp [btor_compare_scores, btor_compare_scores_qsort, h, hs]
  · have hs := hdep (Or.inr h)
    simp [btor_compare_scores, btor_compare_scores_qsort, h, hs]

theorem absent_table_fallback_witness :
    btor_compare_scores (exBtor JustHeur.BRANCH_MIN_APP) ⟨0, false⟩ ⟨3, true⟩ = .ok 0
      ∧ btor_compare_scores_qsort (exBtor JustHeur.BRANCH_MIN_APP) 0 3 = .ok 0 :=
  absent_table_fallback (exBtor JustHeur.BRANCH_MIN_APP) ⟨0, false⟩ ⟨3, true⟩ 0 3
    (by decide) (fun _ => rfl) (fun _ => rfl)

/-! ## Depth scores: what every completed run establishes -/

theorem reset_marks_eq (l : List Nat) : ∀ (m : Nat → Nat) (n : Nat),
    reset_marks m l n = reset_marks_spec m l n := by
  induction l with
  | nil =>
    intro m n
    simp [reset_marks, reset_marks_spec]
  | cons a l ih =>
    intro m n
    simp only [reset_marks, ih, reset_marks_spec, set_mark, List.mem_cons]
    by_cases h1 : n ∈ l
    · simp [h1]
    · by_cases h2 : n = a
      · simp [h2]
      · simp [h1, h2]

theorem compute_score_node_min_dep_ok {nodes : List BtorNode} {score sc : BtorPtrHashTable Int}
    {cur : Nat} (h : compute_score_node_min_dep nodes score cur = .ok sc) :
    ∃ v, sc = btor_insert_in_ptr_hash_table score cur v := by
  unfold compute_score_node_min_dep at h
  split at h
  · cases h
  · split_ifs at h
    cases h
    exact ⟨_, rfl⟩

theorem ne_none_of_insert {V : Type} {t : BtorPtrHashTable V} {k n : Nat} {v : V}
    (h : btor_find_in_ptr_hash_table (btor_insert_in_ptr_hash_table t k v) n ≠ none) :
    btor_find_in_ptr_hash_table t n ≠ none ∨ n = k := by
  by_cases hk : k = n
  · exact Or.inr hk.symm
  · left
    rwa [find_insert_of_ne _ hk] at h

theorem insert_ne_none {V : Type} {t : BtorPtrHashTable V} {n : Nat}
    (h : btor_find_in_ptr_hash_table t n ≠ none) (k : Nat) (v : V) :
    btor_find_in_ptr_hash_table (btor_insert_in_ptr_hash_table t k v) n ≠ none := by
  obtain ⟨x, hx⟩ := Option.ne_none_iff_exists'.1 h
  rw [find_insert_of_some hx]
  simp

theorem insert_self_ne_none {V : Type} (t : BtorPtrHashTable V) (k : Nat) (v : V) :
    btor_find_in_ptr_hash_table (btor_insert_in_ptr_hash_table t k v) k ≠ none := by
  rw [find_insert]
  cases btor_find_in_ptr_hash_table t k <;> simp

theorem min_dep_step_ok {nodes : List BtorNode} {h : JustHeur} {R : Nat → Prop}
    (hR : ∀ n c, R n → Child nodes n c → R c)
    (s s1 : MinDepState) (top : NodeRef) (rest : List NodeRef) (hs : s.stack = top :: rest)
    (hrun : min_dep_step nodes h s top rest = .ok s1) :
    (∀ n v, btor_find_in_ptr_hash_table s.score n = some v →
        btor_find_in_ptr_hash_table s1.score n = some v)
      ∧ (MinDepRun R s → MinDepRun R s1
          ∧ (∀ n, n ∈ s.stack.map BTOR_REAL_ADDR_NODE →
              n ∈ s1.stack.map BTOR_REAL_ADDR_NODE
                ∨ btor_find_in_ptr_hash_table s1.score n ≠ none)
          ∧ ∀ n, n ∈ s.unmark_stack → n ∈ s1.unmark_stack) := by
  have hstackR : MinDepRun R s → R (BTOR_REAL_ADDR_NODE top)
      ∧ ∀ n ∈ rest.map BTOR_REAL_ADDR_NODE, R n := by
    intro hinv
    refine ⟨hinv.stack _ (by rw [hs]; simp), fun n hn => hinv.stack n ?_⟩
    rw [hs, List.map_cons]
    exact List.mem_cons_of_mem _ hn
  unfold min_dep_step at hrun
  simp only at hrun
  split_ifs at hrun with hcond hm hleaf hm1 harity huf
  · cases hrun
    refine ⟨fun _ _ hf => hf, fun hinv => ⟨⟨hinv.unmark, hinv.done, hinv.keys,
      (hstackR hinv).2⟩, ?_, fun _ hn => hn⟩⟩
    intro n hn
    rw [hs, List.map_cons] at hn
    rcases List.mem_cons.1 hn with h1 | h1
    · right
      rw [h1]
      rcases hcond with h2 | h2
      · exact hinv.done _ h2
      · intro h0
        rw [h0] at h2
        simp at h2
    · exact Or.inl h1
  · cases hrun
    refine ⟨fun _ _ hf => find_insert_of_some hf _ _, fun hinv => ⟨⟨?_, ?_, ?_, ?_⟩, ?_, ?_⟩⟩
    · intro n hn
      simp only [set_mark] at hn
      by_cases hnc : n = BTOR_REAL_ADDR_NODE top
      · rw [hnc]
        exact List.mem_cons_self _ _
      · rw [if_neg hnc] at hn
        exact List.mem_cons_of_mem _ (hinv.unmark n hn)
    · intro n hn
      simp only [set_mark] at hn
      by_cases hnc : n = BTOR_REAL_ADDR_NODE top
      · rw [if_pos hnc] at hn
        omega
      · rw [if_neg hnc] at hn
        exact insert_ne_none (hinv.done n hn) _ _
    · intro n hn
      rcases ne_none_of_insert hn with h1 | h1
      · exact hinv.keys n h1
      · rw [h1]
        exact (hstackR hinv).1
    · intro n hn
      simp only [List.map_cons] at hn
      rcases List.mem_cons.1 hn with h1 | h1
      · rw [h1]
        exact (hstackR hinv).1
      · exact (hstackR hinv).2 n h1
    · intro n hn
      left
      rw [hs] at hn
      exact hn
    · intro n hn
      exact List.mem_cons_of_mem _ hn
  · cases hrun
    refine ⟨fun _ _ hf => hf, fun hinv => ⟨⟨?_, ?_, hinv.keys, ?_⟩, ?_, ?_⟩⟩
    · intro n hn
      simp only [set_mark] at hn
      by_cases hnc : n = BTOR_REAL_ADDR_NODE top
      · rw [hnc]
        exact List.mem_cons_self _ _
      · rw [if_neg hnc] at hn
        exact List.mem_cons_of_mem _ (hinv.unmark n hn)
    · intro n hn
      simp only [set_mark] at hn
      by_cases hnc : n = BTOR_REAL_ADDR_NODE top
      · rw [if_pos hnc] at hn
        omega
      · rw [if_neg hnc] at hn
        exact hinv.done n hn
    · intro n hn
      simp only [List.map_append, List.map_reverse, List.map_cons] at hn
      rcases List.mem_append.1 hn with h1 | h1
      · exact hR _ n (hstackR hinv).1 (List.mem_reverse.1 h1)
      · rcases List.mem_cons.1 h1 with h2 | h2
        · rw [h2]
          exact (hstackR hinv).1
        · exact (hstackR hinv).2 n h2
    · intro n hn
      left
      rw [hs, List.map_cons] at hn
      simp only [List.map_append, List.map_reverse, List.map_cons]
      exact List.mem_append_right _ hn
    · intro n hn
      exact List.mem_cons_of_mem _ hn
  · split at hrun
    · cases hrun
    · rename_i sc hsc
      cases hrun
      obtain ⟨v, hv⟩ := compute_score_node_min_dep_ok hsc
      subst hv
      refine ⟨fun _ _ hf => find_insert_of_some hf _ _, fun hinv => ⟨⟨?_, ?_, ?_, (hstackR hinv).2⟩,
        ?_, fun _ hn => hn⟩⟩
      · intro n hn
        simp only [set_mark] at hn
        by_cases hnc : n = BTOR_REAL_ADDR_NODE top
        · rw [hnc]
          exact hinv.unmark _ hm
        · rw [if_neg hnc] at hn
          exact hinv.unmark n hn
      · intro n hn
        simp only [set_mark] at hn
        by_cases hnc : n = BTOR_REAL_ADDR_NODE top
        · rw [hnc]
          exact insert_self_ne_none _ _ _
        · rw [if_neg hnc] at hn
          exact insert_ne_none (hinv.done n hn) _ _
      · intro n hn
        rcases ne_none_of_insert hn with h1 | h1
        · exact hinv.keys n h1
        · rw [h1]
          exact (hstackR hinv).1
      · intro n hn
        rw [hs, List.map_cons] at hn
        rcases List.mem_cons.1 hn with h1 | h1
        · right
          rw [h1]
          exact insert_self_ne_none _ _ _
        · exact Or.inl h1

theorem min_dep_while_ok {nodes : List BtorNode} {h : JustHeur} {R : Nat → Prop}
    (hR : ∀ n c, R n → Child nodes n c → R c) :
    ∀ (fuel : Nat) (s s1 : MinDepState), min_dep_while nodes h fuel s = .ok s1 →
      s1.stack = []
        ∧ (∀ n v, btor_find_in_ptr_hash_table s.score n = some v →
            btor_find_in_ptr_hash_table s1.score n = some v)
        ∧ (MinDepRun R s → MinDepRun R s1
            ∧ (∀ n, n ∈ s.stack.map BTOR_REAL_ADDR_NODE →
                btor_find_in_ptr_hash_table s1.score n ≠ none)
            ∧ ∀ n, n ∈ s.unmark_stack → n ∈ s1.unmark_stack) := by
  intro fuel
  induction fuel with
  | zero =>
    intro s s1 hrun
    unfold min_dep_while at hrun
    cases hs : s.stack with
    | nil =>
      simp only [hs] at hrun
      cases hrun
      exact ⟨hs, fun _ _ hf => hf, fun hinv => ⟨hinv, fun n hn => by simp [hs] at hn,
        fun _ hn => hn⟩⟩
    | cons top rest =>
      simp only [hs] at hrun
      cases hrun
  | succ fuel ih =>
    intro s s1 hrun
    unfold min_dep_while at hrun
    cases hs : s.stack with
    | nil =>
      simp only [hs] at hrun
      cases hrun
      exact ⟨hs, fun _ _ hf => hf, fun hinv => ⟨hinv, fun n hn => by simp [hs] at hn,
        fun _ hn => hn⟩⟩
    | cons top rest =>
      simp only [hs] at hrun
      split at hrun
      · cases hrun
      · rename_i s0 hstep
        obtain ⟨hext0, hinv0⟩ := min_dep_step_ok hR s s0 top rest hs hstep
        obtain ⟨hempty, hext1, hinv1⟩ := ih s0 s1 hrun
        refine ⟨hempty, fun n v hf => hext1 n v (hext0 n v hf), fun hinv => ?_⟩
        obtain ⟨hi0, hst0, hun0⟩ := hinv0 hinv
        obtain ⟨hi1, hst1, hun1⟩ := hinv1 hi0
        refine ⟨hi1, ?_, fun n hn => hun1 n (hun0 n hn)⟩
        intro n hn
        rw [← hs] at hn
        rcases hst0 n hn with h1 | h1
        · exact hst1 n h1
        · obtain ⟨v, hv⟩ := Option.ne_none_iff_exists'.1 h1
          rw [hext1 n v hv]
          simp

theorem min_dep_seeds_ok {nodes : List BtorNode} {h : JustHeur} {R : Nat → Prop}
    (hR : ∀ n c, R n → Child nodes n c → R c) :
    ∀ (seeds : List NodeRef) (s s1 : MinDepState), s.stack = [] →
      min_dep_seeds nodes h seeds s = .ok s1 →
      s1.stack = []
        ∧ (∀ n v, btor_find_in_ptr_hash_table s.score n = some v →
            btor_find_in_ptr_hash_table s1.score n = some v)
        ∧ (MinDepRun R s → (∀ r ∈ seeds, R (BTOR_REAL_ADDR_NODE r)) → MinDepRun R s1
            ∧ (∀ r ∈ seeds, btor_find_in_ptr_hash_table s1.score (BTOR_REAL_ADDR_NODE r) ≠ none)
            ∧ ∀ n, n ∈ s.unmark_stack → n ∈ s1.unmark_stack) := by
  intro seeds
  induction seeds with
  | nil =>
    intro s s1 hs hrun
    simp only [min_dep_seeds] at hrun
    cases hrun
    exact ⟨hs, fun _ _ hf => hf, fun hinv _ => ⟨hinv, fun r hr => by simp at hr, fun _ hn => hn⟩⟩
  | cons cur seeds ih =>
    intro s s1 hs hrun
    simp only [min_dep_seeds] at hrun
    split at hrun
    · cases hrun
    · rename_i s0 hrun0
      obtain ⟨hempty0, hext0, hinv0⟩ := min_dep_while_ok hR _ _ s0 hrun0
      obtain ⟨hempty1, hext1, hinv1⟩ := ih s0 s1 hempty0 hrun
      refine ⟨hempty1, fun n v hf => hext1 n v (hext0 n v hf), fun hinv hseeds => ?_⟩
      have hstart : MinDepRun R { s with stack := cur :: s.stack } := by
        refine ⟨hinv.unmark, hinv.done, hinv.keys, ?_⟩
        intro n hn
        simp only [hs, List.map_cons, List.map_nil, List.mem_singleton] at hn
        rw [hn]
        exact hseeds cur (List.mem_cons_self _ _)
      obtain ⟨hi0, hst0, hun0⟩ := hinv0 hstart
      obtain ⟨hi1, hst1, hun1⟩ := hinv1 hi0 (fun r hr => hseeds r (List.mem_cons_of_mem _ hr))
      refine ⟨hi1, ?_, fun n hn => hun1 n (hun0 n hn)⟩
      intro r hr
      rcases List.mem_cons.1 hr with h1 | h1
      · obtain ⟨v, hv⟩ := Option.ne_none_iff_exists'.1 (hst0 (BTOR_REAL_ADDR_NODE cur) (by simp))
        rw [h1, hext1 _ v hv]
        simp
      · exact hst1 r h1

/-- What a completed run of `compute_scores_aux_min_dep` under a scoring heuristic establishes,
whatever the graph and the table before the call. -/
theorem compute_scores_aux_min_dep_ok {R : Nat → Prop} (btor btor1 : Btor) (it : List NodeRef)
    (hh : btor.just_heuristic ≠ JustHeur.NONE)
    (hR : ∀ n c, R n → Child btor.nodes n c → R c)
    (hrun : compute_scores_aux_min_dep btor it = .ok btor1) :
    ∃ table, btor1.score_depth = some table
      ∧ btor1.score = btor.score
      ∧ (∀ n v, btor_find_in_ptr_hash_table (btor.score_depth.getD []) n = some v →
          btor_find_in_ptr_hash_table table n = some v)
      ∧ ((∀ n, btor.aux_mark n = 0) →
          (∀ n, btor1.aux_mark n = 0)
            ∧ (∀ r ∈ it, btor_find_in_ptr_hash_table table (BTOR_REAL_ADDR_NODE r) ≠ none)
            ∧ ((∀ n, btor_find_in_ptr_hash_table (btor.score_depth.getD []) n ≠ none → R n) →
                (∀ r ∈ it, R (BTOR_REAL_ADDR_NODE r)) →
                ∀ n, btor_find_in_ptr_hash_table table n ≠ none → R n)) := by
  unfold compute_scores_aux_min_dep at hrun
  split_ifs at hrun
  split at hrun
  · cases hrun
  · rename_i s1 hseeds
    cases hrun
    obtain ⟨_, hext, hinv⟩ := min_dep_seeds_ok (R := fun _ => True) (fun _ _ _ _ => trivial)
      it _ s1 rfl hseeds
    refine ⟨s1.score, rfl, rfl, hext, fun hmarks => ?_⟩
    have hstart : MinDepRun (fun _ => True)
        { aux_mark := btor.aux_mark
          score := btor.score_depth.getD []
          stack := []
          unmark_stack := [] } :=
      ⟨fun n hn => absurd (hmarks n) hn, fun n hn => by simp [hmarks n] at hn,
        fun _ _ => trivial, fun _ _ => trivial⟩
    obtain ⟨hi, hsc, _⟩ := hinv hstart (fun _ _ => trivial)
    refine ⟨?_, hsc, fun hkeys hitR => ?_⟩
    · intro n
      simp only
      rw [reset_marks_eq, reset_marks_spec]
      split_ifs with hmem
      · rfl
      · by_contra hne
        exact hmem (hi.unmark n hne)
    · obtain ⟨_, _, hinvR⟩ := min_dep_seeds_ok hR it _ s1 rfl hseeds
      have hstartR : MinDepRun R
          { aux_mark := btor.aux_mark
            score := btor.score_depth.getD []
            stack := []
            unmark_stack := [] } :=
        ⟨fun n hn => absurd (hmarks n) hn, fun n hn => by simp [hmarks n] at hn,
          hkeys, fun n hn => by simp at hn⟩
      exact (hinvR hstartR hitR).1.keys

/-! ## C19 and C20: the depth score as a shortest path -/

theorem dep_leaf_min_dep {nodes : List BtorNode} {n : Nat} :
    dep_leaf nodes JustHeur.BRANCH_MIN_DEP n ↔ (get_node nodes n).arity = 0 := by
  simp [dep_leaf]

theorem children_of_arity_zero {nodes : List BtorNode} {n : Nat}
    (h : (get_node nodes n).arity = 0) : children nodes n = [] := by
  have he : (get_node nodes n).e = [] := by simpa [BtorNode.arity] using h
  simp [children, he]

theorem depth_path_of_entry {nodes : List BtorNode} {t : BtorPtrHashTable Int}
    (hok : DepTableOK nodes JustHeur.BRANCH_MIN_DEP t)
    (hpos : ∀ n v, btor_find_in_ptr_hash_table t n = some v → 1 ≤ v) :
    ∀ (k : Nat) (n : Nat) (v : Int), btor_find_in_ptr_hash_table t n = some v → v = k →
      DepthPath nodes n k := by
  intro k
  induction k with
  | zero =>
    intro n v hf hv
    have := hpos n v hf
    omega
  | succ k ih =>
    intro n v hf hv
    by_cases hl : (get_node nodes n).arity = 0
    · have h1 := (hok n v hf).1 (dep_leaf_min_dep.2 hl)
      have hk : k = 0 := by omega
      rw [hk]
      exact DepthPath.leaf n hl
    · obtain ⟨_, m, hm, ⟨c, hc, hfc⟩, _⟩ := (hok n v hf).2 (fun h0 => hl (dep_leaf_min_dep.1 h0))
      exact DepthPath.step n c k hc (ih c m hfc (by omega))

theorem depth_le_of_path {nodes : List BtorNode} {t : BtorPtrHashTable Int}
    (hok : DepTableOK nodes JustHeur.BRANCH_MIN_DEP t) {n k : Nat} (hp : DepthPath nodes n k) :
    ∀ v, btor_find_in_ptr_hash_table t n = some v → v ≤ k := by
  induction hp with
  | leaf n hl =>
    intro v hf
    have h1 := (hok n v hf).1 (dep_leaf_min_dep.2 hl)
    omega
  | step n c k hc _ ih =>
    intro v hf
    have hnl : ¬ dep_leaf nodes JustHeur.BRANCH_MIN_DEP n := by
      intro h0
      have hc1 : c ∈ children nodes n := hc
      rw [children_of_arity_zero (dep_leaf_min_dep.1 h0)] at hc1
      simp at hc1
    obtain ⟨hall, m, hm, _, hmin⟩ := (hok n v hf).2 hnl
    obtain ⟨vc, hvc⟩ := hall c hc
    have h1 := ih vc hvc
    have h2 := hmin c hc vc hvc
    push_cast
    omega

theorem shortest_depth_of_entry {nodes : List BtorNode} {t : BtorPtrHashTable Int}
    (hok : DepTableOK nodes JustHeur.BRANCH_MIN_DEP t)
    (hpos : ∀ n v, btor_find_in_ptr_hash_table t n = some v → 1 ≤ v) (n : Nat) (v : Int)
    (hf : btor_find_in_ptr_hash_table t n = some v) : ShortestDepth nodes n v := by
  have h1 := hpos n v hf
  refine ⟨v.toNat, by omega, depth_path_of_entry hok hpos v.toNat n v hf (by omega), ?_⟩
  intro j hj
  have := depth_le_of_path hok hj v hf
  omega

theorem ShortestDepth.unique {nodes : List BtorNode} {n : Nat} {v w : Int}
    (hv : ShortestDepth nodes n v) (hw : ShortestDepth nodes n w) : v = w := by
  obtain ⟨k, hk, hpk, hmk⟩ := hv
  obtain ⟨j, hj, hpj, hmj⟩ := hw
  have h1 := hmk j hpj
  have h2 := hmj k hpk
  omega

theorem scored_of_reachable {nodes : List BtorNode} {t : BtorPtrHashTable Int}
    (hok : DepTableOK nodes JustHeur.BRANCH_MIN_DEP t) {n m : Nat}
    (hn : btor_find_in_ptr_hash_table t n ≠ none) (hreach : Reachable nodes n m) :
    btor_find_in_ptr_hash_table t m ≠ none := by
  induction hreach with
  | refl => exact hn
  | @tail a b _ hstep ih =>
    obtain ⟨v, hv⟩ := Option.ne_none_iff_exists'.1 ih
    have hnl : ¬ dep_leaf nodes JustHeur.BRANCH_MIN_DEP a := by
      intro h0
      have hb : b ∈ children nodes a := hstep
      rw [children_of_arity_zero (dep_leaf_min_dep.1 h0)] at hb
      simp at hb
    obtain ⟨vb, hvb⟩ := ((hok a v hv).2 hnl).1 b hstep
    rw [hvb]
    simp

/-- On a finite acyclic graph with clean marks and an empty depth table, the run under
MIN_DEPTH completes and its table is characterised by the graph and the set of seeds. -/
theorem min_dep_run_char (btor : Btor)
    (hwf : WellFormedNodes btor.nodes) (hac : Acyclic btor.nodes)
    (hseeds : ∀ r ∈ btor.synthesized_constraints ++ btor.assumptions,
      BTOR_REAL_ADDR_NODE r < btor.nodes.length)
    (hmarks : ∀ n, btor.aux_mark n = 0)
    (hh : btor.just_heuristic = JustHeur.BRANCH_MIN_DEP)
    (hempty : btor.score_depth = none ∨ btor.score_depth = some []) :
    ∃ btor1 table, btor_compute_scores btor = .ok btor1 ∧ btor1.score_depth = some table
      ∧ DepTableOK btor.nodes JustHeur.BRANCH_MIN_DEP table
      ∧ DepthChar btor.nodes (btor.synthesized_constraints ++ btor.assumptions) table := by
  have hne : btor.just_heuristic ≠ JustHeur.NONE := by simp [hh]
  have htab : DepTableOK btor.nodes btor.just_heuristic (btor.score_depth.getD []) := by
    rw [getD_of_empty hempty]
    intro n v hf
    simp [btor_find_in_ptr_hash_table] at hf
  have hpos0 : ∀ n v, btor_find_in_ptr_hash_table (btor.score_depth.getD []) n = some v →
      1 ≤ v := by
    rw [getD_of_empty hempty]
    intro n v hf
    simp [btor_find_in_ptr_hash_table] at hf
  obtain ⟨btor1, table, hrun, htable, hok, hscored, _, hpos⟩ :=
    compute_scores_aux_min_dep_spec btor _ hwf hac hseeds hmarks hne htab hpos0
  rw [hh] at hok
  obtain ⟨table1, htable1, _, _, hclean⟩ := compute_scores_aux_min_dep_ok
    (R := fun n => ∃ r ∈ btor.synthesized_constraints ++ btor.assumptions,
      Reachable btor.nodes (BTOR_REAL_ADDR_NODE r) n) btor btor1 _ hne
    (fun n c ⟨r, hr, hreach⟩ hc => ⟨r, hr, Relation.ReflTransGen.tail hreach hc⟩) hrun
  have hEq : table1 = table := by
    rw [htable] at htable1
    exact (Option.some.inj htable1).symm
  subst hEq
  obtain ⟨_, _, hkeys⟩ := hclean hmarks
  refine ⟨btor1, table1, ?_, htable, hok, fun n v hf => shortest_depth_of_entry hok hpos n v hf,
    fun n => ⟨?_, ?_⟩⟩
  · simp only [btor_compute_scores, compute_scores_aux, hh]
    rw [← hrun]
  · apply hkeys
    · rw [getD_of_empty hempty]
      intro n hn
      simp [btor_find_in_ptr_hash_table] at hn
    · intro r hr
      exact ⟨r, hr, Relation.ReflTransGen.refl⟩
  · rintro ⟨r, hr, hreach⟩
    exact scored_of_reachable hok (hscored r hr) hreach

theorem SameUpToOrder.child_iff {b b2 : Btor} (h : SameUpToOrder b b2) (n c : Nat) :
    Child b2.nodes n c ↔ Child b.nodes n c := by
  unfold Child children
  exact ((h.2.2.1 n).2.map BTOR_REAL_ADDR_NODE).mem_iff

theorem SameUpToOrder.arity_eq {b b2 : Btor} (h : SameUpToOrder b b2) (n : Nat) :
    (get_node b2.nodes n).arity = (get_node b.nodes n).arity :=
  (h.2.2.1 n).2.length_eq

theorem SameUpToOrder.symm {b b2 : Btor} (h : SameUpToOrder b b2) : SameUpToOrder b2 b :=
  ⟨h.1.symm, h.2.1.symm, fun n => ⟨(h.2.2.1 n).1.symm, (h.2.2.1 n).2.symm⟩, h.2.2.2.symm⟩

theorem SameUpToOrder.depth_path {b b2 : Btor} (h : SameUpToOrder b b2) {n k : Nat}
    (hp : DepthPath b.nodes n k) : DepthPath b2.nodes n k := by
  induction hp with
  | leaf n hl => exact DepthPath.leaf n (by rw [h.arity_eq]; exact hl)
  | step n c k hc _ ih => exact DepthPath.step n c k ((h.child_iff n c).2 hc) ih

theorem SameUpToOrder.reachable {b b2 : Btor} (h : SameUpToOrder b b2) {n m : Nat}
    (hr : Reachable b.nodes n m) : Reachable b2.nodes n m :=
  Relation.ReflTransGen.mono (fun x y hxy => (h.child_iff x y).2 hxy) hr

theorem SameUpToOrder.shortest_depth {b b2 : Btor} (h : SameUpToOrder b b2) {n : Nat} {v : Int}
    (hs : ShortestDepth b.nodes n v) : ShortestDepth b2.nodes n v := by
  obtain ⟨k, hk, hp, hmin⟩ := hs
  exact ⟨k, hk, h.depth_path hp, fun j hj => hmin j (h.symm.depth_path hj)⟩

theorem SameUpToOrder.wellFormed {b b2 : Btor} (h : SameUpToOrder b b2)
    (hwf : WellFormedNodes b.nodes) : WellFormedNodes b2.nodes := by
  refine ⟨fun n c hc => ?_, fun n hk => ?_⟩
  · rw [h.1]
    exact hwf.1 n c ((h.child_iff n c).1 hc)
  · rw [(h.2.2.1 n).1] at hk
    have he := hwf.2 n hk
    have hp := (h.2.2.1 n).2
    rw [he] at hp
    exact List.Perm.eq_nil hp

theorem SameUpToOrder.acyclic {b b2 : Btor} (h : SameUpToOrder b b2)
    (hac : Acyclic b.nodes) : Acyclic b2.nodes := by
  intro n hn
  exact hac n (Relation.TransGen.mono (fun x y hxy => (h.child_iff x y).1 hxy) hn)

theorem DepthChar.agree {b b2 : Btor} (h : SameUpToOrder b b2) {t t2 : BtorPtrHashTable Int}
    (hc : DepthChar b.nodes (b.synthesized_constraints ++ b.assumptions) t)
    (hc2 : DepthChar b2.nodes (b2.synthesized_constraints ++ b2.assumptions) t2) (n : Nat) :
    btor_find_in_ptr_hash_table t2 n = btor_find_in_ptr_hash_table t n := by
  have hkeys : btor_find_in_ptr_hash_table t n ≠ none
      ↔ btor_find_in_ptr_hash_table t2 n ≠ none := by
    rw [hc.2 n, hc2.2 n]
    constructor
    · rintro ⟨r, hr, hreach⟩
      exact ⟨r, h.2.2.2.mem_iff.2 hr, h.reachable hreach⟩
    · rintro ⟨r, hr, hreach⟩
      exact ⟨r, h.2.2.2.mem_iff.1 hr, h.symm.reachable hreach⟩
  cases hf : btor_find_in_ptr_hash_table t n with
  | none =>
    by_contra hne
    exact (hkeys.2 hne) hf
  | some v =>
    obtain ⟨w, hw⟩ := Option.ne_none_iff_exists'.1 (hkeys.1 (by rw [hf]; simp))
    rw [hw]
    congr 1
    exact (hc2.1 n w hw).unique (h.shortest_depth (hc.1 n v hf))

/-- C20: on a finite acyclic graph with clean marks and an empty depth table,
`btor_compute_scores` under MIN_DEPTH completes and the score of every scored node is the number
of nodes on a shortest sign-stripped child path from the node to a node of arity `0`; a context
with the same graph and seeds, the children of each node and the seeds in another order, gets a
table with the same entries. -/
theorem depth_score_is_shortest_path (btor btor2 : Btor)
    (hwf : WellFormedNodes btor.nodes) (hac : Acyclic btor.nodes)
    (hseeds : ∀ r ∈ btor.synthesized_constraints ++ btor.assumptions,
      BTOR_REAL_ADDR_NODE r < btor.nodes.length)
    (hmarks : ∀ n, btor.aux_mark n = 0)
    (hh : btor.just_heuristic = JustHeur.BRANCH_MIN_DEP)
    (hempty : btor.score_depth = none ∨ btor.score_depth = some [])
    (hsame : SameUpToOrder btor btor2)
    (hmarks2 : ∀ n, btor2.aux_mark n = 0)
    (hempty2 : btor2.score_depth = none ∨ btor2.score_depth = some []) :
    ∃ btor1 table btor3 table2,
      btor_compute_scores btor = .ok btor1 ∧ btor1.score_depth = some table
        ∧ btor_compute_scores btor2 = .ok btor3 ∧ btor3.score_depth = some table2
        ∧ (∀ n v, btor_find_in_ptr_hash_table table n = some v →
            ∃ k : Nat, v = k ∧ DepthPath btor.nodes n k
              ∧ ∀ j, DepthPath btor.nodes n j → k ≤ j)
        ∧ ∀ n, btor_find_in_ptr_hash_table table2 n = btor_find_in_ptr_hash_table table n := by
  obtain ⟨btor1, table, hrun, htable, _, hchar⟩ :=
    min_dep_run_char btor hwf hac hseeds hmarks hh hempty
  have hseeds2 : ∀ r ∈ btor2.synthesized_constraints ++ btor2.assumptions,
      BTOR_REAL_ADDR_NODE r < btor2.nodes.length := by
    intro r hr
    rw [hsame.1]
    exact hseeds r (hsame.2.2.2.mem_iff.1 hr)
  obtain ⟨btor3, table2, hrun2, htable2, _, hchar2⟩ :=
    min_dep_run_char btor2 (hsame.wellFormed hwf) (hsame.acyclic hac) hseeds2 hmarks2
      (hsame.2.1.trans hh) hempty2
  exact ⟨btor1, table, btor3, table2, hrun, htable, hrun2, htable2, hchar.1,
    DepthChar.agree hsame hchar hchar2⟩

theorem get_node_congr_of_lt {nodes nodes2 : List BtorNode} (hlen : nodes2.length = nodes.length)
    (P : BtorNode → BtorNode → Prop)
    (hdef : P ⟨BtorNodeKind.OTHER, [], false⟩ ⟨BtorNodeKind.OTHER, [], false⟩)
    (hlt : ∀ n, n < nodes.length → P (get_node nodes2 n) (get_node nodes n)) (n : Nat) :
    P (get_node nodes2 n) (get_node nodes n) := by
  by_cases hn : n < nodes.length
  · exact hlt n hn
  · rw [get_node_of_ge (Nat.le_of_not_lt hn), get_node_of_ge (by rw [hlen]; exact Nat.le_of_not_lt hn)]
    exact hdef

theorem exBtorSwapped_same :
    SameUpToOrder (exBtor JustHeur.BRANCH_MIN_DEP) (exBtorSwapped JustHeur.BRANCH_MIN_DEP) := by
  refine ⟨rfl, rfl, ?_, by decide⟩
  apply @get_node_congr_of_lt (exBtor JustHeur.BRANCH_MIN_DEP).nodes
    (exBtorSwapped JustHeur.BRANCH_MIN_DEP).nodes rfl
    (fun x y => x.kind = y.kind ∧ x.e.Perm y.e)
  · exact ⟨rfl, List.Perm.refl _⟩
  · decide

theorem depth_score_is_shortest_path_witness :
    ∃ btor1 table btor3 table2,
      btor_compute_scores (exBtor JustHeur.BRANCH_MIN_DEP) = .ok btor1
        ∧ btor1.score_depth = some table
        ∧ btor_compute_scores (exBtorSwapped JustHeur.BRANCH_MIN_DEP) = .ok btor3
        ∧ btor3.score_depth = some table2
        ∧ (∀ n v, btor_find_in_ptr_hash_table table n = some v →
            ∃ k : Nat, v = k ∧ DepthPath exNodes n k ∧ ∀ j, DepthPath exNodes n j → k ≤ j)
        ∧ ∀ n, btor_find_in_ptr_hash_table table2 n = btor_find_in_ptr_hash_table table n :=
  depth_score_is_shortest_path (exBtor JustHeur.BRANCH_MIN_DEP)
    (exBtorSwapped JustHeur.BRANCH_MIN_DEP) (wellFormed_of_check exNodes_check)
    (acyclic_of_check exNodes_check) (by decide) (fun _ => rfl) rfl (Or.inl rfl)
    exBtorSwapped_same (fun _ => rfl) (Or.inl rfl)

theorem exBtor_min_dep_run :
    ∃ btor1, btor_compute_scores (exBtor JustHeur.BRANCH_MIN_DEP) = .ok btor1
      ∧ btor1.score_depth = some [(2, 1), (1, 1), (3, 2), (0, 1), (4, 2), (5, 1), (6, 2)]
      ∧ btor1.just_heuristic = JustHeur.BRANCH_MIN_DEP := by
  cases hrun : btor_compute_scores (exBtor JustHeur.BRANCH_MIN_DEP) with
  | error f =>
    have h1 : (btor_compute_scores (exBtor JustHeur.BRANCH_MIN_DEP)).toOption.isSome = true := by
      decide
    rw [hrun] at h1
    simp [Except.toOption] at h1
  | ok btor1 =>
    have h1 : (btor_compute_scores (exBtor JustHeur.BRANCH_MIN_DEP)).toOption.map
        (fun b => b.score_depth)
          = some (some [(2, 1), (1, 1), (3, 2), (0, 1), (4, 2), (5, 1), (6, 2)]) := by
      decide
    rw [hrun] at h1
    exact ⟨btor1, rfl, by simpa [Except.toOption] using h1, (compute_scores_frame hrun).2.1⟩

/-- C19, counterexample: in the example under MIN_DEPTH the internal node `c1` (id `4`) has
depth score `2` and its child `APPLY(f,x)` (id `3`) has depth score `2` as well, which is not
strictly less. -/
theorem child_score_not_below_parent :
    ∃ btor1 table, btor_compute_scores (exBtor JustHeur.BRANCH_MIN_DEP) = .ok btor1
      ∧ btor1.score_depth = some table
      ∧ 0 < (get_node exNodes 4).arity
      ∧ 3 ∈ children exNodes 4
      ∧ btor_find_in_ptr_hash_table table 4 = some 2
      ∧ btor_find_in_ptr_hash_table table 3 = some 2 := by
  obtain ⟨btor1, hrun, hscore, _⟩ := exBtor_min_dep_run
  exact ⟨btor1, _, hrun, hscore, by decide, by decide, by decide, by decide⟩

/-- C19, amended: on a finite acyclic graph with clean marks and an empty depth table, after
`btor_compute_scores` under MIN_DEPTH every internal node `n` with depth score `d` has a child
whose score is `d - 1`, strictly less than `d`, and every child of `n` has a score of at least
`d - 1`. -/
theorem least_child_score_below_parent (btor : Btor)
    (hwf : WellFormedNodes btor.nodes) (hac : Acyclic btor.nodes)
    (hseeds : ∀ r ∈ btor.synthesized_constraints ++ btor.assumptions,
      BTOR_REAL_ADDR_NODE r < btor.nodes.length)
    (hmarks : ∀ n, btor.aux_mark n = 0)
    (hh : btor.just_heuristic = JustHeur.BRANCH_MIN_DEP)
    (hempty : btor.score_depth = none ∨ btor.score_depth = some []) :
    ∃ btor1 table, btor_compute_scores btor = .ok btor1 ∧ btor1.score_depth = some table
      ∧ ∀ n d, 0 < (get_node btor.nodes n).arity →
          btor_find_in_ptr_hash_table table n = some d →
          (∃ c ∈ children btor.nodes n, ∃ vc,
              btor_find_in_ptr_hash_table table c = some vc ∧ vc = d - 1 ∧ vc < d)
            ∧ ∀ c ∈ children btor.nodes n, ∃ vc,
                btor_find_in_ptr_hash_table table c = some vc ∧ d - 1 ≤ vc := by
  obtain ⟨btor1, table, hrun, htable, hok, _⟩ :=
    min_dep_run_char btor hwf hac hseeds hmarks hh hempty
  refine ⟨btor1, table, hrun, htable, fun n d harity hf => ?_⟩
  have hnl : ¬ dep_leaf btor.nodes JustHeur.BRANCH_MIN_DEP n := by
    intro h0
    have := dep_leaf_min_dep.1 h0
    omega
  obtain ⟨hall, m, hm, ⟨c, hc, hfc⟩, hmin⟩ := (hok n d hf).2 hnl
  refine ⟨⟨c, hc, m, hfc, by omega, by omega⟩, fun c1 hc1 => ?_⟩
  obtain ⟨vc, hvc⟩ := hall c1 hc1
  exact ⟨vc, hvc, by have := hmin c1 hc1 vc hvc; omega⟩

theorem least_child_score_below_parent_witness :
    ∃ btor1 table, btor_compute_scores (exBtor JustHeur.BRANCH_MIN_DEP) = .ok btor1
      ∧ btor1.score_depth = some table
      ∧ ∀ n d, 0 < (get_node exNodes n).arity →
          btor_find_in_ptr_hash_table table n = some d →
          (∃ c ∈ children exNodes n, ∃ vc,
              btor_find_in_ptr_hash_table table c = some vc ∧ vc = d - 1 ∧ vc < d)
            ∧ ∀ c ∈ children exNodes n, ∃ vc,
                btor_find_in_ptr_hash_table table c = some vc ∧ d - 1 ≤ vc :=
  least_child_score_below_parent (exBtor JustHeur.BRANCH_MIN_DEP)
    (wellFormed_of_check exNodes_check) (acyclic_of_check exNodes_check) (by decide)
    (fun _ => rfl) rfl (Or.inl rfl)

/-! ## Dual propagation: the collecting traversal -/

theorem set_mark_ne_zero {m : Nat → Nat} {cur n : Nat} (h : set_mark m cur 1 n ≠ 0) :
    n = cur ∨ m n ≠ 0 := by
  by_cases hn : n = cur
  · exact Or.inl hn
  · right
    simpa [set_mark, hn] using h

theorem set_mark_mono {m : Nat → Nat} (cur : Nat) {n : Nat} (h : m n ≠ 0) :
    set_mark m cur 1 n ≠ 0 := by
  simp only [set_mark]
  split_ifs
  · omega
  · exact h

theorem set_mark_self (m : Nat → Nat) (cur : Nat) : set_mark m cur 1 cur ≠ 0 := by
  simp [set_mark]

theorem dual_prop_step_spec {nodes : List BtorNode} {SR : Nat → Prop}
    (hwf : WellFormedNodes nodes)
    (hSR : ∀ n c, SR n → ¬ skel_stop nodes n → Child nodes n c → SR c)
    (s : DualPropState) (top : NodeRef) (rest : List NodeRef) (hs : s.stack = top :: rest)
    (hinv : DualPropInv nodes SR s) :
    ∃ s1, dual_prop_step nodes s top rest = .ok s1 ∧ DualPropInv nodes SR s1
      ∧ dfs_fuel nodes s1.aux_mark s1.stack < dfs_fuel nodes s.aux_mark s.stack
      ∧ (∀ n, s.aux_mark n ≠ 0 → s1.aux_mark n ≠ 0)
      ∧ ∀ n, n ∈ s.stack.map BTOR_REAL_ADDR_NODE →
          s1.aux_mark n ≠ 0 ∨ n ∈ s1.stack.map BTOR_REAL_ADDR_NODE := by
  have htop : SR (BTOR_REAL_ADDR_NODE top) ∧ BTOR_REAL_ADDR_NODE top < nodes.length :=
    hinv.stack _ (by rw [hs]; simp)
  have hrest : ∀ n ∈ rest.map BTOR_REAL_ADDR_NODE, SR n ∧ n < nodes.length := by
    intro n hn
    apply hinv.stack
    rw [hs, List.map_cons]
    exact List.mem_cons_of_mem _ hn
  by_cases hm : s.aux_mark (BTOR_REAL_ADDR_NODE top) ≠ 0
  · refine ⟨{ s with stack := rest }, by simp only [dual_prop_step, if_pos hm],
      ⟨hinv.unmark, hinv.visited, hrest, ?_, hinv.applies, hinv.nodup⟩, ?_, fun _ h => h, ?_⟩
    · intro n hn hns c hc
      rcases hinv.closure n hn hns c hc with h1 | h1
      · exact Or.inl h1
      · rw [hs, List.map_cons] at h1
        rcases List.mem_cons.1 h1 with h2 | h2
        · left
          rw [h2]
          exact hm
        · exact Or.inr h2
    · simp only [dfs_fuel_eq, hs, List.length_cons]
      omega
    · intro n hn
      rw [hs, List.map_cons] at hn
      rcases List.mem_cons.1 hn with h2 | h2
      · left
        rw [h2]
        exact hm
      · exact Or.inr h2
  · have hm0 : s.aux_mark (BTOR_REAL_ADDR_NODE top) = 0 := by simpa using hm
    have hsum := fuel_sum_mark_zero nodes s.aux_mark (BTOR_REAL_ADDR_NODE top) 1 htop.2 hm0
      (by omega)
    by_cases hstop : skel_stop nodes (BTOR_REAL_ADDR_NODE top)
    · have hnotin : BTOR_REAL_ADDR_NODE top ∉ s.applies := by
        intro h0
        exact hm ((hinv.applies _).1 h0).1
      have hstop1 := hstop
      unfold skel_stop at hstop1
      refine ⟨{ aux_mark := set_mark s.aux_mark (BTOR_REAL_ADDR_NODE top) 1
                stack := rest
                unmark_stack := BTOR_REAL_ADDR_NODE top :: s.unmark_stack
                applies := s.applies ++ [BTOR_REAL_ADDR_NODE top] },
        by simp only [dual_prop_step, if_neg hm, if_pos hstop1, if_neg hnotin],
        ⟨?_, ?_, hrest, ?_, ?_, ?_⟩, ?_, fun n hn => set_mark_mono _ hn, ?_⟩
      · intro n hn
        rcases set_mark_ne_zero hn with h1 | h1
        · rw [h1]
          exact List.mem_cons_self _ _
        · exact List.mem_cons_of_mem _ (hinv.unmark n h1)
      · intro n hn
        rcases set_mark_ne_zero hn with h1 | h1
        · rw [h1]
          exact htop.1
        · exact hinv.visited n h1
      · intro n hn hns c hc
        rcases set_mark_ne_zero hn with h1 | h1
        · rw [h1] at hns
          exact absurd hstop hns
        · rcases hinv.closure n h1 hns c hc with h2 | h2
          · exact Or.inl (set_mark_mono _ h2)
          · rw [hs, List.map_cons] at h2
            rcases List.mem_cons.1 h2 with h3 | h3
            · left
              rw [h3]
              exact set_mark_self _ _
            · exact Or.inr h3
      · intro n
        simp only [List.mem_append, List.mem_singleton]
        constructor
        · rintro (h1 | h1)
          · exact ⟨set_mark_mono _ ((hinv.applies n).1 h1).1, ((hinv.applies n).1 h1).2⟩
          · rw [h1]
            exact ⟨set_mark_self _ _, hstop⟩
        · rintro ⟨h1, h2⟩
          rcases set_mark_ne_zero h1 with h3 | h3
          · exact Or.inr h3
          · exact Or.inl ((hinv.applies n).2 ⟨h3, h2⟩)
      · refine List.Nodup.append hinv.nodup (List.nodup_singleton _) ?_
        intro a ha ha1
        rw [List.mem_singleton] at ha1
        rw [ha1] at ha
        exact hnotin ha
      · simp only [dfs_fuel_eq, hs, List.length_cons]
        omega
      · intro n hn
        rw [hs, List.map_cons] at hn
        rcases List.mem_cons.1 hn with h2 | h2
        · left
          rw [h2]
          exact set_mark_self _ _
        · exact Or.inr h2
    · have hstop1 := hstop
      unfold skel_stop at hstop1
      refine ⟨{ aux_mark := set_mark s.aux_mark (BTOR_REAL_ADDR_NODE top) 1
                stack := (get_node nodes (BTOR_REAL_ADDR_NODE top)).e.reverse ++ rest
                unmark_stack := BTOR_REAL_ADDR_NODE top :: s.unmark_stack
                applies := s.applies },
        by simp only [dual_prop_step, if_neg hm, if_neg hstop1],
        ⟨?_, ?_, ?_, ?_, ?_, hinv.nodup⟩, ?_, fun n hn => set_mark_mono _ hn, ?_⟩
      · intro n hn
        rcases set_mark_ne_zero hn with h1 | h1
        · rw [h1]
          exact List.mem_cons_self _ _
        · exact List.mem_cons_of_mem _ (hinv.unmark n h1)
      · intro n hn
        rcases set_mark_ne_zero hn with h1 | h1
        · rw [h1]
          exact htop.1
        · exact hinv.visited n h1
      · intro n hn
        simp only [List.map_append, List.map_reverse] at hn
        rcases List.mem_append.1 hn with h1 | h1
        · have hc : Child nodes (BTOR_REAL_ADDR_NODE top) n := List.mem_reverse.1 h1
          exact ⟨hSR _ n htop.1 hstop hc, hwf.1 _ n hc⟩
        · exact hrest n h1
      · intro n hn hns c hc
        simp only [List.map_append, List.map_reverse]
        rcases set_mark_ne_zero hn with h1 | h1
        · right
          rw [h1] at hc
          exact List.mem_append_left _ (List.mem_reverse.2 hc)
        · rcases hinv.closure n h1 hns c hc with h2 | h2
          · exact Or.inl (set_mark_mono _ h2)
          · rw [hs, List.map_cons] at h2
            rcases List.mem_cons.1 h2 with h3 | h3
            · left
              rw [h3]
              exact set_mark_self _ _
            · exact Or.inr (List.mem_append_right _ h3)
      · intro n
        constructor
        · intro h1
          exact ⟨set_mark_mono _ ((hinv.applies n).1 h1).1, ((hinv.applies n).1 h1).2⟩
        · rintro ⟨h1, h2⟩
          rcases set_mark_ne_zero h1 with h3 | h3
          · rw [h3] at h2
            exact absurd h2 hstop
          · exact (hinv.applies n).2 ⟨h3, h2⟩
      · simp only [BtorNode.arity] at hsum
        simp only [dfs_fuel_eq, hs, List.length_cons, List.length_append, List.length_reverse]
        omega
      · intro n hn
        rw [hs, List.map_cons] at hn
        simp only [List.map_append, List.map_reverse]
        rcases List.mem_cons.1 hn with h2 | h2
        · left
          rw [h2]
          exact set_mark_self _ _
        · exact Or.inr (List.mem_append_right _ h2)

theorem dual_prop_while_spec {nodes : List BtorNode} {SR : Nat → Prop}
    (hwf : WellFormedNodes nodes)
    (hSR : ∀ n c, SR n → ¬ skel_stop nodes n → Child nodes n c → SR c) :
    ∀ (fuel : Nat) (s : DualPropState), DualPropInv nodes SR s →
      dfs_fuel nodes s.aux_mark s.stack ≤ fuel →
      ∃ s1, dual_prop_while nodes fuel s = .ok s1 ∧ DualPropInv nodes SR s1 ∧ s1.stack = []
        ∧ (∀ n, s.aux_mark n ≠ 0 → s1.aux_mark n ≠ 0)
        ∧ ∀ n, n ∈ s.stack.map BTOR_REAL_ADDR_NODE → s1.aux_mark n ≠ 0 := by
  intro fuel
  induction fuel with
  | zero =>
    intro s hinv hfuel
    cases hs : s.stack with
    | nil =>
      refine ⟨s, ?_, hinv, hs, fun _ h => h, fun n hn => by simp at hn⟩
      unfold dual_prop_while
      simp only [hs]
    | cons top rest =>
      simp only [dfs_fuel_eq, hs, List.length_cons] at hfuel
      omega
  | succ fuel ih =>
    intro s hinv hfuel
    cases hs : s.stack with
    | nil =>
      refine ⟨s, ?_, hinv, hs, fun _ h => h, fun n hn => by simp at hn⟩
      unfold dual_prop_while
      simp only [hs]
    | cons top rest =>
      obtain ⟨s0, hstep, hinv0, hlt, hmono0, hst0⟩ :=
        dual_prop_step_spec hwf hSR s top rest hs hinv
      obtain ⟨s1, hrun, hinv1, hempty, hmono1, hst1⟩ := ih s0 hinv0 (by omega)
      refine ⟨s1, ?_, hinv1, hempty, fun n hn => hmono1 n (hmono0 n hn), ?_⟩
      · unfold dual_prop_while
        simp only [hs, hstep]
        exact hrun
      · intro n hn
        rw [← hs] at hn
        rcases hst0 n hn with h1 | h1
        · exact hmono1 n h1
        · exact hst1 n h1

theorem dual_prop_seeds_spec {nodes : List BtorNode} {SR : Nat → Prop}
    (hwf : WellFormedNodes nodes)
    (hSR : ∀ n c, SR n → ¬ skel_stop nodes n → Child nodes n c → SR c) :
    ∀ (seeds : List NodeRef) (s : DualPropState), DualPropInv nodes SR s → s.stack = [] →
      (∀ r ∈ seeds, SR (BTOR_REAL_ADDR_NODE r) ∧ BTOR_REAL_ADDR_NODE r < nodes.length) →
      ∃ s1, dual_prop_seeds nodes seeds s = .ok s1 ∧ DualPropInv nodes SR s1 ∧ s1.stack = []
        ∧ (∀ n, s.aux_mark n ≠ 0 → s1.aux_mark n ≠ 0)
        ∧ ∀ r ∈ seeds, s1.aux_mark (BTOR_REAL_ADDR_NODE r) ≠ 0 := by
  intro seeds
  induction seeds with
  | nil =>
    intro s hinv hs _
    exact ⟨s, rfl, hinv, hs, fun _ h => h, fun r hr => by simp at hr⟩
  | cons cur seeds ih =>
    intro s hinv hs hseeds
    have hinv0 : DualPropInv nodes SR { s with stack := cur :: s.stack } := by
      refine ⟨hinv.unmark, hinv.visited, ?_, ?_, hinv.applies, hinv.nodup⟩
      · intro n hn
        simp only [hs, List.map_cons, List.map_nil, List.mem_singleton] at hn
        rw [hn]
        exact hseeds cur (List.mem_cons_self _ _)
      · intro n hn hns c hc
        rcases hinv.closure n hn hns c hc with h1 | h1
        · exact Or.inl h1
        · rw [hs] at h1
          simp at h1
    obtain ⟨s0, hrun0, hi0, hempty0, hmono0, hst0⟩ :=
      dual_prop_while_spec hwf hSR (dfs_fuel nodes s.aux_mark (cur :: s.stack))
        { s with stack := cur :: s.stack } hinv0 (le_refl _)
    obtain ⟨s1, hrun1, hi1, hempty1, hmono1, hseeds1⟩ :=
      ih s0 hi0 hempty0 (fun r hr => hseeds r (List.mem_cons_of_mem _ hr))
    refine ⟨s1, ?_, hi1, hempty1, fun n hn => hmono1 n (hmono0 n hn), ?_⟩
    · simp only [dual_prop_seeds, hrun0]
      exact hrun1
    · intro r hr
      rcases List.mem_cons.1 hr with h1 | h1
      · rw [h1]
        exact hmono1 _ (hst0 _ (by simp))
      · exact hseeds1 r h1

/-- The collecting traversal of the dual propagation completes on a finite graph with clean
marks; the collected nodes are the marked APPLY nodes and bit-vector variables, and the marked
nodes are the nodes reachable from a seed without passing such a node. -/
theorem dual_prop_collect_spec (btor : Btor) (hwf : WellFormedNodes btor.nodes)
    (hseeds : ∀ r ∈ btor.synthesized_constraints ++ btor.assumptions,
      BTOR_REAL_ADDR_NODE r < btor.nodes.length)
    (hmarks : ∀ n, btor.aux_mark n = 0) :
    ∃ s, dual_prop_collect btor = .ok s
      ∧ s.applies.Nodup
      ∧ (∀ n, s.aux_mark n ≠ 0 → n ∈ s.unmark_stack)
      ∧ (∀ n, n ∈ s.applies ↔ s.aux_mark n ≠ 0 ∧ skel_stop btor.nodes n)
      ∧ ∀ n, s.aux_mark n ≠ 0
          ↔ ∃ r ∈ btor.synthesized_constraints ++ btor.assumptions,
              SkelReach btor.nodes (BTOR_REAL_ADDR_NODE r) n := by
  have hSR : ∀ n c, (∃ r ∈ btor.synthesized_constraints ++ btor.assumptions,
        SkelReach btor.nodes (BTOR_REAL_ADDR_NODE r) n) → ¬ skel_stop btor.nodes n →
      Child btor.nodes n c → ∃ r ∈ btor.synthesized_constraints ++ btor.assumptions,
        SkelReach btor.nodes (BTOR_REAL_ADDR_NODE r) c := by
    rintro n c ⟨r, hr, hreach⟩ hns hc
    exact ⟨r, hr, Relation.ReflTransGen.tail hreach ⟨hns, hc⟩⟩
  have hinv0 : DualPropInv btor.nodes
      (fun n => ∃ r ∈ btor.synthesized_constraints ++ btor.assumptions,
        SkelReach btor.nodes (BTOR_REAL_ADDR_NODE r) n)
      { aux_mark := btor.aux_mark, stack := [], unmark_stack := [], applies := [] } := by
    refine ⟨fun n hn => absurd (hmarks n) hn, fun n hn => absurd (hmarks n) hn,
      fun n hn => by simp at hn, fun n hn => absurd (hmarks n) hn, fun n => ?_, List.nodup_nil⟩
    constructor
    · intro h0
      simp at h0
    · rintro ⟨h0, _⟩
      exact absurd (hmarks n) h0
  obtain ⟨s, hrun, hinv, hempty, _, hmarked⟩ := dual_prop_seeds_spec hwf hSR _ _ hinv0 rfl
    (fun r hr => ⟨⟨r, hr, Relation.ReflTransGen.refl⟩, hseeds r hr⟩)
  refine ⟨s, hrun, hinv.nodup, hinv.unmark, hinv.applies, fun n => ⟨hinv.visited n, ?_⟩⟩
  rintro ⟨r, hr, hreach⟩
  induction hreach with
  | refl => exact hmarked r hr
  | @tail a b _ hstep ih =>
    rcases hinv.closure a ih hstep.1 b hstep.2 with h1 | h1
    · exact h1
    · rw [hempty] at h1
      simp at h1

/-! ## C18: the alternate seeds of the dual propagation -/

/-- C18: on a finite graph with clean marks the collecting traversal of
`btor_compute_scores_dual_prop` completes, and the alternate seed set it hands to the dispatch
holds each node once and holds exactly the APPLY nodes and bit-vector variables that are
reachable from a constraint or an assumption by a sign-stripped child path none of whose earlier
nodes is an APPLY node or a bit-vector variable. -/
theorem dual_prop_alternate_seeds (btor : Btor) (hwf : WellFormedNodes btor.nodes)
    (hseeds : ∀ r ∈ btor.synthesized_constraints ++ btor.assumptions,
      BTOR_REAL_ADDR_NODE r < btor.nodes.length)
    (hmarks : ∀ n, btor.aux_mark n = 0) :
    ∃ s, dual_prop_collect btor = .ok s
      ∧ btor_compute_scores_dual_prop btor
          = (match compute_scores_aux
                { btor with aux_mark := reset_marks s.aux_mark s.unmark_stack }
                (s.applies.map (fun n => ⟨n, false⟩)) with
            | .error f => .error f
            | .ok btor1 => dual_prop_filter btor1)
      ∧ s.applies.Nodup
      ∧ ∀ n, n ∈ s.applies
          ↔ ((get_node btor.nodes n).kind = BtorNodeKind.APPLY
              ∨ (get_node btor.nodes n).kind = BtorNodeKind.BV_VAR)
            ∧ ∃ r ∈ btor.synthesized_constraints ++ btor.assumptions,
                SkelReach btor.nodes (BTOR_REAL_ADDR_NODE r) n := by
  obtain ⟨s, hrun, hnd, _, happ, hreach⟩ := dual_prop_collect_spec btor hwf hseeds hmarks
  refine ⟨s, hrun, ?_, hnd, fun n => ?_⟩
  · simp only [btor_compute_scores_dual_prop, check_marks_unset hmarks, hrun]
    rfl
  · rw [happ n, hreach n]
    exact ⟨fun h => ⟨h.2, h.1⟩, fun h => ⟨h.2, h.1⟩⟩

theorem dualNodes_check : check_nodes dualNodes = true := by decide

theorem dual_prop_alternate_seeds_witness :
    WellFormedNodes dualNodes ∧
      ∃ s, dual_prop_collect (dualBtor JustHeur.BRANCH_MIN_APP) = .ok s
        ∧ btor_compute_scores_dual_prop (dualBtor JustHeur.BRANCH_MIN_APP)
            = (match compute_scores_aux
                  { dualBtor JustHeur.BRANCH_MIN_APP with
                    aux_mark := reset_marks s.aux_mark s.unmark_stack }
                  (s.applies.map (fun n => ⟨n, false⟩)) with
              | .error f => .error f
              | .ok btor1 => dual_prop_filter btor1)
        ∧ s.applies.Nodup
        ∧ ∀ n, n ∈ s.applies
            ↔ ((get_node dualNodes n).kind = BtorNodeKind.APPLY
                ∨ (get_node dualNodes n).kind = BtorNodeKind.BV_VAR)
              ∧ ∃ r ∈ [(⟨7, false⟩ : NodeRef)] ++ [],
                  SkelReach dualNodes (BTOR_REAL_ADDR_NODE r) n :=
  ⟨wellFormed_of_check dualNodes_check,
    dual_prop_alternate_seeds (dualBtor JustHeur.BRANCH_MIN_APP)
      (wellFormed_of_check dualNodes_check) (by decide) (fun _ => rfl)⟩

/-! ## Application scores: the marks after a completed run -/

theorem reset_marks_zero {m : Nat → Nat} {l : List Nat} (h : ∀ n, m n ≠ 0 → n ∈ l) (n : Nat) :
    reset_marks m l n = 0 := by
  rw [reset_marks_eq, reset_marks_spec]
  split_ifs with hmem
  · rfl
  · by_contra hne
    exact hmem (h n hne)

theorem min_app_push_children_unmark (and_node : Bool) :
    ∀ (l : List NodeRef) (s : MinAppState),
      (min_app_push_children and_node l s).unmark_stack = s.unmark_stack := by
  intro l
  induction l with
  | nil =>
    intro s
    rfl
  | cons c rest ih =>
    intro s
    simp only [min_app_push_children]
    split_ifs
    · rw [ih]
    · rw [ih]

theorem min_app_mark_step_unmark {nodes : List BtorNode} (s : MinAppState) (top : NodeRef)
    (rest : List NodeRef) (hinv : AppUnmarkInv s) :
    AppUnmarkInv (min_app_mark_step nodes s top rest) := by
  by_cases hm : s.aux_mark (BTOR_REAL_ADDR_NODE top) ≠ 0
  · simp only [min_app_mark_step, if_pos hm]
    exact hinv
  · simp only [min_app_mark_step, if_neg hm]
    intro n hn
    rw [(min_app_push_children_spec _ _ _).1] at hn
    rw [min_app_push_children_unmark]
    rcases set_mark_ne_zero hn with h1 | h1
    · rw [h1]
      exact List.mem_cons_self _ _
    · exact List.mem_cons_of_mem _ (hinv n h1)

theorem min_app_mark_while_unmark {nodes : List BtorNode} :
    ∀ (fuel : Nat) (s s1 : MinAppState), AppUnmarkInv s →
      min_app_mark_while nodes fuel s = .ok s1 → AppUnmarkInv s1 := by
  intro fuel
  induction fuel with
  | zero =>
    intro s s1 hinv hrun
    unfold min_app_mark_while at hrun
    cases hs : s.stack with
    | nil =>
      simp only [hs] at hrun
      cases hrun
      exact hinv
    | cons top rest =>
      simp only [hs] at hrun
      cases hrun
  | succ fuel ih =>
    intro s s1 hinv hrun
    unfold min_app_mark_while at hrun
    cases hs : s.stack with
    | nil =>
      simp only [hs] at hrun
      cases hrun
      exact hinv
    | cons top rest =>
      simp only [hs] at hrun
      exact ih _ s1 (min_app_mark_step_unmark s top rest hinv) hrun

theorem min_app_mark_seeds_unmark {nodes : List BtorNode} :
    ∀ (seeds : List NodeRef) (s s1 : MinAppState), AppUnmarkInv s →
      min_app_mark_seeds nodes seeds s = .ok s1 → AppUnmarkInv s1 := by
  intro seeds
  induction seeds with
  | nil =>
    intro s s1 hinv hrun
    simp only [min_app_mark_seeds] at hrun
    cases hrun
    exact hinv
  | cons cur seeds ih =>
    intro s s1 hinv hrun
    simp only [min_app_mark_seeds] at hrun
    split at hrun
    · cases hrun
    · rename_i s0 hrun0
      have h0 : AppUnmarkInv s0 := by
        refine min_app_mark_while_unmark _ _ s0 ?_ hrun0
        exact hinv
      exact ih s0 s1 h0 hrun

theorem min_app_search_step_unmark {nodes : List BtorNode} (s : MinAppState)
    (in_set : List Nat) (top : NodeRef) (rest : List NodeRef) (hinv : AppUnmarkInv s) :
    AppUnmarkInv (min_app_search_step nodes s in_set top rest).1 := by
  by_cases hm : s.aux_mark (BTOR_REAL_ADDR_NODE top) ≠ 0
  · simp only [min_app_search_step, if_pos hm]
    exact hinv
  · simp only [min_app_search_step, if_neg hm]
    intro n hn
    rcases set_mark_ne_zero hn with h1 | h1
    · rw [h1]
      exact List.mem_cons_self _ _
    · exact List.mem_cons_of_mem _ (hinv n h1)

theorem min_app_search_while_unmark {nodes : List BtorNode} :
    ∀ (fuel : Nat) (s : MinAppState) (in_set : List Nat) (s1 : MinAppState) (in1 : List Nat),
      AppUnmarkInv s → min_app_search_while nodes fuel s in_set = .ok (s1, in1) →
      AppUnmarkInv s1 := by
  intro fuel
  induction fuel with
  | zero =>
    intro s in_set s1 in1 hinv hrun
    unfold min_app_search_while at hrun
    cases hs : s.stack with
    | nil =>
      simp only [hs] at hrun
      cases hrun
      exact hinv
    | cons top rest =>
      simp only [hs] at hrun
      cases hrun
  | succ fuel ih =>
    intro s in_set s1 in1 hinv hrun
    unfold min_app_search_while at hrun
    cases hs : s.stack with
    | nil =>
      simp only [hs] at hrun
      cases hrun
      exact hinv
    | cons top rest =>
      simp only [hs] at hrun
      exact ih _ _ s1 in1 (min_app_search_step_unmark s in_set top rest hinv) hrun

theorem min_app_union_marks (nodes : List BtorNode) (cur : Nat) :
    ∀ (l : List NodeRef) (in_set : List Nat) (s s1 : MinAppState),
      (∀ n, s.aux_mark n = 0) → min_app_union nodes cur l in_set s = .ok s1 →
      ∀ n, s1.aux_mark n = 0 := by
  intro l
  induction l with
  | nil =>
    intro in_set s s1 hz hrun
    simp only [min_app_union] at hrun
    cases hrun
    exact hz
  | cons c rest ih =>
    intro in_set s s1 hz hrun
    simp only [min_app_union] at hrun
    split at hrun
    · refine ih _ _ s1 ?_ hrun
      exact hz
    · split at hrun
      · cases hrun
      · rename_i s0 in1 hsearch
        have hinv0 : AppUnmarkInv s0 := by
          refine min_app_search_while_unmark _ _ _ s0 in1 ?_ hsearch
          exact fun n hn => absurd (hz n) hn
        refine ih _ _ s1 ?_ hrun
        exact fun n => reset_marks_zero hinv0 n

theorem min_app_node_marks (nodes : List BtorNode) (s s1 : MinAppState) (cur : Nat)
    (hz : ∀ n, s.aux_mark n = 0) (hrun : min_app_node nodes s cur = .ok s1) :
    ∀ n, s1.aux_mark n = 0 := by
  unfold min_app_node at hrun
  split at hrun
  · cases hrun
  · cases hrun
  · by_cases hand : !(get_node nodes cur).parameterized
        ∧ (get_node nodes cur).kind = BtorNodeKind.AND
    · simp only [if_pos hand] at hrun
      split at hrun
      · cases hrun
      · cases hrun
      · split at hrun
        · cases hrun
        · cases hrun
          exact hz
    · simp only [if_neg hand] at hrun
      refine min_app_union_marks nodes cur _ _ _ s1 ?_ hrun
      exact hz

theorem min_app_nodes_marks (nodes : List BtorNode) :
    ∀ (l : List Nat) (s s1 : MinAppState), (∀ n, s.aux_mark n = 0) →
      min_app_nodes nodes l s = .ok s1 → ∀ n, s1.aux_mark n = 0 := by
  intro l
  induction l with
  | nil =>
    intro s s1 hz hrun
    simp only [min_app_nodes] at hrun
    cases hrun
    exact hz
  | cons cur rest ih =>
    intro s s1 hz hrun
    simp only [min_app_nodes] at hrun
    split at hrun
    · cases hrun
    · rename_i s0 hnode
      exact ih s0 s1 (min_app_node_marks nodes s s0 cur hz hnode) hrun

theorem compute_scores_aux_min_app_marks (btor btor1 : Btor) (it : List NodeRef)
    (hmarks : ∀ n, btor.aux_mark n = 0)
    (hrun : compute_scores_aux_min_app btor it = .ok btor1) : ∀ n, btor1.aux_mark n = 0 := by
  unfold compute_scores_aux_min_app at hrun
  split_ifs at hrun
  · cases hrun
    exact hmarks
  · split at hrun
    · cases hrun
    · rename_i s1 hpass1
      split at hrun
      · cases hrun
      · rename_i s2 hpass2
        cases hrun
        have hinv1 : AppUnmarkInv s1 := by
          refine min_app_mark_seeds_unmark it _ s1 ?_ hpass1
          exact fun n hn => absurd (hmarks n) hn
        refine min_app_nodes_marks btor.nodes _ _ s2 ?_ hpass2
        exact fun n => reset_marks_zero hinv1 n

/-- After a completed dispatch from clean marks all marks are clean again. -/
theorem compute_scores_aux_marks (btor btor1 : Btor) (it : List NodeRef)
    (hmarks : ∀ n, btor.aux_mark n = 0)
    (hrun : compute_scores_aux btor it = .ok btor1) : ∀ n, btor1.aux_mark n = 0 := by
  unfold compute_scores_aux at hrun
  split at hrun
  · cases hrun
    exact hmarks
  · exact compute_scores_aux_min_app_marks btor btor1 it hmarks hrun
  · exact compute_scores_aux_min_app_marks btor btor1 it hmarks hrun
  · rename_i hh
    obtain ⟨_, _, _, _, hclean⟩ := compute_scores_aux_min_dep_ok (R := fun _ => True)
      btor btor1 it (by rw [hh]; decide) (fun _ _ _ _ => trivial) hrun
    exact (hclean hmarks).1
  · rename_i hh
    obtain ⟨_, _, _, _, hclean⟩ := compute_scores_aux_min_dep_ok (R := fun _ => True)
      btor btor1 it (by rw [hh]; decide) (fun _ _ _ _ => trivial) hrun
    exact (hclean hmarks).1

/-! ## C15 to C17: marks, the heuristic NONE and the cleanup of the dual propagation -/

theorem compute_scores_aux_frame {btor btor1 : Btor} {it : List NodeRef}
    (h : compute_scores_aux btor it = .ok btor1) :
    btor1.nodes = btor.nodes ∧ btor1.just_heuristic = btor.just_heuristic
      ∧ btor1.synthesized_constraints = btor.synthesized_constraints
      ∧ btor1.assumptions = btor.assumptions := by
  unfold compute_scores_aux at h
  split at h
  · cases h; exact ⟨rfl, rfl, rfl, rfl⟩
  all_goals
    first
    | (unfold compute_scores_aux_min_app at h
       split_ifs at h
       · cases h; exact ⟨rfl, rfl, rfl, rfl⟩
       · split at h
         · cases h
         · split at h
           · cases h
           · cases h; exact ⟨rfl, rfl, rfl, rfl⟩)
    | (unfold compute_scores_aux_min_dep at h
       split_ifs at h
       · cases h; exact ⟨rfl, rfl, rfl, rfl⟩
       · split at h
         · cases h
         · cases h; exact ⟨rfl, rfl, rfl, rfl⟩)

theorem dual_prop_cleanup_eq (nodes : List BtorNode) :
    ∀ (t t1 : BtorPtrHashTable (Option (List Nat))), dual_prop_cleanup nodes t = .ok t1 →
      t1 = t.filter (fun p => decide ((get_node nodes p.1).kind = BtorNodeKind.BV_VAR
        ∨ (get_node nodes p.1).kind = BtorNodeKind.APPLY)) := by
  intro t
  induction t with
  | nil =>
    intro t1 h
    simp only [dual_prop_cleanup] at h
    cases h
    rfl
  | cons p rest ih =>
    intro t1 h
    obtain ⟨cur, d⟩ := p
    simp only [dual_prop_cleanup] at h
    by_cases hk : (get_node nodes cur).kind ≠ BtorNodeKind.BV_VAR
        ∧ (get_node nodes cur).kind ≠ BtorNodeKind.APPLY
    · rw [if_pos hk] at h
      split at h
      · cases h
      · rw [ih t1 h]
        have hq : ¬ ((get_node nodes cur).kind = BtorNodeKind.BV_VAR
            ∨ (get_node nodes cur).kind = BtorNodeKind.APPLY) := by
          rintro (h1 | h1)
          · exact hk.1 h1
          · exact hk.2 h1
        simp [List.filter, hq]
    · rw [if_neg hk] at h
      split at h
      · cases h
      · rename_i t2 h2
        cases h
        rw [ih t2 h2]
        have hq : (get_node nodes cur).kind = BtorNodeKind.BV_VAR
            ∨ (get_node nodes cur).kind = BtorNodeKind.APPLY := by
          by_contra h0
          exact hk ⟨fun h1 => h0 (Or.inl h1), fun h1 => h0 (Or.inr h1)⟩
        simp [List.filter, hq]

theorem find_filter_key {V : Type} (q : Nat → Bool) :
    ∀ (t : BtorPtrHashTable V) (k : Nat),
      btor_find_in_ptr_hash_table (t.filter (fun p => q p.1)) k
        = if q k = true then btor_find_in_ptr_hash_table t k else none := by
  intro t
  induction t with
  | nil =>
    intro k
    simp [btor_find_in_ptr_hash_table]
  | cons p rest ih =>
    intro k
    obtain ⟨k1, v⟩ := p
    by_cases hq : q k1 = true
    · rw [List.filter_cons_of_pos (by simpa using hq)]
      simp only [btor_find_in_ptr_hash_table]
      by_cases hk : k1 = k
      · rw [if_pos hk, if_pos hk, ← hk, if_pos hq]
      · rw [if_neg hk, if_neg hk, ih]
    · rw [List.filter_cons_of_neg (by simpa using hq), ih]
      simp only [btor_find_in_ptr_hash_table]
      by_cases hk : k1 = k
      · rw [← hk, if_neg hq, if_neg hq]
      · rw [if_neg hk]

theorem dual_prop_filter_ok {btor1 btor2 : Btor} (h : dual_prop_filter btor1 = .ok btor2) :
    btor2.aux_mark = btor1.aux_mark ∧ btor2.score_depth = btor1.score_depth
      ∧ btor2.just_heuristic = btor1.just_heuristic
      ∧ (btor1.just_heuristic = JustHeur.BRANCH_MIN_APP
          ∨ btor1.just_heuristic = JustHeur.BRANCH_MIN_APP_BVSKEL →
          ∃ t, btor1.score = some t
            ∧ btor2.score = some (t.filter (fun p =>
                decide ((get_node btor1.nodes p.1).kind = BtorNodeKind.BV_VAR
                  ∨ (get_node btor1.nodes p.1).kind = BtorNodeKind.APPLY))))
      ∧ (¬ (btor1.just_heuristic = JustHeur.BRANCH_MIN_APP
          ∨ btor1.just_heuristic = JustHeur.BRANCH_MIN_APP_BVSKEL) → btor2 = btor1) := by
  unfold dual_prop_filter at h
  by_cases hh : btor1.just_heuristic = JustHeur.BRANCH_MIN_APP
      ∨ btor1.just_heuristic = JustHeur.BRANCH_MIN_APP_BVSKEL
  · rw [if_pos hh] at h
    split at h
    · cases h
    · rename_i t ht
      split at h
      · cases h
      · rename_i t1 hclean
        cases h
        refine ⟨rfl, rfl, rfl, fun _ => ⟨t, ht, ?_⟩, fun h0 => absurd hh h0⟩
        simp only
        rw [dual_prop_cleanup_eq _ _ _ hclean]
  · rw [if_neg hh] at h
    cases h
    exact ⟨rfl, rfl, rfl, fun h0 => absurd h0 hh, fun _ => rfl⟩

/-- What a completed `btor_compute_scores_dual_prop` consists of: the collecting traversal, the
dispatch on the collected nodes from clean marks, and the cleanup. -/
theorem dual_prop_ok {btor btor2 : Btor} (hwf : WellFormedNodes btor.nodes)
    (hseeds : ∀ r ∈ btor.synthesized_constraints ++ btor.assumptions,
      BTOR_REAL_ADDR_NODE r < btor.nodes.length)
    (hmarks : ∀ n, btor.aux_mark n = 0)
    (hrun : btor_compute_scores_dual_prop btor = .ok btor2) :
    ∃ s btor1, dual_prop_collect btor = .ok s
      ∧ (∀ n, reset_marks s.aux_mark s.unmark_stack n = 0)
      ∧ compute_scores_aux { btor with aux_mark := reset_marks s.aux_mark s.unmark_stack }
          (s.applies.map (fun n => ⟨n, false⟩)) = .ok btor1
      ∧ dual_prop_filter btor1 = .ok btor2 := by
  obtain ⟨s, hcollect, _, hunmark, _, _⟩ := dual_prop_collect_spec btor hwf hseeds hmarks
  simp only [btor_compute_scores_dual_prop, check_marks_unset hmarks, hcollect] at hrun
  cases hdispatch : compute_scores_aux
      { btor with aux_mark := reset_marks s.aux_mark s.unmark_stack }
      (s.applies.map (fun n => ⟨n, false⟩)) with
  | error f =>
    rw [hdispatch] at hrun
    simp at hrun
  | ok btor1 =>
    rw [hdispatch] at hrun
    exact ⟨s, btor1, hcollect, fun n => reset_marks_zero hunmark n, hdispatch,
      by simpa using hrun⟩

/-- C15: on a finite graph in which every mark is unvisited on entry, every mark is unvisited
again when `btor_compute_scores` returns and when `btor_compute_scores_dual_prop` returns,
under every heuristic id. -/
theorem marks_clean_after_calls (btor : Btor) (hwf : WellFormedNodes btor.nodes)
    (hseeds : ∀ r ∈ btor.synthesized_constraints ++ btor.assumptions,
      BTOR_REAL_ADDR_NODE r < btor.nodes.length)
    (hmarks : ∀ n, btor.aux_mark n = 0) :
    (∀ btor1, btor_compute_scores btor = .ok btor1 → ∀ n, btor1.aux_mark n = 0)
      ∧ ∀ btor2, btor_compute_scores_dual_prop btor = .ok btor2 → ∀ n, btor2.aux_mark n = 0 := by
  refine ⟨fun btor1 hrun => compute_scores_aux_marks btor btor1 _ hmarks hrun,
    fun btor2 hrun => ?_⟩
  obtain ⟨s, btor1, _, hzero, hdispatch, hfilter⟩ := dual_prop_ok hwf hseeds hmarks hrun
  have h1 := compute_scores_aux_marks _ btor1 _ hzero hdispatch
  intro n
  rw [(dual_prop_filter_ok hfilter).1]
  exact h1 n

theorem dualBtor_dual_prop_run :
    ∃ btor2, btor_compute_scores_dual_prop (dualBtor JustHeur.BRANCH_MIN_APP) = .ok btor2
      ∧ btor2.score = some [(1, some [])] := by
  cases hrun : btor_compute_scores_dual_prop (dualBtor JustHeur.BRANCH_MIN_APP) with
  | error f =>
    have h1 : (btor_compute_scores_dual_prop (dualBtor JustHeur.BRANCH_MIN_APP)).toOption.isSome
        = true := by
      decide
    rw [hrun] at h1
    simp [Except.toOption] at h1
  | ok btor2 =>
    have h1 : (btor_compute_scores_dual_prop (dualBtor JustHeur.BRANCH_MIN_APP)).toOption.map
        (fun b => b.score) = some (some [(1, some [])]) := by
      decide
    rw [hrun] at h1
    exact ⟨btor2, rfl, by simpa [Except.toOption] using h1⟩

theorem dualBtor_min_app_run :
    ∃ btor1, btor_compute_scores (dualBtor JustHeur.BRANCH_MIN_APP) = .ok btor1 := by
  cases hrun : btor_compute_scores (dualBtor JustHeur.BRANCH_MIN_APP) with
  | error f =>
    have h1 : (btor_compute_scores (dualBtor JustHeur.BRANCH_MIN_APP)).toOption.isSome
        = true := by
      decide
    rw [hrun] at h1
    simp [Except.toOption] at h1
  | ok btor1 => exact ⟨btor1, rfl⟩

theorem marks_clean_after_calls_witness :
    ∃ btor1 btor2, btor_compute_scores (dualBtor JustHeur.BRANCH_MIN_APP) = .ok btor1
      ∧ btor_compute_scores_dual_prop (dualBtor JustHeur.BRANCH_MIN_APP) = .ok btor2
      ∧ (∀ n, btor1.aux_mark n = 0) ∧ ∀ n, btor2.aux_mark n = 0 :=
  dualBtor_min_app_run.elim fun btor1 h1 =>
    dualBtor_dual_prop_run.elim fun btor2 h2 =>
      ⟨btor1, btor2, h1, h2.1,
        (marks_clean_after_calls (dualBtor JustHeur.BRANCH_MIN_APP)
          (wellFormed_of_check dualNodes_check) (by decide) (fun _ => rfl)).1 btor1 h1,
        (marks_clean_after_calls (dualBtor JustHeur.BRANCH_MIN_APP)
          (wellFormed_of_check dualNodes_check) (by decide) (fun _ => rfl)).2 btor2 h2.1⟩

/-- C16: under the heuristic NONE, on a finite graph with clean marks, `btor_compute_scores`
and `btor_compute_scores_dual_prop` return the context they were given (both tables and all
marks as they were), `less(a, b)` returns false (`0`) and `order_for_sort(n, m)` returns `0`. -/
theorem none_is_noop (btor : Btor) (a b : NodeRef) (n m : Nat)
    (hh : btor.just_heuristic = JustHeur.NONE) (hwf : WellFormedNodes btor.nodes)
    (hseeds : ∀ r ∈ btor.synthesized_constraints ++ btor.assumptions,
      BTOR_REAL_ADDR_NODE r < btor.nodes.length)
    (hmarks : ∀ n, btor.aux_mark n = 0) :
    btor_compute_scores btor = .ok btor
      ∧ btor_compute_scores_dual_prop btor = .ok btor
      ∧ btor_compare_scores btor a b = .ok 0
      ∧ btor_compare_scores_qsort btor n m = .ok 0 := by
  refine ⟨by simp [btor_compute_scores, compute_scores_aux, hh], ?_,
    by simp [btor_compare_scores, hh], by simp [btor_compare_scores_qsort, hh]⟩
  obtain ⟨s, hcollect, _, hunmark, _, _⟩ := dual_prop_collect_spec btor hwf hseeds hmarks
  have hfun : reset_marks s.aux_mark s.unmark_stack = btor.aux_mark := by
    funext k
    rw [reset_marks_zero hunmark k, hmarks k]
  simp only [btor_compute_scores_dual_prop, check_marks_unset hmarks, hcollect, hfun]
  simp [compute_scores_aux, hh, dual_prop_filter]
  rw [← hh]

theorem none_is_noop_witness :
    btor_compute_scores (dualBtor JustHeur.NONE) = .ok (dualBtor JustHeur.NONE)
      ∧ btor_compute_scores_dual_prop (dualBtor JustHeur.NONE) = .ok (dualBtor JustHeur.NONE)
      ∧ btor_compare_scores (dualBtor JustHeur.NONE) ⟨1, false⟩ ⟨6, true⟩ = .ok 0
      ∧ btor_compare_scores_qsort (dualBtor JustHeur.NONE) 1 6 = .ok 0 :=
  none_is_noop (dualBtor JustHeur.NONE) ⟨1, false⟩ ⟨6, true⟩ 1 6 rfl
    (wellFormed_of_check dualNodes_check) (by decide) (fun _ => rfl)

/-- C17: after a completed `btor_compute_scores_dual_prop` under MIN_APP or MIN_APP_SKELETON, on
a finite graph with clean marks, the application table is the table the dispatch step produced
with the buckets whose key is neither a bit-vector variable nor an APPLY node removed: a key of
another kind has no entry, and a key that is a bit-vector variable or an APPLY node has the
entry the dispatch step gave it. -/
theorem dual_prop_filtering (btor btor2 : Btor) (hwf : WellFormedNodes btor.nodes)
    (hseeds : ∀ r ∈ btor.synthesized_constraints ++ btor.assumptions,
      BTOR_REAL_ADDR_NODE r < btor.nodes.length)
    (hmarks : ∀ n, btor.aux_mark n = 0)
    (hh : btor.just_heuristic = JustHeur.BRANCH_MIN_APP
      ∨ btor.just_heuristic = JustHeur.BRANCH_MIN_APP_BVSKEL)
    (hrun : btor_compute_scores_dual_prop btor = .ok btor2) :
    ∃ s btor1 table table2, dual_prop_collect btor = .ok s
      ∧ compute_scores_aux { btor with aux_mark := reset_marks s.aux_mark s.unmark_stack }
          (s.applies.map (fun n => ⟨n, false⟩)) = .ok btor1
      ∧ btor1.score = some table
      ∧ btor2.score = some table2
      ∧ table2 = table.filter (fun p =>
          decide ((get_node btor.nodes p.1).kind = BtorNodeKind.BV_VAR
            ∨ (get_node btor.nodes p.1).kind = BtorNodeKind.APPLY))
      ∧ ∀ k, btor_find_in_ptr_hash_table table2 k
          = if (get_node btor.nodes k).kind = BtorNodeKind.BV_VAR
              ∨ (get_node btor.nodes k).kind = BtorNodeKind.APPLY
            then btor_find_in_ptr_hash_table table k else none := by
  obtain ⟨s, btor1, hcollect, _, hdispatch, hfilter⟩ := dual_prop_ok hwf hseeds hmarks hrun
  obtain ⟨hnodes, hheur, _, _⟩ := compute_scores_aux_frame hdispatch
  have hh1 : btor1.just_heuristic = JustHeur.BRANCH_MIN_APP
      ∨ btor1.just_heuristic = JustHeur.BRANCH_MIN_APP_BVSKEL := by
    rw [hheur]
    exact hh
  obtain ⟨table, htable, htable2⟩ := (dual_prop_filter_ok hfilter).2.2.2.1 hh1
  rw [hnodes] at htable2
  refine ⟨s, btor1, table, _, hcollect, hdispatch, htable, htable2, rfl, fun k => ?_⟩
  rw [find_filter_key (fun k => decide ((get_node btor.nodes k).kind = BtorNodeKind.BV_VAR
    ∨ (get_node btor.nodes k).kind = BtorNodeKind.APPLY))]
  simp only [decide_eq_true_eq]

theorem dual_prop_filtering_witness :
    ∃ btor2, btor_compute_scores_dual_prop (dualBtor JustHeur.BRANCH_MIN_APP) = .ok btor2
      ∧ ∃ s btor1 table table2, dual_prop_collect (dualBtor JustHeur.BRANCH_MIN_APP) = .ok s
        ∧ compute_scores_aux
            { dualBtor JustHeur.BRANCH_MIN_APP with
              aux_mark := reset_marks s.aux_mark s.unmark_stack }
            (s.applies.map (fun n => ⟨n, false⟩)) = .ok btor1
        ∧ btor1.score = some table
        ∧ btor2.score = some table2
        ∧ table2 = table.filter (fun p =>
            decide ((get_node dualNodes p.1).kind = BtorNodeKind.BV_VAR
              ∨ (get_node dualNodes p.1).kind = BtorNodeKind.APPLY))
        ∧ ∀ k, btor_find_in_ptr_hash_table table2 k
            = if (get_node dualNodes k).kind = BtorNodeKind.BV_VAR
                ∨ (get_node dualNodes k).kind = BtorNodeKind.APPLY
              then btor_find_in_ptr_hash_table table k else none :=
  dualBtor_dual_prop_run.elim fun btor2 h =>
    ⟨btor2, h.1, dual_prop_filtering (dualBtor JustHeur.BRANCH_MIN_APP) btor2
      (wellFormed_of_check dualNodes_check) (by decide) (fun _ => rfl) (Or.inl rfl) h.1⟩

/-! ## C13: existing entries are kept -/

theorem scoreFresh_trans {s s1 s2 : MinAppState} (h1 : ScoreFresh s s1) (hext : MarkExt s s1)
    (h2 : ScoreFresh s1 s2) : ScoreFresh s s2 := by
  intro k hk
  rcases h2 k hk with h3 | h3
  · exact h1 k h3
  · right
    cases hf : btor_find_in_ptr_hash_table s.btor_score k with
    | none => rfl
    | some x =>
      rw [hext.1 k x hf] at h3
      cases h3

theorem min_app_push_children_fresh (and_node : Bool) :
    ∀ (l : List NodeRef) (s : MinAppState),
      ScoreFresh s (min_app_push_children and_node l s) := by
  intro l
  induction l with
  | nil =>
    intro s k hk
    exact Or.inl hk
  | cons c rest ih =>
    intro s
    by_cases hcond : and_node = true
        ∧ (btor_find_in_ptr_hash_table s.btor_score (BTOR_REAL_ADDR_NODE c)).isNone = true
    · have hnone : btor_find_in_ptr_hash_table s.btor_score (BTOR_REAL_ADDR_NODE c) = none := by
        simpa using hcond.2
      simp only [min_app_push_children, if_pos hcond]
      intro k hk
      rcases ih { s with
          btor_score := btor_insert_in_ptr_hash_table s.btor_score (BTOR_REAL_ADDR_NODE c) none
          score := BTOR_REAL_ADDR_NODE c :: s.score
          stack := ⟨BTOR_REAL_ADDR_NODE c, false⟩ :: s.stack } k hk with h1 | h1
      · simp only at h1
        rcases List.mem_cons.1 h1 with h2 | h2
        · right
          rw [h2]
          exact hnone
        · exact Or.inl h2
      · right
        simp only at h1
        cases hf : btor_find_in_ptr_hash_table s.btor_score k with
        | none => rfl
        | some x =>
          rw [find_insert_of_some hf] at h1
          cases h1
    · simp only [min_app_push_children, if_neg hcond]
      intro k hk
      have h1 := ih { s with stack := ⟨BTOR_REAL_ADDR_NODE c, false⟩ :: s.stack } k hk
      exact h1

theorem min_app_mark_step_fresh {nodes : List BtorNode} (s : MinAppState) (top : NodeRef)
    (rest : List NodeRef) : ScoreFresh s (min_app_mark_step nodes s top rest) := by
  by_cases hm : s.aux_mark (BTOR_REAL_ADDR_NODE top) ≠ 0
  · simp only [min_app_mark_step, if_pos hm]
    intro k hk
    exact Or.inl hk
  · simp only [min_app_mark_step, if_neg hm]
    intro k hk
    have h1 := min_app_push_children_fresh
      (!(get_node nodes (BTOR_REAL_ADDR_NODE top)).parameterized
        && (get_node nodes (BTOR_REAL_ADDR_NODE top)).kind == BtorNodeKind.AND)
      (get_node nodes (BTOR_REAL_ADDR_NODE top)).e
      { s with
        aux_mark := set_mark s.aux_mark (BTOR_REAL_ADDR_NODE top) 1
        stack := rest
        unmark_stack := BTOR_REAL_ADDR_NODE top :: s.unmark_stack } k hk
    exact h1

theorem min_app_mark_while_fresh {nodes : List BtorNode} :
    ∀ (fuel : Nat) (s s1 : MinAppState), MinAppMarkInv nodes s →
      min_app_mark_while nodes fuel s = .ok s1 → ScoreFresh s s1 := by
  intro fuel
  induction fuel with
  | zero =>
    intro s s1 _ hrun
    unfold min_app_mark_while at hrun
    cases hs : s.stack with
    | nil =>
      simp only [hs] at hrun
      cases hrun
      exact fun k hk => Or.inl hk
    | cons top rest =>
      simp only [hs] at hrun
      cases hrun
  | succ fuel ih =>
    intro s s1 hinv hrun
    unfold min_app_mark_while at hrun
    cases hs : s.stack with
    | nil =>
      simp only [hs] at hrun
      cases hrun
      exact fun k hk => Or.inl hk
    | cons top rest =>
      simp only [hs] at hrun
      obtain ⟨hinv1, hext1, _, _⟩ := min_app_mark_step_spec s top rest hs hinv
      exact scoreFresh_trans (min_app_mark_step_fresh s top rest) hext1 (ih _ s1 hinv1 hrun)

theorem min_app_mark_seeds_fresh {nodes : List BtorNode} :
    ∀ (seeds : List NodeRef) (s s1 : MinAppState), MinAppMarkInv nodes s → s.stack = [] →
      min_app_mark_seeds nodes seeds s = .ok s1 → ScoreFresh s s1 := by
  intro seeds
  induction seeds with
  | nil =>
    intro s s1 _ _ hrun
    simp only [min_app_mark_seeds] at hrun
    cases hrun
    exact fun k hk => Or.inl hk
  | cons cur seeds ih =>
    intro s s1 hinv hs hrun
    simp only [min_app_mark_seeds] at hrun
    split at hrun
    · cases hrun
    · rename_i s0 hrun0
      have hinv0 : MinAppMarkInv nodes { s with stack := cur :: s.stack } := by
        refine ⟨fun n hn c hc => ?_, hinv.and_children⟩
        rcases hinv.closure n hn c hc with h1 | h1
        · exact Or.inl h1
        · rw [hs] at h1
          simp at h1
      obtain ⟨hinv1, hempty1, hext1, _, _⟩ := min_app_mark_while_spec _ _ s0 hinv0 hrun0
      have hf0 : ScoreFresh s s0 := by
        have := min_app_mark_while_fresh _ _ s0 hinv0 hrun0
        exact this
      exact scoreFresh_trans hf0 ⟨hext1.1, hext1.2.1, hext1.2.2⟩ (ih s0 s1 hinv1 hempty1 hrun)

theorem min_app_nodes_frame (nodes : List BtorNode) :
    ∀ (l : List Nat) (s s1 : MinAppState), min_app_nodes nodes l s = .ok s1 →
      ∀ k, k ∉ l → btor_find_in_ptr_hash_table s1.btor_score k
        = btor_find_in_ptr_hash_table s.btor_score k := by
  intro l
  induction l with
  | nil =>
    intro s s1 hrun k _
    simp only [min_app_nodes] at hrun
    cases hrun
    rfl
  | cons cur rest ih =>
    intro s s1 hrun k hk
    simp only [min_app_nodes] at hrun
    split at hrun
    · cases hrun
    · rename_i s0 hnode
      obtain ⟨_, hframe, _, _⟩ := min_app_node_spec nodes s s0 cur hnode
      have hkc : k ≠ cur := fun h0 => hk (by rw [h0]; exact List.mem_cons_self _ _)
      have hkr : k ∉ rest := fun h0 => hk (List.mem_cons_of_mem _ h0)
      rw [ih s0 s1 hrun k hkr, hframe k hkc]

/-- A completed run of the application scorer keeps every bucket of the table, with its set or
without one, and leaves the depth table alone. -/
theorem compute_scores_aux_min_app_keeps (btor btor1 : Btor) (it : List NodeRef)
    (hrun : compute_scores_aux_min_app btor it = .ok btor1) :
    btor1.score_depth = btor.score_depth
      ∧ ∀ t k x, btor.score = some t → btor_find_in_ptr_hash_table t k = some x →
          ∃ t1, btor1.score = some t1 ∧ btor_find_in_ptr_hash_table t1 k = some x := by
  unfold compute_scores_aux_min_app at hrun
  by_cases hcheck : check_id_table_aux_mark_unset_dbg btor.nodes btor.aux_mark = true
  · simp only [hcheck, Bool.not_true, Bool.false_eq_true, if_false] at hrun
    by_cases hh : btor.just_heuristic = JustHeur.NONE
    · rw [if_pos hh] at hrun
      cases hrun
      exact ⟨rfl, fun t k x ht hf => ⟨t, ht, hf⟩⟩
    · rw [if_neg hh] at hrun
      split at hrun
      · cases hrun
      · rename_i s1 hpass1
        split at hrun
        · cases hrun
        · rename_i s2 hpass2
          cases hrun
          refine ⟨rfl, fun t k x ht hf => ⟨s2.btor_score, rfl, ?_⟩⟩
          have hinv0 : MinAppMarkInv btor.nodes
              { aux_mark := btor.aux_mark
                btor_score := btor.score.getD []
                stack := []
                unmark_stack := []
                score := [] } := by
            have hnone : ∀ n, btor.aux_mark n ≠ 0 → children btor.nodes n = [] := by
              intro n hn
              have hge : btor.nodes.length ≤ n := by
                by_contra hlt
                exact hn (marks_unset_of_check hcheck n (Nat.lt_of_not_le hlt))
              simp [children, get_node_of_ge hge]
            refine ⟨fun n hn c hc => ?_, fun n hn _ c hc => ?_⟩
            · rw [hnone n hn] at hc
              simp at hc
            · rw [hnone n hn] at hc
              simp at hc
          obtain ⟨_, _, hext1, _, _⟩ := min_app_mark_seeds_spec it _ s1 hinv0 rfl hpass1
          have hfresh := min_app_mark_seeds_fresh it _ s1 hinv0 rfl hpass1
          have hf0 : btor_find_in_ptr_hash_table (btor.score.getD []) k = some x := by
            rw [ht]
            exact hf
          have hk1 : btor_find_in_ptr_hash_table s1.btor_score k = some x := hext1.1 k x hf0
          have hnotin : k ∉ qsort_by_id_asc s1.score.reverse := by
            intro h0
            rw [mem_qsort_by_id_asc, List.mem_reverse] at h0
            rcases hfresh k h0 with h1 | h1
            · simp at h1
            · simp only at h1
              rw [hf0] at h1
              cases h1
          rw [min_app_nodes_frame btor.nodes _ _ s2 hpass2 k hnotin]
          exact hk1
  · simp only [hcheck, Bool.not_false, if_true] at hrun
    cases hrun

theorem exists_ok_of_isSome {α : Type} {x : Except BtorFault α}
    (h : x.toOption.isSome = true) : ∃ a, x = .ok a := by
  cases x with
  | error f => simp [Except.toOption] at h
  | ok a => exact ⟨a, rfl⟩

/-- C13: a completed `btor_compute_scores` keeps every entry of both tables, under every
heuristic id, on every graph and for every table state: a key with an integer in the depth
table before the call has the same integer after it, and a key with a bucket in the application
table before the call has the same bucket (the same set) after it. -/
theorem existing_entries_kept (btor btor1 : Btor)
    (hrun : btor_compute_scores btor = .ok btor1) :
    (∀ t n v, btor.score_depth = some t → btor_find_in_ptr_hash_table t n = some v →
        ∃ t1, btor1.score_depth = some t1 ∧ btor_find_in_ptr_hash_table t1 n = some v)
      ∧ ∀ t n x, btor.score = some t → btor_find_in_ptr_hash_table t n = some x →
          ∃ t1, btor1.score = some t1 ∧ btor_find_in_ptr_hash_table t1 n = some x := by
  have happ : compute_scores_aux_min_app btor
      (btor.synthesized_constraints ++ btor.assumptions) = .ok btor1 →
      (∀ t n v, btor.score_depth = some t → btor_find_in_ptr_hash_table t n = some v →
        ∃ t1, btor1.score_depth = some t1 ∧ btor_find_in_ptr_hash_table t1 n = some v)
      ∧ ∀ t n x, btor.score = some t → btor_find_in_ptr_hash_table t n = some x →
          ∃ t1, btor1.score = some t1 ∧ btor_find_in_ptr_hash_table t1 n = some x := by
    intro h
    obtain ⟨hd, hs⟩ := compute_scores_aux_min_app_keeps btor btor1 _ h
    exact ⟨fun t n v ht hf => ⟨t, by rw [hd, ht], hf⟩, hs⟩
  have hdep : btor.just_heuristic ≠ JustHeur.NONE →
      compute_scores_aux_min_dep btor
        (btor.synthesized_constraints ++ btor.assumptions) = .ok btor1 →
      (∀ t n v, btor.score_depth = some t → btor_find_in_ptr_hash_table t n = some v →
        ∃ t1, btor1.score_depth = some t1 ∧ btor_find_in_ptr_hash_table t1 n = some v)
      ∧ ∀ t n x, btor.score = some t → btor_find_in_ptr_hash_table t n = some x →
          ∃ t1, btor1.score = some t1 ∧ btor_find_in_ptr_hash_table t1 n = some x := by
    intro hne h
    obtain ⟨t1, ht1, hs, hext, _⟩ := compute_scores_aux_min_dep_ok (R := fun _ => True)
      btor btor1 _ hne (fun _ _ _ _ => trivial) h
    refine ⟨fun t n v ht hf => ⟨t1, ht1, hext n v ?_⟩, fun t n x ht hf => ⟨t, by rw [hs, ht], hf⟩⟩
    rw [ht]
    exact hf
  unfold btor_compute_scores compute_scores_aux at hrun
  split at hrun
  · cases hrun
    exact ⟨fun t n v ht hf => ⟨t, ht, hf⟩, fun t n x ht hf => ⟨t, ht, hf⟩⟩
  · exact happ hrun
  · exact happ hrun
  · rename_i hh
    exact hdep (by rw [hh]; decide) hrun
  · rename_i hh
    exact hdep (by rw [hh]; decide) hrun

theorem existing_entries_kept_witness :
    ∃ btor1,
      btor_compute_scores { andBtor JustHeur.BRANCH_MIN_APP with
        score := some [(8, some []), (3, some [2])] } = .ok btor1
        ∧ (∀ t n v, (none : Option (BtorPtrHashTable Int)) = some t →
            btor_find_in_ptr_hash_table t n = some v →
            ∃ t1, btor1.score_depth = some t1 ∧ btor_find_in_ptr_hash_table t1 n = some v)
        ∧ ∀ t n x, some [(8, some []), (3, some [2])] = some t →
            btor_find_in_ptr_hash_table t n = some x →
            ∃ t1, btor1.score = some t1 ∧ btor_find_in_ptr_hash_table t1 n = some x :=
  (exists_ok_of_isSome (x := btor_compute_scores { andBtor JustHeur.BRANCH_MIN_APP with
      score := some [(8, some []), (3, some [2])] }) (by decide)).elim fun btor1 h =>
    ⟨btor1, h, existing_entries_kept _ btor1 h⟩

/-! ## C14: a second call over a subset of the seeds -/

theorem min_dep_seeds_scored (nodes : List BtorNode) (h : JustHeur) :
    ∀ (seeds : List NodeRef) (s : MinDepState), s.stack = [] →
      (∀ r ∈ seeds, btor_find_in_ptr_hash_table s.score (BTOR_REAL_ADDR_NODE r) ≠ none) →
      min_dep_seeds nodes h seeds s = .ok s := by
  intro seeds
  induction seeds with
  | nil =>
    intro s _ _
    rfl
  | cons cur seeds ih =>
    intro s hs hsc
    obtain ⟨m, sc, st, um⟩ := s
    simp only at hs
    subst hs
    have hcur := hsc cur (List.mem_cons_self _ _)
    simp only at hcur
    have hsome : (btor_find_in_ptr_hash_table sc (BTOR_REAL_ADDR_NODE cur)).isSome = true := by
      cases hf : btor_find_in_ptr_hash_table sc (BTOR_REAL_ADDR_NODE cur) with
      | none => exact absurd hf hcur
      | some v => rfl
    obtain ⟨k, hk⟩ : ∃ k, dfs_fuel nodes m [cur] = k + 1 :=
      ⟨_, by simp only [dfs_fuel, List.length_singleton]; exact Nat.add_comm 1 _⟩
    have hw : min_dep_while nodes h (dfs_fuel nodes m [cur])
        { aux_mark := m, score := sc, stack := [cur], unmark_stack := um }
        = .ok { aux_mark := m, score := sc, stack := [], unmark_stack := um } := by
      rw [hk]
      unfold min_dep_while
      simp only [min_dep_step, if_pos (Or.inr hsome)]
      unfold min_dep_while
      rfl
    simp only [min_dep_seeds, hw]
    exact ih _ rfl (fun r hr => hsc r (List.mem_cons_of_mem _ hr))

/-- A run of the depth scorer from clean marks on a table in which every seed has an entry
completes and leaves both tables as they are. -/
theorem compute_scores_aux_min_dep_again (btor : Btor) (it : List NodeRef)
    (hh : btor.just_heuristic ≠ JustHeur.NONE) (hmarks : ∀ n, btor.aux_mark n = 0)
    (T : BtorPtrHashTable Int) (hT : btor.score_depth = some T)
    (hsc : ∀ r ∈ it, btor_find_in_ptr_hash_table T (BTOR_REAL_ADDR_NODE r) ≠ none) :
    ∃ btor2, compute_scores_aux_min_dep btor it = .ok btor2
      ∧ btor2.score_depth = some T ∧ btor2.score = btor.score := by
  have hseeds := min_dep_seeds_scored btor.nodes btor.just_heuristic it
    { aux_mark := btor.aux_mark
      score := btor.score_depth.getD []
      stack := []
      unmark_stack := [] } rfl (by
        intro r hr
        simp only [hT, Option.getD_some]
        exact hsc r hr)
  unfold compute_scores_aux_min_dep
  simp only [check_marks_unset hmarks, Bool.not_true, Bool.false_eq_true, if_false, if_neg hh,
    hseeds]
  exact ⟨_, rfl, by simp only [hT, Option.getD_some], rfl⟩

theorem min_app_push_children_same (and_node : Bool) :
    ∀ (l : List NodeRef) (s : MinAppState),
      (and_node = true →
        ∀ c ∈ l, btor_find_in_ptr_hash_table s.btor_score (BTOR_REAL_ADDR_NODE c) ≠ none) →
      (min_app_push_children and_node l s).btor_score = s.btor_score
        ∧ (min_app_push_children and_node l s).score = s.score := by
  intro l
  induction l with
  | nil =>
    intro s _
    exact ⟨rfl, rfl⟩
  | cons c rest ih =>
    intro s hk
    have hcond : ¬ (and_node = true
        ∧ (btor_find_in_ptr_hash_table s.btor_score (BTOR_REAL_ADDR_NODE c)).isNone = true) := by
      rintro ⟨ha, hnone⟩
      have h1 := hk ha c (List.mem_cons_self _ _)
      cases hf : btor_find_in_ptr_hash_table s.btor_score (BTOR_REAL_ADDR_NODE c) with
      | none => exact h1 hf
      | some x =>
        rw [hf] at hnone
        cases hnone
    simp only [min_app_push_children, if_neg hcond]
    have h1 := ih { s with stack := ⟨BTOR_REAL_ADDR_NODE c, false⟩ :: s.stack }
      (fun ha c1 hc1 => hk ha c1 (List.mem_cons_of_mem _ hc1))
    exact h1

theorem min_app_mark_step_same {nodes : List BtorNode} {R : Nat → Prop}
    (hR : ∀ n c, R n → Child nodes n c → R c) (s : MinAppState) (top : NodeRef)
    (rest : List NodeRef) (hs : s.stack = top :: rest)
    (hK : ∀ n, R n → nonparam_and nodes n → ∀ c ∈ children nodes n,
      btor_find_in_ptr_hash_table s.btor_score c ≠ none)
    (hstack : ∀ n ∈ s.stack.map BTOR_REAL_ADDR_NODE, R n) :
    (min_app_mark_step nodes s top rest).btor_score = s.btor_score
      ∧ (min_app_mark_step nodes s top rest).score = s.score
      ∧ ∀ n ∈ (min_app_mark_step nodes s top rest).stack.map BTOR_REAL_ADDR_NODE, R n := by
  have htop : R (BTOR_REAL_ADDR_NODE top) := hstack _ (by rw [hs]; simp)
  have hrest : ∀ n ∈ rest.map BTOR_REAL_ADDR_NODE, R n := by
    intro n hn
    refine hstack n ?_
    rw [hs, List.map_cons]
    exact List.mem_cons_of_mem _ hn
  by_cases hm : s.aux_mark (BTOR_REAL_ADDR_NODE top) ≠ 0
  · have hunf : min_app_mark_step nodes s top rest = { s with stack := rest } := by
      simp only [min_app_mark_step, if_pos hm]
    rw [hunf]
    exact ⟨rfl, rfl, hrest⟩
  · have hunf : min_app_mark_step nodes s top rest
        = min_app_push_children
            (!(get_node nodes (BTOR_REAL_ADDR_NODE top)).parameterized
              && (get_node nodes (BTOR_REAL_ADDR_NODE top)).kind == BtorNodeKind.AND)
            (get_node nodes (BTOR_REAL_ADDR_NODE top)).e
            { s with
              aux_mark := set_mark s.aux_mark (BTOR_REAL_ADDR_NODE top) 1
              stack := rest
              unmark_stack := BTOR_REAL_ADDR_NODE top :: s.unmark_stack } := by
      simp only [min_app_mark_step, if_neg hm]
    rw [hunf]
    have hand : (!(get_node nodes (BTOR_REAL_ADDR_NODE top)).parameterized
          && (get_node nodes (BTOR_REAL_ADDR_NODE top)).kind == BtorNodeKind.AND) = true →
        ∀ c ∈ (get_node nodes (BTOR_REAL_ADDR_NODE top)).e,
          btor_find_in_ptr_hash_table s.btor_score (BTOR_REAL_ADDR_NODE c) ≠ none := by
      intro ha c hc
      have hnp : nonparam_and nodes (BTOR_REAL_ADDR_NODE top) := by
        simpa [nonparam_and] using ha
      exact hK _ htop hnp _ (mem_children.2 ⟨c, hc, rfl⟩)
    obtain ⟨h1, h2⟩ := min_app_push_children_same
      (!(get_node nodes (BTOR_REAL_ADDR_NODE top)).parameterized
        && (get_node nodes (BTOR_REAL_ADDR_NODE top)).kind == BtorNodeKind.AND)
      (get_node nodes (BTOR_REAL_ADDR_NODE top)).e
      { s with
        aux_mark := set_mark s.aux_mark (BTOR_REAL_ADDR_NODE top) 1
        stack := rest
        unmark_stack := BTOR_REAL_ADDR_NODE top :: s.unmark_stack } hand
    obtain ⟨_, h3, _, _⟩ := min_app_push_children_spec
      (!(get_node nodes (BTOR_REAL_ADDR_NODE top)).parameterized
        && (get_node nodes (BTOR_REAL_ADDR_NODE top)).kind == BtorNodeKind.AND)
      (get_node nodes (BTOR_REAL_ADDR_NODE top)).e
      { s with
        aux_mark := set_mark s.aux_mark (BTOR_REAL_ADDR_NODE top) 1
        stack := rest
        unmark_stack := BTOR_REAL_ADDR_NODE top :: s.unmark_stack }
    refine ⟨h1, h2, ?_⟩
    intro n hn
    rw [h3] at hn
    rcases List.mem_append.1 hn with h4 | h4
    · rw [List.mem_reverse] at h4
      exact hR _ n htop h4
    · exact hrest n h4

theorem min_app_mark_while_same {nodes : List BtorNode} {R : Nat → Prop}
    (hR : ∀ n c, R n → Child nodes n c → R c) :
    ∀ (fuel : Nat) (s s1 : MinAppState),
      (∀ n, R n → nonparam_and nodes n → ∀ c ∈ children nodes n,
        btor_find_in_ptr_hash_table s.btor_score c ≠ none) →
      (∀ n ∈ s.stack.map BTOR_REAL_ADDR_NODE, R n) →
      min_app_mark_while nodes fuel s = .ok s1 →
      s1.btor_score = s.btor_score ∧ s1.score = s.score := by
  intro fuel
  induction fuel with
  | zero =>
    intro s s1 _ _ hrun
    unfold min_app_mark_while at hrun
    cases hs : s.stack with
    | nil =>
      simp only [hs] at hrun
      cases hrun
      exact ⟨rfl, rfl⟩
    | cons top rest =>
      simp only [hs] at hrun
      cases hrun
  | succ fuel ih =>
    intro s s1 hK hstack hrun
    unfold min_app_mark_while at hrun
    cases hs : s.stack with
    | nil =>
      simp only [hs] at hrun
      cases hrun
      exact ⟨rfl, rfl⟩
    | cons top rest =>
      simp only [hs] at hrun
      obtain ⟨h1, h2, h3⟩ := min_app_mark_step_same hR s top rest hs hK hstack
      obtain ⟨h4, h5⟩ := ih _ s1 (by rw [h1]; exact hK) h3 hrun
      exact ⟨by rw [h4, h1], by rw [h5, h2]⟩

theorem min_app_mark_seeds_same {nodes : List BtorNode} {R : Nat → Prop}
    (hR : ∀ n c, R n → Child nodes n c → R c) :
    ∀ (seeds : List NodeRef) (s s1 : MinAppState),
      (∀ n, R n → nonparam_and nodes n → ∀ c ∈ children nodes n,
        btor_find_in_ptr_hash_table s.btor_score c ≠ none) →
      (∀ r ∈ seeds, R (BTOR_REAL_ADDR_NODE r)) → s.stack = [] →
      min_app_mark_seeds nodes seeds s = .ok s1 →
      s1.btor_score = s.btor_score ∧ s1.score = s.score := by
  intro seeds
  induction seeds with
  | nil =>
    intro s s1 _ _ _ hrun
    simp only [min_app_mark_seeds] at hrun
    cases hrun
    exact ⟨rfl, rfl⟩
  | cons cur seeds ih =>
    intro s s1 hK hseeds hs hrun
    simp only [min_app_mark_seeds] at hrun
    split at hrun
    · cases hrun
    · rename_i s0 hrun0
      obtain ⟨h1, h2⟩ := min_app_mark_while_same hR
        (dfs_fuel nodes s.aux_mark (cur :: s.stack)) { s with stack := cur :: s.stack } s0 hK (by
        intro n hn
        simp only [hs, List.map_cons, List.map_nil, List.mem_singleton] at hn
        rw [hn]
        exact hseeds cur (List.mem_cons_self _ _)) hrun0
      obtain ⟨h3, h4⟩ := ih s0 s1 (by rw [h1]; exact hK)
        (fun r hr => hseeds r (List.mem_cons_of_mem _ hr))
        (min_app_mark_while_stack _ _ s0 hrun0) hrun
      exact ⟨by rw [h3, h1], by rw [h4, h2]⟩

/-- A run of the application scorer from clean marks on a table that has a bucket for every
child of every non-parameterized AND node reachable from the seeds completes and leaves both
tables as they are. -/
theorem compute_scores_aux_min_app_again (btor : Btor) (it : List NodeRef)
    (hh : btor.just_heuristic ≠ JustHeur.NONE) (hwf : WellFormedNodes btor.nodes)
    (hit : ∀ r ∈ it, BTOR_REAL_ADDR_NODE r < btor.nodes.length)
    (hmarks : ∀ n, btor.aux_mark n = 0)
    (T : BtorPtrHashTable (Option (List Nat))) (hT : btor.score = some T)
    (hK : ∀ r ∈ it, ∀ n, Reachable btor.nodes (BTOR_REAL_ADDR_NODE r) n →
      nonparam_and btor.nodes n → ∀ c ∈ children btor.nodes n,
        btor_find_in_ptr_hash_table T c ≠ none) :
    ∃ btor2, compute_scores_aux_min_app btor it = .ok btor2
      ∧ btor2.score_depth = btor.score_depth ∧ btor2.score = some T := by
  obtain ⟨s1, hrun1, _⟩ := min_app_mark_seeds_total hwf it
    { aux_mark := btor.aux_mark
      btor_score := btor.score.getD []
      stack := []
      unmark_stack := []
      score := [] } rfl hit
  have hR : ∀ n c, (∃ r ∈ it, Reachable btor.nodes (BTOR_REAL_ADDR_NODE r) n) →
      Child btor.nodes n c → ∃ r ∈ it, Reachable btor.nodes (BTOR_REAL_ADDR_NODE r) c := by
    rintro n c ⟨r, hr, hreach⟩ hc
    exact ⟨r, hr, Relation.ReflTransGen.tail hreach hc⟩
  obtain ⟨h1, h2⟩ := min_app_mark_seeds_same hR it _ s1 (by
      rintro n ⟨r, hr, hreach⟩ hnp c hc
      simp only [hT, Option.getD_some]
      exact hK r hr n hreach hnp c hc)
    (fun r hr => ⟨r, hr, Relation.ReflTransGen.refl⟩) rfl hrun1
  simp only at h1 h2
  unfold compute_scores_aux_min_app
  simp only [check_marks_unset hmarks, Bool.not_true, Bool.false_eq_true, if_false, if_neg hh,
    hrun1, h2, List.reverse_nil, qsort_by_id_asc, List.insertionSort, min_app_nodes]
  exact ⟨_, rfl, rfl, by simp only [h1, hT, Option.getD_some]⟩

theorem btor_compute_scores_app (btor : Btor)
    (h : btor.just_heuristic = JustHeur.BRANCH_MIN_APP
      ∨ btor.just_heuristic = JustHeur.BRANCH_MIN_APP_BVSKEL) :
    btor_compute_scores btor
      = compute_scores_aux_min_app btor (btor.synthesized_constraints ++ btor.assumptions) := by
  unfold btor_compute_scores compute_scores_aux
  rcases h with h | h <;> rw [h]

theorem btor_compute_scores_dep (btor : Btor)
    (h : btor.just_heuristic = JustHeur.BRANCH_MIN_DEP
      ∨ btor.just_heuristic = JustHeur.BRANCH_MIN_DEP_BVSKEL) :
    btor_compute_scores btor
      = compute_scores_aux_min_dep btor (btor.synthesized_constraints ++ btor.assumptions) := by
  unfold btor_compute_scores compute_scores_aux
  rcases h with h | h <;> rw [h]

/-- C14: under each of the four scoring heuristic ids, on a closed graph with clean marks, when
`btor_compute_scores` has completed over the seed set `S`, a second call on the unchanged graph
over any seed set whose members are all in `S` completes and leaves the depth table and the
application table exactly as the first call left them. -/
theorem compute_scores_idempotent (btor btor1 : Btor) (c2 a2 : List NodeRef)
    (hh : btor.just_heuristic ≠ JustHeur.NONE) (hwf : WellFormedNodes btor.nodes)
    (hseeds : ∀ r ∈ btor.synthesized_constraints ++ btor.assumptions,
      BTOR_REAL_ADDR_NODE r < btor.nodes.length)
    (hmarks : ∀ n, btor.aux_mark n = 0)
    (hsub : ∀ r ∈ c2 ++ a2, r ∈ btor.synthesized_constraints ++ btor.assumptions)
    (hrun : btor_compute_scores btor = .ok btor1) :
    ∃ btor2, btor_compute_scores
        { btor1 with synthesized_constraints := c2, assumptions := a2 } = .ok btor2
      ∧ btor2.score_depth = btor1.score_depth ∧ btor2.score = btor1.score := by
  obtain ⟨hn, hj, _, _⟩ := compute_scores_frame hrun
  have hmarks1 : ∀ n, btor1.aux_mark n = 0 := compute_scores_aux_marks btor btor1 _ hmarks hrun
  have hh1 : btor1.just_heuristic ≠ JustHeur.NONE := by rw [hj]; exact hh
  have happ : compute_scores_aux_min_app btor
      (btor.synthesized_constraints ++ btor.assumptions) = .ok btor1 →
      ∃ btor2, compute_scores_aux_min_app
          { btor1 with synthesized_constraints := c2, assumptions := a2 } (c2 ++ a2) = .ok btor2
        ∧ btor2.score_depth = btor1.score_depth ∧ btor2.score = btor1.score := by
    intro h
    obtain ⟨T, hT, _, _, hK, _⟩ := compute_scores_aux_min_app_spec btor btor1 _ hh h
    obtain ⟨btor2, h2, h3, h4⟩ := compute_scores_aux_min_app_again
      { btor1 with synthesized_constraints := c2, assumptions := a2 } (c2 ++ a2) hh1
      (by rw [show ({ btor1 with synthesized_constraints := c2, assumptions := a2 } : Btor).nodes
            = btor.nodes from hn]; exact hwf)
      (by
        intro r hr
        rw [show ({ btor1 with synthesized_constraints := c2, assumptions := a2 } : Btor).nodes
            = btor.nodes from hn]
        exact hseeds r (hsub r hr))
      hmarks1 T hT (by
        intro r hr
        rw [show ({ btor1 with synthesized_constraints := c2, assumptions := a2 } : Btor).nodes
            = btor.nodes from hn]
        exact hK r (hsub r hr))
    exact ⟨btor2, h2, h3, by rw [h4, hT]⟩
  have hdep : compute_scores_aux_min_dep btor
      (btor.synthesized_constraints ++ btor.assumptions) = .ok btor1 →
      ∃ btor2, compute_scores_aux_min_dep
          { btor1 with synthesized_constraints := c2, assumptions := a2 } (c2 ++ a2) = .ok btor2
        ∧ btor2.score_depth = btor1.score_depth ∧ btor2.score = btor1.score := by
    intro h
    obtain ⟨T, hT, _, _, hclean⟩ := compute_scores_aux_min_dep_ok (R := fun _ => True)
      btor btor1 _ hh (fun _ _ _ _ => trivial) h
    obtain ⟨btor2, h2, h3, h4⟩ := compute_scores_aux_min_dep_again
      { btor1 with synthesized_constraints := c2, assumptions := a2 } (c2 ++ a2) hh1
      hmarks1 T hT (fun r hr => (hclean hmarks).2.1 r (hsub r hr))
    exact ⟨btor2, h2, by rw [h3, hT], h4⟩
  have hc : ∀ j : JustHeur, j = JustHeur.NONE
      ∨ (j = JustHeur.BRANCH_MIN_APP ∨ j = JustHeur.BRANCH_MIN_APP_BVSKEL)
      ∨ (j = JustHeur.BRANCH_MIN_DEP ∨ j = JustHeur.BRANCH_MIN_DEP_BVSKEL) := by
    intro j
    cases j <;> simp
  rcases hc btor.just_heuristic with h0 | h0 | h0
  · exact absurd h0 hh
  · rw [btor_compute_scores_app btor h0] at hrun
    rw [btor_compute_scores_app
      { btor1 with synthesized_constraints := c2, assumptions := a2 } (by
        rcases h0 with h0 | h0
        · exact Or.inl (hj.trans h0)
        · exact Or.inr (hj.trans h0))]
    exact happ hrun
  · rw [btor_compute_scores_dep btor h0] at hrun
    rw [btor_compute_scores_dep
      { btor1 with synthesized_constraints := c2, assumptions := a2 } (by
        rcases h0 with h0 | h0
        · exact Or.inl (hj.trans h0)
        · exact Or.inr (hj.trans h0))]
    exact hdep hrun

theorem compute_scores_idempotent_witness :
    ∃ btor1 btor2, btor_compute_scores (exBtor JustHeur.BRANCH_MIN_APP) = .ok btor1
      ∧ btor_compute_scores
          { btor1 with synthesized_constraints := [⟨4, false⟩], assumptions := [] } = .ok btor2
      ∧ btor2.score_depth = btor1.score_depth ∧ btor2.score = btor1.score :=
  (exists_ok_of_isSome (x := btor_compute_scores (exBtor JustHeur.BRANCH_MIN_APP))
    (by decide)).elim fun btor1 h =>
    (compute_scores_idempotent (exBtor JustHeur.BRANCH_MIN_APP) btor1 [⟨4, false⟩] []
      (by decide) (wellFormed_of_check exNodes_check) (by decide) (fun _ => rfl) (by decide)
      h).elim fun btor2 h2 => ⟨btor1, btor2, h, h2⟩

/-! ## C24: the application scorer and the skeleton flag -/

/-- C24: the application scorer ignores the skeleton flag. For every context (graph, seeds,
marks and tables), `btor_compute_scores` under `BRANCH_MIN_APP_BVSKEL` has the outcome of
`btor_compute_scores` under `BRANCH_MIN_APP`: the same fault, or the same context (the same
application table, depth table and marks) up to the heuristic id itself. -/
theorem app_scorer_ignores_skeleton_flag (btor : Btor) :
    btor_compute_scores { btor with just_heuristic := JustHeur.BRANCH_MIN_APP_BVSKEL }
      = (btor_compute_scores { btor with just_heuristic := JustHeur.BRANCH_MIN_APP }).map
          (fun b => { b with just_heuristic := JustHeur.BRANCH_MIN_APP_BVSKEL }) := by
  simp only [btor_compute_scores, compute_scores_aux, compute_scores_aux_min_app]
  by_cases hcheck : check_id_table_aux_mark_unset_dbg btor.nodes btor.aux_mark = true
  · simp only [hcheck, Bool.not_true, Bool.false_eq_true, if_false]
    rw [if_neg (by decide), if_neg (by decide)]
    cases min_app_mark_seeds btor.nodes (btor.synthesized_constraints ++ btor.assumptions)
        { aux_mark := btor.aux_mark
          btor_score := btor.score.getD []
          stack := []
          unmark_stack := []
          score := [] } with
    | error f => rfl
    | ok s1 =>
      simp only
      cases min_app_nodes btor.nodes (qsort_by_id_asc s1.score.reverse)
          { s1 with
            aux_mark := reset_marks s1.aux_mark s1.unmark_stack
            unmark_stack := [] } with
      | error f => rfl
      | ok s2 => rfl
  · simp only [hcheck, Bool.not_false, if_true]
    rfl

/-! ## Application scores: working stack, keys and sets -/

theorem find_eq_none_iff {V : Type} (t : BtorPtrHashTable V) (k : Nat) :
    btor_find_in_ptr_hash_table t k = none ↔ k ∉ t.map Prod.fst := by
  induction t with
  | nil => simp [btor_find_in_ptr_hash_table]
  | cons p t ih =>
    obtain ⟨k1, v1⟩ := p
    by_cases h1 : k1 = k
    · simp [btor_find_in_ptr_hash_table, h1]
    · simp only [btor_find_in_ptr_hash_table, if_neg h1, ih, List.map_cons, List.mem_cons,
        not_or]
      exact ⟨fun h => ⟨fun h2 => h1 h2.symm, h⟩, fun h => h.2⟩

theorem keys_insert {V : Type} (t : BtorPtrHashTable V) (k : Nat) (v : V) :
    (btor_insert_in_ptr_hash_table t k v).map Prod.fst = t.map Prod.fst ++ [k] := by
  simp [btor_insert_in_ptr_hash_table]

theorem keys_set_bucket_data {V : Type} (t : BtorPtrHashTable V) (k : Nat) (d : V) :
    (set_bucket_data t k d).map Prod.fst = t.map Prod.fst := by
  induction t with
  | nil => rfl
  | cons p t ih =>
    obtain ⟨k1, v1⟩ := p
    by_cases h1 : k1 = k
    · simp [set_bucket_data, h1]
    · simp [set_bucket_data, h1, ih]

theorem find_of_mem {V : Type} :
    ∀ (t : BtorPtrHashTable V), (t.map Prod.fst).Nodup → ∀ p ∈ t,
      btor_find_in_ptr_hash_table t p.1 = some p.2 := by
  intro t
  induction t with
  | nil =>
    intro _ p hp
    simp at hp
  | cons q t ih =>
    intro hnd p hp
    obtain ⟨k1, v1⟩ := q
    rw [List.map_cons, List.nodup_cons] at hnd
    rcases List.mem_cons.1 hp with h1 | h1
    · rw [h1]
      simp [btor_find_in_ptr_hash_table]
    · have hne : k1 ≠ p.1 := by
        intro h0
        have h2 : p.1 ∈ t.map Prod.fst := List.mem_map_of_mem _ h1
        rw [← h0] at h2
        exact hnd.1 h2
      simp only [btor_find_in_ptr_hash_table, if_neg hne]
      exact ih hnd.2 p h1

theorem min_app_push_children_inv {nodes : List BtorNode} {R : Nat → Prop}
    {T0 : BtorPtrHashTable (Option (List Nat))} (and_node : Bool) :
    ∀ (l : List NodeRef) (s : MinAppState),
      (∀ c ∈ l, R (BTOR_REAL_ADDR_NODE c)) →
      (and_node = true → ∀ c ∈ l, AndChildOf nodes R (BTOR_REAL_ADDR_NODE c)) →
      MinAppScoreInv nodes R T0 s →
      MinAppScoreInv nodes R T0 (min_app_push_children and_node l s) := by
  intro l
  induction l with
  | nil =>
    intro s _ _ hinv
    exact hinv
  | cons c rest ih =>
    intro s hl hand hinv
    have hl1 : ∀ c1 ∈ rest, R (BTOR_REAL_ADDR_NODE c1) :=
      fun c1 hc1 => hl c1 (List.mem_cons_of_mem _ hc1)
    have hand1 : and_node = true → ∀ c1 ∈ rest, AndChildOf nodes R (BTOR_REAL_ADDR_NODE c1) :=
      fun ha c1 hc1 => hand ha c1 (List.mem_cons_of_mem _ hc1)
    have hRc : R (BTOR_REAL_ADDR_NODE c) := hl c (List.mem_cons_self _ _)
    by_cases hcond : and_node = true
        ∧ (btor_find_in_ptr_hash_table s.btor_score (BTOR_REAL_ADDR_NODE c)).isNone = true
    · have hnone : btor_find_in_ptr_hash_table s.btor_score (BTOR_REAL_ADDR_NODE c) = none := by
        simpa using hcond.2
      have hunf : min_app_push_children and_node (c :: rest) s
          = min_app_push_children and_node rest
              { s with
                btor_score := btor_insert_in_ptr_hash_table s.btor_score
                  (BTOR_REAL_ADDR_NODE c) none
                score := BTOR_REAL_ADDR_NODE c :: s.score
                stack := ⟨BTOR_REAL_ADDR_NODE c, false⟩ :: s.stack } := by
        simp only [min_app_push_children, if_pos hcond]
      rw [hunf]
      apply ih _ hl1 hand1
      have hnotin : BTOR_REAL_ADDR_NODE c ∉ s.score := by
        intro h0
        rw [hinv.unfilled _ h0] at hnone
        cases hnone
      refine ⟨?_, ?_, ?_, ?_, ?_, ?_⟩
      · intro n hn
        simp only [List.map_cons, List.mem_cons] at hn
        rcases hn with h1 | h1
        · rw [h1]
          exact hRc
        · exact hinv.stack n h1
      · intro k hk
        simp only at hk
        rcases ne_none_of_insert hk with h1 | h1
        · exact hinv.keys k h1
        · right
          rw [h1]
          exact hand hcond.1 c (List.mem_cons_self _ _)
      · exact List.nodup_cons.2 ⟨hnotin, hinv.nodup⟩
      · intro k hk
        simp only at hk ⊢
        rcases List.mem_cons.1 hk with h1 | h1
        · rw [h1]
          exact find_insert_self hnone none
        · exact find_insert_of_some (hinv.unfilled k h1) _ _
      · intro k hk
        simp only at hk ⊢
        rcases List.mem_cons.1 hk with h1 | h1
        · right
          rw [h1]
          simp [BTOR_REAL_ADDR_NODE]
        · rcases hinv.visited k h1 with h2 | h2
          · exact Or.inl h2
          · right
            rw [List.map_cons]
            exact List.mem_cons_of_mem _ h2
      · simp only
        rw [keys_insert]
        refine List.Nodup.append hinv.table_keys (List.nodup_singleton _) ?_
        intro a ha ha1
        rw [List.mem_singleton] at ha1
        rw [ha1] at ha
        exact (find_eq_none_iff _ _).1 hnone ha
    · have hunf : min_app_push_children and_node (c :: rest) s
          = min_app_push_children and_node rest
              { s with stack := ⟨BTOR_REAL_ADDR_NODE c, false⟩ :: s.stack } := by
        simp only [min_app_push_children, if_neg hcond]
      rw [hunf]
      apply ih _ hl1 hand1
      refine ⟨?_, hinv.keys, hinv.nodup, hinv.unfilled, ?_, hinv.table_keys⟩
      · intro n hn
        simp only [List.map_cons, List.mem_cons] at hn
        rcases hn with h1 | h1
        · rw [h1]
          exact hRc
        · exact hinv.stack n h1
      · intro k hk
        rcases hinv.visited k hk with h2 | h2
        · exact Or.inl h2
        · right
          simp only [List.map_cons]
          exact List.mem_cons_of_mem _ h2

theorem min_app_mark_step_inv {nodes : List BtorNode} {R : Nat → Prop}
    {T0 : BtorPtrHashTable (Option (List Nat))}
    (hR : ∀ n c, R n → Child nodes n c → R c) (s : MinAppState) (top : NodeRef)
    (rest : List NodeRef) (hs : s.stack = top :: rest) (hinv : MinAppScoreInv nodes R T0 s) :
    MinAppScoreInv nodes R T0 (min_app_mark_step nodes s top rest) := by
  have htop : R (BTOR_REAL_ADDR_NODE top) := hinv.stack _ (by rw [hs]; simp)
  have hrest : ∀ n ∈ rest.map BTOR_REAL_ADDR_NODE, R n := by
    intro n hn
    refine hinv.stack n ?_
    rw [hs, List.map_cons]
    exact List.mem_cons_of_mem _ hn
  by_cases hm : s.aux_mark (BTOR_REAL_ADDR_NODE top) ≠ 0
  · have hunf : min_app_mark_step nodes s top rest = { s with stack := rest } := by
      simp only [min_app_mark_step, if_pos hm]
    rw [hunf]
    refine ⟨hrest, hinv.keys, hinv.nodup, hinv.unfilled, ?_, hinv.table_keys⟩
    intro k hk
    rcases hinv.visited k hk with h1 | h1
    · exact Or.inl h1
    · rw [hs, List.map_cons] at h1
      rcases List.mem_cons.1 h1 with h2 | h2
      · left
        rw [h2]
        exact hm
      · exact Or.inr h2
  · have hunf : min_app_mark_step nodes s top rest
        = min_app_push_children
            (!(get_node nodes (BTOR_REAL_ADDR_NODE top)).parameterized
              && (get_node nodes (BTOR_REAL_ADDR_NODE top)).kind == BtorNodeKind.AND)
            (get_node nodes (BTOR_REAL_ADDR_NODE top)).e
            { s with
              aux_mark := set_mark s.aux_mark (BTOR_REAL_ADDR_NODE top) 1
              stack := rest
              unmark_stack := BTOR_REAL_ADDR_NODE top :: s.unmark_stack } := by
      simp only [min_app_mark_step, if_neg hm]
    rw [hunf]
    apply min_app_push_children_inv
    · intro c hc
      exact hR _ _ htop (mem_children.2 ⟨c, hc, rfl⟩)
    · intro ha c hc
      have hnp : nonparam_and nodes (BTOR_REAL_ADDR_NODE top) := by
        simpa [nonparam_and] using ha
      exact ⟨_, htop, hnp, mem_children.2 ⟨c, hc, rfl⟩⟩
    · refine ⟨hrest, hinv.keys, hinv.nodup, hinv.unfilled, ?_, hinv.table_keys⟩
      intro k hk
      simp only
      rcases hinv.visited k hk with h1 | h1
      · exact Or.inl (set_mark_mono _ h1)
      · rw [hs, List.map_cons] at h1
        rcases List.mem_cons.1 h1 with h2 | h2
        · left
          rw [h2]
          exact set_mark_self _ _
        · exact Or.inr h2

theorem min_app_mark_while_inv {nodes : List BtorNode} {R : Nat → Prop}
    {T0 : BtorPtrHashTable (Option (List Nat))}
    (hR : ∀ n c, R n → Child nodes n c → R c) :
    ∀ (fuel : Nat) (s s1 : MinAppState), MinAppScoreInv nodes R T0 s →
      min_app_mark_while nodes fuel s = .ok s1 → MinAppScoreInv nodes R T0 s1 := by
  intro fuel
  induction fuel with
  | zero =>
    intro s s1 hinv hrun
    unfold min_app_mark_while at hrun
    cases hs : s.stack with
    | nil =>
      simp only [hs] at hrun
      cases hrun
      exact hinv
    | cons top rest =>
      simp only [hs] at hrun
      cases hrun
  | succ fuel ih =>
    intro s s1 hinv hrun
    unfold min_app_mark_while at hrun
    cases hs : s.stack with
    | nil =>
      simp only [hs] at hrun
      cases hrun
      exact hinv
    | cons top rest =>
      simp only [hs] at hrun
      exact ih _ s1 (min_app_mark_step_inv hR s top rest hs hinv) hrun

theorem min_app_mark_seeds_inv {nodes : List BtorNode} {R : Nat → Prop}
    {T0 : BtorPtrHashTable (Option (List Nat))}
    (hR : ∀ n c, R n → Child nodes n c → R c) :
    ∀ (seeds : List NodeRef) (s s1 : MinAppState), (∀ r ∈ seeds, R (BTOR_REAL_ADDR_NODE r)) →
      MinAppScoreInv nodes R T0 s →
      min_app_mark_seeds nodes seeds s = .ok s1 → MinAppScoreInv nodes R T0 s1 := by
  intro seeds
  induction seeds with
  | nil =>
    intro s s1 _ hinv hrun
    simp only [min_app_mark_seeds] at hrun
    cases hrun
    exact hinv
  | cons cur seeds ih =>
    intro s s1 hseeds hinv hrun
    simp only [min_app_mark_seeds] at hrun
    split at hrun
    · cases hrun
    · rename_i s0 hrun0
      have hinv0 : MinAppScoreInv nodes R T0 { s with stack := cur :: s.stack } := by
        refine ⟨?_, hinv.keys, hinv.nodup, hinv.unfilled, ?_, hinv.table_keys⟩
        · intro n hn
          simp only [List.map_cons, List.mem_cons] at hn
          rcases hn with h1 | h1
          · rw [h1]
            exact hseeds cur (List.mem_cons_self _ _)
          · exact hinv.stack n h1
        · intro k hk
          rcases hinv.visited k hk with h1 | h1
          · exact Or.inl h1
          · right
            simp only [List.map_cons]
            exact List.mem_cons_of_mem _ h1
      exact ih s0 s1 (fun r hr => hseeds r (List.mem_cons_of_mem _ hr))
        (min_app_mark_while_inv hR _ _ s0 hinv0 hrun0) hrun

theorem min_app_merge_spec : ∀ (t in_set : List Nat),
    (in_set.Nodup → (min_app_merge in_set t).Nodup)
      ∧ ∀ a, a ∈ min_app_merge in_set t ↔ a ∈ in_set ∨ a ∈ t := by
  intro t
  induction t with
  | nil =>
    intro in_set
    simp [min_app_merge]
  | cons e rest ih =>
    intro in_set
    by_cases he : e ∈ in_set
    · simp only [min_app_merge, if_pos he]
      refine ⟨(ih in_set).1, fun a => ?_⟩
      rw [(ih in_set).2 a, List.mem_cons]
      constructor
      · rintro (h | h)
        · exact Or.inl h
        · exact Or.inr (Or.inr h)
      · rintro (h | h | h)
        · exact Or.inl h
        · rw [h]
          exact Or.inl he
        · exact Or.inr h
    · simp only [min_app_merge, if_neg he]
      refine ⟨fun hnd => (ih (in_set ++ [e])).1 ?_, fun a => ?_⟩
      · refine List.Nodup.append hnd (List.nodup_singleton _) ?_
        intro a ha ha1
        rw [List.mem_singleton] at ha1
        rw [ha1] at ha
        exact he ha
      · rw [(ih (in_set ++ [e])).2 a, List.mem_append, List.mem_singleton, List.mem_cons]
        constructor
        · rintro ((h | h) | h)
          · exact Or.inl h
          · exact Or.inr (Or.inl h)
          · exact Or.inr (Or.inr h)
        · rintro (h | h | h)
          · exact Or.inl (Or.inl h)
          · exact Or.inl (Or.inr h)
          · exact Or.inr h

theorem appSetsOK_set_bucket_data {nodes : List BtorNode}
    {t : BtorPtrHashTable (Option (List Nat))} {cur : Nat} {d : List Nat}
    (ht : AppSetsOK nodes t) (hd : AppSetOK nodes cur d) :
    AppSetsOK nodes (set_bucket_data t cur (some d)) := by
  intro n set hf
  rw [find_set_bucket_data] at hf
  by_cases hk : cur = n
  · rw [if_pos hk] at hf
    cases hfind : btor_find_in_ptr_hash_table t n with
    | none =>
      rw [hfind] at hf
      cases hf
    | some x =>
      rw [hfind] at hf
      have hEq : d = set := Option.some.inj (Option.some.inj hf)
      rw [← hEq, ← hk]
      exact hd
  · rw [if_neg hk] at hf
    exact ht n set hf

theorem min_app_search_step_sound {nodes : List BtorNode} (cur : Nat) (s : MinAppState)
    (in_set : List Nat) (top : NodeRef) (rest : List NodeRef) (hs : s.stack = top :: rest)
    (hstack : ∀ n ∈ s.stack.map BTOR_REAL_ADDR_NODE, Relation.TransGen (Child nodes) cur n)
    (hin : AppSetOK nodes cur in_set) :
    (∀ n ∈ (min_app_search_step nodes s in_set top rest).1.stack.map BTOR_REAL_ADDR_NODE,
        Relation.TransGen (Child nodes) cur n)
      ∧ AppSetOK nodes cur (min_app_search_step nodes s in_set top rest).2
      ∧ ∀ a ∈ in_set, a ∈ (min_app_search_step nodes s in_set top rest).2 := by
  have htop : Relation.TransGen (Child nodes) cur (BTOR_REAL_ADDR_NODE top) :=
    hstack _ (by rw [hs]; simp)
  have hrest : ∀ n ∈ rest.map BTOR_REAL_ADDR_NODE, Relation.TransGen (Child nodes) cur n := by
    intro n hn
    refine hstack n ?_
    rw [hs, List.map_cons]
    exact List.mem_cons_of_mem _ hn
  by_cases hm : s.aux_mark (BTOR_REAL_ADDR_NODE top) ≠ 0
  · simp only [min_app_search_step, if_pos hm]
    exact ⟨hrest, hin, fun a ha => ha⟩
  · simp only [min_app_search_step, if_neg hm]
    refine ⟨?_, ?_, ?_⟩
    · intro n hn
      rw [List.map_append, List.map_reverse] at hn
      rcases List.mem_append.1 hn with h3 | h3
      · exact Relation.TransGen.tail htop (List.mem_reverse.1 h3)
      · exact hrest n h3
    · split_ifs with hc
      · refine ⟨?_, ?_⟩
        · refine List.Nodup.append hin.1 (List.nodup_singleton _) ?_
          intro a ha ha1
          rw [List.mem_singleton] at ha1
          rw [ha1] at ha
          exact hc.2.2 ha
        · intro a ha
          rcases List.mem_append.1 ha with h1 | h1
          · exact hin.2 a h1
          · rw [List.mem_singleton] at h1
            rw [h1]
            refine ⟨⟨?_, hc.2.1⟩, htop⟩
            simpa using hc.1
      · exact hin
    · intro a ha
      split_ifs
      · exact List.mem_append_left _ ha
      · exact ha

theorem min_app_search_while_sound {nodes : List BtorNode} (cur : Nat) :
    ∀ (fuel : Nat) (s : MinAppState) (in_set : List Nat) (s1 : MinAppState) (in1 : List Nat),
      (∀ n ∈ s.stack.map BTOR_REAL_ADDR_NODE, Relation.TransGen (Child nodes) cur n) →
      AppSetOK nodes cur in_set →
      min_app_search_while nodes fuel s in_set = .ok (s1, in1) →
      AppSetOK nodes cur in1 ∧ s1.stack = [] ∧ ∀ a ∈ in_set, a ∈ in1 := by
  intro fuel
  induction fuel with
  | zero =>
    intro s in_set s1 in1 _ hin hrun
    unfold min_app_search_while at hrun
    cases hs : s.stack with
    | nil =>
      simp only [hs] at hrun
      cases hrun
      exact ⟨hin, hs, fun a ha => ha⟩
    | cons top rest =>
      simp only [hs] at hrun
      cases hrun
  | succ fuel ih =>
    intro s in_set s1 in1 hstack hin hrun
    unfold min_app_search_while at hrun
    cases hs : s.stack with
    | nil =>
      simp only [hs] at hrun
      cases hrun
      exact ⟨hin, hs, fun a ha => ha⟩
    | cons top rest =>
      simp only [hs] at hrun
      obtain ⟨h1, h2, h3⟩ := min_app_search_step_sound cur s in_set top rest hs hstack hin
      obtain ⟨h4, h5, h6⟩ := ih _ _ s1 in1 h1 h2 hrun
      exact ⟨h4, h5, fun a ha => h6 a (h3 a ha)⟩

theorem min_app_union_sound {nodes : List BtorNode} (cur : Nat) :
    ∀ (l : List NodeRef) (in_set : List Nat) (s s1 : MinAppState),
      (∀ c ∈ l, Child nodes cur (BTOR_REAL_ADDR_NODE c)) → s.stack = [] →
      AppSetsOK nodes s.btor_score → AppSetOK nodes cur in_set →
      min_app_union nodes cur l in_set s = .ok s1 →
      AppSetsOK nodes s1.btor_score ∧ s1.stack = [] := by
  intro l
  induction l with
  | nil =>
    intro in_set s s1 _ hs ht _ hrun
    simp only [min_app_union] at hrun
    cases hrun
    exact ⟨ht, hs⟩
  | cons c rest ih =>
    intro in_set s s1 hl hs ht hin hrun
    have hl1 : ∀ c1 ∈ rest, Child nodes cur (BTOR_REAL_ADDR_NODE c1) :=
      fun c1 hc1 => hl c1 (List.mem_cons_of_mem _ hc1)
    have hc : Child nodes cur (BTOR_REAL_ADDR_NODE c) := hl c (List.mem_cons_self _ _)
    simp only [min_app_union] at hrun
    split at hrun
    · rename_i t hfind
      have hmerge : AppSetOK nodes cur (min_app_merge in_set t) := by
        refine ⟨(min_app_merge_spec t in_set).1 hin.1, fun a ha => ?_⟩
        rcases ((min_app_merge_spec t in_set).2 a).1 ha with h1 | h1
        · exact hin.2 a h1
        · obtain ⟨h2, h3⟩ := (ht _ t hfind).2 a h1
          exact ⟨h2, Relation.TransGen.head hc h3⟩
      exact ih (min_app_merge in_set t)
        { s with btor_score := set_bucket_data s.btor_score cur (some (min_app_merge in_set t)) }
        s1 hl1 hs (appSetsOK_set_bucket_data ht hmerge) hmerge hrun
    · split at hrun
      · cases hrun
      · rename_i s0 in1 hsearch
        obtain ⟨h1, h2, _⟩ := min_app_search_while_sound cur _ _ _ s0 in1 (by
          intro n hn
          simp only [hs, List.map_cons, List.map_nil, List.mem_singleton] at hn
          rw [hn]
          exact Relation.TransGen.single hc) hin hsearch
        obtain ⟨hf1, _⟩ := min_app_search_while_frame nodes _ _ _ s0 in1 hsearch
        refine ih in1
          { s0 with
            aux_mark := reset_marks s0.aux_mark s0.unmark_stack
            unmark_stack := []
            btor_score := set_bucket_data s0.btor_score cur (some in1) } s1 hl1 h2 ?_ h1 hrun
        simp only
        rw [hf1]
        exact appSetsOK_set_bucket_data ht h1

theorem min_app_node_sound {nodes : List BtorNode} (s s1 : MinAppState) (cur : Nat)
    (hs : s.stack = []) (ht : AppSetsOK nodes s.btor_score)
    (hrun : min_app_node nodes s cur = .ok s1) :
    AppSetsOK nodes s1.btor_score ∧ s1.stack = [] := by
  have hempty : AppSetOK nodes cur [] := ⟨List.nodup_nil, fun a ha => by simp at ha⟩
  have ht1 : AppSetsOK nodes (set_bucket_data s.btor_score cur (some [])) :=
    appSetsOK_set_bucket_data ht hempty
  unfold min_app_node at hrun
  split at hrun
  · cases hrun
  · cases hrun
  · by_cases hand : !(get_node nodes cur).parameterized
        ∧ (get_node nodes cur).kind = BtorNodeKind.AND
    · simp only [if_pos hand] at hrun
      split at hrun
      · cases hrun
      · cases hrun
      · rename_i min_t hchoose
        split at hrun
        · cases hrun
        · rename_i in_set hcopy
          have hin : in_set = min_t := by
            rw [min_app_copy_eq _ _ _ hcopy]
            simp
          subst hin
          cases hrun
          refine ⟨?_, hs⟩
          obtain ⟨pre, c, post, hl, hfind, _, _⟩ := min_app_choose_none _ _ _ hchoose
          have hc : Child nodes cur (BTOR_REAL_ADDR_NODE c) :=
            mem_children.2 ⟨c, by rw [hl]; simp, rfl⟩
          have hset := ht1 _ in_set hfind
          exact appSetsOK_set_bucket_data ht1
            ⟨hset.1, fun a ha => ⟨(hset.2 a ha).1, Relation.TransGen.head hc (hset.2 a ha).2⟩⟩
    · simp only [if_neg hand] at hrun
      exact min_app_union_sound cur (get_node nodes cur).e []
        { s with btor_score := set_bucket_data s.btor_score cur (some []) } s1
        (fun c hc => mem_children.2 ⟨c, hc, rfl⟩) hs ht1 hempty hrun

theorem min_app_nodes_sound {nodes : List BtorNode} :
    ∀ (l : List Nat) (s s1 : MinAppState), s.stack = [] → AppSetsOK nodes s.btor_score →
      min_app_nodes nodes l s = .ok s1 → AppSetsOK nodes s1.btor_score := by
  intro l
  induction l with
  | nil =>
    intro s s1 _ ht hrun
    simp only [min_app_nodes] at hrun
    cases hrun
    exact ht
  | cons cur rest ih =>
    intro s s1 hs ht hrun
    simp only [min_app_nodes] at hrun
    split at hrun
    · cases hrun
    · rename_i s0 hnode
      obtain ⟨h1, h2⟩ := min_app_node_sound s s0 cur hs ht hnode
      exact ih s0 s1 h2 h1 hrun

theorem minAppMarkInv_of_check (btor : Btor)
    (hcheck : check_id_table_aux_mark_unset_dbg btor.nodes btor.aux_mark = true) :
    MinAppMarkInv btor.nodes
      { aux_mark := btor.aux_mark
        btor_score := btor.score.getD []
        stack := []
        unmark_stack := []
        score := [] } := by
  have hnone : ∀ n, btor.aux_mark n ≠ 0 → children btor.nodes n = [] := by
    intro n hn
    have hge : btor.nodes.length ≤ n := by
      by_contra hlt
      exact hn (marks_unset_of_check hcheck n (Nat.lt_of_not_le hlt))
    simp [children, get_node_of_ge hge]
  refine ⟨fun n hn c hc => ?_, fun n hn _ c hc => ?_⟩
  · rw [hnone n hn] at hc
    simp at hc
  · rw [hnone n hn] at hc
    simp at hc

theorem min_app_union_keys (nodes : List BtorNode) (cur : Nat) :
    ∀ (l : List NodeRef) (in_set : List Nat) (s s1 : MinAppState),
      min_app_union nodes cur l in_set s = .ok s1 →
      s1.btor_score.map Prod.fst = s.btor_score.map Prod.fst := by
  intro l
  induction l with
  | nil =>
    intro in_set s s1 hrun
    simp only [min_app_union] at hrun
    cases hrun
    rfl
  | cons c rest ih =>
    intro in_set s s1 hrun
    simp only [min_app_union] at hrun
    split at hrun
    · rename_i t ht
      rw [ih (min_app_merge in_set t)
        { s with btor_score := set_bucket_data s.btor_score cur (some (min_app_merge in_set t)) }
        s1 hrun]
      exact keys_set_bucket_data _ _ _
    · split at hrun
      · cases hrun
      · rename_i s0 in1 hsearch
        obtain ⟨hf1, _⟩ := min_app_search_while_frame nodes _ _ _ s0 in1 hsearch
        rw [ih in1
          { s0 with
            aux_mark := reset_marks s0.aux_mark s0.unmark_stack
            unmark_stack := []
            btor_score := set_bucket_data s0.btor_score cur (some in1) } s1 hrun]
        simp only
        rw [keys_set_bucket_data, hf1]

theorem min_app_node_keys (nodes : List BtorNode) (s s1 : MinAppState) (cur : Nat)
    (hrun : min_app_node nodes s cur = .ok s1) :
    s1.btor_score.map Prod.fst = s.btor_score.map Prod.fst := by
  unfold min_app_node at hrun
  split at hrun
  · cases hrun
  · cases hrun
  · by_cases hand : !(get_node nodes cur).parameterized
        ∧ (get_node nodes cur).kind = BtorNodeKind.AND
    · simp only [if_pos hand] at hrun
      split at hrun
      · cases hrun
      · cases hrun
      · split at hrun
        · cases hrun
        · cases hrun
          simp only
          rw [keys_set_bucket_data, keys_set_bucket_data]
    · simp only [if_neg hand] at hrun
      rw [min_app_union_keys nodes cur (get_node nodes cur).e []
        { s with btor_score := set_bucket_data s.btor_score cur (some []) } s1 hrun]
      exact keys_set_bucket_data _ _ _

theorem min_app_nodes_keys (nodes : List BtorNode) :
    ∀ (l : List Nat) (s s1 : MinAppState), min_app_nodes nodes l s = .ok s1 →
      s1.btor_score.map Prod.fst = s.btor_score.map Prod.fst := by
  intro l
  induction l with
  | nil =>
    intro s s1 hrun
    simp only [min_app_nodes] at hrun
    cases hrun
    rfl
  | cons cur rest ih =>
    intro s s1 hrun
    simp only [min_app_nodes] at hrun
    split at hrun
    · cases hrun
    · rename_i s0 hnode
      rw [ih s0 s1 hrun, min_app_node_keys nodes s s0 cur hnode]

/-- After a completed run of the application scorer every key of the table was a key before
the run or is a child of a non-parameterized AND node that is reachable from a seed, and no key
has two buckets. -/
theorem compute_scores_aux_min_app_keys (btor btor1 : Btor) (it : List NodeRef)
    (hh : btor.just_heuristic ≠ JustHeur.NONE)
    (hnd : ((btor.score.getD []).map Prod.fst).Nodup)
    (hrun : compute_scores_aux_min_app btor it = .ok btor1) :
    ∃ table, btor1.score = some table
      ∧ (∀ k, btor_find_in_ptr_hash_table table k ≠ none →
          btor_find_in_ptr_hash_table (btor.score.getD []) k ≠ none
            ∨ AndChildOf btor.nodes
                (fun n => ∃ r ∈ it, Reachable btor.nodes (BTOR_REAL_ADDR_NODE r) n) k)
      ∧ (table.map Prod.fst).Nodup := by
  unfold compute_scores_aux_min_app at hrun
  split_ifs at hrun
  split at hrun
  · cases hrun
  · rename_i s1 hpass1
    split at hrun
    · cases hrun
    · rename_i s2 hpass2
      cases hrun
      have hR : ∀ n c, (∃ r ∈ it, Reachable btor.nodes (BTOR_REAL_ADDR_NODE r) n) →
          Child btor.nodes n c → ∃ r ∈ it, Reachable btor.nodes (BTOR_REAL_ADDR_NODE r) c := by
        rintro n c ⟨r, hr, hreach⟩ hc
        exact ⟨r, hr, Relation.ReflTransGen.tail hreach hc⟩
      have hinv0 : MinAppScoreInv btor.nodes
          (fun n => ∃ r ∈ it, Reachable btor.nodes (BTOR_REAL_ADDR_NODE r) n)
          (btor.score.getD [])
          { aux_mark := btor.aux_mark
            btor_score := btor.score.getD []
            stack := []
            unmark_stack := []
            score := [] } :=
        ⟨fun n hn => by simp at hn, fun k hk => Or.inl hk, List.nodup_nil,
          fun k hk => by simp at hk, fun k hk => by simp at hk, hnd⟩
      have hinv1 := min_app_mark_seeds_inv hR it _ s1
        (fun r hr => ⟨r, hr, Relation.ReflTransGen.refl⟩) hinv0 hpass1
      obtain ⟨_, _, _, _, hnone⟩ := min_app_nodes_spec btor.nodes _ _ s2 hpass2
      refine ⟨s2.btor_score, rfl, fun k hk => ?_, ?_⟩
      · apply hinv1.keys k
        intro h0
        exact hk (hnone k h0)
      · rw [min_app_nodes_keys btor.nodes _ _ s2 hpass2]
        exact hinv1.table_keys

/-- A completed run of the application scorer keeps the sets of the table as `AppSetOK`
says. -/
theorem compute_scores_aux_min_app_sets (btor btor1 : Btor) (it : List NodeRef)
    (hh : btor.just_heuristic ≠ JustHeur.NONE)
    (ht : AppSetsOK btor.nodes (btor.score.getD []))
    (hrun : compute_scores_aux_min_app btor it = .ok btor1) :
    ∃ table, btor1.score = some table ∧ AppSetsOK btor.nodes table := by
  unfold compute_scores_aux_min_app at hrun
  by_cases hcheck : check_id_table_aux_mark_unset_dbg btor.nodes btor.aux_mark = true
  · simp only [hcheck, Bool.not_true, Bool.false_eq_true, if_false, if_neg hh] at hrun
    split at hrun
    · cases hrun
    · rename_i s1 hpass1
      split at hrun
      · cases hrun
      · rename_i s2 hpass2
        cases hrun
        obtain ⟨_, hempty1, hext1, _, _⟩ :=
          min_app_mark_seeds_spec it _ s1 (minAppMarkInv_of_check btor hcheck) rfl hpass1
        refine ⟨s2.btor_score, rfl, ?_⟩
        refine min_app_nodes_sound _
          { s1 with
            aux_mark := reset_marks s1.aux_mark s1.unmark_stack
            unmark_stack := [] } s2 hempty1 ?_ hpass2
        intro n set hf
        simp only at hf
        rcases hext1.2.2 n (by rw [hf]; simp) with h1 | h1
        · obtain ⟨x, hx⟩ := Option.ne_none_iff_exists'.1 h1
          have h2 := hext1.1 n x hx
          rw [hf] at h2
          have hEq : some set = x := Option.some.inj h2
          rw [← hEq] at hx
          exact ht n set hx
        · rw [hf] at h1
          cases h1.2
  · simp only [hcheck, Bool.not_false, if_true] at hrun
    cases hrun

theorem appSetsOK_of_empty (nodes : List BtorNode)
    {t : Option (BtorPtrHashTable (Option (List Nat)))} (h : t = none ∨ t = some []) :
    AppSetsOK nodes (t.getD []) := by
  rw [getD_of_empty h]
  intro n set hf
  simp [btor_find_in_ptr_hash_table] at hf

theorem compute_scores_calls_sets :
    ∀ (calls : List (List NodeRef × List NodeRef)) (btor btor1 : Btor),
      (btor.just_heuristic = JustHeur.BRANCH_MIN_APP
        ∨ btor.just_heuristic = JustHeur.BRANCH_MIN_APP_BVSKEL) →
      AppSetsOK btor.nodes (btor.score.getD []) →
      compute_scores_calls calls btor = .ok btor1 →
      btor1.nodes = btor.nodes ∧ AppSetsOK btor.nodes (btor1.score.getD []) := by
  intro calls
  induction calls with
  | nil =>
    intro btor btor1 _ ht hrun
    simp only [compute_scores_calls] at hrun
    cases hrun
    exact ⟨rfl, ht⟩
  | cons p rest ih =>
    intro btor btor1 hh ht hrun
    obtain ⟨c, a⟩ := p
    simp only [compute_scores_calls] at hrun
    split at hrun
    · cases hrun
    · rename_i btor0 hcall
      obtain ⟨hn, hj, _, _⟩ := compute_scores_frame hcall
      simp only at hn hj
      rw [btor_compute_scores_app { btor with synthesized_constraints := c, assumptions := a }
        hh] at hcall
      obtain ⟨table, htable, hok⟩ := compute_scores_aux_min_app_sets
        { btor with synthesized_constraints := c, assumptions := a } btor0 _
        (by rcases hh with h | h <;> simp [h]) ht hcall
      obtain ⟨h1, h2⟩ := ih btor0 btor1 (by rw [hj]; exact hh) (by
        rw [hn, htable]
        exact hok) hrun
      rw [hn] at h1 h2
      exact ⟨h1, h2⟩

/-! ## C25 and C26: keys and sets of the application table -/

/-- C25: the key set of the application table. After a completed `btor_compute_scores` under
MIN_APP (or its skeleton variant) on an absent or empty application table, a node has an entry
in the table if and only if it is a sign-stripped child of a non-parameterized AND node that is
reachable from a constraint or an assumption through sign-stripped child edges; so a reachable
node that is not such a child, a seed without an AND parent for instance, has no entry. -/
theorem app_table_keys_are_and_children (btor btor1 : Btor)
    (hh : btor.just_heuristic = JustHeur.BRANCH_MIN_APP
      ∨ btor.just_heuristic = JustHeur.BRANCH_MIN_APP_BVSKEL)
    (hempty : btor.score = none ∨ btor.score = some [])
    (hrun : btor_compute_scores btor = .ok btor1) :
    ∃ table, btor1.score = some table
      ∧ ∀ k, btor_find_in_ptr_hash_table table k ≠ none
          ↔ ∃ n, (∃ r ∈ btor.synthesized_constraints ++ btor.assumptions,
                    Reachable btor.nodes (BTOR_REAL_ADDR_NODE r) n)
              ∧ nonparam_and btor.nodes n ∧ k ∈ children btor.nodes n := by
  have hne : btor.just_heuristic ≠ JustHeur.NONE := by rcases hh with h | h <;> simp [h]
  rw [btor_compute_scores_app btor hh] at hrun
  obtain ⟨table, htable, hkeys, _⟩ := compute_scores_aux_min_app_keys btor btor1 _ hne (by
    rw [getD_of_empty hempty]
    exact List.nodup_nil) hrun
  obtain ⟨table1, htable1, _, _, hchildren, _⟩ :=
    compute_scores_aux_min_app_spec btor btor1 _ hne hrun
  have hEq : table1 = table := Option.some.inj (htable1.symm.trans htable)
  rw [hEq] at hchildren
  refine ⟨table, htable, fun k => ⟨fun hk => ?_, ?_⟩⟩
  · rcases hkeys k hk with h1 | h1
    · rw [getD_of_empty hempty] at h1
      simp [btor_find_in_ptr_hash_table] at h1
    · exact h1
  · rintro ⟨n, ⟨r, hr, hreach⟩, hn, hk⟩
    exact hchildren r hr n hreach hn k hk

theorem app_table_keys_are_and_children_witness :
    ∃ btor1, btor_compute_scores (exBtor JustHeur.BRANCH_MIN_APP) = .ok btor1
      ∧ ∃ table, btor1.score = some table
        ∧ ∀ k, btor_find_in_ptr_hash_table table k ≠ none
            ↔ ∃ n, (∃ r ∈ [(⟨4, false⟩ : NodeRef), ⟨6, false⟩] ++ [],
                      Reachable exNodes (BTOR_REAL_ADDR_NODE r) n)
                ∧ nonparam_and exNodes n ∧ k ∈ children exNodes n :=
  (exists_ok_of_isSome (x := btor_compute_scores (exBtor JustHeur.BRANCH_MIN_APP))
    (by decide)).elim fun btor1 h =>
    ⟨btor1, h, app_table_keys_are_and_children (exBtor JustHeur.BRANCH_MIN_APP) btor1
      (Or.inl rfl) (Or.inl rfl) h⟩

/-- C26: the content of the score sets. Starting from an absent or empty application table,
after any sequence of completed `btor_compute_scores` calls under MIN_APP (or its skeleton
variant) on an unchanged graph, whatever the constraints and assumptions of each call, every
element of the set stored for a key `n` is a non-parameterized APPLY node that is reachable
from `n` through one or more sign-stripped child edges, and no set holds a node twice. -/
theorem score_sets_hold_reachable_applies (btor btor1 : Btor)
    (calls : List (List NodeRef × List NodeRef))
    (hh : btor.just_heuristic = JustHeur.BRANCH_MIN_APP
      ∨ btor.just_heuristic = JustHeur.BRANCH_MIN_APP_BVSKEL)
    (hempty : btor.score = none ∨ btor.score = some [])
    (hrun : compute_scores_calls calls btor = .ok btor1) :
    ∀ table n set, btor1.score = some table →
      btor_find_in_ptr_hash_table table n = some (some set) →
      set.Nodup ∧ ∀ a ∈ set, nonparam_apply btor.nodes a
        ∧ Relation.TransGen (Child btor.nodes) n a := by
  intro table n set htable hf
  obtain ⟨_, hok⟩ := compute_scores_calls_sets calls btor btor1 hh
    (appSetsOK_of_empty btor.nodes hempty) hrun
  rw [htable] at hok
  exact hok n set hf

theorem score_sets_hold_reachable_applies_witness :
    ∃ btor1, compute_scores_calls [([⟨9, false⟩], []), ([⟨6, false⟩], [⟨7, true⟩])]
        (andBtor JustHeur.BRANCH_MIN_APP) = .ok btor1
      ∧ ∀ table n set, btor1.score = some table →
          btor_find_in_ptr_hash_table table n = some (some set) →
          set.Nodup ∧ ∀ a ∈ set, nonparam_apply andNodes a
            ∧ Relation.TransGen (Child andNodes) n a :=
  (exists_ok_of_isSome (x := compute_scores_calls
      [([⟨9, false⟩], []), ([⟨6, false⟩], [⟨7, true⟩])] (andBtor JustHeur.BRANCH_MIN_APP))
    (by decide)).elim fun btor1 h =>
    ⟨btor1, h, score_sets_hold_reachable_applies (andBtor JustHeur.BRANCH_MIN_APP) btor1 _
      (Or.inl rfl) (Or.inl rfl) h⟩

/-! ## Application scores: the search for unique applies -/

theorem min_app_search_step_complete {nodes : List BtorNode} (s : MinAppState)
    (in_set : List Nat) (top : NodeRef) (rest : List NodeRef) (hs : s.stack = top :: rest)
    (hinv : MinAppSearchInv nodes s in_set) :
    MinAppSearchInv nodes (min_app_search_step nodes s in_set top rest).1
        (min_app_search_step nodes s in_set top rest).2
      ∧ (∀ n, s.aux_mark n ≠ 0 → (min_app_search_step nodes s in_set top rest).1.aux_mark n ≠ 0)
      ∧ (∀ n ∈ s.stack.map BTOR_REAL_ADDR_NODE,
          (min_app_search_step nodes s in_set top rest).1.aux_mark n ≠ 0
            ∨ n ∈ (min_app_search_step nodes s in_set top rest).1.stack.map BTOR_REAL_ADDR_NODE)
      ∧ ∀ a ∈ in_set, a ∈ (min_app_search_step nodes s in_set top rest).2 := by
  by_cases hm : s.aux_mark (BTOR_REAL_ADDR_NODE top) ≠ 0
  · have hunf : min_app_search_step nodes s in_set top rest = ({ s with stack := rest }, in_set) := by
      simp only [min_app_search_step, if_pos hm]
    rw [hunf]
    refine ⟨⟨?_, hinv.applies, hinv.nodup⟩, fun _ h => h, ?_, fun a ha => ha⟩
    · intro n hn c hc
      rcases hinv.closure n hn c hc with h1 | h1
      · exact Or.inl h1
      · rw [hs, List.map_cons] at h1
        rcases List.mem_cons.1 h1 with h2 | h2
        · left
          rw [h2]
          exact hm
        · exact Or.inr h2
    · intro n hn
      rw [hs, List.map_cons] at hn
      rcases List.mem_cons.1 hn with h2 | h2
      · left
        rw [h2]
        exact hm
      · exact Or.inr h2
  · have hunf : min_app_search_step nodes s in_set top rest
        = ({ s with
             aux_mark := set_mark s.aux_mark (BTOR_REAL_ADDR_NODE top) 1
             stack := (get_node nodes (BTOR_REAL_ADDR_NODE top)).e.reverse ++ rest
             unmark_stack := BTOR_REAL_ADDR_NODE top :: s.unmark_stack },
           if !(get_node nodes (BTOR_REAL_ADDR_NODE top)).parameterized
                ∧ (get_node nodes (BTOR_REAL_ADDR_NODE top)).kind = BtorNodeKind.APPLY
                ∧ BTOR_REAL_ADDR_NODE top ∉ in_set
           then in_set ++ [BTOR_REAL_ADDR_NODE top] else in_set) := by
      simp only [min_app_search_step, if_neg hm]
    rw [hunf]
    have hsub : ∀ a ∈ in_set, a ∈ (if !(get_node nodes (BTOR_REAL_ADDR_NODE top)).parameterized
                ∧ (get_node nodes (BTOR_REAL_ADDR_NODE top)).kind = BtorNodeKind.APPLY
                ∧ BTOR_REAL_ADDR_NODE top ∉ in_set
           then in_set ++ [BTOR_REAL_ADDR_NODE top] else in_set) := by
      intro a ha
      split_ifs
      · exact List.mem_append_left _ ha
      · exact ha
    refine ⟨⟨?_, ?_, ?_⟩, fun n hn => set_mark_mono _ hn, ?_, hsub⟩
    · intro n hn c hc
      simp only at hn ⊢
      rcases set_mark_ne_zero hn with h1 | h1
      · right
        rw [h1] at hc
        rw [List.map_append, List.map_reverse]
        exact List.mem_append_left _ (List.mem_reverse.2 hc)
      · rcases hinv.closure n h1 c hc with h2 | h2
        · exact Or.inl (set_mark_mono _ h2)
        · rw [hs, List.map_cons] at h2
          rcases List.mem_cons.1 h2 with h3 | h3
          · left
            rw [h3]
            exact set_mark_self _ _
          · right
            rw [List.map_append]
            exact List.mem_append_right _ h3
    · intro n hn hna
      simp only at hn
      rcases set_mark_ne_zero hn with h1 | h1
      · rw [h1]
        by_cases hmem : BTOR_REAL_ADDR_NODE top ∈ in_set
        · exact hsub _ hmem
        · rw [h1] at hna
          rw [if_pos ⟨by simp [hna.1], hna.2, hmem⟩]
          simp
      · exact hsub n (hinv.applies n h1 hna)
    · split_ifs with hc
      · refine List.Nodup.append hinv.nodup (List.nodup_singleton _) ?_
        intro a ha ha1
        rw [List.mem_singleton] at ha1
        rw [ha1] at ha
        exact hc.2.2 ha
      · exact hinv.nodup
    · intro n hn
      simp only
      rw [hs, List.map_cons] at hn
      rcases List.mem_cons.1 hn with h2 | h2
      · left
        rw [h2]
        exact set_mark_self _ _
      · right
        rw [List.map_append]
        exact List.mem_append_right _ h2

theorem min_app_search_while_complete {nodes : List BtorNode} :
    ∀ (fuel : Nat) (s : MinAppState) (in_set : List Nat) (s1 : MinAppState) (in1 : List Nat),
      MinAppSearchInv nodes s in_set →
      min_app_search_while nodes fuel s in_set = .ok (s1, in1) →
      MinAppSearchInv nodes s1 in1 ∧ s1.stack = []
        ∧ (∀ n ∈ s.stack.map BTOR_REAL_ADDR_NODE, s1.aux_mark n ≠ 0)
        ∧ (∀ n, s.aux_mark n ≠ 0 → s1.aux_mark n ≠ 0)
        ∧ ∀ a ∈ in_set, a ∈ in1 := by
  intro fuel
  induction fuel with
  | zero =>
    intro s in_set s1 in1 hinv hrun
    unfold min_app_search_while at hrun
    cases hs : s.stack with
    | nil =>
      simp only [hs] at hrun
      cases hrun
      exact ⟨hinv, hs, fun n hn => by simp at hn, fun _ h => h, fun a ha => ha⟩
    | cons top rest =>
      simp only [hs] at hrun
      cases hrun
  | succ fuel ih =>
    intro s in_set s1 in1 hinv hrun
    unfold min_app_search_while at hrun
    cases hs : s.stack with
    | nil =>
      simp only [hs] at hrun
      cases hrun
      exact ⟨hinv, hs, fun n hn => by simp at hn, fun _ h => h, fun a ha => ha⟩
    | cons top rest =>
      simp only [hs] at hrun
      obtain ⟨h1, h2, h3, h4⟩ := min_app_search_step_complete s in_set top rest hs hinv
      obtain ⟨h5, h6, h7, h8, h9⟩ := ih _ _ s1 in1 h1 hrun
      refine ⟨h5, h6, ?_, fun n hn => h8 n (h2 n hn), fun a ha => h9 a (h4 a ha)⟩
      intro n hn
      rw [← hs] at hn
      rcases h3 n hn with h10 | h10
      · exact h8 n h10
      · exact h7 n h10

/-- The search for unique applies from clean marks puts every
non-parameterized APPLY node that is reachable from its start into the set. -/
theorem min_app_search_while_reach {nodes : List BtorNode} (s s1 : MinAppState) (e : Nat)
    (in_set in1 : List Nat) (fuel : Nat) (hz : ∀ n, s.aux_mark n = 0)
    (hnd : in_set.Nodup)
    (hrun : min_app_search_while nodes fuel { s with stack := ⟨e, false⟩ :: s.stack } in_set
      = .ok (s1, in1)) :
    in1.Nodup ∧ (∀ a ∈ in_set, a ∈ in1)
      ∧ ∀ a, Reachable nodes e a → nonparam_apply nodes a → a ∈ in1 := by
  have hinv0 : MinAppSearchInv nodes { s with stack := ⟨e, false⟩ :: s.stack } in_set :=
    ⟨fun n hn => absurd (hz n) hn, fun n hn => absurd (hz n) hn, hnd⟩
  obtain ⟨h1, h2, h3, _, h5⟩ := min_app_search_while_complete _ _ _ s1 in1 hinv0 hrun
  have he : s1.aux_mark e ≠ 0 := h3 e (by simp [BTOR_REAL_ADDR_NODE])
  have hmarked : ∀ a, Reachable nodes e a → s1.aux_mark a ≠ 0 := by
    intro a hreach
    induction hreach with
    | refl => exact he
    | @tail b c _ hstep ih =>
      rcases h1.closure b ih c hstep with h6 | h6
      · exact h6
      · rw [h2] at h6
        simp at h6
  exact ⟨h1.nodup, h5, fun a hreach hna => h1.applies a (hmarked a hreach) hna⟩

theorem min_app_union_complete {nodes : List BtorNode} (cur : Nat) :
    ∀ (l : List NodeRef) (in_set : List Nat) (s s1 : MinAppState), s.stack = [] →
      (∀ n, s.aux_mark n = 0) →
      btor_find_in_ptr_hash_table s.btor_score cur = some (some in_set) → in_set.Nodup →
      min_app_union nodes cur l in_set s = .ok s1 →
      ∃ set, btor_find_in_ptr_hash_table s1.btor_score cur = some (some set) ∧ set.Nodup
        ∧ (∀ a ∈ in_set, a ∈ set)
        ∧ ∀ c ∈ l, BTOR_REAL_ADDR_NODE c ≠ cur →
            (∀ t, btor_find_in_ptr_hash_table s.btor_score (BTOR_REAL_ADDR_NODE c)
              ≠ some (some t)) →
            ∀ a, Reachable nodes (BTOR_REAL_ADDR_NODE c) a → nonparam_apply nodes a → a ∈ set := by
  intro l
  induction l with
  | nil =>
    intro in_set s s1 _ _ hcur hnd hrun
    simp only [min_app_union] at hrun
    cases hrun
    exact ⟨in_set, hcur, hnd, fun a ha => ha, fun c hc => by simp at hc⟩
  | cons c rest ih =>
    intro in_set s s1 hs hz hcur hnd hrun
    simp only [min_app_union] at hrun
    split at hrun
    · rename_i t hfind
      obtain ⟨set, h1, h2, h3, h4⟩ := ih (min_app_merge in_set t)
        { s with btor_score := set_bucket_data s.btor_score cur (some (min_app_merge in_set t)) }
        s1 hs hz (by
          simp only
          rw [find_set_bucket_data, if_pos rfl, hcur]
          rfl) ((min_app_merge_spec t in_set).1 hnd) hrun
      refine ⟨set, h1, h2, fun a ha => h3 a (((min_app_merge_spec t in_set).2 a).2 (Or.inl ha)),
        ?_⟩
      intro c1 hc1 hne hno
      rcases List.mem_cons.1 hc1 with h5 | h5
      · rw [h5] at hno
        exact absurd hfind (hno t)
      · apply h4 c1 h5 hne
        intro t1
        simp only
        rw [find_set_bucket_data, if_neg (Ne.symm hne)]
        exact hno t1
    · split at hrun
      · cases hrun
      · rename_i s0 in1 hsearch
        obtain ⟨hf1, _⟩ := min_app_search_while_frame nodes _ _ _ s0 in1 hsearch
        obtain ⟨hnd1, hsub1, hreach1⟩ := min_app_search_while_reach s s0
          (BTOR_REAL_ADDR_NODE c) in_set in1 _ hz hnd hsearch
        have hinv0 : AppUnmarkInv s0 := by
          refine min_app_search_while_unmark _ _ _ s0 in1 ?_ hsearch
          exact fun n hn => absurd (hz n) hn
        have hs0 : s0.stack = [] := by
          have hinvS : MinAppSearchInv nodes
              { s with stack := ⟨BTOR_REAL_ADDR_NODE c, false⟩ :: s.stack } in_set :=
            ⟨fun n hn => absurd (hz n) hn, fun n hn => absurd (hz n) hn, hnd⟩
          exact (min_app_search_while_complete _ _ _ s0 in1 hinvS hsearch).2.1
        obtain ⟨set, h1, h2, h3, h4⟩ := ih in1
          { s0 with
            aux_mark := reset_marks s0.aux_mark s0.unmark_stack
            unmark_stack := []
            btor_score := set_bucket_data s0.btor_score cur (some in1) } s1 hs0
          (fun n => reset_marks_zero hinv0 n) (by
            simp only
            rw [find_set_bucket_data, if_pos rfl, hf1, hcur]
            rfl) hnd1 hrun
        refine ⟨set, h1, h2, fun a ha => h3 a (hsub1 a ha), ?_⟩
        intro c1 hc1 hne hno
        rcases List.mem_cons.1 hc1 with h5 | h5
        · intro a hreach hna
          rw [h5] at hreach
          exact h3 a (hreach1 a hreach hna)
        · apply h4 c1 h5 hne
          intro t1
          simp only
          rw [find_set_bucket_data, if_neg (Ne.symm hne), hf1]
          exact hno t1

/-- When the second pass of the application scorer aggregates a node `cur` that is not a non-parameterized AND node, with clean marks, the step
completes and the set it stores for `cur` holds no node twice and holds, for every child `c` of
`cur` (other than `cur` itself) that has no cached set, every non-parameterized APPLY node that
is reachable from `c` through sign-stripped child edges, `c` itself included. No bucket other
than that of `cur` is changed, no bucket is created, and every mark is clean afterwards. -/
theorem min_app_node_fallback (nodes : List BtorNode) (hwf : WellFormedNodes nodes)
    (s : MinAppState) (cur : Nat) (hnot : ¬ nonparam_and nodes cur)
    (hcur : btor_find_in_ptr_hash_table s.btor_score cur = some none)
    (hstack : s.stack = []) (hmarks : ∀ n, s.aux_mark n = 0) :
    ∃ s1 set, min_app_node nodes s cur = .ok s1
      ∧ btor_find_in_ptr_hash_table s1.btor_score cur = some (some set)
      ∧ set.Nodup
      ∧ (∀ c ∈ children nodes cur, c ≠ cur →
          (∀ t, btor_find_in_ptr_hash_table s.btor_score c ≠ some (some t)) →
          ∀ a, Reachable nodes c a → nonparam_apply nodes a → a ∈ set)
      ∧ (∀ k, k ≠ cur → btor_find_in_ptr_hash_table s1.btor_score k
          = btor_find_in_ptr_hash_table s.btor_score k)
      ∧ s1.btor_score.map Prod.fst = s.btor_score.map Prod.fst
      ∧ (∀ n, s1.aux_mark n = 0) ∧ s1.stack = [] := by
  have hand : ¬ (!(get_node nodes cur).parameterized
      ∧ (get_node nodes cur).kind = BtorNodeKind.AND) := by
    intro h
    apply hnot
    exact ⟨by simpa using h.1, h.2⟩
  have hunf : min_app_node nodes s cur
      = min_app_union nodes cur (get_node nodes cur).e []
          { s with btor_score := set_bucket_data s.btor_score cur (some []) } := by
    unfold min_app_node
    simp only [hcur, if_neg hand]
  obtain ⟨s1, hrun, hstack1⟩ := min_app_union_total hwf cur (get_node nodes cur).e []
    { s with btor_score := set_bucket_data s.btor_score cur (some []) } hstack
    (fun c hc => hwf.1 cur _ (mem_children.2 ⟨c, hc, rfl⟩))
  obtain ⟨set, h1, h2, _, h4⟩ := min_app_union_complete cur (get_node nodes cur).e []
    { s with btor_score := set_bucket_data s.btor_score cur (some []) } s1 hstack hmarks (by
      simp only
      rw [find_set_bucket_data, if_pos rfl, hcur]
      rfl) List.nodup_nil hrun
  rw [← hunf] at hrun
  obtain ⟨_, hframe, _, _⟩ := min_app_node_spec nodes s s1 cur hrun
  refine ⟨s1, set, hrun, h1, h2, ?_, hframe, ?_, min_app_node_marks nodes s s1 cur hmarks hrun,
    hstack1⟩
  · intro c hc hne hno a hreach hna
    obtain ⟨r, hr, hrc⟩ := mem_children.1 hc
    refine h4 r hr (by rw [hrc]; exact hne) ?_ a (by rw [hrc]; exact hreach) hna
    intro t
    simp only
    rw [hrc, find_set_bucket_data, if_neg (Ne.symm hne)]
    exact hno t
  · exact min_app_node_keys nodes s s1 cur hrun

/-! ## C22: the lazy fallback -/

theorem andNodes_check : check_nodes andNodes = true := by decide

/-- C22: the lazy fallback of the aggregation. When the second pass of the application scorer
aggregates a node `cur` that is not a non-parameterized AND node, with clean marks, the step
completes and the set it stores for `cur` holds no node twice and holds, for every child `c` of
`cur` (other than `cur` itself) that has no cached set, every non-parameterized APPLY node that
is reachable from `c` through sign-stripped child edges, `c` itself included. No bucket other
than that of `cur` is changed, no bucket is created, and every mark is clean afterwards. -/
theorem lazy_fallback_collects_applies (nodes : List BtorNode) (hwf : WellFormedNodes nodes)
    (s : MinAppState) (cur : Nat) (hnot : ¬ nonparam_and nodes cur)
    (hcur : btor_find_in_ptr_hash_table s.btor_score cur = some none)
    (hstack : s.stack = []) (hmarks : ∀ n, s.aux_mark n = 0) :
    ∃ s1 set, min_app_node nodes s cur = .ok s1
      ∧ btor_find_in_ptr_hash_table s1.btor_score cur = some (some set)
      ∧ set.Nodup
      ∧ (∀ c ∈ children nodes cur, c ≠ cur →
          (∀ t, btor_find_in_ptr_hash_table s.btor_score c ≠ some (some t)) →
          ∀ a, Reachable nodes c a → nonparam_apply nodes a → a ∈ set)
      ∧ (∀ k, k ≠ cur → btor_find_in_ptr_hash_table s1.btor_score k
          = btor_find_in_ptr_hash_table s.btor_score k)
      ∧ s1.btor_score.map Prod.fst = s.btor_score.map Prod.fst
      ∧ ∀ n, s1.aux_mark n = 0 := by
  obtain ⟨s1, set, h1, h2, h3, h4, h5, h6, h7, _⟩ :=
    min_app_node_fallback nodes hwf s cur hnot hcur hstack hmarks
  exact ⟨s1, set, h1, h2, h3, h4, h5, h6, h7⟩

theorem lazy_fallback_collects_applies_witness :
    ∃ s1 set, min_app_node andNodes andAggState 6 = .ok s1
      ∧ btor_find_in_ptr_hash_table s1.btor_score 6 = some (some set)
      ∧ set.Nodup
      ∧ (∀ c ∈ children andNodes 6, c ≠ 6 →
          (∀ t, btor_find_in_ptr_hash_table andAggState.btor_score c ≠ some (some t)) →
          ∀ a, Reachable andNodes c a → nonparam_apply andNodes a → a ∈ set)
      ∧ (∀ k, k ≠ 6 → btor_find_in_ptr_hash_table s1.btor_score k
          = btor_find_in_ptr_hash_table andAggState.btor_score k)
      ∧ s1.btor_score.map Prod.fst = andAggState.btor_score.map Prod.fst
      ∧ ∀ n, s1.aux_mark n = 0 :=
  lazy_fallback_collects_applies andNodes (wellFormed_of_check andNodes_check) andAggState 6
    (fun h => absurd h.2 (by decide)) rfl rfl (fun _ => rfl)

/-! ## Application scores: the second pass on ids in creation order -/

theorem min_app_choose_ok (table : BtorPtrHashTable (Option (List Nat))) :
    ∀ (l : List NodeRef) (m : Option (List Nat)),
      (∀ c ∈ l, ∃ t, btor_find_in_ptr_hash_table table (BTOR_REAL_ADDR_NODE c)
        = some (some t)) →
      ∃ r, min_app_choose table l m = .ok r ∧ (m ≠ none ∨ l ≠ [] → r ≠ none) := by
  intro l
  induction l with
  | nil =>
    intro m _
    refine ⟨m, rfl, fun h => ?_⟩
    rcases h with h | h
    · exact h
    · exact absurd rfl h
  | cons c rest ih =>
    intro m hl
    obtain ⟨t, ht⟩ := hl c (List.mem_cons_self _ _)
    have hrest : ∀ c1 ∈ rest, ∃ t, btor_find_in_ptr_hash_table table (BTOR_REAL_ADDR_NODE c1)
        = some (some t) := fun c1 hc1 => hl c1 (List.mem_cons_of_mem _ hc1)
    cases m with
    | none =>
      obtain ⟨r, hr, hne⟩ := ih (some t) hrest
      refine ⟨r, ?_, fun _ => hne (Or.inl (by simp))⟩
      simp only [min_app_choose, ht]
      exact hr
    | some m1 =>
      by_cases hlt : t.length < m1.length
      · obtain ⟨r, hr, hne⟩ := ih (some t) hrest
        refine ⟨r, ?_, fun _ => hne (Or.inl (by simp))⟩
        simp only [min_app_choose, ht, if_pos hlt]
        exact hr
      · obtain ⟨r, hr, hne⟩ := ih (some m1) hrest
        refine ⟨r, ?_, fun _ => hne (Or.inl (by simp))⟩
        simp only [min_app_choose, ht, if_neg hlt]
        exact hr

theorem min_app_copy_ok : ∀ (t in_set : List Nat), (in_set ++ t).Nodup →
    min_app_copy in_set t = .ok (in_set ++ t) := by
  intro t
  induction t with
  | nil =>
    intro in_set _
    simp [min_app_copy]
  | cons e rest ih =>
    intro in_set hnd
    have he : e ∉ in_set := by
      intro h0
      have h1 := (List.nodup_append.1 hnd).2.2
      exact h1 h0 (List.mem_cons_self _ _)
    simp only [min_app_copy, if_neg he]
    rw [ih (in_set ++ [e]) (by simpa using hnd)]
    simp

/-- The aggregation of a non-parameterized AND node all of whose children have a set
completes. -/
theorem min_app_node_and_ok {nodes : List BtorNode} (s : MinAppState) (cur : Nat)
    (hcur : btor_find_in_ptr_hash_table s.btor_score cur = some none)
    (hand : nonparam_and nodes cur) (he : (get_node nodes cur).e ≠ [])
    (hch : ∀ c ∈ (get_node nodes cur).e, BTOR_REAL_ADDR_NODE c ≠ cur
      ∧ ∃ t, btor_find_in_ptr_hash_table s.btor_score (BTOR_REAL_ADDR_NODE c) = some (some t)
          ∧ t.Nodup) :
    ∃ set, set.Nodup
      ∧ min_app_node nodes s cur
          = .ok { s with btor_score :=
              set_bucket_data (set_bucket_data s.btor_score cur (some [])) cur (some set) } := by
  have hand1 : !(get_node nodes cur).parameterized
      ∧ (get_node nodes cur).kind = BtorNodeKind.AND := ⟨by simp [hand.1], hand.2⟩
  have htab : ∀ c ∈ (get_node nodes cur).e,
      btor_find_in_ptr_hash_table (set_bucket_data s.btor_score cur (some []))
        (BTOR_REAL_ADDR_NODE c)
        = btor_find_in_ptr_hash_table s.btor_score (BTOR_REAL_ADDR_NODE c) := by
    intro c hc
    rw [find_set_bucket_data, if_neg (Ne.symm (hch c hc).1)]
  obtain ⟨r, hr, hne⟩ := min_app_choose_ok (set_bucket_data s.btor_score cur (some []))
    (get_node nodes cur).e none (by
      intro c hc
      obtain ⟨_, t, ht, _⟩ := hch c hc
      exact ⟨t, by rw [htab c hc, ht]⟩)
  obtain ⟨min_t, hmin⟩ := Option.ne_none_iff_exists'.1 (hne (Or.inr he))
  rw [hmin] at hr
  obtain ⟨pre, c, post, hl, hfind, _, _⟩ := min_app_choose_none _ _ _ hr
  have hc : c ∈ (get_node nodes cur).e := by rw [hl]; simp
  have hnd : min_t.Nodup := by
    obtain ⟨_, t, ht, htn⟩ := hch c hc
    rw [htab c hc, ht] at hfind
    have hEq : t = min_t := Option.some.inj (Option.some.inj hfind)
    rw [← hEq]
    exact htn
  have hcopy : min_app_copy [] min_t = .ok min_t := by
    have h1 := min_app_copy_ok min_t [] (by simpa using hnd)
    simpa using h1
  refine ⟨min_t, hnd, ?_⟩
  unfold min_app_node
  simp only [hcur, if_pos hand1, hr, hcopy]

theorem lt_of_transGen_child {nodes : List BtorNode} (hord : IdOrdered nodes) {n m : Nat}
    (h : Relation.TransGen (Child nodes) n m) : m < n := by
  induction h with
  | single h1 => exact hord _ _ h1
  | tail _ h2 ih => exact lt_trans (hord _ _ h2) ih

theorem acyclic_of_ordered {nodes : List BtorNode} (hord : IdOrdered nodes) : Acyclic nodes :=
  fun n h => lt_irrefl n (lt_of_transGen_child hord h)

/-- One step of the second pass on a working stack in ascending order of id: the step
completes, and an AND node, which has a child and only children of smaller id, finds a set at
every child. -/
theorem min_app_node_agg {nodes : List BtorNode} (hwf : WellFormedNodes nodes)
    (cur : Nat) (rest : List Nat)
    (s : MinAppState) (hsorted : (cur :: rest).Sorted (· < ·))
    (hinv : MinAppAggInv nodes (cur :: rest) s)
    (hk : nonparam_and nodes cur →
      (get_node nodes cur).e ≠ [] ∧ ∀ c ∈ children nodes cur, c < cur) :
    ∃ s0, min_app_node nodes s cur = .ok s0 ∧ MinAppAggInv nodes rest s0
      ∧ s0.btor_score.map Prod.fst = s.btor_score.map Prod.fst
      ∧ (nonparam_and nodes cur → ∀ c ∈ children nodes cur,
          ∃ set, btor_find_in_ptr_hash_table s.btor_score c = some (some set)) := by
  have hcur := hinv.pending cur (List.mem_cons_self _ _)
  have hnotin : cur ∉ rest := by
    intro h0
    exact lt_irrefl cur (List.rel_of_sorted_cons hsorted cur h0)
  have hchild : nonparam_and nodes cur → ∀ c ∈ children nodes cur,
      ∃ set, btor_find_in_ptr_hash_table s.btor_score c = some (some set) ∧ set.Nodup := by
    intro hand c hc
    have hlt : c < cur := (hk hand).2 c hc
    obtain ⟨x, hx⟩ := Option.ne_none_iff_exists'.1
      (hinv.and_children cur (List.mem_cons_self _ _) hand c hc)
    have hcn : c ∉ cur :: rest := by
      intro h0
      rcases List.mem_cons.1 h0 with h1 | h1
      · omega
      · have := List.rel_of_sorted_cons hsorted c h1
        omega
    obtain ⟨set, hset, hnd⟩ := hinv.filled c x hx hcn
    exact ⟨set, by rw [hx, hset], hnd⟩
  have hrestinv : ∀ s0 : MinAppState, s0.stack = [] → (∀ n, s0.aux_mark n = 0) →
      (∀ k, k ≠ cur → btor_find_in_ptr_hash_table s0.btor_score k
        = btor_find_in_ptr_hash_table s.btor_score k) →
      (∃ set, btor_find_in_ptr_hash_table s0.btor_score cur = some (some set) ∧ set.Nodup) →
      MinAppAggInv nodes rest s0 := by
    intro s0 hs0 hz0 hframe hset
    refine ⟨hs0, hz0, ?_, ?_, ?_⟩
    · intro k hk
      have hne : k ≠ cur := fun h0 => hnotin (h0 ▸ hk)
      rw [hframe k hne]
      exact hinv.pending k (List.mem_cons_of_mem _ hk)
    · intro k x hx hk
      by_cases hkc : k = cur
      · obtain ⟨set, hf, hnd⟩ := hset
        rw [hkc, hf] at hx
        exact ⟨set, (Option.some.inj hx).symm, hnd⟩
      · rw [hframe k hkc] at hx
        refine hinv.filled k x hx ?_
        intro h0
        rcases List.mem_cons.1 h0 with h1 | h1
        · exact hkc h1
        · exact hk h1
    · intro k hk hand c hc
      by_cases hcc : c = cur
      · obtain ⟨set, hf, _⟩ := hset
        rw [hcc, hf]
        simp
      · rw [hframe c hcc]
        exact hinv.and_children k (List.mem_cons_of_mem _ hk) hand c hc
  by_cases hand : nonparam_and nodes cur
  · obtain ⟨set, hnd, hrun⟩ := min_app_node_and_ok s cur hcur hand (hk hand).1 (by
      intro c hc
      have hcc : BTOR_REAL_ADDR_NODE c ∈ children nodes cur := mem_children.2 ⟨c, hc, rfl⟩
      refine ⟨?_, hchild hand _ hcc⟩
      have := (hk hand).2 _ hcc
      omega)
    refine ⟨_, hrun, ?_, ?_, fun _ c hc => ?_⟩
    · refine hrestinv
        { s with btor_score :=
            set_bucket_data (set_bucket_data s.btor_score cur (some [])) cur (some set) }
        hinv.stack hinv.marks ?_ ?_
      · intro k hk
        simp only
        rw [find_set_bucket_data, find_set_bucket_data, if_neg (Ne.symm hk),
          if_neg (Ne.symm hk)]
      · refine ⟨set, ?_, hnd⟩
        simp only
        rw [find_set_bucket_data, find_set_bucket_data, if_pos rfl, if_pos rfl, hcur]
        rfl
    · simp only
      rw [keys_set_bucket_data, keys_set_bucket_data]
    · obtain ⟨set1, h1, _⟩ := hchild hand c hc
      exact ⟨set1, h1⟩
  · obtain ⟨s1, set, hrun, h1, h2, _, hframe, hkeys, hz1, hs1⟩ :=
      min_app_node_fallback nodes hwf s cur hand hcur hinv.stack hinv.marks
    exact ⟨s1, hrun, hrestinv s1 hs1 hz1 hframe ⟨set, h1, h2⟩, hkeys,
      fun h0 => absurd h0 hand⟩

/-- The second pass on a working stack in ascending order of id completes, and whenever it
comes to a non-parameterized AND node every child of that node has a set. -/
theorem min_app_nodes_agg {nodes : List BtorNode} (hwf : WellFormedNodes nodes) :
    ∀ (L : List Nat) (s : MinAppState), L.Sorted (· < ·) → MinAppAggInv nodes L s →
      (∀ k ∈ L, nonparam_and nodes k →
        (get_node nodes k).e ≠ [] ∧ ∀ c ∈ children nodes k, c < k) →
      ∃ s1, min_app_nodes nodes L s = .ok s1 ∧ MinAppAggInv nodes [] s1
        ∧ s1.btor_score.map Prod.fst = s.btor_score.map Prod.fst
        ∧ ∀ pre cur post, L = pre ++ cur :: post →
            ∃ smid, min_app_nodes nodes pre s = .ok smid
              ∧ (nonparam_and nodes cur → ∀ c ∈ children nodes cur,
                  ∃ set, btor_find_in_ptr_hash_table smid.btor_score c = some (some set)) := by
  intro L
  induction L with
  | nil =>
    intro s _ hinv _
    refine ⟨s, rfl, hinv, rfl, fun pre cur post h => ?_⟩
    simp at h
  | cons cur rest ih =>
    intro s hsorted hinv hL
    obtain ⟨s0, hrun0, hinv0, hkeys0, hch0⟩ :=
      min_app_node_agg hwf cur rest s hsorted hinv (hL cur (List.mem_cons_self _ _))
    obtain ⟨s1, hrun1, hinv1, hkeys1, hpre1⟩ := ih s0 hsorted.of_cons hinv0
      (fun k hk => hL k (List.mem_cons_of_mem _ hk))
    refine ⟨s1, ?_, hinv1, hkeys1.trans hkeys0, ?_⟩
    · simp only [min_app_nodes, hrun0]
      exact hrun1
    · intro pre cur1 post hl
      cases pre with
      | nil =>
        simp only [List.nil_append, List.cons.injEq] at hl
        refine ⟨s, rfl, ?_⟩
        rw [← hl.1]
        exact hch0
      | cons p pre1 =>
        simp only [List.cons_append, List.cons.injEq] at hl
        obtain ⟨smid, hmid, hch⟩ := hpre1 pre1 cur1 post hl.2
        refine ⟨smid, ?_, hch⟩
        rw [← hl.1]
        simp only [min_app_nodes, hrun0]
        exact hmid

theorem andHasChild_of_check {nodes : List BtorNode} (hc : check_and_children nodes = true) :
    AndHasChild nodes := by
  intro n hn he
  by_cases hlt : n < nodes.length
  · have hmem : get_node nodes n ∈ nodes := by
      unfold get_node
      rw [List.getD_eq_getElem _ _ hlt]
      exact List.getElem_mem hlt
    simp only [check_and_children, List.all_eq_true] at hc
    have h1 := hc _ hmem
    rw [hn.2, he] at h1
    simp at h1
  · have h1 := hn.2
    rw [get_node_of_ge (Nat.le_of_not_lt hlt)] at h1
    cases h1

theorem idOrdered_of_check {nodes : List BtorNode} (hc : check_nodes nodes = true) :
    IdOrdered nodes := fun n c h => (child_lt_of_check hc n c h).1

theorem appTableFilled_of_empty {t : Option (BtorPtrHashTable (Option (List Nat)))}
    (h : t = none ∨ t = some []) : AppTableFilled (t.getD []) := by
  rw [getD_of_empty h]
  refine ⟨List.nodup_nil, fun k x hf => ?_⟩
  simp [btor_find_in_ptr_hash_table] at hf

theorem depTableOK_of_empty (nodes : List BtorNode) (h : JustHeur)
    {t : Option (BtorPtrHashTable Int)} (ht : t = none ∨ t = some []) :
    DepTableOK nodes h (t.getD [])
      ∧ ∀ n v, btor_find_in_ptr_hash_table (t.getD []) n = some v → 1 ≤ v := by
  rw [getD_of_empty ht]
  refine ⟨fun n v hf => ?_, fun n v hf => ?_⟩
  · simp [btor_find_in_ptr_hash_table] at hf
  · simp [btor_find_in_ptr_hash_table] at hf

/-- When the non-parameterized AND nodes that are reachable from the seeds have their ids in
creation order, the application scorer runs to completion: the working stack is aggregated in
ascending order of id, so that an AND node finds a set at every child. -/
theorem compute_scores_aux_min_app_complete (btor : Btor) (it : List NodeRef)
    (hh : btor.just_heuristic ≠ JustHeur.NONE) (hwf : WellFormedNodes btor.nodes)
    (hand : AndNodesOrdered btor.nodes
      (fun n => ∃ r ∈ it, Reachable btor.nodes (BTOR_REAL_ADDR_NODE r) n))
    (hit : ∀ r ∈ it, BTOR_REAL_ADDR_NODE r < btor.nodes.length)
    (hmarks : ∀ n, btor.aux_mark n = 0)
    (hfilled : AppTableFilled (btor.score.getD [])) :
    ∃ s1 s2 : MinAppState,
      min_app_mark_seeds btor.nodes it
          { aux_mark := btor.aux_mark
            btor_score := btor.score.getD []
            stack := []
            unmark_stack := []
            score := [] } = .ok s1
      ∧ compute_scores_aux_min_app btor it
          = .ok { btor with aux_mark := s2.aux_mark, score := some s2.btor_score }
      ∧ (qsort_by_id_asc s1.score.reverse).Sorted (· < ·)
      ∧ AppTableFilled s2.btor_score
      ∧ (∀ k, k ∈ qsort_by_id_asc s1.score.reverse
          ↔ btor_find_in_ptr_hash_table (btor.score.getD []) k = none
            ∧ btor_find_in_ptr_hash_table s2.btor_score k ≠ none)
      ∧ ∀ pre cur post, qsort_by_id_asc s1.score.reverse = pre ++ cur :: post →
          ∃ smid, min_app_nodes btor.nodes pre
              { s1 with
                aux_mark := reset_marks s1.aux_mark s1.unmark_stack
                unmark_stack := [] } = .ok smid
            ∧ (nonparam_and btor.nodes cur → ∀ c ∈ children btor.nodes cur,
                ∃ set, btor_find_in_ptr_hash_table smid.btor_score c = some (some set)) := by
  have hcheck : check_id_table_aux_mark_unset_dbg btor.nodes btor.aux_mark = true :=
    check_marks_unset hmarks
  obtain ⟨s1, hpass1, hs1⟩ := min_app_mark_seeds_total hwf it
    { aux_mark := btor.aux_mark
      btor_score := btor.score.getD []
      stack := []
      unmark_stack := []
      score := [] } rfl hit
  have hmi := minAppMarkInv_of_check btor hcheck
  obtain ⟨hmi1, _, hext1, _, _⟩ := min_app_mark_seeds_spec it _ s1 hmi rfl hpass1
  have hR : ∀ n c, (∃ r ∈ it, Reachable btor.nodes (BTOR_REAL_ADDR_NODE r) n) →
      Child btor.nodes n c → ∃ r ∈ it, Reachable btor.nodes (BTOR_REAL_ADDR_NODE r) c := by
    rintro n c ⟨r, hr, hreach⟩ hc
    exact ⟨r, hr, Relation.ReflTransGen.tail hreach hc⟩
  have hsi0 : MinAppScoreInv btor.nodes
      (fun n => ∃ r ∈ it, Reachable btor.nodes (BTOR_REAL_ADDR_NODE r) n) (btor.score.getD [])
      { aux_mark := btor.aux_mark
        btor_score := btor.score.getD []
        stack := []
        unmark_stack := []
        score := [] } :=
    ⟨fun n hn => by simp at hn, fun k hk => Or.inl hk, List.nodup_nil,
      fun k hk => by simp at hk, fun k hk => by simp at hk, hfilled.1⟩
  have hsi1 := min_app_mark_seeds_inv hR it _ s1
    (fun r hr => ⟨r, hr, Relation.ReflTransGen.refl⟩) hsi0 hpass1
  have hun1 : AppUnmarkInv s1 := by
    refine min_app_mark_seeds_unmark it _ s1 ?_ hpass1
    exact fun n hn => absurd (hmarks n) hn
  have hfresh := min_app_mark_seeds_fresh it _ s1 hmi rfl hpass1
  have hmemL : ∀ k, k ∈ qsort_by_id_asc s1.score.reverse ↔ k ∈ s1.score := by
    intro k
    rw [mem_qsort_by_id_asc, List.mem_reverse]
  have hsorted : (qsort_by_id_asc s1.score.reverse).Sorted (· < ·) := by
    apply List.Sorted.lt_of_le
    · exact List.sorted_insertionSort (· ≤ ·) _
    · exact (List.perm_insertionSort _ _).nodup_iff.2 (List.nodup_reverse.2 hsi1.nodup)
  have hagg0 : MinAppAggInv btor.nodes (qsort_by_id_asc s1.score.reverse)
      { s1 with
        aux_mark := reset_marks s1.aux_mark s1.unmark_stack
        unmark_stack := [] } := by
    refine ⟨hs1, fun n => reset_marks_zero hun1 n, ?_, ?_, ?_⟩
    · intro k hk
      exact hsi1.unfilled k ((hmemL k).1 hk)
    · intro k x hx hk
      simp only at hx
      rcases hext1.2.2 k (by rw [hx]; simp) with h1 | h1
      · obtain ⟨x0, hx0⟩ := Option.ne_none_iff_exists'.1 h1
        have h2 := hext1.1 k x0 hx0
        rw [hx] at h2
        have hEq : x = x0 := Option.some.inj h2
        rw [hEq]
        exact hfilled.2 k x0 hx0
      · exact absurd ((hmemL k).2 h1.1) hk
    · intro k hk hand c hc
      rcases hsi1.visited k ((hmemL k).1 hk) with h1 | h1
      · exact hmi1.and_children k h1 hand c hc
      · rw [hs1] at h1
        simp at h1
  have hL : ∀ k ∈ qsort_by_id_asc s1.score.reverse, nonparam_and btor.nodes k →
      (get_node btor.nodes k).e ≠ [] ∧ ∀ c ∈ children btor.nodes k, c < k := by
    intro k hk hnp
    have hks : k ∈ s1.score := (hmemL k).1 hk
    have hT0 : btor_find_in_ptr_hash_table (btor.score.getD []) k = none := by
      rcases hfresh k hks with h1 | h1
      · simp at h1
      · exact h1
    rcases hsi1.keys k (by rw [hsi1.unfilled k hks]; simp) with h1 | h1
    · exact absurd hT0 h1
    · obtain ⟨n, hn, _, hc⟩ := h1
      exact hand k (hR n k hn hc) hnp
  obtain ⟨s2, hrun2, hinv2, hkeys2, hpre⟩ :=
    min_app_nodes_agg hwf _ _ hsorted hagg0 hL
  have hnone : ∀ k, btor_find_in_ptr_hash_table s2.btor_score k = none
      ↔ btor_find_in_ptr_hash_table s1.btor_score k = none := by
    intro k
    rw [find_eq_none_iff, find_eq_none_iff, hkeys2]
  refine ⟨s1, s2, hpass1, ?_, hsorted, ⟨?_, ?_⟩, ?_, hpre⟩
  · simp only [compute_scores_aux_min_app, hcheck, Bool.not_true, Bool.false_eq_true, if_false,
      if_neg hh, hpass1, hrun2]
  · rw [hkeys2]
    exact hsi1.table_keys
  · intro k x hx
    exact hinv2.filled k x hx (List.not_mem_nil k)
  · intro k
    rw [hmemL]
    constructor
    · intro hk
      refine ⟨?_, ?_⟩
      · rcases hfresh k hk with h1 | h1
        · simp at h1
        · exact h1
      · rw [Ne, hnone, hsi1.unfilled k hk]
        simp
    · rintro ⟨h1, h2⟩
      rw [Ne, hnone] at h2
      rcases hext1.2.2 k h2 with h3 | h3
      · exact absurd h1 h3
      · exact h3.1

/-! ## C21: the order of the aggregation pass -/

/-- C21: the order of the aggregation pass. On a graph in which every node has a greater id
than its children (and every non-parameterized AND node has a child), with clean marks and a
table in which every bucket holds a set, `btor_compute_scores` under MIN_APP (or its skeleton
variant) runs to completion. The second pass goes over the new entries, which are the nodes of
the working stack, in strictly ascending order of id, so that every descendant of a node that
also gets a new entry is aggregated before the node; and when the pass comes to a
non-parameterized AND node, every child of that node has an entry that holds a set. -/
theorem aggregation_in_ascending_id_order (btor : Btor)
    (hh : btor.just_heuristic = JustHeur.BRANCH_MIN_APP
      ∨ btor.just_heuristic = JustHeur.BRANCH_MIN_APP_BVSKEL)
    (hwf : WellFormedNodes btor.nodes) (hord : IdOrdered btor.nodes)
    (hac : AndHasChild btor.nodes)
    (hseeds : ∀ r ∈ btor.synthesized_constraints ++ btor.assumptions,
      BTOR_REAL_ADDR_NODE r < btor.nodes.length)
    (hmarks : ∀ n, btor.aux_mark n = 0)
    (hfilled : AppTableFilled (btor.score.getD [])) :
    ∃ (s1 : MinAppState) (btor1 : Btor) (table : BtorPtrHashTable (Option (List Nat))),
      min_app_mark_seeds btor.nodes (btor.synthesized_constraints ++ btor.assumptions)
          { aux_mark := btor.aux_mark
            btor_score := btor.score.getD []
            stack := []
            unmark_stack := []
            score := [] } = .ok s1
      ∧ btor_compute_scores btor = .ok btor1
      ∧ btor1.score = some table
      ∧ (qsort_by_id_asc s1.score.reverse).Sorted (· < ·)
      ∧ (∀ k, k ∈ qsort_by_id_asc s1.score.reverse
          ↔ btor_find_in_ptr_hash_table (btor.score.getD []) k = none
            ∧ btor_find_in_ptr_hash_table table k ≠ none)
      ∧ ∀ pre cur post, qsort_by_id_asc s1.score.reverse = pre ++ cur :: post →
          (∀ d ∈ qsort_by_id_asc s1.score.reverse,
            Relation.TransGen (Child btor.nodes) cur d → d ∈ pre)
          ∧ ∃ smid, min_app_nodes btor.nodes pre
                { s1 with
                  aux_mark := reset_marks s1.aux_mark s1.unmark_stack
                  unmark_stack := [] } = .ok smid
              ∧ (nonparam_and btor.nodes cur → ∀ c ∈ children btor.nodes cur,
                  ∃ set, btor_find_in_ptr_hash_table smid.btor_score c = some (some set)) := by
  have hne : btor.just_heuristic ≠ JustHeur.NONE := by rcases hh with h | h <;> simp [h]
  obtain ⟨s1, s2, hpass1, hrun, hsorted, _, hnew, hpre⟩ :=
    compute_scores_aux_min_app_complete btor _ hne hwf
      (fun n _ hn => ⟨hac n hn, fun c hc => hord n c hc⟩) hseeds hmarks hfilled
  refine ⟨s1, { btor with aux_mark := s2.aux_mark, score := some s2.btor_score },
    s2.btor_score, hpass1, ?_, rfl, hsorted, hnew, fun pre cur post hl => ?_⟩
  · rw [btor_compute_scores_app btor hh]
    exact hrun
  · refine ⟨fun d hd hdesc => ?_, hpre pre cur post hl⟩
    have hlt : d < cur := lt_of_transGen_child hord hdesc
    rw [hl] at hd hsorted
    obtain ⟨_, h2, _⟩ := List.pairwise_append.1 hsorted
    rcases List.mem_append.1 hd with h4 | h4
    · exact h4
    · rcases List.mem_cons.1 h4 with h5 | h5
      · omega
      · have := List.rel_of_sorted_cons h2 d h5
        omega

theorem aggregation_in_ascending_id_order_witness :
    ∃ (s1 : MinAppState) (btor1 : Btor) (table : BtorPtrHashTable (Option (List Nat))),
      min_app_mark_seeds andNodes ([⟨9, false⟩] ++ [])
          { aux_mark := fun _ => 0
            btor_score := (none : Option (BtorPtrHashTable (Option (List Nat)))).getD []
            stack := []
            unmark_stack := []
            score := [] } = .ok s1
      ∧ btor_compute_scores (andBtor JustHeur.BRANCH_MIN_APP) = .ok btor1
      ∧ btor1.score = some table
      ∧ (qsort_by_id_asc s1.score.reverse).Sorted (· < ·)
      ∧ (∀ k, k ∈ qsort_by_id_asc s1.score.reverse
          ↔ btor_find_in_ptr_hash_table
              ((none : Option (BtorPtrHashTable (Option (List Nat)))).getD []) k = none
            ∧ btor_find_in_ptr_hash_table table k ≠ none)
      ∧ ∀ pre cur post, qsort_by_id_asc s1.score.reverse = pre ++ cur :: post →
          (∀ d ∈ qsort_by_id_asc s1.score.reverse,
            Relation.TransGen (Child andNodes) cur d → d ∈ pre)
          ∧ ∃ smid, min_app_nodes andNodes pre
                { s1 with
                  aux_mark := reset_marks s1.aux_mark s1.unmark_stack
                  unmark_stack := [] } = .ok smid
              ∧ (nonparam_and andNodes cur → ∀ c ∈ children andNodes cur,
                  ∃ set, btor_find_in_ptr_hash_table smid.btor_score c = some (some set)) :=
  aggregation_in_ascending_id_order (andBtor JustHeur.BRANCH_MIN_APP) (Or.inl rfl)
    (wellFormed_of_check andNodes_check) (idOrdered_of_check andNodes_check)
    (andHasChild_of_check (by decide)) (by decide) (fun _ => rfl)
    (appTableFilled_of_empty (Or.inl rfl))

/-! ## C23: termination -/

theorem dual_prop_cleanup_total (nodes : List BtorNode) :
    ∀ (table : BtorPtrHashTable (Option (List Nat))), (∀ p ∈ table, p.2 ≠ none) →
      ∃ r, dual_prop_cleanup nodes table = .ok r := by
  intro table
  induction table with
  | nil =>
    intro _
    exact ⟨[], rfl⟩
  | cons p rest ih =>
    intro h
    obtain ⟨cur, t⟩ := p
    obtain ⟨r, hr⟩ := ih (fun q hq => h q (List.mem_cons_of_mem _ hq))
    obtain ⟨x, hx⟩ := Option.ne_none_iff_exists'.1 (h (cur, t) (List.mem_cons_self _ _))
    simp only at hx
    subst hx
    by_cases hk : (get_node nodes cur).kind ≠ BtorNodeKind.BV_VAR
        ∧ (get_node nodes cur).kind ≠ BtorNodeKind.APPLY
    · refine ⟨r, ?_⟩
      simp only [dual_prop_cleanup, if_pos hk]
      exact hr
    · refine ⟨(cur, some x) :: r, ?_⟩
      simp only [dual_prop_cleanup, if_neg hk, hr]

theorem skelReach_bound {nodes : List BtorNode} (hwf : WellFormedNodes nodes) {a n : Nat}
    (ha : a < nodes.length) (h : SkelReach nodes a n) : n < nodes.length := by
  induction h with
  | refl => exact ha
  | tail _ hstep _ => exact hwf.1 _ _ hstep.2

/-- The dispatch runs to completion on an acyclic graph with clean marks. Under an application
heuristic this takes a table in which every bucket holds a set and AND nodes, among those
reachable from the seeds, in creation order, and the dispatch leaves such a table; under a depth
heuristic it takes a depth table as the depth scorer builds it. -/
theorem compute_scores_aux_complete (btor : Btor) (it : List NodeRef)
    (hwf : WellFormedNodes btor.nodes) (hacyc : Acyclic btor.nodes)
    (hit : ∀ r ∈ it, BTOR_REAL_ADDR_NODE r < btor.nodes.length)
    (hmarks : ∀ n, btor.aux_mark n = 0)
    (hand : btor.just_heuristic = JustHeur.BRANCH_MIN_APP
        ∨ btor.just_heuristic = JustHeur.BRANCH_MIN_APP_BVSKEL →
      AndNodesOrdered btor.nodes
        (fun n => ∃ r ∈ it, Reachable btor.nodes (BTOR_REAL_ADDR_NODE r) n))
    (happ : btor.just_heuristic = JustHeur.BRANCH_MIN_APP
        ∨ btor.just_heuristic = JustHeur.BRANCH_MIN_APP_BVSKEL →
      AppTableFilled (btor.score.getD []))
    (hdep : btor.just_heuristic = JustHeur.BRANCH_MIN_DEP
        ∨ btor.just_heuristic = JustHeur.BRANCH_MIN_DEP_BVSKEL →
      DepTableOK btor.nodes btor.just_heuristic (btor.score_depth.getD [])
        ∧ ∀ n v, btor_find_in_ptr_hash_table (btor.score_depth.getD []) n = some v → 1 ≤ v) :
    ∃ btor1, compute_scores_aux btor it = .ok btor1
      ∧ (btor.just_heuristic = JustHeur.BRANCH_MIN_APP
          ∨ btor.just_heuristic = JustHeur.BRANCH_MIN_APP_BVSKEL →
          ∃ table, btor1.score = some table ∧ AppTableFilled table) := by
  have happ1 : btor.just_heuristic = JustHeur.BRANCH_MIN_APP
        ∨ btor.just_heuristic = JustHeur.BRANCH_MIN_APP_BVSKEL →
      ∃ btor1, compute_scores_aux_min_app btor it = .ok btor1
        ∧ (btor.just_heuristic = JustHeur.BRANCH_MIN_APP
          ∨ btor.just_heuristic = JustHeur.BRANCH_MIN_APP_BVSKEL →
          ∃ table, btor1.score = some table ∧ AppTableFilled table) := by
    intro ha
    have hne : btor.just_heuristic ≠ JustHeur.NONE := by rcases ha with h | h <;> simp [h]
    obtain ⟨s1, s2, _, hrun, _, hf, _, _⟩ :=
      compute_scores_aux_min_app_complete btor it hne hwf (hand ha) hit hmarks (happ ha)
    exact ⟨{ btor with aux_mark := s2.aux_mark, score := some s2.btor_score }, hrun,
      fun _ => ⟨s2.btor_score, rfl, hf⟩⟩
  have hdep1 : btor.just_heuristic = JustHeur.BRANCH_MIN_DEP
        ∨ btor.just_heuristic = JustHeur.BRANCH_MIN_DEP_BVSKEL →
      ∃ btor1, compute_scores_aux_min_dep btor it = .ok btor1
        ∧ (btor.just_heuristic = JustHeur.BRANCH_MIN_APP
          ∨ btor.just_heuristic = JustHeur.BRANCH_MIN_APP_BVSKEL →
          ∃ table, btor1.score = some table ∧ AppTableFilled table) := by
    intro hd
    obtain ⟨btor1, _, hrun, _⟩ := compute_scores_aux_min_dep_spec btor it hwf
      hacyc hit hmarks (by rcases hd with h | h <;> simp [h]) (hdep hd).1 (hdep hd).2
    refine ⟨btor1, hrun, fun ha => ?_⟩
    rcases hd with h | h <;> rcases ha with h1 | h1 <;> rw [h] at h1 <;> cases h1
  unfold compute_scores_aux
  split
  · rename_i h0
    refine ⟨btor, rfl, fun ha => ?_⟩
    rcases ha with h1 | h1 <;> rw [h0] at h1 <;> cases h1
  · rename_i h0
    exact happ1 (Or.inl h0)
  · rename_i h0
    exact happ1 (Or.inr h0)
  · rename_i h0
    exact hdep1 (Or.inl h0)
  · rename_i h0
    exact hdep1 (Or.inr h0)

theorem andNodesOrdered_of_check {nodes : List BtorNode} (hc : check_nodes nodes = true)
    (ha : check_and_children nodes = true) (R : Nat → Prop) : AndNodesOrdered nodes R :=
  fun n _ hn => ⟨andHasChild_of_check ha n hn, fun c h => idOrdered_of_check hc n c h⟩

theorem unorderedNodes_child (n c : Nat) (h : Child unorderedNodes n c) :
    (n = 3 ∧ (c = 1 ∨ c = 0)) ∨ (n = 1 ∧ (c = 2 ∨ c = 0)) := by
  have h1 : c ∈ children unorderedNodes n := h
  by_cases hn : n < 4
  · interval_cases n <;>
      simp [children, get_node, unorderedNodes, BTOR_REAL_ADDR_NODE] at h1 ⊢ <;> omega
  · rw [children, get_node_of_ge (by simp [unorderedNodes]; omega)] at h1
    simp at h1

theorem unorderedNodes_wellFormed : WellFormedNodes unorderedNodes := by
  refine ⟨fun n c h => ?_, fun n hk => ?_⟩
  · rcases unorderedNodes_child n c h with ⟨_, h3 | h3⟩ | ⟨_, h3 | h3⟩ <;> subst h3 <;> decide
  · by_cases hn : n < 4
    · interval_cases n <;> simp [get_node, unorderedNodes] at hk ⊢
    · rw [get_node_of_ge (by simp [unorderedNodes]; omega)]

theorem unorderedNodes_acyclic : Acyclic unorderedNodes := by
  have hrank : ∀ n m, Relation.TransGen (Child unorderedNodes) n m →
      (if m = 3 then 2 else if m = 1 then 1 else 0)
        < (if n = 3 then 2 else if n = 1 then 1 else 0) := by
    intro n m h
    induction h with
    | single h1 =>
      rcases unorderedNodes_child _ _ h1 with ⟨h2, h3 | h3⟩ | ⟨h2, h3 | h3⟩ <;> subst h2 <;>
        subst h3 <;> decide
    | tail _ h1 ih =>
      refine lt_trans ?_ ih
      rcases unorderedNodes_child _ _ h1 with ⟨h2, h3 | h3⟩ | ⟨h2, h3 | h3⟩ <;> subst h2 <;>
        subst h3 <;> decide
  exact fun n h => lt_irrefl _ (hrank n n h)

/-- In `unorderedNodes` no AND node is at or below an alternate seed of the dual propagation:
the nodes at which the collecting traversal stops are the two variables. -/
theorem unorderedNodes_belowStop (seeds : List NodeRef) :
    AndNodesOrdered unorderedNodes (BelowStop unorderedNodes seeds) := by
  rintro n ⟨r, _, a, _, hstop, hreach⟩ hnp
  have hna : a = n := by
    rcases Relation.ReflTransGen.cases_head hreach with h1 | ⟨c, hc, _⟩
    · exact h1
    · exfalso
      rcases unorderedNodes_child a c hc with ⟨h2, _⟩ | ⟨h2, _⟩ <;> subst h2 <;>
        rcases hstop with h3 | h3 <;> simp [get_node, unorderedNodes] at h3
  rw [hna] at hstop
  exfalso
  rcases hstop with h3 | h3 <;> rw [hnp.2] at h3 <;> cases h3

/-- The premise on the ids of the AND nodes cannot be dropped from the theorems on the second
pass of the application scorer. On the acyclic graph `unorderedNodes`, in which the AND node
with id `1` has the child with id `2`, `btor_compute_scores` under MIN_APP takes the working
stack in the order `0`, `1`, `2`, comes to the node `1` before its child `2` has a set, and the
assertion on the set of the child fails. -/
theorem unordered_ids_reach_fault :
    btor_compute_scores (unorderedBtor JustHeur.BRANCH_MIN_APP)
      = .error BtorFault.assertion := by
  cases hrun : btor_compute_scores (unorderedBtor JustHeur.BRANCH_MIN_APP) with
  | error f =>
    have h1 : (match btor_compute_scores (unorderedBtor JustHeur.BRANCH_MIN_APP) with
        | .error f => some f
        | .ok _ => none) = some BtorFault.assertion := by
      decide
    rw [hrun] at h1
    simp only [Option.some.injEq] at h1
    rw [h1]
  | ok btor1 =>
    have h1 : (btor_compute_scores (unorderedBtor JustHeur.BRANCH_MIN_APP)).toOption.isSome
        = false := by
      decide
    rw [hrun] at h1
    simp [Except.toOption] at h1

/-- C23: termination. On a finite acyclic graph with all marks clean and every seed in the id
table, under every heuristic id, `btor_compute_scores` and `btor_compute_scores_dual_prop` run
to completion: no traversal uses up its bound and no assertion fails. Under NONE nothing more is
asked. Under the depth heuristics the depth table is as the depth scorer builds it (the empty
table, or one left by completed calls). Under the application heuristics every bucket of the
application table holds a set (the empty table, or one left by completed calls), and the
non-parameterized AND nodes that the scorer reaches, from the constraints and assumptions in
`btor_compute_scores` and from the collected APPLY nodes and variables in
`btor_compute_scores_dual_prop`, have a child and have a greater id than their children, as
every node the solver creates has. -/
theorem compute_scores_run_to_completion (btor : Btor)
    (hwf : WellFormedNodes btor.nodes) (hacyc : Acyclic btor.nodes)
    (hseeds : ∀ r ∈ btor.synthesized_constraints ++ btor.assumptions,
      BTOR_REAL_ADDR_NODE r < btor.nodes.length)
    (hmarks : ∀ n, btor.aux_mark n = 0)
    (happ : btor.just_heuristic = JustHeur.BRANCH_MIN_APP
        ∨ btor.just_heuristic = JustHeur.BRANCH_MIN_APP_BVSKEL →
      AppTableFilled (btor.score.getD []))
    (hdep : btor.just_heuristic = JustHeur.BRANCH_MIN_DEP
        ∨ btor.just_heuristic = JustHeur.BRANCH_MIN_DEP_BVSKEL →
      DepTableOK btor.nodes btor.just_heuristic (btor.score_depth.getD [])
        ∧ ∀ n v, btor_find_in_ptr_hash_table (btor.score_depth.getD []) n = some v → 1 ≤ v) :
    ((btor.just_heuristic = JustHeur.BRANCH_MIN_APP
          ∨ btor.just_heuristic = JustHeur.BRANCH_MIN_APP_BVSKEL →
        AndNodesOrdered btor.nodes
          (fun n => ∃ r ∈ btor.synthesized_constraints ++ btor.assumptions,
            Reachable btor.nodes (BTOR_REAL_ADDR_NODE r) n)) →
      ∃ btor1, btor_compute_scores btor = .ok btor1)
    ∧ ((btor.just_heuristic = JustHeur.BRANCH_MIN_APP
          ∨ btor.just_heuristic = JustHeur.BRANCH_MIN_APP_BVSKEL →
        AndNodesOrdered btor.nodes
          (BelowStop btor.nodes (btor.synthesized_constraints ++ btor.assumptions))) →
      ∃ btor2, btor_compute_scores_dual_prop btor = .ok btor2) := by
  constructor
  · intro hand
    obtain ⟨btor1, hrun, _⟩ :=
      compute_scores_aux_complete btor _ hwf hacyc hseeds hmarks hand happ hdep
    exact ⟨btor1, hrun⟩
  · intro hand
    obtain ⟨s, hcollect, _, hunmark, happlies, hreach⟩ :=
      dual_prop_collect_spec btor hwf hseeds hmarks
    have hbelow : ∀ r ∈ s.applies.map (fun n => (⟨n, false⟩ : NodeRef)), ∀ n,
        Reachable btor.nodes (BTOR_REAL_ADDR_NODE r) n →
        BelowStop btor.nodes (btor.synthesized_constraints ++ btor.assumptions) n := by
      intro r hr n hrn
      obtain ⟨a, ha, hra⟩ := List.mem_map.1 hr
      rw [← hra] at hrn
      obtain ⟨hmarked, hstop⟩ := (happlies a).1 ha
      obtain ⟨r0, hr0, hsk⟩ := (hreach a).1 hmarked
      exact ⟨r0, hr0, a, hsk, hstop, hrn⟩
    obtain ⟨btor1, hrun, hfilled⟩ := compute_scores_aux_complete
      { btor with aux_mark := reset_marks s.aux_mark s.unmark_stack }
      (s.applies.map (fun n => ⟨n, false⟩)) hwf hacyc (by
        intro r hr
        obtain ⟨n, hn, hrn⟩ := List.mem_map.1 hr
        rw [← hrn]
        obtain ⟨r0, hr0, hsk⟩ := (hreach n).1 ((happlies n).1 hn).1
        exact skelReach_bound hwf (hseeds r0 hr0) hsk)
      (fun n => reset_marks_zero hunmark n)
      (fun ha n hn hnp => by
        obtain ⟨r, hr, hrn⟩ := hn
        exact hand ha n (hbelow r hr n hrn) hnp)
      happ hdep
    obtain ⟨hn1, hj1, _, _⟩ := compute_scores_aux_frame hrun
    simp only [btor_compute_scores_dual_prop, check_marks_unset hmarks, Bool.not_true,
      Bool.false_eq_true, if_false, hcollect, hrun]
    unfold dual_prop_filter
    by_cases ha : btor1.just_heuristic = JustHeur.BRANCH_MIN_APP
        ∨ btor1.just_heuristic = JustHeur.BRANCH_MIN_APP_BVSKEL
    · rw [if_pos ha]
      obtain ⟨table, htable, hf⟩ := hfilled (by rw [← hj1]; exact ha)
      obtain ⟨r, hr⟩ := dual_prop_cleanup_total btor1.nodes table (by
        intro p hp
        obtain ⟨set, hset, _⟩ := hf.2 p.1 p.2 (find_of_mem table hf.1 p hp)
        rw [hset]
        simp)
      simp only [htable, hr]
      exact ⟨_, rfl⟩
    · rw [if_neg ha]
      exact ⟨_, rfl⟩

theorem dualNodes_and_check : check_and_children dualNodes = true := by decide

theorem compute_scores_run_to_completion_witness :
    ((∃ btor1, btor_compute_scores (dualBtor JustHeur.BRANCH_MIN_APP) = .ok btor1)
        ∧ ∃ btor2, btor_compute_scores_dual_prop (dualBtor JustHeur.BRANCH_MIN_APP) = .ok btor2)
      ∧ (∃ btor1, btor_compute_scores (unorderedBtor JustHeur.BRANCH_MIN_DEP) = .ok btor1)
      ∧ ∃ btor2,
          btor_compute_scores_dual_prop (unorderedBtor JustHeur.BRANCH_MIN_APP) = .ok btor2 :=
  ⟨⟨(compute_scores_run_to_completion (dualBtor JustHeur.BRANCH_MIN_APP)
        (wellFormed_of_check dualNodes_check) (acyclic_of_check dualNodes_check) (by decide)
        (fun _ => rfl) (fun _ => appTableFilled_of_empty (Or.inl rfl))
        (fun h => h.elim (fun h1 => absurd h1 (by decide))
          (fun h1 => absurd h1 (by decide)))).1
        (fun _ => andNodesOrdered_of_check dualNodes_check dualNodes_and_check _),
      (compute_scores_run_to_completion (dualBtor JustHeur.BRANCH_MIN_APP)
        (wellFormed_of_check dualNodes_check) (acyclic_of_check dualNodes_check) (by decide)
        (fun _ => rfl) (fun _ => appTableFilled_of_empty (Or.inl rfl))
        (fun h => h.elim (fun h1 => absurd h1 (by decide))
          (fun h1 => absurd h1 (by decide)))).2
        (fun _ => andNodesOrdered_of_check dualNodes_check dualNodes_and_check _)⟩,
    (compute_scores_run_to_completion (unorderedBtor JustHeur.BRANCH_MIN_DEP)
      unorderedNodes_wellFormed unorderedNodes_acyclic (by decide) (fun _ => rfl)
      (fun h => h.elim (fun h1 => absurd h1 (by decide)) (fun h1 => absurd h1 (by decide)))
      (fun _ => depTableOK_of_empty unorderedNodes JustHeur.BRANCH_MIN_DEP (Or.inl rfl))).1
      (fun h => h.elim (fun h1 => absurd h1 (by decide)) (fun h1 => absurd h1 (by decide))),
    (compute_scores_run_to_completion (unorderedBtor JustHeur.BRANCH_MIN_APP)
      unorderedNodes_wellFormed unorderedNodes_acyclic (by decide) (fun _ => rfl)
      (fun _ => appTableFilled_of_empty (Or.inl rfl))
      (fun h => h.elim (fun h1 => absurd h1 (by decide))
        (fun h1 => absurd h1 (by decide)))).2
      (fun _ => unorderedNodes_belowStop _)⟩

end Boolector
